import Mathlib


/-! FFSys: a single-file, EXT2-inspired filesystem

Shallow embedding of `bitmap.cpp`, `fs_objects.hh` and `ffsys.cpp`.

Modelling conventions.
* The host file behind `std::fstream fs_` is a total byte store `Disk := Nat → Nat`
  (byte value at an absolute offset); the constructor zero-fills it, so bytes never
  written read as `0`.  Stream failure states are not modelled.
* A `char*` argument is the byte sequence starting at the pointer (`Mem := Nat → Nat`);
  `p + k` is `fun j => p (k + j)`.
* Machine integers are `Nat`/`Int` with an explicit reduction modulo `2^w` where the
  source stores into a narrower type (`uint16_t` superblock fields, `unsigned int`
  offsets and handle positions, `size_t` arithmetic in the read clamp).
* `sizeof(Superblock) = 24` and `sizeof(INode) = 120` are the LP64 layouts of the two
  records: ten `uint16_t` and one `uint32_t`; `index`@0, `name`@4, padding 21..23,
  `size`@24, `blocks`@32, `created_time`@112.
* Loops carry a fuel argument that the caller instantiates with a bound on the number
  of iterations.
-/

namespace ffsys

/-! ## Constants and machine integers -/

def N_STATIC_FILE_BLOCKS : Nat := 15
def N_DYNAMIC_FILE_BLOCKS : Nat := 5
def INODE_SIZE : Nat := 120
def SUPERBLOCK_SIZE : Nat := 24
def SUPERBLOCK_I : Nat := 0

/-- Conversion of a C `int` to `uint16_t`. -/
def u16 (x : Int) : Nat := (x % 65536).toNat

/-- Conversion of a C `int` to `unsigned int`. -/
def u32 (x : Int) : Nat := (x % 4294967296).toNat

/-- Conversion of a C integer to `size_t` / `uint64_t`. -/
def u64 (x : Int) : Nat := (x % 18446744073709551616).toNat

/-- Reinterpretation of a 32-bit pattern as `int32_t`. -/
def i32 (x : Nat) : Int :=
  if x % 4294967296 < 2147483648 then ((x % 4294967296 : Nat) : Int)
  else ((x % 4294967296 : Nat) : Int) - 4294967296

/-- Byte `k` of the little-endian representation of `v`. -/
def le_byte (v k : Nat) : Nat := (v / 256 ^ k) % 256

abbrev Disk := Nat → Nat
abbrev Mem := Nat → Nat

/-- Little-endian 16-bit value stored at `p`. -/
def le16 (m : Mem) (p : Nat) : Nat := m p + 256 * m (p + 1)

/-- Little-endian 32-bit value stored at `p`. -/
def le32 (m : Mem) (p : Nat) : Nat :=
  m p + 256 * m (p + 1) + 65536 * m (p + 2) + 16777216 * m (p + 3)

/-- Little-endian 64-bit value stored at `p`. -/
def le64 (m : Mem) (p : Nat) : Nat := le32 m p + 4294967296 * le32 m (p + 4)

/-- The pointer `p + k`. -/
def Mem.shift (p : Mem) (k : Nat) : Mem := fun j => p (k + j)

/-- Models `fs_.seekp(pos); fs_.write(src, n)`. -/
def fs_write (d : Disk) (pos : Nat) (src : Mem) (n : Nat) : Disk :=
  fun off => if pos ≤ off ∧ off < pos + n then src (off - pos) else d off

/-- Models `fs_.seekg(pos); fs_.read(dst, n)`: the destination after the read. -/
def fs_read (d : Disk) (pos : Nat) (dst : Mem) (n : Nat) : Mem :=
  fun k => if k < n then d (pos + k) else dst k

/-! ## bitmap.cpp -/

/-- The byte buffer `bm_`; `size_` is its length. -/
structure Bitmap where
  bm_ : List Nat
deriving DecidableEq, Repr

namespace Bitmap

def size_ (b : Bitmap) : Nat := b.bm_.length

/-- `Bitmap::Bitmap(unsigned int byte_count)`: all bits free. -/
def init (byte_count : Nat) : Bitmap := ⟨List.replicate byte_count 255⟩

/-- `Bitmap::Bitmap(char* buffer, unsigned int byte_count)`. -/
def of_buffer (buffer : Mem) (byte_count : Nat) : Bitmap :=
  ⟨(List.range byte_count).map buffer⟩

/-- `Bitmap::is_free`. -/
def is_free (b : Bitmap) (i : Nat) : Bool :=
  ((1 <<< (i % 8)) &&& b.bm_.getD (i / 8) 0) != 0

/-- `Bitmap::reserve`. -/
def reserve (b : Bitmap) (i : Nat) : Bool × Bitmap :=
  if !b.is_free i then (false, b)
  else (true, ⟨b.bm_.set (i / 8) (b.bm_.getD (i / 8) 0 &&& (255 - (1 <<< (i % 8))))⟩)

/-- The `for` loop of `Bitmap::reserve_first_free`, from index `i`, `fuel` iterations left. -/
def reserve_first_free_loop (b : Bitmap) : Nat → Nat → Int × Bitmap
  | 0, _ => (-1, b)
  | fuel + 1, i =>
    if (b.reserve i).1 then ((i : Int), (b.reserve i).2)
    else reserve_first_free_loop b fuel (i + 1)

/-- `Bitmap::reserve_first_free`: the loop runs over `i < size_`. -/
def reserve_first_free (b : Bitmap) : Int × Bitmap :=
  reserve_first_free_loop b b.size_ 0

/-- `Bitmap::free`. -/
def free (b : Bitmap) (i : Nat) : Bool × Bitmap :=
  if b.is_free i then (false, b)
  else (true, ⟨b.bm_.set (i / 8) (b.bm_.getD (i / 8) 0 ||| (1 <<< (i % 8)))⟩)

/-- `Bitmap::get_bm(n)`: the buffer from byte `n` on. -/
def get_bm (b : Bitmap) (n : Nat) : Mem := fun k => b.bm_.getD (n + k) 0

end Bitmap

/-! ## fs_objects.hh -/

structure INode where
  index : Nat
  name : List Nat
  size : Nat
  blocks : List Int
  created_time : Nat
deriving DecidableEq, Repr

structure Superblock where
  block_size : Nat
  n_inodes : Nat
  n_inode_blocks : Nat
  n_data_blocks : Nat
  inode_bitmap_i : Nat
  data_block_bitmap_i : Nat
  inodes_start_i : Nat
  data_blocks_start_i : Nat
  n_free_inodes : Nat
  n_free_data_blocks : Nat
  address_block_capacity : Nat
deriving DecidableEq, Repr

/-- `Superblock::total_n_blocks`, a `uint16_t`. -/
def Superblock.total_n_blocks (sb : Superblock) : Nat :=
  (3 + sb.n_inode_blocks + sb.n_data_blocks) % 65536

/-- The 24 bytes of a `Superblock` in memory. -/
def Superblock.bytes (sb : Superblock) : Mem := fun k =>
  if k < 2 then le_byte sb.block_size k
  else if k < 4 then le_byte sb.n_inodes (k - 2)
  else if k < 6 then le_byte sb.n_inode_blocks (k - 4)
  else if k < 8 then le_byte sb.n_data_blocks (k - 6)
  else if k < 10 then le_byte sb.inode_bitmap_i (k - 8)
  else if k < 12 then le_byte sb.data_block_bitmap_i (k - 10)
  else if k < 14 then le_byte sb.inodes_start_i (k - 12)
  else if k < 16 then le_byte sb.data_blocks_start_i (k - 14)
  else if k < 18 then le_byte sb.n_free_inodes (k - 16)
  else if k < 20 then le_byte sb.n_free_data_blocks (k - 18)
  else le_byte sb.address_block_capacity (k - 20)

/-- `bit_cast<Superblock>(buf)`. -/
def Superblock.of_bytes (m : Mem) : Superblock where
  block_size := le16 m 0
  n_inodes := le16 m 2
  n_inode_blocks := le16 m 4
  n_data_blocks := le16 m 6
  inode_bitmap_i := le16 m 8
  data_block_bitmap_i := le16 m 10
  inodes_start_i := le16 m 12
  data_blocks_start_i := le16 m 14
  n_free_inodes := le16 m 16
  n_free_data_blocks := le16 m 18
  address_block_capacity := le32 m 20

/-- The 120 bytes of an `INode` in memory (padding bytes read as zero). -/
def INode.bytes (x : INode) : Mem := fun k =>
  if k < 4 then le_byte x.index k
  else if k < 21 then x.name.getD (k - 4) 0
  else if k < 24 then 0
  else if k < 32 then le_byte x.size (k - 24)
  else if k < 112 then le_byte (u32 (x.blocks.getD ((k - 32) / 4) 0)) ((k - 32) % 4)
  else le_byte x.created_time (k - 112)

/-- `bit_cast<INode>(buf)`. -/
def INode.of_bytes (m : Mem) : INode where
  index := le32 m 0
  name := (List.range 17).map (fun k => m (4 + k))
  size := le64 m 24
  blocks := (List.range 20).map (fun k => i32 (le32 m (32 + 4 * k)))
  created_time := le64 m 112

/-- The value of `INode file = {}`: zero fields, every block address `-1`. -/
def INode.empty : INode where
  index := 0
  name := List.replicate 17 0
  size := 0
  blocks := List.replicate 20 (-1)
  created_time := 0

/-- The C string held in `name`: the characters before the first NUL. -/
def INode.cname (x : INode) : List Nat := x.name.takeWhile (fun c => c != 0)

/-! ## ffsys.hh -/

inductive ErrorNumber where
  | NO_ERROR
  | PATH_NOT_FOUND
  | NO_SUCH_FILE_DESCRIPTOR
  | CANT_READ_INODE
  | NO_FREE_INODES
  | NO_FREE_DATA_BLOCKS
  | FILE_ALREADY_EXISTS
  | NO_SUCH_FILE
  | FILE_ALREADY_OPEN
deriving DecidableEq, Repr

/-- `OpenFile`: `inode` and `pos` are `unsigned int`. -/
structure OpenFile where
  fd : Int
  inode : Nat
  pos : Nat
deriving DecidableEq, Repr

/-- `OpenFlags`. -/
def TRUNCATE : Nat := 1
def CREATE : Nat := 2
def END : Nat := 4

/-- The data members of `FFSys`; `open_files_` lists the values of the handle map. -/
structure FFSys where
  fs_ : Disk
  sb_ : Superblock
  errnum_ : ErrorNumber
  open_files_ : List OpenFile
  inode_bitmap_ : Bitmap
  data_block_bitmap_ : Bitmap

namespace FFSys

/-! ## ffsys.cpp: block and record I/O -/

/-- The stream position `block_i * sb_.block_size + offset` (the product is `unsigned int`). -/
def block_pos (s : FFSys) (block_i offset : Nat) : Nat :=
  (block_i * s.sb_.block_size) % 4294967296 + offset

/-- `FFSys::read_block(block_i, block_buf, count, offset)`: the buffer afterwards. -/
def read_block (s : FFSys) (block_i : Nat) (block_buf : Mem) (count offset : Nat) : Mem :=
  fs_read s.fs_ (s.block_pos block_i offset) block_buf count

/-- `FFSys::write_block(block_i, block_buffer, count, offset)`. -/
def write_block (s : FFSys) (block_i : Nat) (block_buffer : Mem) (count offset : Nat) : FFSys :=
  { s with fs_ := fs_write s.fs_ (s.block_pos block_i offset) block_buffer count }

/-- The `unsigned int inode_start` of `read_inode` and `write_inode`. -/
def inode_start (s : FFSys) (inode_i : Nat) : Nat :=
  (s.sb_.inodes_start_i * s.sb_.block_size + inode_i * INODE_SIZE) % 4294967296

/-- `FFSys::read_inode` (it always returns `true`). -/
def read_inode (s : FFSys) (inode_i : Nat) : INode :=
  INode.of_bytes (fs_read s.fs_ (s.inode_start inode_i) (fun _ => 0) INODE_SIZE)

/-- `FFSys::write_inode`. -/
def write_inode (s : FFSys) (inode : INode) : FFSys :=
  { s with fs_ := fs_write s.fs_ (s.inode_start inode.index) inode.bytes INODE_SIZE }

/-- `FFSys::read_superblock` (it always returns `true`). -/
def read_superblock (s : FFSys) : Superblock :=
  Superblock.of_bytes (s.read_block SUPERBLOCK_I (fun _ => 0) SUPERBLOCK_SIZE 0)

/-- `FFSys::write_superblock`. -/
def write_superblock (s : FFSys) : FFSys :=
  s.write_block SUPERBLOCK_I s.sb_.bytes SUPERBLOCK_SIZE 0

/-! ## ffsys.cpp: allocator -/

/-- `FFSys::reserve_inode`. -/
def reserve_inode (s : FFSys) : Int × FFSys :=
  let r := s.inode_bitmap_.reserve_first_free
  let s1 := { s with inode_bitmap_ := r.2 }
  if r.1 = -1 then (-1, s1)
  else
    let bm_pos := (s1.sb_.inode_bitmap_i * s1.sb_.block_size) % 4294967296
    let byte_pos := u32 (Int.tdiv r.1 8)
    let s2 := { s1 with fs_ := fs_write s1.fs_ ((bm_pos + byte_pos) % 4294967296)
                          (s1.inode_bitmap_.get_bm byte_pos) 1 }
    let s3 := { s2 with sb_ := { s2.sb_ with
                          n_free_inodes := (s2.sb_.n_free_inodes + 65535) % 65536 } }
    (r.1, s3.write_superblock)

/-- `FFSys::reserve_data_block`. -/
def reserve_data_block (s : FFSys) : Int × FFSys :=
  let r := s.data_block_bitmap_.reserve_first_free
  let s1 := { s with data_block_bitmap_ := r.2 }
  if r.1 = -1 then (-1, { s1 with errnum_ := ErrorNumber.NO_FREE_DATA_BLOCKS })
  else
    let bm_pos := (s1.sb_.data_block_bitmap_i * s1.sb_.block_size) % 4294967296
    let byte_pos := u32 (Int.tdiv r.1 8)
    let s2 := { s1 with fs_ := fs_write s1.fs_ ((bm_pos + byte_pos) % 4294967296)
                          (s1.data_block_bitmap_.get_bm byte_pos) 1 }
    let s3 := { s2 with sb_ := { s2.sb_ with
                          n_free_data_blocks := (s2.sb_.n_free_data_blocks + 65535) % 65536 } }
    (r.1, s3.write_superblock)

/-- `FFSys::free_data_block`. -/
def free_data_block (s : FFSys) (i : Int) : Bool × FFSys :=
  let r := s.data_block_bitmap_.free (u32 i)
  let s1 := { s with data_block_bitmap_ := r.2 }
  if !r.1 then (false, s1)
  else
    let bm_pos := (s1.sb_.data_block_bitmap_i * s1.sb_.block_size) % 4294967296
    let byte_pos := u32 (Int.tdiv i 8)
    let s2 := { s1 with fs_ := fs_write s1.fs_ ((bm_pos + byte_pos) % 4294967296)
                          (s1.data_block_bitmap_.get_bm byte_pos) 1 }
    let s3 := { s2 with sb_ := { s2.sb_ with
                          n_free_data_blocks := (s2.sb_.n_free_data_blocks + 1) % 65536 } }
    (true, s3.write_superblock)

/-! ## ffsys.cpp: indexing engine -/

/-- `FFSys::get_file_block_address`. -/
def get_file_block_address (s : FFSys) (inode : INode) (i : Nat) : Int :=
  if i < N_STATIC_FILE_BLOCKS then inode.blocks.getD i 0
  else
    let dyn_block_i := (i - N_STATIC_FILE_BLOCKS) / s.sb_.address_block_capacity
                          + N_STATIC_FILE_BLOCKS
    if dyn_block_i ≥ N_DYNAMIC_FILE_BLOCKS + N_STATIC_FILE_BLOCKS
        ∨ inode.blocks.getD dyn_block_i 0 = -1 then -1
    else
      let i_in_dyn_block := (i - N_STATIC_FILE_BLOCKS) % s.sb_.address_block_capacity
      let address_block := u32 (s.sb_.data_blocks_start_i + inode.blocks.getD dyn_block_i 0)
      i32 (le32 (s.read_block address_block (fun _ => 0) 4 (i_in_dyn_block * 4)) 0)

/-- The bytes of `empty_address_block_buffer`: every entry is `-1`. -/
def empty_address_block_buffer : Mem := fun _ => 255

/-- `FFSys::initialize_address_block`. -/
def initialize_address_block (s : FFSys) : Int × FFSys :=
  let r := s.reserve_data_block
  if r.1 = -1 then (-1, r.2)
  else
    (r.1, r.2.write_block (u32 (r.1 + r.2.sb_.data_blocks_start_i)) empty_address_block_buffer
            (r.2.sb_.address_block_capacity * 4) 0)

/-- The four bytes of an `int32_t` in memory. -/
def int32_bytes (v : Int) : Mem := fun k => le_byte (u32 v) k

/-- `FFSys::set_file_block_address`; the inode is an in-out parameter. -/
def set_file_block_address (s : FFSys) (inode : INode) (i : Nat) (new_value : Int) :
    Bool × INode × FFSys :=
  if i < N_STATIC_FILE_BLOCKS then
    let inode1 := { inode with blocks := inode.blocks.set i new_value }
    (true, inode1, s.write_inode inode1)
  else
    let dyn_block_i := (i - N_STATIC_FILE_BLOCKS) / s.sb_.address_block_capacity
                          + N_STATIC_FILE_BLOCKS
    if dyn_block_i ≥ N_STATIC_FILE_BLOCKS + N_DYNAMIC_FILE_BLOCKS then (false, inode, s)
    else
      let i_in_dyn_block := (i - N_STATIC_FILE_BLOCKS) % s.sb_.address_block_capacity
      if inode.blocks.getD dyn_block_i 0 = -1 then
        let r := s.initialize_address_block
        let inode1 := { inode with blocks := inode.blocks.set dyn_block_i r.1 }
        if inode1.blocks.getD dyn_block_i 0 = -1 then (false, inode1, r.2)
        else
          let s1 := r.2.write_inode inode1
          let address_block := u32 (s1.sb_.data_blocks_start_i + inode1.blocks.getD dyn_block_i 0)
          (true, inode1, s1.write_block address_block (int32_bytes new_value) 4
                            (i_in_dyn_block * 4))
      else
        let address_block := u32 (s.sb_.data_blocks_start_i + inode.blocks.getD dyn_block_i 0)
        (true, inode, s.write_block address_block (int32_bytes new_value) 4
                          (i_in_dyn_block * 4))

/-- `FFSys::reserve_file_block`. -/
def reserve_file_block (s : FFSys) (inode : INode) (i : Nat) : Int × INode × FFSys :=
  let r := s.reserve_data_block
  if r.1 = -1 then (-1, inode, r.2)
  else
    let w := r.2.set_file_block_address inode i r.1
    if w.1 then (r.1, w.2.1, w.2.2) else (-1, w.2.1, w.2.2)

/-- `FFSys::free_file_block`. -/
def free_file_block (s : FFSys) (inode : INode) (i : Nat) : Bool × INode × FFSys :=
  let block := s.get_file_block_address inode i
  if block = -1 then (false, inode, s)
  else
    let s1 := (s.free_data_block block).2
    let w := s1.set_file_block_address inode i (-1)
    (true, w.2.1, w.2.2)

/-- The first `for` loop of `free_unused_file_blocks`, from logical block `i`. -/
def free_unused_loop (limit : Nat) : Nat → FFSys → INode → Nat → INode × FFSys
  | 0, s, inode, _ => (inode, s)
  | fuel + 1, s, inode, i =>
    if ¬ i < limit then (inode, s)
    else if s.get_file_block_address inode i = -1 then (inode, s)
    else
      let r := s.free_file_block inode i
      free_unused_loop limit fuel r.2.2 r.2.1 (i + 1)

/-- One iteration of the second `for` loop of `free_unused_file_blocks`. -/
def free_address_block_step (last_block : Nat) (p : INode × FFSys) (i : Nat) : INode × FFSys :=
  let inode := p.1
  let s := p.2
  if inode.blocks.getD (N_STATIC_FILE_BLOCKS + i) 0 ≠ -1
      ∧ last_block < (N_STATIC_FILE_BLOCKS + i * s.sb_.address_block_capacity) % 4294967296 then
    let s1 := (s.free_data_block (inode.blocks.getD (N_STATIC_FILE_BLOCKS + i) 0)).2
    ({ inode with blocks := inode.blocks.set (N_STATIC_FILE_BLOCKS + i) (-1) }, s1)
  else (inode, s)

/-- `FFSys::free_unused_file_blocks`; the inode is an in-out parameter. -/
def free_unused_file_blocks (s : FFSys) (inode : INode) : INode × FFSys :=
  let last_block0 :=
    (((inode.size + s.sb_.block_size - 1) % 18446744073709551616) / s.sb_.block_size)
      % 4294967296
  let last_block := if last_block0 = 0 then 1 else last_block0
  let limit := (N_STATIC_FILE_BLOCKS + N_DYNAMIC_FILE_BLOCKS * s.sb_.address_block_capacity)
                  % 4294967296
  let r := free_unused_loop limit (limit - last_block) s inode last_block
  let r2 := (List.range N_DYNAMIC_FILE_BLOCKS).foldl (free_address_block_step last_block) r
  let s1 := r2.2.write_block r2.2.sb_.data_block_bitmap_i (r2.2.data_block_bitmap_.get_bm 0)
              r2.2.sb_.block_size 0
  (r2.1, (s1.write_superblock).write_inode r2.1)

/-! ## ffsys.cpp: file I/O path -/

/-- Models a read of `n` bytes at stream position `pos` into `buffer + start`. -/
def read_into (d : Disk) (pos : Nat) (buffer : Mem) (start n : Nat) : Mem :=
  fun k => if start ≤ k ∧ k < start + n then d (pos + (k - start)) else buffer k

/-- The `while (read_count < count)` loop of `read_n_bytes_from_file`. -/
def read_loop (s : FFSys) (file : INode) (count : Nat) :
    Nat → Mem → Nat → Nat → Nat × Mem
  | 0, buffer, read_count, _ => (read_count, buffer)
  | fuel + 1, buffer, read_count, block_index =>
    if ¬ read_count < count then (read_count, buffer)
    else
      let block_address := s.get_file_block_address file block_index
      if block_address = -1 then (read_count, buffer)
      else
        let to_read := min s.sb_.block_size (count - read_count)
        let buffer1 := read_into s.fs_
            (s.block_pos (u32 (s.sb_.data_blocks_start_i + block_address)) 0)
            buffer read_count to_read
        read_loop s file count fuel buffer1 (read_count + to_read)
          ((block_index + 1) % 4294967296)

/-- `FFSys::read_n_bytes_from_file`: the return value and the buffer afterwards. -/
def read_n_bytes_from_file (s : FFSys) (file : INode) (buffer : Mem) (count pos : Nat) :
    Nat × Mem :=
  let count1 :=
    if (pos + count) % 18446744073709551616 ≥ file.size then u64 ((file.size : Int) - pos)
    else count
  let block_index := (pos / s.sb_.block_size) % 4294967296
  let leftover := pos % s.sb_.block_size
  if leftover ≠ 0 then
    let block_address : Int :=
      s.sb_.data_blocks_start_i + s.get_file_block_address file block_index
    let pos1 := u64 (block_address * s.sb_.block_size + leftover)
    let to_read := min (s.sb_.block_size - leftover) count1
    let buffer1 := read_into s.fs_ pos1 buffer 0 to_read
    read_loop s file count1 (count1 - to_read) buffer1 to_read
      ((block_index + 1) % 4294967296)
  else
    read_loop s file count1 count1 buffer 0 block_index

/-- The `while (left_to_write > 0)` loop of `write_n_bytes_to_file`;
the result is `(written, pos, file, state)`. -/
def write_loop (buffer : Mem) :
    Nat → FFSys → INode → Nat → Nat → Nat → Nat → Nat × Nat × INode × FFSys
  | 0, s, file, _, written, pos, _ => (written, pos, file, s)
  | fuel + 1, s, file, left_to_write, written, pos, current_file_block_i =>
    if ¬ left_to_write > 0 then (written, pos, file, s)
    else
      let current_block_address := s.get_file_block_address file current_file_block_i
      let r : Int × INode × FFSys :=
        if current_block_address = -1 then s.reserve_file_block file current_file_block_i
        else (current_block_address, file, s)
      if r.1 = -1 then (written, pos, r.2.1, r.2.2)
      else
        let offset := pos % r.2.2.sb_.block_size
        let to_write := min (r.2.2.sb_.block_size - offset) left_to_write
        let block_i := u32 (r.2.2.sb_.data_blocks_start_i + r.1)
        let s1 := r.2.2.write_block block_i (buffer.shift written) to_write offset
        write_loop buffer fuel s1 r.2.1 (left_to_write - to_write) (written + to_write)
          (pos + to_write) ((current_file_block_i + 1) % 4294967296)

/-- `FFSys::write_n_bytes_to_file`: the return value, the inode and the state afterwards. -/
def write_n_bytes_to_file (s : FFSys) (file : INode) (buffer : Mem) (count pos : Nat) :
    Nat × INode × FFSys :=
  let r := write_loop buffer count s file count 0 pos ((pos / s.sb_.block_size) % 4294967296)
  let file1 := { r.2.2.1 with size := max r.2.1 r.2.2.1.size }
  (r.1, file1, r.2.2.2.write_inode file1)

/-! ## ffsys.cpp: name table -/

/-- The `for` loop of `find_file`, at inode slot `i`. -/
def find_file_loop (s : FFSys) (name : List Nat) : Nat → Nat → Nat → Option INode
  | 0, _, _ => none
  | fuel + 1, i, inodes_checked =>
    if inodes_checked ≥ u32 ((s.sb_.n_inodes : Int) - s.sb_.n_free_inodes) then none
    else if !s.inode_bitmap_.is_free i then
      if (s.read_inode i).cname = name then some (s.read_inode i)
      else find_file_loop s name fuel (i + 1) (inodes_checked + 1)
    else find_file_loop s name fuel (i + 1) inodes_checked

/-- `FFSys::find_file`: `some inode` when it returns `true`. -/
def find_file (s : FFSys) (name : List Nat) : Option INode :=
  find_file_loop s name s.sb_.n_inodes 0 0

/-- The `name` array written by `create_file`: at most 16 characters, then NUL. -/
def stored_name (name : List Nat) : List Nat :=
  name.take 16 ++ List.replicate (17 - min 16 name.length) 0

/-- `FFSys::create_file`: `some inode` when it returns `true`; `now` is `time(nullptr)`. -/
def create_file (s : FFSys) (name : List Nat) (now : Nat) : Option INode × FFSys :=
  let r := s.reserve_inode
  if r.1 = -1 then (none, { r.2 with errnum_ := ErrorNumber.NO_FREE_INODES })
  else
    let inode : INode :=
      { index := u32 r.1, name := stored_name name, size := 0,
        blocks := List.replicate 20 (-1), created_time := now % 18446744073709551616 }
    let d := r.2.reserve_data_block
    let inode1 := if d.1 ≠ -1 then { inode with blocks := inode.blocks.set 0 d.1 } else inode
    (some inode1, d.2.write_inode inode1)

/-! ## ffsys.cpp: public surface -/

/-- The `while` loop that generates a new file descriptor. -/
def new_fd_loop (open_files : List OpenFile) : Nat → Int → Int
  | 0, fd => fd
  | fuel + 1, fd =>
    if open_files.any (fun f => f.fd == fd) then new_fd_loop open_files fuel (fd + 1) else fd

/-- `FFSys::open` from the `TRUNCATE` test on, once `file` has been found or created. -/
def open_file (s : FFSys) (file : INode) (flags : Nat) : Int × FFSys :=
  let p : INode × FFSys :=
    if flags &&& TRUNCATE ≠ 0 then s.free_unused_file_blocks { file with size := 0 }
    else (file, s)
  let fd := new_fd_loop p.2.open_files_ p.2.open_files_.length 0
  let file_pos := if flags &&& END ≠ 0 then p.1.size else 0
  (fd, { p.2 with open_files_ :=
           { fd := fd, inode := p.1.index % 4294967296, pos := file_pos % 4294967296 }
             :: p.2.open_files_ })

end FFSys

/-- `FFSys::open`; `now` is the value `time(nullptr)` returns if a file is created. -/
def FFSys.open (s : FFSys) (name : List Nat) (flags : Nat) (now : Nat) : Int × FFSys :=
  match s.find_file name with
  | some file => s.open_file file flags
  | none =>
    if flags &&& CREATE = 0 then (-1, { s with errnum_ := ErrorNumber.NO_SUCH_FILE })
    else
      match s.create_file name now with
      | (none, s1) => (-1, s1)
      | (some file, s1) => s1.open_file file flags

namespace FFSys

/-- The entry of the handle map for `fd`, if any. -/
def lookup (s : FFSys) (fd : Int) : Option OpenFile :=
  s.open_files_.find? (fun f => f.fd == fd)

/-- The handle map after `file->pos = pos` on the entry for `fd`. -/
def set_pos (s : FFSys) (fd : Int) (pos : Nat) : FFSys :=
  { s with open_files_ :=
      s.open_files_.map (fun f => if f.fd == fd then { f with pos := pos % 4294967296 } else f) }

/-- `FFSys::read`: the return value, the buffer and the state afterwards. -/
def read (s : FFSys) (fd : Int) (buffer : Mem) (count : Nat) : Int × Mem × FFSys :=
  match s.lookup fd with
  | none => (-1, buffer, { s with errnum_ := ErrorNumber.NO_SUCH_FILE_DESCRIPTOR })
  | some file =>
    let inode := s.read_inode file.inode
    let r := s.read_n_bytes_from_file inode buffer count file.pos
    ((r.1 : Int), r.2, s.set_pos fd (file.pos + r.1))

/-- `FFSys::write`. -/
def write (s : FFSys) (fd : Int) (buffer : Mem) (count : Nat) : Int × FFSys :=
  match s.lookup fd with
  | none => (-1, { s with errnum_ := ErrorNumber.NO_SUCH_FILE_DESCRIPTOR })
  | some file =>
    let inode := s.read_inode file.inode
    let r := s.write_n_bytes_to_file inode buffer count file.pos
    ((r.1 : Int), r.2.2.set_pos fd (file.pos + r.1))

/-- `FFSys::close`. -/
def close (s : FFSys) (fd : Int) : Bool × FFSys :=
  match s.lookup fd with
  | none => (false, { s with errnum_ := ErrorNumber.NO_SUCH_FILE_DESCRIPTOR })
  | some _ => (true, { s with open_files_ := s.open_files_.filter (fun f => f.fd != fd) })

/-- `FFSys::seek`. -/
def seek (s : FFSys) (fd : Int) (pos : Nat) : Bool × FFSys :=
  match s.lookup fd with
  | none => (false, { s with errnum_ := ErrorNumber.NO_SUCH_FILE_DESCRIPTOR })
  | some file =>
    let inode := s.read_inode file.inode
    if inode.size < pos then (false, s) else (true, s.set_pos fd pos)

/-- `FFSys::errnum`. -/
def errnum (s : FFSys) : ErrorNumber := s.errnum_

/-! ## ffsys.cpp: format and mount -/

/-- The superblock computed by the formatting constructor. -/
def format_superblock (block_size : Nat) : Superblock :=
  let n := (8 * block_size) % 65536
  let n_inode_blocks := ((n * INODE_SIZE + block_size - 1) / block_size) % 65536
  { block_size := block_size % 65536
    n_inodes := n
    n_inode_blocks := n_inode_blocks
    n_data_blocks := n
    inode_bitmap_i := 1
    data_block_bitmap_i := 2
    inodes_start_i := 3
    data_blocks_start_i := (3 + n_inode_blocks) % 65536
    n_free_inodes := n
    n_free_data_blocks := n
    address_block_capacity := (block_size / 4) % 4294967296 }

/-- The object built by `FFSys::FFSys(string path, unsigned long block_size)` once the
block-size check has passed and the host file has been created. -/
def formatted (block_size : Nat) : FFSys :=
  let s0 : FFSys :=
    { fs_ := fun _ => 0
      sb_ := format_superblock block_size
      errnum_ := ErrorNumber.NO_ERROR
      open_files_ := []
      inode_bitmap_ := Bitmap.init (block_size % 4294967296)
      data_block_bitmap_ := Bitmap.init (block_size % 4294967296) }
  let s1 := s0.write_superblock
  let s2 := s1.write_block s1.sb_.inode_bitmap_i (s1.inode_bitmap_.get_bm 0) s1.sb_.block_size 0
  s2.write_block s2.sb_.data_block_bitmap_i (s2.data_block_bitmap_.get_bm 0) s2.sb_.block_size 0

/-- `FFSys::FFSys(string path, unsigned long block_size)`; `none` when it throws. -/
def format (block_size : Nat) : Option FFSys :=
  if block_size < SUPERBLOCK_SIZE then none else some (formatted block_size)

/-- `FFSys::FFSys(string path)` on a host file with contents `d`. -/
def mount (d : Disk) : FFSys :=
  let sb := Superblock.of_bytes (fs_read d 0 (fun _ => 0) SUPERBLOCK_SIZE)
  let pos (block_i : Nat) : Nat := (block_i * sb.block_size) % 4294967296
  { fs_ := d
    sb_ := sb
    errnum_ := ErrorNumber.NO_ERROR
    open_files_ := []
    inode_bitmap_ :=
      Bitmap.of_buffer (fs_read d (pos sb.inode_bitmap_i) ((Bitmap.init sb.block_size).get_bm 0)
        sb.block_size) sb.block_size
    data_block_bitmap_ :=
      Bitmap.of_buffer (fs_read d (pos sb.data_block_bitmap_i) ((Bitmap.init sb.block_size).get_bm 0)
        sb.block_size) sb.block_size }

end FFSys

end ffsys


/-! ## Vocabulary of the specification -/

namespace ffsys

/-- The number of free bits (1-bits) among the `8 * size_` bits of a bitmap. -/
def Bitmap.popcount (b : Bitmap) : Nat :=
  (List.range (8 * b.size_)).countP (fun i => b.is_free i)

namespace FFSys

/-- Byte `off` of data block `a`, as `read_block` locates it. -/
def data_block_byte (s : FFSys) (a : Int) (off : Nat) : Nat :=
  s.fs_ (s.block_pos (u32 (s.sb_.data_blocks_start_i + a)) off)

/-- The byte of the file at logical offset `j`, through the addressing table of `file`. -/
def file_byte (s : FFSys) (file : INode) (j : Nat) : Nat :=
  s.data_block_byte (s.get_file_block_address file (j / s.sb_.block_size))
    (j % s.sb_.block_size)

/-- Logical block `L` of `file` is mapped to a block whose byte position fits the
32-bit block arithmetic of `read_block`. -/
def mapped_block (s : FFSys) (file : INode) (L : Nat) : Prop :=
  s.get_file_block_address file L ≠ -1
    ∧ 0 ≤ s.sb_.data_blocks_start_i + s.get_file_block_address file L
    ∧ (s.sb_.data_blocks_start_i + s.get_file_block_address file L) * s.sb_.block_size
        < 4294967296

instance (s : FFSys) (file : INode) (L : Nat) : Decidable (s.mapped_block file L) := by
  unfold mapped_block; infer_instance

end FFSys

/-! ## Concrete scenarios (block size 24, the smallest that `format` accepts) -/

/-- The file name "a". -/
def name_a : List Nat := [97]

/-- A buffer holding the pattern `k mod 256`. -/
def pattern_buffer : Mem := fun k => k % 256

/-- `format(24)` followed by `open("a", CREATE)`. -/
def scenario_created : FFSys := ((FFSys.formatted 24).open name_a CREATE 0).2

/-- `scenario_created` followed by a write of 30 pattern bytes through handle 0. -/
def scenario_written : FFSys := (scenario_created.write 0 pattern_buffer 30).2

/-- `scenario_written` followed by `open("a", TRUNCATE)`: handle 0 stays at position 30. -/
def scenario_truncated : FFSys := (scenario_written.open name_a TRUNCATE 0).2

/-! ## Concrete scenarios at block size 8192, where `8 * 8192` no longer fits the 16-bit
fields of the superblock -/

/-- The file name "b". -/
def name_b : List Nat := [98]

/-- A buffer of 240 bytes whose second half is the record of an inode with index 1, name
"b", size 0, `blocks[0] = -3`, `blocks[1] = 5` and every other block address `-1`. -/
def crafted_buffer : Mem := fun k =>
  if k = 120 then 1
  else if k = 124 then 98
  else if k = 152 then 253
  else if 153 ≤ k ∧ k < 156 then 255
  else if k = 156 then 5
  else if 160 ≤ k ∧ k < 232 then 255
  else 0

/-- `format(8192)` followed by `open("a", CREATE)`. -/
def scenario_wide_created : FFSys := ((FFSys.formatted 8192).open name_a CREATE 0).2

/-- `scenario_wide_created` followed by `open("b", CREATE)`. -/
def scenario_wide : FFSys := (scenario_wide_created.open name_b CREATE 0).2

/-- `scenario_wide` followed by a write of the 240 crafted bytes through handle 0. -/
def scenario_overlap : FFSys := (scenario_wide.write 0 crafted_buffer 240).2

/-- `scenario_overlap` followed by a write of one byte `7` through handle 1. -/
def scenario_superblock_hit : FFSys := (scenario_overlap.write 1 (fun _ => 7) 1).2

/-! ## Further scenarios at block size 24 -/

/-- A file name of 17 characters, one more than an inode stores. -/
def name_long : List Nat := List.replicate 17 97

/-- `scenario_created` followed by a write of 48 bytes (two blocks) through handle 0. -/
def scenario_two_blocks : FFSys := (scenario_created.write 0 pattern_buffer 48).2

/-- `scenario_two_blocks` followed by `open("a", TRUNCATE)`: handle 0 stays at position 48. -/
def scenario_two_blocks_truncated : FFSys := (scenario_two_blocks.open name_a TRUNCATE 0).2

/-- `scenario_two_blocks_truncated` followed by a write of one byte through handle 0. -/
def scenario_hole : FFSys := (scenario_two_blocks_truncated.write 0 pattern_buffer 1).2

end ffsys


/-! ## Reachable states and the consistency invariant -/

namespace ffsys

/-- Every field of an in-memory inode fits its C type. -/
structure INode.WF (x : INode) : Prop where
  index_lt : x.index < 4294967296
  name_len : x.name.length = 17
  name_lt : ∀ c, c ∈ x.name → c < 256
  size_lt : x.size < 18446744073709551616
  blocks_len : x.blocks.length = 20
  blocks_range : ∀ b, b ∈ x.blocks → -2147483648 ≤ b ∧ b < 2147483648
  created_lt : x.created_time < 18446744073709551616

/-- Inode `y` has the metadata of `x`: only the addressing table may differ. -/
def INode.same_meta (x y : INode) : Prop :=
  y.index = x.index ∧ y.name = x.name ∧ y.size = x.size ∧ y.created_time = x.created_time

/-- The inode after `blocks[k] = a`. -/
def INode.set_block (x : INode) (k : Nat) (a : Int) : INode :=
  { x with blocks := x.blocks.set k a }

namespace FFSys

/-- The states a client can produce: a format with block size `B`, then any sequence of
`open`, `read`, `write`, `close` and `seek` with arguments of the C types (file names and
buffers hold `char` values). -/
inductive Reachable (B : Nat) : FFSys → Prop
  | after_format : SUPERBLOCK_SIZE ≤ B → Reachable B (formatted B)
  | after_open (s : FFSys) (name : List Nat) (flags now : Nat) :
      Reachable B s → (∀ c, c ∈ name → c < 256) → Reachable B (s.open name flags now).2
  | after_read (s : FFSys) (fd : Int) (buffer : Mem) (count : Nat) :
      Reachable B s → Reachable B (s.read fd buffer count).2.2
  | after_write (s : FFSys) (fd : Int) (buffer : Mem) (count : Nat) :
      Reachable B s → (∀ k, buffer k < 256) → Reachable B (s.write fd buffer count).2
  | after_close (s : FFSys) (fd : Int) : Reachable B s → Reachable B (s.close fd).2
  | after_seek (s : FFSys) (fd : Int) (pos : Nat) : Reachable B s → Reachable B (s.seek fd pos).2

/-- Inode slot `i` is in use: its bit in the inode bitmap is 0. -/
def live (s : FFSys) (i : Nat) : Prop :=
  i < s.sb_.n_inodes ∧ s.inode_bitmap_.is_free i = false

/-- `a` is the index of a data block whose bit in the data-block bitmap is 0. -/
def reserved (s : FFSys) (a : Int) : Prop :=
  0 ≤ a ∧ a < s.sb_.n_data_blocks ∧ s.data_block_bitmap_.is_free a.toNat = false

/-- Entry `T` of the address block stored in data block `b`, as
`get_file_block_address` reads it. -/
def address_entry (s : FFSys) (b : Int) (T : Nat) : Int :=
  i32 (le32 (s.read_block (u32 (s.sb_.data_blocks_start_i + b)) (fun _ => 0) 4 (T * 4)) 0)

/-- The superblock is the one the formatting constructor computes for block size `B`
(the two free counters apart), for a `B` whose bit count `8 * B` fits 16 bits. -/
structure Layout (s : FFSys) (B : Nat) : Prop where
  hB : 24 ≤ B
  hB8 : 8 * B < 65536
  block_size : s.sb_.block_size = B
  n_inodes : s.sb_.n_inodes = 8 * B
  n_inode_blocks : s.sb_.n_inode_blocks = 960
  n_data_blocks : s.sb_.n_data_blocks = 8 * B
  inode_bitmap_i : s.sb_.inode_bitmap_i = 1
  data_block_bitmap_i : s.sb_.data_block_bitmap_i = 2
  inodes_start_i : s.sb_.inodes_start_i = 3
  data_blocks_start_i : s.sb_.data_blocks_start_i = 963
  address_block_capacity : s.sb_.address_block_capacity = B / 4

/-- Layout, bitmap sizes, free counters, and the on-disk copies of the superblock and
of the two bitmaps. -/
structure Basic (s : FFSys) (B : Nat) : Prop where
  layout : s.Layout B
  ibm_size : s.inode_bitmap_.size_ = B
  dbm_size : s.data_block_bitmap_.size_ = B
  ibm_bytes : ∀ x, x ∈ s.inode_bitmap_.bm_ → x < 256
  dbm_bytes : ∀ x, x ∈ s.data_block_bitmap_.bm_ → x < 256
  free_inodes : s.sb_.n_free_inodes = s.inode_bitmap_.popcount
  free_data : s.sb_.n_free_data_blocks = s.data_block_bitmap_.popcount
  disk_bytes : ∀ off, s.fs_ off < 256
  sb_disk : ∀ k, k < 24 → s.fs_ k = s.sb_.bytes k
  ibm_disk : ∀ k, k < B → s.fs_ (B + k) = s.inode_bitmap_.bm_.getD k 0
  dbm_disk : ∀ k, k < B → s.fs_ (2 * B + k) = s.data_block_bitmap_.bm_.getD k 0

/-- The state after `n` bytes of `src` have been written at stream position `pos`. -/
def write_at (s : FFSys) (pos : Nat) (src : Mem) (n : Nat) : FFSys :=
  { s with fs_ := fs_write s.fs_ pos src n }

/-- The state after the data-block bitmap has become `bm`, its byte `byte_pos` has been
written to block 2 and the superblock, with the free counter `bm.popcount`, to block 0. -/
def with_data_bitmap (s : FFSys) (bm : Bitmap) (byte_pos : Nat) : FFSys :=
  { s with
    data_block_bitmap_ := bm
    sb_ := { s.sb_ with n_free_data_blocks := bm.popcount }
    fs_ := fs_write (fs_write s.fs_ (2 * s.sb_.block_size + byte_pos) (bm.get_bm byte_pos) 1) 0
            ({ s.sb_ with n_free_data_blocks := bm.popcount } : Superblock).bytes 24 }

/-- The state after the inode bitmap has become `bm`, its byte `byte_pos` has been
written to block 1 and the superblock, with the free counter `bm.popcount`, to block 0. -/
def with_inode_bitmap (s : FFSys) (bm : Bitmap) (byte_pos : Nat) : FFSys :=
  { s with
    inode_bitmap_ := bm
    sb_ := { s.sb_ with n_free_inodes := bm.popcount }
    fs_ := fs_write (fs_write s.fs_ (s.sb_.block_size + byte_pos) (bm.get_bm byte_pos) 1) 0
            ({ s.sb_ with n_free_inodes := bm.popcount } : Superblock).bytes 24 }

/-- State `t` differs from `s` neither in the inode table and data blocks on disk, nor in
the inode bitmap, nor in the handle table. -/
structure Frame (s t : FFSys) (B : Nat) : Prop where
  fs_high : ∀ off, 3 * B ≤ off → t.fs_ off = s.fs_ off
  ibm : t.inode_bitmap_ = s.inode_bitmap_
  open_files : t.open_files_ = s.open_files_

/-- A place where a block address is stored: slot `slot` of the addressing table of
inode `ino`, or, with `ent = some T`, entry `T` of the address block named by that slot. -/
structure Ref where
  ino : Nat
  slot : Nat
  ent : Option Nat
deriving DecidableEq

/-- The addressing tables of the on-disk inodes. -/
def view (s : FFSys) : Nat → List Int := fun j => (s.read_inode j).blocks

/-- The addressing tables, with the in-memory table `bl` standing for inode `i`. -/
def view_with (s : FFSys) (i : Nat) (bl : List Int) : Nat → List Int :=
  fun j => if j = i then bl else (s.read_inode j).blocks

/-- The address stored at `r`, for the addressing tables `v`. -/
def Ref.val (s : FFSys) (v : Nat → List Int) (r : Ref) : Int :=
  match r.ent with
  | none => (v r.ino).getD r.slot 0
  | some T => s.address_entry ((v r.ino).getD r.slot 0) T

/-- The place `r` exists: the inode is live, and for an entry, the slot is an indirect
slot that names an address block. -/
def Ref.ok (s : FFSys) (v : Nat → List Int) (r : Ref) : Prop :=
  s.live r.ino ∧ r.slot < 20 ∧
    match r.ent with
    | none => True
    | some T => 15 ≤ r.slot ∧ T < s.sb_.address_block_capacity ∧ (v r.ino).getD r.slot 0 ≠ -1

/-- The place that holds the address of logical block `L` of inode `i`. -/
def data_ref (s : FFSys) (i L : Nat) : Ref :=
  if L < 15 then ⟨i, L, none⟩
  else ⟨i, (L - 15) / s.sb_.address_block_capacity + 15,
          some ((L - 15) % s.sb_.address_block_capacity)⟩

/-- Every stored address names a reserved data block, and no data block is named twice. -/
structure RefsV (s : FFSys) (v : Nat → List Int) : Prop where
  rsv : ∀ r : Ref, r.ok s v → r.val s v ≠ -1 → s.reserved (r.val s v)
  inj : ∀ r r' : Ref, r.ok s v → r'.ok s v → r.val s v ≠ -1 → r.val s v = r'.val s v → r = r'

/-- The place `r` holds the address of a file data block, not of an address block. -/
def Ref.is_data (r : Ref) : Prop := r.ent = none → r.slot < 15

/-- From state `s` with addressing tables `v` to state `t` with tables `w`, every stored
address is kept and so is every byte of every file data block; the record of every inode other than `i` is kept
as well. -/
structure Keep (s t : FFSys) (v w : Nat → List Int) (B : Nat) (i : Nat) : Prop where
  refs : ∀ r : Ref, r.ok s v → r.val s v ≠ -1 → r.ok t w ∧ r.val t w = r.val s v
  data : ∀ (r : Ref) (n : Nat), r.ok s v → r.is_data → r.val s v = (n : Int) →
    ∀ o, o < B → t.fs_ (963 * B + n * B + o) = s.fs_ (963 * B + n * B + o)
  others : ∀ j, j < 8 * B → j ≠ i → t.read_inode j = s.read_inode j
  ibm : t.inode_bitmap_ = s.inode_bitmap_

/-- Offset `off` of the host file lies in the record of an inode other than `x`, or in an
address-block entry that holds an address. -/
def addressing_offset (s : FFSys) (x : INode) (B : Nat) (off : Nat) : Prop :=
  (∃ j k : Nat, j < 8 * B ∧ j ≠ x.index ∧ k < 120 ∧ off = 3 * B + 120 * j + k)
  ∨ ∃ (r : Ref) (T n k : Nat), r.ok s (s.view_with x.index x.blocks) ∧ r.ent = some T
      ∧ r.val s (s.view_with x.index x.blocks) ≠ -1
      ∧ (s.view_with x.index x.blocks r.ino).getD r.slot 0 = (n : Int) ∧ k < 4
      ∧ off = 963 * B + n * B + T * 4 + k

/-- Offset `off` of the host file lies in a data block that holds file contents. -/
def file_data_offset (s : FFSys) (x : INode) (B : Nat) (off : Nat) : Prop :=
  ∃ (r : Ref) (n o : Nat), r.ok s (s.view_with x.index x.blocks) ∧ r.is_data
    ∧ r.val s (s.view_with x.index x.blocks) = (n : Int) ∧ o < B
    ∧ off = 963 * B + n * B + o

/-- No place stores the address `a` (with the in-memory inode `x` standing for its slot). -/
def unref (s : FFSys) (x : INode) (a : Int) : Prop :=
  ∀ r : Ref, r.ok s (s.view_with x.index x.blocks) →
    r.val s (s.view_with x.index x.blocks) ≠ a

/-- The consistency invariant of the filesystem between two public calls. -/
structure Inv (s : FFSys) (B : Nat) : Prop where
  basic : s.Basic B
  refs : s.RefsV s.view
  index : ∀ j, s.live j → (s.read_inode j).index = j
  handles : ∀ f, f ∈ s.open_files_ → s.live f.inode
  pos_lt : ∀ f, f ∈ s.open_files_ → f.pos < 4294967296

/-- The invariant inside a public call that works on the in-memory inode `x`. -/
structure InvX (s : FFSys) (B : Nat) (x : INode) : Prop where
  basic : s.Basic B
  refs : s.RefsV (s.view_with x.index x.blocks)
  index : ∀ j, s.live j → j ≠ x.index → (s.read_inode j).index = j
  handles : ∀ f, f ∈ s.open_files_ → s.live f.inode
  pos_lt : ∀ f, f ∈ s.open_files_ → f.pos < 4294967296
  live_x : s.live x.index
  wf : x.WF

/-- What the write loop achieves when it is entered in state `s` with inode `x`, `left`
bytes left, `written` bytes written and position `pos`, and returns `res`. -/
structure WriteSpec (buffer : Mem) (B : Nat) (s : FFSys) (x : INode)
    (left written pos : Nat) (res : Nat × Nat × INode × FFSys) : Prop where
  inv : res.2.2.2.InvX B res.2.2.1
  same_meta : x.same_meta res.2.2.1
  open_files : res.2.2.2.open_files_ = s.open_files_
  ge : written ≤ res.1
  le : res.1 ≤ written + left
  pos_eq : res.2.1 = pos + (res.1 - written)
  bound : written < res.1 → res.2.1 ≤ (15 + 5 * (B / 4)) * B
  refs : ∀ r : Ref, r.ok s (s.view_with x.index x.blocks) →
    r.val s (s.view_with x.index x.blocks) ≠ -1 →
    r.ok res.2.2.2 (res.2.2.2.view_with res.2.2.1.index res.2.2.1.blocks)
      ∧ r.val res.2.2.2 (res.2.2.2.view_with res.2.2.1.index res.2.2.1.blocks)
          = r.val s (s.view_with x.index x.blocks)
  frame : ∀ (r : Ref) (n o : Nat), r.ok s (s.view_with x.index x.blocks) → r.is_data →
    r.val s (s.view_with x.index x.blocks) = (n : Int) → o < B →
    (∀ L, r = s.data_ref x.index L → L * B + o < pos ∨ pos + (res.1 - written) ≤ L * B + o) →
    res.2.2.2.fs_ (963 * B + n * B + o) = s.fs_ (963 * B + n * B + o)
  content : ∀ k, k < res.1 - written →
    ∃ a : Nat, res.2.2.2.get_file_block_address res.2.2.1 ((pos + k) / B) = (a : Int)
      ∧ res.2.2.2.fs_ (963 * B + a * B + (pos + k) % B) = buffer (written + k)
  others : ∀ j, j < 8 * B → j ≠ x.index → res.2.2.2.read_inode j = s.read_inode j
  ibm : res.2.2.2.inode_bitmap_ = s.inode_bitmap_

/-- What `write_n_bytes_to_file` achieves when it is called in state `s` on inode `x` at
position `pos` with `count` bytes of `buffer`, and returns `res`. -/
structure WriteDone (buffer : Mem) (B : Nat) (s : FFSys) (x : INode) (count pos : Nat)
    (res : Nat × INode × FFSys) : Prop where
  inv : res.2.2.Inv B
  index_eq : res.2.1.index = x.index
  name_eq : res.2.1.name = x.name
  size_eq : res.2.1.size = max (pos + res.1) x.size
  le : res.1 ≤ count
  open_files : res.2.2.open_files_ = s.open_files_
  stored : res.2.2.read_inode x.index = res.2.1
  refs : ∀ r : Ref, r.ok s (s.view_with x.index x.blocks) →
    r.val s (s.view_with x.index x.blocks) ≠ -1 →
    r.ok res.2.2 res.2.2.view
      ∧ r.val res.2.2 res.2.2.view = r.val s (s.view_with x.index x.blocks)
  frame : ∀ (r : Ref) (n o : Nat), r.ok s (s.view_with x.index x.blocks) → r.is_data →
    r.val s (s.view_with x.index x.blocks) = (n : Int) → o < B →
    (∀ L, r = s.data_ref x.index L → L * B + o < pos ∨ pos + res.1 ≤ L * B + o) →
    res.2.2.fs_ (963 * B + n * B + o) = s.fs_ (963 * B + n * B + o)
  content : ∀ k, k < res.1 →
    ∃ a : Nat, res.2.2.get_file_block_address res.2.1 ((pos + k) / B) = (a : Int)
      ∧ res.2.2.fs_ (963 * B + a * B + (pos + k) % B) = buffer k
  others : ∀ j, j < 8 * B → j ≠ x.index → res.2.2.read_inode j = s.read_inode j
  live_x : res.2.2.live x.index
  ibm : res.2.2.inode_bitmap_ = s.inode_bitmap_

/-- What `create_file` achieves when it is called in state `s` and returns `res`. -/
structure CreateDone (B : Nat) (s : FFSys) (name : List Nat)
    (res : Option INode × FFSys) : Prop where
  inv : res.2.Inv B
  open_files : res.2.open_files_ = s.open_files_
  fs_data : ∀ off, 963 * B ≤ off → res.2.fs_ off = s.fs_ off
  outcome :
    (res.1 = none ∧ res.2.inode_bitmap_ = s.inode_bitmap_
        ∧ ∀ j, j < 8 * B → res.2.read_inode j = s.read_inode j)
    ∨ ∃ (a : Nat) (file : INode), a < B ∧ s.inode_bitmap_.is_free a = true
        ∧ (∀ j, j < a → s.inode_bitmap_.is_free j = false)
        ∧ res.1 = some file
        ∧ file.index = a ∧ file.name = stored_name name ∧ file.size = 0
        ∧ res.2.read_inode a = file
        ∧ (∀ n, res.2.inode_bitmap_.is_free n
              = (decide (n ≠ a) && s.inode_bitmap_.is_free n))
        ∧ ∀ j, j < 8 * B → j ≠ a → res.2.read_inode j = s.read_inode j

/-- The number of inode slots below `i` that are in use. -/
def used_below (s : FFSys) (i : Nat) : Nat :=
  (List.range i).countP (fun j => !s.inode_bitmap_.is_free j)

/-- The first `⌈size / B⌉` logical blocks of the on-disk inode `j` are mapped. -/
def mapped_prefix (s : FFSys) (j : Nat) : Prop :=
  ∀ L, L < ((s.read_inode j).size + s.sb_.block_size - 1) / s.sb_.block_size →
    s.get_file_block_address (s.read_inode j) L ≠ -1

/-- Offset `off` of the host file lies in the superblock or bitmap blocks, in the record
of inode `x`, or in an address block named by `x`. -/
def own_region (x : INode) (B off : Nat) : Prop :=
  off < 3 * B
  ∨ (3 * B + 120 * x.index ≤ off ∧ off < 3 * B + 120 * x.index + 120)
  ∨ ∃ S b : Nat, 15 ≤ S ∧ S < 20 ∧ x.blocks.getD S 0 = (b : Int)
      ∧ 963 * B + b * B ≤ off ∧ off < 963 * B + b * B + B

/-- From `s` with in-memory inode `x` to `t` with in-memory inode `y`, the host file has
changed in the own region of `x` only, and `y` names no address block that `x` did not
name. -/
structure Confined (s t : FFSys) (x y : INode) (B : Nat) : Prop where
  ibm : t.inode_bitmap_ = s.inode_bitmap_
  fs : ∀ off, ¬ own_region x B off → t.fs_ off = s.fs_ off
  index : y.index = x.index
  shrink : ∀ S, 15 ≤ S → S < 20 →
    y.blocks.getD S 0 = x.blocks.getD S 0 ∨ y.blocks.getD S 0 = -1

/-- The invariant, together with: handle numbers are distinct, no handle stands beyond the
end of its file, and every live inode has its first `⌈size / B⌉` logical blocks mapped. -/
structure Synced (s : FFSys) (B : Nat) : Prop where
  inv : s.Inv B
  fds : (s.open_files_.map (fun f => f.fd)).Nodup
  pos_le : ∀ f, f ∈ s.open_files_ → f.pos ≤ (s.read_inode f.inode).size
  mapped : ∀ j, s.live j → s.mapped_prefix j

/-- The states a client produces when it never truncates a file on which another handle
stands beyond position 0, and never asks `read` for a count so large that
`pos + count` wraps around in 64 bits. -/
inductive ReachableSynced (B : Nat) : FFSys → Prop
  | after_format : SUPERBLOCK_SIZE ≤ B → ReachableSynced B (formatted B)
  | after_open (s : FFSys) (name : List Nat) (flags now : Nat) :
      ReachableSynced B s → (∀ c, c ∈ name → c < 256) →
      (flags &&& TRUNCATE ≠ 0 → ∀ file, s.find_file name = some file →
        ∀ f, f ∈ s.open_files_ → f.inode = file.index → f.pos = 0) →
      ReachableSynced B (s.open name flags now).2
  | after_read (s : FFSys) (fd : Int) (buffer : Mem) (count : Nat) :
      ReachableSynced B s → count < 18446744069414584320 →
      ReachableSynced B (s.read fd buffer count).2.2
  | after_write (s : FFSys) (fd : Int) (buffer : Mem) (count : Nat) :
      ReachableSynced B s → (∀ k, buffer k < 256) →
      ReachableSynced B (s.write fd buffer count).2
  | after_close (s : FFSys) (fd : Int) :
      ReachableSynced B s → ReachableSynced B (s.close fd).2
  | after_seek (s : FFSys) (fd : Int) (pos : Nat) :
      ReachableSynced B s → ReachableSynced B (s.seek fd pos).2

end FFSys

end ffsys


namespace ffsys

namespace FFSys

/-! ## The handle table -/

/-- The keys of the handle map. -/
def keys (s : FFSys) : List Int := s.open_files_.map (fun f => f.fd)

/-- The states that public calls produce from the state `s0`. -/
inductive ReachableFrom (s0 : FFSys) : FFSys → Prop
  | start : ReachableFrom s0 s0
  | after_open (s : FFSys) (name : List Nat) (flags now : Nat) :
      ReachableFrom s0 s → ReachableFrom s0 (s.open name flags now).2
  | after_read (s : FFSys) (fd : Int) (buffer : Mem) (count : Nat) :
      ReachableFrom s0 s → ReachableFrom s0 (s.read fd buffer count).2.2
  | after_write (s : FFSys) (fd : Int) (buffer : Mem) (count : Nat) :
      ReachableFrom s0 s → ReachableFrom s0 (s.write fd buffer count).2
  | after_close (s : FFSys) (fd : Int) :
      ReachableFrom s0 s → ReachableFrom s0 (s.close fd).2
  | after_seek (s : FFSys) (fd : Int) (pos : Nat) :
      ReachableFrom s0 s → ReachableFrom s0 (s.seek fd pos).2

/-! ## Writes that stop short, and file sizes -/

/-- A run of the write loop that returns `res = (written, pos, inode, state)` with fewer
than `bound` bytes written has left the error code `NO_FREE_DATA_BLOCKS`, or has stopped
at a logical block index beyond the addressing capacity `15 + 5 * (B / 4)` of an inode. -/
def WriteStop (B bound : Nat) (res : Nat × Nat × INode × FFSys) : Prop :=
  res.1 < bound →
    res.2.2.2.errnum_ = ErrorNumber.NO_FREE_DATA_BLOCKS ∨ 15 + 5 * (B / 4) ≤ res.2.1 / B

/-- Every live inode has a size that fits the `unsigned int` position of a handle. -/
def Bounded (s : FFSys) : Prop :=
  ∀ j, s.live j → (s.read_inode j).size < 4294967296

end FFSys

/-! ## A file written up to its addressing capacity (block size 32) -/

/-- `format(32)` followed by `open("a", CREATE)`. -/
def scenario_32_created : FFSys := ((FFSys.formatted 32).open name_a CREATE 0).2

/-- `scenario_32_created` followed by a write of 960 bytes (30 blocks) through handle 0. -/
def scenario_32_first : FFSys := (scenario_32_created.write 0 pattern_buffer 960).2

/-- `scenario_32_first` followed by `open("a", TRUNCATE)`: handle 0 stays at position 960. -/
def scenario_32_truncated : FFSys := (scenario_32_first.open name_a TRUNCATE 0).2

/-- `scenario_32_truncated` followed by a write of 800 bytes through handle 0, up to
position `1760 = (15 + 5 * 8) * 32`. -/
def scenario_32_full : FFSys := (scenario_32_truncated.write 0 pattern_buffer 800).2

/-- `scenario_32_full` followed by a write of one byte through handle 0. -/
def scenario_32_stopped : FFSys := (scenario_32_full.write 0 pattern_buffer 1).2

/-! ## Further scenarios at block size 8192 -/

/-- A buffer of 240 bytes whose second half is the record of an inode with index 2, name
"b", size 0, `blocks[0] = 1` and every other block address `-1`. -/
def crafted_index : Mem := fun k =>
  if k = 120 then 2
  else if k = 124 then 98
  else if k = 152 then 1
  else if 156 ≤ k ∧ k < 232 then 255
  else 0

/-- A buffer of 240 bytes whose second half is the record of an inode with index 1, name
"b", size `2^32`, `blocks[0] = 1` and every other block address `-1`. -/
def crafted_size : Mem := fun k =>
  if k = 120 then 1
  else if k = 124 then 98
  else if k = 148 then 1
  else if k = 152 then 1
  else if 156 ≤ k ∧ k < 232 then 255
  else 0

/-- `scenario_wide` followed by a write of the 240 bytes of `crafted_index` through
handle 0. -/
def scenario_index_overlap : FFSys := (scenario_wide.write 0 crafted_index 240).2

/-- `scenario_index_overlap` followed by a write of one byte `7` through handle 1. -/
def scenario_index_written : FFSys := (scenario_index_overlap.write 1 (fun _ => 7) 1).2

/-- `scenario_wide` followed by a write of the 240 bytes of `crafted_size` through
handle 0. -/
def scenario_size_overlap : FFSys := (scenario_wide.write 0 crafted_size 240).2

/-- `scenario_wide_created` followed by a second `open("a", CREATE)`. -/
def scenario_wide_twice : FFSys := (scenario_wide_created.open name_a CREATE 0).2

end ffsys


namespace ffsys

/-- The indirect slots of `x` name data blocks of the filesystem, no two of them the same
block. -/
structure INode.Slots (x : INode) (B : Nat) : Prop where
  wf : x.WF
  index_lt : x.index < 8 * B
  valid : ∀ S, 15 ≤ S → S < 20 → x.blocks.getD S 0 ≠ -1 →
    ∃ n : Nat, x.blocks.getD S 0 = (n : Int) ∧ n < 8 * B
  inj : ∀ S S', 15 ≤ S → S < 20 → 15 ≤ S' → S' < 20 → x.blocks.getD S 0 ≠ -1 →
    x.blocks.getD S 0 = x.blocks.getD S' 0 → S = S'

namespace FFSys

/-! ## The size of the host file after a format -/

/-- The number of zero bytes that the formatting constructor puts into the host file: the
bound `sb_.total_n_blocks() * block_size` of its `for` loop (for bounds below `2^31`, the
range of the loop counter). -/
def format_length (block_size : Nat) : Nat :=
  (format_superblock block_size).total_n_blocks * block_size

/-! ## Truncation -/

/-- The first logical block that `free_unused_file_blocks` looks at for a file of `size`
bytes: `last_block` after the `if (last_block == 0)` statement. -/
def keep_blocks (s : FFSys) (size : Nat) : Nat :=
  if (((size + s.sb_.block_size - 1) % 18446744073709551616) / s.sb_.block_size)
      % 4294967296 = 0 then 1
  else (((size + s.sb_.block_size - 1) % 18446744073709551616) / s.sb_.block_size)
      % 4294967296

/-- The number of indirect slots of `x` that name an address block whose first logical
block `15 + i * (B / 4)` lies beyond logical block `lb`. -/
def slots_beyond (x : INode) (B lb : Nat) : Nat :=
  (List.range 5).countP (fun i => decide (x.blocks.getD (15 + i) 0 ≠ -1 ∧ lb < 15 + i * (B / 4)))

/-! ## What a write to one file leaves alone -/

/-- From state `s` with in-memory inode `x` to state `t` with in-memory inode `y`: no byte
of the inode table outside the record of `x` has changed, nor any byte of a data block that
is reserved in `s` and addressed neither by an indirect slot nor by a logical block of
`x`; no reserved block has become free; and every block that `y` addresses in `t` was
addressed by `x` at the same place in `s` or was free in `s`. -/
structure Foreign (s t : FFSys) (x y : INode) (B : Nat) : Prop where
  table : ∀ off, 3 * B ≤ off → off < 963 * B →
    (off < 3 * B + 120 * x.index ∨ 3 * B + 120 * x.index + 120 ≤ off) → t.fs_ off = s.fs_ off
  blocks : ∀ n o : Nat, n < 8 * B → o < B → s.data_block_bitmap_.is_free n = false →
    (∀ S, 15 ≤ S → S < 20 → x.blocks.getD S 0 ≠ (n : Int)) →
    (∀ L, s.get_file_block_address x L ≠ (n : Int)) →
    t.fs_ (963 * B + n * B + o) = s.fs_ (963 * B + n * B + o)
  mono : ∀ n, s.data_block_bitmap_.is_free n = false → t.data_block_bitmap_.is_free n = false
  slots : ∀ S (n : Nat), 15 ≤ S → S < 20 → y.blocks.getD S 0 = (n : Int) →
    x.blocks.getD S 0 = (n : Int) ∨ s.data_block_bitmap_.is_free n = true
  gets : ∀ L (n : Nat), t.get_file_block_address y L = (n : Int) →
    s.get_file_block_address x L = (n : Int) ∨ s.data_block_bitmap_.is_free n = true
  index : y.index = x.index

/-- Every inode slot in use has an index below `B`, the number of bit indices that
`Bitmap::reserve_first_free` scans. -/
def LowLive (s : FFSys) (B : Nat) : Prop := ∀ j, s.live j → j < B

/-! ## File names that fit the name field -/

/-- A file name that fits the 17-byte name field of an inode as a C string: at most 16
characters, all of them `char` values and none of them NUL. -/
def valid_name (name : List Nat) : Prop :=
  name.length ≤ 16 ∧ ∀ c, c ∈ name → c ≠ 0 ∧ c < 256

/-- The states a client produces from a format with block size `B` when every file name it
passes to `open` fits the name field. -/
inductive ReachableNamed (B : Nat) : FFSys → Prop
  | after_format : SUPERBLOCK_SIZE ≤ B → ReachableNamed B (formatted B)
  | after_open (s : FFSys) (name : List Nat) (flags now : Nat) :
      ReachableNamed B s → valid_name name → ReachableNamed B (s.open name flags now).2
  | after_read (s : FFSys) (fd : Int) (buffer : Mem) (count : Nat) :
      ReachableNamed B s → ReachableNamed B (s.read fd buffer count).2.2
  | after_write (s : FFSys) (fd : Int) (buffer : Mem) (count : Nat) :
      ReachableNamed B s → (∀ k, buffer k < 256) → ReachableNamed B (s.write fd buffer count).2
  | after_close (s : FFSys) (fd : Int) :
      ReachableNamed B s → ReachableNamed B (s.close fd).2
  | after_seek (s : FFSys) (fd : Int) (pos : Nat) :
      ReachableNamed B s → ReachableNamed B (s.seek fd pos).2

/-- No two inode slots in use hold the same name, read as a C string the way `find_file`
compares it. -/
def UniqueNames (s : FFSys) : Prop :=
  ∀ i j, s.live i → s.live j → (s.read_inode i).cname = (s.read_inode j).cname → i = j

/-! ## Address resolution with the `int` variables of the source -/

end FFSys

/-! ## Further scenarios at block size 24 -/

/-- `scenario_created` followed by a write of 528 bytes (22 blocks) through handle 0. -/
def scenario_exhausted : FFSys := (scenario_created.write 0 pattern_buffer 528).2

/-- `scenario_hole` followed by `open("a", TRUNCATE)`. -/
def scenario_hole_truncated : FFSys := (scenario_hole.open name_a TRUNCATE 0).2

/-- `scenario_created` followed by a write of 240 bytes (10 blocks) through handle 0. -/
def scenario_ten : FFSys := (scenario_created.write 0 pattern_buffer 240).2

/-- `scenario_created` followed by a write of 384 bytes (16 blocks) through handle 0. -/
def scenario_sixteen : FFSys := (scenario_created.write 0 pattern_buffer 384).2

/-- `format(24)` followed by `open("b", CREATE)` and `open("a", CREATE)`: handle 1 is on
"a", whose first data block is block 1. -/
def scenario_pair : FFSys :=
  (((FFSys.formatted 24).open name_b CREATE 0).2.open name_a CREATE 0).2

/-- `scenario_pair` followed by a write of 504 bytes (21 blocks) through handle 1. -/
def scenario_pair_written : FFSys := (scenario_pair.write 1 pattern_buffer 504).2

/-- A name of three characters whose second character is NUL. -/
def name_nul : List Nat := [97, 0, 98]

/-! ## Indirect allocation at block size 64 -/

/-- `format(64)` followed by `open("a", CREATE)`. -/
def scenario_64_created : FFSys := ((FFSys.formatted 64).open name_a CREATE 0).2

/-- `scenario_64_created` followed by a write of `960 = 15 * 64` bytes through handle 0:
the direct slots are full. -/
def scenario_64_fifteen : FFSys := (scenario_64_created.write 0 pattern_buffer 960).2

/-- `scenario_64_created` followed by a write of `961 = 15 * 64 + 1` bytes through
handle 0. -/
def scenario_64_written : FFSys := (scenario_64_created.write 0 pattern_buffer 961).2

/-! ## Shared blocks at block size 8192 -/

/-- A buffer of 240 bytes whose second half is the record of an inode with index 1, name
"b", size 262144, `blocks[0] = 1`, `blocks[15] = blocks[16] = 0` and every other block
address `-1`. -/
def crafted_shared : Mem := fun k =>
  if k = 120 then 1
  else if k = 124 then 98
  else if k = 146 then 4
  else if k = 152 then 1
  else if 156 ≤ k ∧ k < 212 then 255
  else if 220 ≤ k ∧ k < 232 then 255
  else 0

/-- `scenario_wide` followed by a write of the 240 bytes of `crafted_shared` through
handle 0. -/
def scenario_shared : FFSys := (scenario_wide.write 0 crafted_shared 240).2

/-- `scenario_shared` followed by `seek(1, 196608)`, the start of logical block 24. -/
def scenario_shared_sought : FFSys := (scenario_shared.seek 1 196608).2

/-- `scenario_shared_sought` followed by a write of one byte `7` through handle 1. -/
def scenario_shared_written : FFSys := (scenario_shared_sought.write 1 (fun _ => 7) 1).2

/-- A buffer of 240 bytes whose second half is the record of an inode with index 1, name
"b", size 0, `blocks[0] = 0` and every other block address `-1`. -/
def crafted_alias : Mem := fun k =>
  if k = 120 then 1
  else if k = 124 then 98
  else if 156 ≤ k ∧ k < 232 then 255
  else 0

/-- `scenario_wide` followed by a write of the 240 bytes of `crafted_alias` through
handle 0. -/
def scenario_alias : FFSys := (scenario_wide.write 0 crafted_alias 240).2

/-- `scenario_alias` followed by a write of one byte `7` through handle 1. -/
def scenario_alias_written : FFSys := (scenario_alias.write 1 (fun _ => 7) 1).2

/-! ## A long name created twice (block size 24) -/

/-- `format(24)` followed by `open(name, CREATE)` for the name of 17 characters `a`. -/
def scenario_long : FFSys := ((FFSys.formatted 24).open name_long CREATE 0).2

/-- `scenario_long` followed by a second `open(name, CREATE)` for the same name. -/
def scenario_long_twice : FFSys := (scenario_long.open name_long CREATE 0).2

/-! ## A read with the largest count, and a superblock without address capacity -/

/-- `scenario_written` followed by `seek(0, 3)`: handle 0 stands at position 3 of the file
of 30 bytes. -/
def scenario_written_sought : FFSys := (scenario_written.seek 0 3).2

/-- `scenario_sixteen` followed by `open("a", TRUNCATE)`: handle 0 stays at position 384,
the start of logical block 16. -/
def scenario_sixteen_truncated : FFSys := (scenario_sixteen.open name_a TRUNCATE 0).2

/-- `scenario_sixteen_truncated` followed by a write of one byte through handle 0. -/
def scenario_sixteen_hole : FFSys := (scenario_sixteen_truncated.write 0 pattern_buffer 1).2

/-- `scenario_sixteen_hole` followed by a second `open("a", TRUNCATE)`. -/
def scenario_orphan : FFSys := (scenario_sixteen_hole.open name_a TRUNCATE 0).2

end ffsys


namespace ffsys

/-! ## Bitmaps -/

theorem shift_and_ne_zero (x k : Nat) : ((1 <<< k) &&& x != 0) = x.testBit k := by
  rw [Nat.one_shiftLeft, Nat.two_pow_and]
  cases h : x.testBit k
  · simp
  · simp

theorem testBit_clear_mask : ∀ k < 8, ∀ m < 8,
    (255 - (1 <<< k)).testBit m = decide (m ≠ k) := by decide

theorem testBit_and_clear (x k m : Nat) (hk : k < 8) (hm : m < 8) :
    (x &&& (255 - (1 <<< k))).testBit m = (decide (m ≠ k) && x.testBit m) := by
  rw [Nat.testBit_and, testBit_clear_mask k hk m hm, Bool.and_comm]

theorem testBit_or_set (x k m : Nat) :
    (x ||| (1 <<< k)).testBit m = (decide (m = k) || x.testBit m) := by
  rw [Nat.testBit_or, Nat.one_shiftLeft, Nat.testBit_two_pow, Bool.or_comm]
  congr 1
  exact decide_eq_decide.mpr eq_comm

theorem and_clear_lt (x k : Nat) (hk : k < 8) : x &&& (255 - (1 <<< k)) < 256 := by
  have h : 255 - (1 <<< k) < 2 ^ 8 := by
    have : ∀ k < 8, 255 - (1 <<< k) < 2 ^ 8 := by decide
    exact this k hk
  exact Nat.and_lt_two_pow x h

theorem or_set_lt (x k : Nat) (hx : x < 256) (hk : k < 8) : x ||| (1 <<< k) < 256 := by
  have h : (1 <<< k) < 2 ^ 8 := by
    have : ∀ k < 8, (1 <<< k) < 2 ^ 8 := by decide
    exact this k hk
  exact Nat.or_lt_two_pow (by simpa using hx) h

theorem getD_set_eq {α : Type} (l : List α) (i j : Nat) (a d : α) :
    (l.set i a).getD j d = if i = j ∧ i < l.length then a else l.getD j d := by
  rw [List.getD_eq_getElem?_getD, List.getD_eq_getElem?_getD, List.getElem?_set]
  by_cases h : i = j
  · subst h
    by_cases h2 : i < l.length
    · simp [h2]
    · simp [h2, List.getElem?_eq_none (Nat.le_of_not_lt h2)]
  · simp [h]

theorem getD_replicate_eq {α : Type} (n j : Nat) (a d : α) :
    (List.replicate n a).getD j d = if j < n then a else d := by
  rw [List.getD_eq_getElem?_getD, List.getElem?_replicate]
  by_cases h : j < n <;> simp [h]

theorem getD_map_range {α : Type} (f : Nat → α) (n j : Nat) (d : α) :
    ((List.range n).map f).getD j d = if j < n then f j else d := by
  rw [List.getD_eq_getElem?_getD]
  by_cases h : j < n
  · simp [h]
  · simp [h, List.getElem?_eq_none (l := List.range n) (by simpa using Nat.le_of_not_lt h)]

theorem countP_flip_one (l : List Nat) (hl : l.Nodup) (a : Nat) (ha : a ∈ l)
    (p q : Nat → Bool) (hp : p a = true) (hq : q a = false)
    (hpq : ∀ j, j ≠ a → q j = p j) : l.countP q + 1 = l.countP p := by
  induction l with
  | nil => simp at ha
  | cons x xs ih =>
    rw [List.nodup_cons] at hl
    rw [List.countP_cons, List.countP_cons]
    rcases List.mem_cons.mp ha with h | h
    · subst h
      have hxs : xs.countP q = xs.countP p := by
        apply List.countP_congr
        intro j hj
        have : j ≠ a := fun e => hl.1 (e ▸ hj)
        rw [hpq j this]
      rw [hxs, hp, hq]
      simp
    · have hxa : x ≠ a := fun e => hl.1 (e ▸ h)
      have := ih hl.2 h
      rw [hpq x hxa]
      omega

namespace Bitmap

theorem is_free_eq (b : Bitmap) (i : Nat) :
    b.is_free i = (b.bm_.getD (i / 8) 0).testBit (i % 8) := by
  unfold is_free
  exact shift_and_ne_zero _ _

theorem lt_of_is_free (b : Bitmap) (i : Nat) (h : b.is_free i = true) : i < 8 * b.size_ := by
  rw [is_free_eq] at h
  by_contra hcon
  have : b.bm_.length ≤ i / 8 := by
    unfold size_ at hcon
    omega
  rw [List.getD_eq_default _ _ this] at h
  simp at h

theorem reserve_fst (b : Bitmap) (i : Nat) : (b.reserve i).1 = b.is_free i := by
  unfold reserve
  cases h : b.is_free i <;> simp

theorem reserve_of_not_free (b : Bitmap) (i : Nat) (h : b.is_free i = false) :
    (b.reserve i).2 = b := by
  unfold reserve
  simp [h]

theorem reserve_size (b : Bitmap) (i : Nat) : (b.reserve i).2.size_ = b.size_ := by
  unfold reserve size_
  cases h : b.is_free i <;> simp

theorem is_free_reserve (b : Bitmap) (i j : Nat) (h : b.is_free i = true) :
    (b.reserve i).2.is_free j = (decide (j ≠ i) && b.is_free j) := by
  have hlt := lt_of_is_free b i h
  unfold size_ at hlt
  unfold reserve
  simp only [h, Bool.not_true, Bool.false_eq_true, if_false]
  rw [is_free_eq, is_free_eq]
  simp only
  rw [getD_set_eq]
  by_cases hd : i / 8 = j / 8
  · rw [if_pos ⟨hd, by omega⟩, testBit_and_clear _ _ _ (Nat.mod_lt _ (by omega))
      (Nat.mod_lt _ (by omega)), hd]
    congr 1
    apply decide_eq_decide.mpr
    constructor
    · intro h1 h2; exact h1 (by rw [h2])
    · intro h1 h2; exact h1 (by omega)
  · rw [if_neg (fun h => hd h.1)]
    have : j ≠ i := fun e => hd (by rw [e])
    simp [this]

theorem free_fst (b : Bitmap) (i : Nat) : (b.free i).1 = !b.is_free i := by
  unfold free
  cases h : b.is_free i <;> simp

theorem free_of_free (b : Bitmap) (i : Nat) (h : b.is_free i = true) : (b.free i).2 = b := by
  unfold free
  simp [h]

theorem free_size (b : Bitmap) (i : Nat) : (b.free i).2.size_ = b.size_ := by
  unfold free size_
  cases h : b.is_free i <;> simp

theorem is_free_free (b : Bitmap) (i j : Nat) (h : b.is_free i = false)
    (hlt : i < 8 * b.size_) :
    (b.free i).2.is_free j = (decide (j = i) || b.is_free j) := by
  unfold size_ at hlt
  unfold free
  simp only [h, Bool.false_eq_true, if_false]
  rw [is_free_eq, is_free_eq]
  simp only
  rw [getD_set_eq]
  by_cases hd : i / 8 = j / 8
  · rw [if_pos ⟨hd, by omega⟩, testBit_or_set, hd]
    congr 1
    apply decide_eq_decide.mpr
    constructor
    · intro h1; omega
    · intro h1; rw [h1]
  · rw [if_neg (fun h => hd h.1)]
    have : j ≠ i := fun e => hd (by rw [e])
    simp [this]

theorem popcount_reserve (b : Bitmap) (i : Nat) (h : b.is_free i = true) :
    (b.reserve i).2.popcount + 1 = b.popcount := by
  unfold popcount
  rw [reserve_size]
  apply countP_flip_one _ (List.nodup_range _) i
    (List.mem_range.mpr (lt_of_is_free b i h)) _ _ h
  · rw [is_free_reserve b i i h]; simp
  · intro j hj
    rw [is_free_reserve b i j h]; simp [hj]

theorem popcount_free (b : Bitmap) (i : Nat) (h : b.is_free i = false)
    (hlt : i < 8 * b.size_) :
    (b.free i).2.popcount = b.popcount + 1 := by
  unfold popcount
  rw [free_size]
  symm
  apply countP_flip_one _ (List.nodup_range _) i (List.mem_range.mpr hlt) _ _ _ h
  · intro j hj
    rw [is_free_free b i j h hlt]; simp [hj]
  · rw [is_free_free b i i h hlt]; simp

theorem popcount_le (b : Bitmap) : b.popcount ≤ 8 * b.size_ := by
  unfold popcount
  have := List.countP_le_length (fun i => b.is_free i) (l := List.range (8 * b.size_))
  simpa using this

theorem is_free_init (n i : Nat) : (init n).is_free i = decide (i < 8 * n) := by
  rw [is_free_eq]
  unfold init
  simp only
  rw [getD_replicate_eq]
  by_cases h : i / 8 < n
  · rw [if_pos h]
    have h8 : i % 8 < 8 := Nat.mod_lt _ (by omega)
    have : ∀ m < 8, (255 : Nat).testBit m = true := by decide
    rw [this _ h8]
    symm
    apply decide_eq_true
    omega
  · rw [if_neg h]
    simp only [Nat.zero_testBit]
    symm
    apply decide_eq_false
    omega

theorem size_init (n : Nat) : (init n).size_ = n := by
  unfold init size_; simp

theorem popcount_init (n : Nat) : (init n).popcount = 8 * n := by
  unfold popcount
  rw [size_init]
  have : List.countP (fun i => (init n).is_free i) (List.range (8 * n))
      = (List.range (8 * n)).length := by
    rw [List.countP_eq_length]
    intro a ha
    rw [is_free_init]
    simpa using ha
  rw [this, List.length_range]

/-- All bytes of the buffer are `char` values. -/
theorem reserve_bytes (b : Bitmap) (i : Nat) (hb : ∀ x ∈ b.bm_, x < 256) :
    ∀ x ∈ (b.reserve i).2.bm_, x < 256 := by
  unfold reserve
  cases h : b.is_free i
  · simpa using hb
  · simp only [Bool.not_true, Bool.false_eq_true, if_false]
    intro x hx
    rcases List.mem_or_eq_of_mem_set hx with h1 | h1
    · exact hb x h1
    · rw [h1]; exact and_clear_lt _ _ (Nat.mod_lt _ (by omega))

theorem free_bytes (b : Bitmap) (i : Nat) (hb : ∀ x ∈ b.bm_, x < 256) :
    ∀ x ∈ (b.free i).2.bm_, x < 256 := by
  unfold free
  cases h : b.is_free i
  · simp only [Bool.false_eq_true, if_false]
    intro x hx
    rcases List.mem_or_eq_of_mem_set hx with h1 | h1
    · exact hb x h1
    · rw [h1]
      apply or_set_lt _ _ _ (Nat.mod_lt _ (by omega))
      by_cases hl : i / 8 < b.bm_.length
      · rw [List.getD_eq_getElem _ _ hl]
        exact hb _ (List.getElem_mem _)
      · rw [List.getD_eq_default _ _ (by omega)]; omega
  · simpa using hb

/-- Specification of the scan: the result is `-1` with the bitmap untouched and no free
bit in the scanned range, or the first free index of the range, reserved. -/
theorem reserve_first_free_loop_spec (b : Bitmap) : ∀ (fuel i : Nat),
    ((b.reserve_first_free_loop fuel i).1 = -1
        ∧ (b.reserve_first_free_loop fuel i).2 = b
        ∧ ∀ j, i ≤ j → j < i + fuel → b.is_free j = false)
    ∨ ∃ a : Nat, i ≤ a ∧ a < i + fuel ∧ b.is_free a = true
        ∧ (∀ j, i ≤ j → j < a → b.is_free j = false)
        ∧ (b.reserve_first_free_loop fuel i).1 = (a : Int)
        ∧ (b.reserve_first_free_loop fuel i).2 = (b.reserve a).2 := by
  intro fuel
  induction fuel with
  | zero =>
    intro i
    left
    refine ⟨rfl, rfl, fun j h1 h2 => by omega⟩
  | succ fuel ih =>
    intro i
    rw [reserve_first_free_loop, reserve_fst]
    cases h : b.is_free i
    · simp only [Bool.false_eq_true, if_false]
      rcases ih (i + 1) with ⟨h1, h2, h3⟩ | ⟨a, h1, h2, h3, h4, h5, h6⟩
      · left
        refine ⟨h1, h2, fun j hj1 hj2 => ?_⟩
        by_cases e : j = i
        · rw [e]; exact h
        · exact h3 j (by omega) (by omega)
      · right
        refine ⟨a, by omega, by omega, h3, fun j hj1 hj2 => ?_, h5, h6⟩
        by_cases e : j = i
        · rw [e]; exact h
        · exact h4 j (by omega) hj2
    · simp only [if_true]
      right
      exact ⟨i, le_refl _, by omega, h, fun j h1 h2 => by omega, rfl, rfl⟩

theorem reserve_first_free_spec (b : Bitmap) :
    (b.reserve_first_free.1 = -1 ∧ b.reserve_first_free.2 = b
        ∧ ∀ j, j < b.size_ → b.is_free j = false)
    ∨ ∃ a : Nat, a < b.size_ ∧ b.is_free a = true
        ∧ (∀ j, j < a → b.is_free j = false)
        ∧ b.reserve_first_free.1 = (a : Int)
        ∧ b.reserve_first_free.2 = (b.reserve a).2 := by
  unfold reserve_first_free
  rcases reserve_first_free_loop_spec b b.size_ 0 with ⟨h1, h2, h3⟩ | ⟨a, _, h2, h3, h4, h5, h6⟩
  · left
    exact ⟨h1, h2, fun j hj => h3 j (by omega) (by omega)⟩
  · right
    exact ⟨a, by omega, h3, fun j hj => h4 j (by omega) hj, h5, h6⟩

end Bitmap

end ffsys


namespace ffsys

/-! ## Machine integers and little-endian encoding -/

theorem u64_of_nonneg_lt (x : Int) (h0 : 0 ≤ x) (h1 : x < 18446744073709551616) :
    ((u64 x : Nat) : Int) = x := by
  unfold u64
  rw [Int.emod_eq_of_lt h0 h1]
  exact Int.toNat_of_nonneg h0

theorem u32_of_nonneg_lt (x : Int) (h0 : 0 ≤ x) (h1 : x < 4294967296) :
    ((u32 x : Nat) : Int) = x := by
  unfold u32
  rw [Int.emod_eq_of_lt h0 h1]
  exact Int.toNat_of_nonneg h0

theorem le_byte_lt (v k : Nat) : le_byte v k < 256 := Nat.mod_lt _ (by norm_num)

theorem le_byte_0 (v : Nat) : le_byte v 0 = v % 256 := by simp [le_byte]
theorem le_byte_1 (v : Nat) : le_byte v 1 = v / 256 % 256 := by simp [le_byte]
theorem le_byte_2 (v : Nat) : le_byte v 2 = v / 65536 % 256 := by norm_num [le_byte]
theorem le_byte_3 (v : Nat) : le_byte v 3 = v / 16777216 % 256 := by norm_num [le_byte]

theorem le16_eq (m : Mem) (p v : Nat) (hv : v < 65536)
    (hm : ∀ j, j < 2 → m (p + j) = le_byte v j) : le16 m p = v := by
  have h0 := hm 0 (by omega)
  have h1 := hm 1 (by omega)
  rw [le_byte_0] at h0
  rw [le_byte_1] at h1
  unfold le16
  rw [Nat.add_zero] at h0
  omega

theorem le32_eq (m : Mem) (p v : Nat) (hv : v < 4294967296)
    (hm : ∀ j, j < 4 → m (p + j) = le_byte v j) : le32 m p = v := by
  have h0 := hm 0 (by omega)
  have h1 := hm 1 (by omega)
  have h2 := hm 2 (by omega)
  have h3 := hm 3 (by omega)
  rw [le_byte_0] at h0
  rw [le_byte_1] at h1
  rw [le_byte_2] at h2
  rw [le_byte_3] at h3
  unfold le32
  rw [Nat.add_zero] at h0
  omega

theorem le_byte_add4 (v j : Nat) : le_byte v (4 + j) = le_byte (v / 4294967296) j := by
  unfold le_byte
  rw [Nat.pow_add, Nat.div_div_eq_div_mul]

theorem le64_eq (m : Mem) (p v : Nat) (hv : v < 18446744073709551616)
    (hm : ∀ j, j < 8 → m (p + j) = le_byte v j) : le64 m p = v := by
  unfold le64
  have hlo : le32 m p = v % 4294967296 := by
    apply le32_eq _ _ _ (Nat.mod_lt _ (by norm_num))
    intro j hj
    rw [hm j (by omega)]
    unfold le_byte
    interval_cases j <;> omega
  have hhi : le32 m (p + 4) = v / 4294967296 := by
    apply le32_eq _ _ _ (by omega)
    intro j hj
    rw [Nat.add_assoc, hm (4 + j) (by omega), le_byte_add4]
  rw [hlo, hhi]
  omega

theorem le16_lt (m : Mem) (p : Nat) (hm : ∀ k, m k < 256) : le16 m p < 65536 := by
  unfold le16
  have := hm p
  have := hm (p + 1)
  omega

theorem le32_lt (m : Mem) (p : Nat) (hm : ∀ k, m k < 256) : le32 m p < 4294967296 := by
  unfold le32
  have := hm p
  have := hm (p + 1)
  have := hm (p + 2)
  have := hm (p + 3)
  omega

theorem le64_lt (m : Mem) (p : Nat) (hm : ∀ k, m k < 256) :
    le64 m p < 18446744073709551616 := by
  unfold le64
  have := le32_lt m p hm
  have := le32_lt m (p + 4) hm
  omega

theorem i32_range (x : Nat) : -2147483648 ≤ i32 x ∧ i32 x < 2147483648 := by
  unfold i32
  have := Nat.mod_lt x (by norm_num : 4294967296 > 0)
  split_ifs <;> omega

theorem i32_u32 (x : Int) (h0 : -2147483648 ≤ x) (h1 : x < 2147483648) : i32 (u32 x) = x := by
  unfold i32 u32
  have hm : 0 ≤ x % 4294967296 := Int.emod_nonneg _ (by norm_num)
  have hlt : x % 4294967296 < 4294967296 := Int.emod_lt_of_pos _ (by norm_num)
  have e : (((x % 4294967296).toNat : Nat) : Int) = x % 4294967296 := Int.toNat_of_nonneg hm
  have e2 : (x % 4294967296).toNat % 4294967296 = (x % 4294967296).toNat := by
    apply Nat.mod_eq_of_lt
    omega
  rw [e2]
  split_ifs with h <;> omega

theorem u32_lt (x : Int) : u32 x < 4294967296 := by
  unfold u32
  have hm : 0 ≤ x % 4294967296 := Int.emod_nonneg _ (by norm_num)
  have hlt : x % 4294967296 < 4294967296 := Int.emod_lt_of_pos _ (by norm_num)
  omega

theorem u32_natCast (n : Nat) (h : n < 4294967296) : u32 (n : Int) = n := by
  have := u32_of_nonneg_lt (n : Int) (by omega) (by omega)
  omega

theorem i32_minus_one : i32 4294967295 = -1 := by decide

theorem u32_minus_one : u32 (-1) = 4294967295 := by decide

end ffsys


namespace ffsys

/-! ## The read path -/

namespace FFSys

theorem block_pos_mapped (s : FFSys) (file : INode) (L off : Nat)
    (hB : 0 < s.sb_.block_size) (h : s.mapped_block file L) :
    s.block_pos (u32 (s.sb_.data_blocks_start_i + s.get_file_block_address file L)) off
      = (s.sb_.data_blocks_start_i + s.get_file_block_address file L).toNat * s.sb_.block_size
          + off := by
  obtain ⟨_, h0, h1⟩ := h
  generalize (s.sb_.data_blocks_start_i : Int) + s.get_file_block_address file L = z at h0 h1
  have hz : z < 4294967296 := by
    by_contra hcon
    have : (4294967296 : Int) * 1 ≤ z * (s.sb_.block_size : Int) := by
      apply mul_le_mul (by omega) (by exact_mod_cast hB) (by norm_num) h0
    omega
  have hu : u32 z = z.toNat := by
    have := u32_of_nonneg_lt z h0 hz
    omega
  unfold block_pos
  rw [hu]
  have : z.toNat * s.sb_.block_size < 4294967296 := by
    have h2 : ((z.toNat : Int)) = z := Int.toNat_of_nonneg h0
    have : ((z.toNat * s.sb_.block_size : Nat) : Int) < 4294967296 := by
      push_cast
      rw [h2]
      exact h1
    exact_mod_cast this
  rw [Nat.mod_eq_of_lt this]


theorem block_pos_add (s : FFSys) (b off : Nat) : s.block_pos b 0 + off = s.block_pos b off := by
  unfold block_pos; omega

theorem div_of_block (B bi j : Nat) (hj : j < B) : (bi * B + j) / B = bi := by
  have hB : 0 < B := by omega
  rw [Nat.mul_comm, Nat.mul_add_div hB, Nat.div_eq_of_lt hj, Nat.add_zero]

theorem mod_of_block (B bi j : Nat) (hj : j < B) : (bi * B + j) % B = j := by
  rw [Nat.mul_comm, Nat.mul_add_mod, Nat.mod_eq_of_lt hj]

theorem read_loop_spec (s : FFSys) (file : INode) (count pos : Nat)
    (hB : 0 < s.sb_.block_size)
    (hmap : ∀ L, L * s.sb_.block_size < pos + count → s.mapped_block file L)
    (hidx : (pos + count) / s.sb_.block_size + 1 < 4294967296) :
    ∀ (fuel : Nat) (buffer : Mem) (rc bi : Nat),
      rc ≤ count → count - rc ≤ fuel → (rc = count ∨ bi * s.sb_.block_size = pos + rc) →
      (s.read_loop file count fuel buffer rc bi).1 = count ∧
      ∀ k, (s.read_loop file count fuel buffer rc bi).2 k
        = if rc ≤ k ∧ k < count then s.file_byte file (pos + k) else buffer k := by
  intro fuel
  induction fuel with
  | zero =>
    intro buffer rc bi h1 h2 _
    have : rc = count := by omega
    subst this
    refine ⟨rfl, fun k => ?_⟩
    simp only [read_loop]
    rw [if_neg (by omega)]
  | succ fuel ih =>
    intro buffer rc bi h1 h2 h3
    by_cases hlt : rc < count
    · have hbi : bi * s.sb_.block_size = pos + rc := by omega
      have hm : s.mapped_block file bi := hmap bi (by omega)
      have hbile : bi ≤ (pos + count) / s.sb_.block_size := by
        rw [Nat.le_div_iff_mul_le hB]; omega
      have hne : s.get_file_block_address file bi ≠ -1 := hm.1
      rw [read_loop, if_neg (by omega)]
      simp only [hne, if_false]
      rw [Nat.mod_eq_of_lt (by omega : bi + 1 < 4294967296)]
      have hmin1 : min s.sb_.block_size (count - rc) ≤ count - rc := Nat.min_le_right _ _
      have hmin2 : min s.sb_.block_size (count - rc) ≤ s.sb_.block_size := Nat.min_le_left _ _
      have hmin3 : 0 < min s.sb_.block_size (count - rc) := by
        rw [Nat.lt_min]; omega
      have hcase : rc + min s.sb_.block_size (count - rc) = count ∨
          (bi + 1) * s.sb_.block_size = pos + (rc + min s.sb_.block_size (count - rc)) := by
        rcases Nat.le_total s.sb_.block_size (count - rc) with h | h
        · right
          rw [Nat.min_eq_left h, Nat.add_mul]; omega
        · left
          rw [Nat.min_eq_right h]; omega
      obtain ⟨r1, r2⟩ := ih
        (read_into s.fs_
          (s.block_pos (u32 (s.sb_.data_blocks_start_i + s.get_file_block_address file bi)) 0)
          buffer rc (min s.sb_.block_size (count - rc)))
        (rc + min s.sb_.block_size (count - rc)) (bi + 1) (by omega) (by omega) hcase
      refine ⟨r1, fun k => ?_⟩
      rw [r2 k]
      by_cases hk1 : rc + min s.sb_.block_size (count - rc) ≤ k ∧ k < count
      · rw [if_pos hk1, if_pos (by omega)]
      · rw [if_neg hk1]
        unfold read_into
        by_cases hk2 : rc ≤ k ∧ k < rc + min s.sb_.block_size (count - rc)
        · rw [if_pos hk2, if_pos (by omega)]
          unfold file_byte data_block_byte
          have e : pos + k = bi * s.sb_.block_size + (k - rc) := by omega
          rw [e, div_of_block _ _ _ (by omega), mod_of_block _ _ _ (by omega), block_pos_add]
        · rw [if_neg hk2, if_neg (by omega)]
    · have : rc = count := by omega
      subst this
      rw [read_loop, if_pos (by omega)]
      refine ⟨rfl, fun k => ?_⟩
      rw [if_neg (by omega)]


theorem read_n_bytes_spec (s : FFSys) (file : INode) (buffer : Mem) (count pos : Nat)
    (hB : 0 < s.sb_.block_size) (hB16 : s.sb_.block_size < 65536) (hpos : pos ≤ file.size)
    (hcnt : pos + count < 18446744073709551616)
    (hmap : ∀ L, L * s.sb_.block_size < file.size → s.mapped_block file L)
    (hidx : file.size / s.sb_.block_size + 1 < 4294967296) :
    (s.read_n_bytes_from_file file buffer count pos).1 = min count (file.size - pos) ∧
    ∀ k, (s.read_n_bytes_from_file file buffer count pos).2 k
      = if k < min count (file.size - pos) then s.file_byte file (pos + k) else buffer k := by
  have hc1 : (if (pos + count) % 18446744073709551616 ≥ file.size
        then u64 ((file.size : Int) - pos) else count) = min count (file.size - pos) := by
    rw [Nat.mod_eq_of_lt hcnt]
    by_cases h : pos + count ≥ file.size
    · rw [if_pos h]
      have := u64_of_nonneg_lt ((file.size : Int) - pos) (by omega) (by omega)
      omega
    · rw [if_neg h]; omega
  set c := min count (file.size - pos) with hc
  have hcle : pos + c ≤ file.size := by omega
  have hdivle : ∀ x, x ≤ file.size → x / s.sb_.block_size + 1 < 4294967296 := by
    intro x hx
    have := Nat.div_le_div_right (c := s.sb_.block_size) hx
    omega
  have hmap2 : ∀ L, L * s.sb_.block_size < pos + c → s.mapped_block file L :=
    fun L hL => hmap L (by omega)
  have hdm := Nat.div_add_mod pos s.sb_.block_size
  have hml := Nat.mod_lt pos hB
  rw [Nat.mul_comm] at hdm
  have hdivlt : pos / s.sb_.block_size + 1 < 4294967296 := hdivle pos hpos
  have hmod1 : pos / s.sb_.block_size % 4294967296 = pos / s.sb_.block_size :=
    Nat.mod_eq_of_lt (by omega)
  have hmod2 : (pos / s.sb_.block_size + 1) % 4294967296 = pos / s.sb_.block_size + 1 :=
    Nat.mod_eq_of_lt (by omega)
  simp only [read_n_bytes_from_file, hc1, hmod1, hmod2]
  by_cases hl : pos % s.sb_.block_size = 0
  · rw [if_neg (by simpa using hl)]
    obtain ⟨r1, r2⟩ := read_loop_spec s file c pos hB hmap2 (hdivle _ hcle) c buffer 0
      (pos / s.sb_.block_size) (by omega) (by omega) (by right; omega)
    refine ⟨r1, fun k => ?_⟩
    rw [r2 k]
    by_cases hk : k < c
    · rw [if_pos hk, if_pos (by omega)]
    · rw [if_neg hk, if_neg (by omega)]
  · rw [if_pos hl]
    have hm0 : s.mapped_block file (pos / s.sb_.block_size) := hmap _ (by omega)
    set tr := min (s.sb_.block_size - pos % s.sb_.block_size) c with htr
    have htr1 : tr ≤ c := Nat.min_le_right _ _
    have htr2 : tr ≤ s.sb_.block_size - pos % s.sb_.block_size := Nat.min_le_left _ _
    have hcase : tr = c ∨ (pos / s.sb_.block_size + 1) * s.sb_.block_size = pos + tr := by
      rcases Nat.le_total (s.sb_.block_size - pos % s.sb_.block_size) c with h | h
      · right
        rw [htr, Nat.min_eq_left h, Nat.add_mul]; omega
      · left
        rw [htr, Nat.min_eq_right h]
    obtain ⟨r1, r2⟩ := read_loop_spec s file c pos hB hmap2 (hdivle _ hcle) (c - tr)
      (read_into s.fs_
        (u64 (((s.sb_.data_blocks_start_i : Int)
            + s.get_file_block_address file (pos / s.sb_.block_size)) * s.sb_.block_size
            + (pos % s.sb_.block_size : Nat))) buffer 0 tr)
      tr (pos / s.sb_.block_size + 1) htr1 (by omega) hcase
    refine ⟨r1, fun k => ?_⟩
    rw [r2 k]
    by_cases hk1 : tr ≤ k ∧ k < c
    · rw [if_pos hk1, if_pos (by omega)]
    · rw [if_neg hk1]
      unfold read_into
      by_cases hk2 : k < tr
      · rw [if_pos (by omega), if_pos (by omega)]
        unfold file_byte data_block_byte
        have e : pos + k = (pos / s.sb_.block_size) * s.sb_.block_size
            + (pos % s.sb_.block_size + k) := by omega
        rw [e, div_of_block _ _ _ (by omega), mod_of_block _ _ _ (by omega),
          block_pos_mapped s file _ _ hB hm0]
        congr 1
        obtain ⟨_, h0, h1⟩ := hm0
        generalize (s.sb_.data_blocks_start_i : Int)
          + s.get_file_block_address file (pos / s.sb_.block_size) = z at h0 h1
        have hz : ((z.toNat : Int)) = z := Int.toNat_of_nonneg h0
        have hnn : 0 ≤ z * (s.sb_.block_size : Int) := mul_nonneg h0 (by omega)
        have := u64_of_nonneg_lt (z * s.sb_.block_size + (pos % s.sb_.block_size : Nat))
          (by omega) (by omega)
        have h3 : ((z.toNat * s.sb_.block_size : Nat) : Int) = z * s.sb_.block_size := by
          push_cast; rw [hz]
        omega
      · rw [if_neg (by omega), if_neg (by omega)]

end FFSys

end ffsys


namespace ffsys

/-! ## Disk regions under the format layout -/

theorem fs_write_in (d : Disk) (pos : Nat) (src : Mem) (n off : Nat)
    (h1 : pos ≤ off) (h2 : off < pos + n) : fs_write d pos src n off = src (off - pos) := by
  unfold fs_write
  rw [if_pos ⟨h1, h2⟩]

theorem fs_write_out (d : Disk) (pos : Nat) (src : Mem) (n off : Nat)
    (h : off < pos ∨ pos + n ≤ off) : fs_write d pos src n off = d off := by
  unfold fs_write
  rw [if_neg (by omega)]

theorem fs_write_lt (d : Disk) (pos : Nat) (src : Mem) (n : Nat)
    (hd : ∀ off, d off < 256) (hs : ∀ k, k < n → src k < 256) :
    ∀ off, fs_write d pos src n off < 256 := by
  intro off
  unfold fs_write
  split_ifs with h
  · exact hs _ (by omega)
  · exact hd off

theorem le32_fs_read (d : Disk) (pos : Nat) (dst : Mem) :
    le32 (fs_read d pos dst 4) 0 = le32 d pos := by
  unfold le32 fs_read
  simp

theorem le32_congr (m m' : Mem) (p : Nat) (h : ∀ j, j < 4 → m' (p + j) = m (p + j)) :
    le32 m' p = le32 m p := by
  unfold le32
  have h0 := h 0 (by omega)
  rw [Nat.add_zero] at h0
  rw [h0, h 1 (by omega), h 2 (by omega), h 3 (by omega)]

theorem le64_congr (m m' : Mem) (p : Nat) (h : ∀ j, j < 8 → m' (p + j) = m (p + j)) :
    le64 m' p = le64 m p := by
  unfold le64
  rw [le32_congr m m' p (fun j hj => h j (by omega)),
    le32_congr m m' (p + 4) (fun j hj => by
      rw [Nat.add_assoc]; exact h (4 + j) (by omega))]

theorem INode.of_bytes_congr (m m' : Mem) (h : ∀ k, k < 120 → m' k = m k) :
    INode.of_bytes m' = INode.of_bytes m := by
  unfold INode.of_bytes
  congr 1
  · exact le32_congr m m' 0 (fun j hj => by rw [Nat.zero_add]; exact h j (by omega))
  · apply List.map_congr_left
    intro k hk
    rw [List.mem_range] at hk
    exact h _ (by omega)
  · exact le64_congr m m' 24 (fun j hj => h _ (by omega))
  · apply List.map_congr_left
    intro k hk
    rw [List.mem_range] at hk
    rw [le32_congr m m' (32 + 4 * k) (fun j hj => h _ (by omega))]
  · exact le64_congr m m' 112 (fun j hj => h _ (by omega))

theorem INode.of_bytes_wf (m : Mem) (hm : ∀ k, m k < 256) : (INode.of_bytes m).WF := by
  unfold INode.of_bytes
  constructor
  · exact le32_lt m 0 hm
  · simp
  · intro c hc
    simp only [List.mem_map, List.mem_range] at hc
    obtain ⟨k, _, rfl⟩ := hc
    exact hm _
  · exact le64_lt m 24 hm
  · simp
  · intro b hb
    simp only [List.mem_map, List.mem_range] at hb
    obtain ⟨k, _, rfl⟩ := hb
    exact i32_range _
  · exact le64_lt m 112 hm

theorem INode.of_bytes_bytes (x : INode) (hx : x.WF) : INode.of_bytes x.bytes = x := by
  obtain ⟨h1, h2, _, h4, h5, h6, h7⟩ := hx
  have hidx : le32 x.bytes 0 = x.index := by
    apply le32_eq _ _ _ h1
    intro j hj
    unfold INode.bytes
    rw [Nat.zero_add, if_pos (by omega)]
  have hname : (List.range 17).map (fun k => x.bytes (4 + k)) = x.name := by
    apply List.ext_getElem
    · simp [h2]
    · intro n hn1 hn2
      simp only [List.getElem_map, List.getElem_range]
      unfold INode.bytes
      simp only [List.length_map, List.length_range] at hn1
      rw [if_neg (by omega), if_pos (by omega)]
      rw [show 4 + n - 4 = n by omega, List.getD_eq_getElem _ _ hn2]
  have hsize : le64 x.bytes 24 = x.size := by
    apply le64_eq _ _ _ h4
    intro j hj
    unfold INode.bytes
    rw [if_neg (by omega), if_neg (by omega), if_neg (by omega), if_pos (by omega)]
    congr 1
    omega
  have hblocks : (List.range 20).map (fun k => i32 (le32 x.bytes (32 + 4 * k))) = x.blocks := by
    apply List.ext_getElem
    · simp [h5]
    · intro n hn1 hn2
      simp only [List.getElem_map, List.getElem_range]
      simp only [List.length_map, List.length_range] at hn1
      have hle : le32 x.bytes (32 + 4 * n) = u32 (x.blocks.getD n 0) := by
        apply le32_eq _ _ _ (u32_lt _)
        intro j hj
        unfold INode.bytes
        rw [if_neg (by omega), if_neg (by omega), if_neg (by omega), if_neg (by omega),
          if_pos (by omega)]
        rw [show (32 + 4 * n + j - 32) / 4 = n by omega,
          show (32 + 4 * n + j - 32) % 4 = j by omega]
      rw [hle, List.getD_eq_getElem _ _ hn2]
      have := h6 _ (List.getElem_mem hn2)
      exact i32_u32 _ this.1 this.2
  have hct : le64 x.bytes 112 = x.created_time := by
    apply le64_eq _ _ _ h7
    intro j hj
    unfold INode.bytes
    rw [if_neg (by omega), if_neg (by omega), if_neg (by omega), if_neg (by omega),
      if_neg (by omega)]
    congr 1
    omega
  unfold INode.of_bytes
  rw [hidx, hname, hsize, hblocks, hct]

theorem INode.record_bytes_lt (x : INode) (hx : x.WF) : ∀ k, x.bytes k < 256 := by
  intro k
  unfold INode.bytes
  split_ifs
  · exact le_byte_lt _ _
  · by_cases h : k - 4 < x.name.length
    · rw [List.getD_eq_getElem _ _ h]
      exact hx.name_lt _ (List.getElem_mem h)
    · rw [List.getD_eq_default _ _ (by omega)]; omega
  · omega
  · exact le_byte_lt _ _
  · exact le_byte_lt _ _
  · exact le_byte_lt _ _

theorem Superblock.bytes_lt (sb : Superblock) : ∀ k, sb.bytes k < 256 := by
  intro k
  unfold Superblock.bytes
  repeat (first | exact le_byte_lt _ _ | split)

namespace FFSys

theorem Layout.block_lt {s : FFSys} {B : Nat} (h : s.Layout B) (n : Nat) (hn : n < 8 * B) :
    (963 + n) * B < 4294967296 := by
  have h1 := h.hB8
  have h2 : 963 + n ≤ 66498 := by omega
  have h3 : B ≤ 8191 := by omega
  have h4 : (963 + n) * B ≤ 66498 * B := Nat.mul_le_mul_right B h2
  generalize (963 + n) * B = z at h4 ⊢
  omega

theorem Layout.block_pos_low {s : FFSys} {B : Nat} (h : s.Layout B) (blk off : Nat)
    (hb : blk ≤ 963) : s.block_pos blk off = blk * B + off := by
  unfold block_pos
  rw [h.block_size, Nat.mod_eq_of_lt]
  have h1 := h.hB8
  have h4 : blk * B ≤ 963 * B := Nat.mul_le_mul_right B hb
  generalize blk * B = z at h4 ⊢
  omega

theorem Layout.data_pos {s : FFSys} {B : Nat} (h : s.Layout B) (n off : Nat)
    (hn : n < 8 * B) :
    s.block_pos (u32 ((s.sb_.data_blocks_start_i : Int) + (n : Int))) off
      = 963 * B + n * B + off := by
  have h1 := h.hB8
  rw [h.data_blocks_start_i]
  have e : ((963 : Nat) : Int) + (n : Int) = ((963 + n : Nat) : Int) := by push_cast; rfl
  rw [e, u32_natCast _ (by omega)]
  unfold block_pos
  rw [h.block_size, Nat.mod_eq_of_lt (h.block_lt n hn), Nat.add_mul]

theorem Layout.inode_start_eq {s : FFSys} {B : Nat} (h : s.Layout B) (i : Nat)
    (hi : i < 8 * B) : s.inode_start i = 3 * B + 120 * i := by
  have h1 := h.hB8
  unfold inode_start INODE_SIZE
  rw [h.inodes_start_i, h.block_size, Nat.mod_eq_of_lt (by omega)]
  omega

theorem Layout.read_inode_eq {s : FFSys} {B : Nat} (h : s.Layout B) (i : Nat)
    (hi : i < 8 * B) :
    s.read_inode i = INode.of_bytes (fun k => s.fs_ (3 * B + 120 * i + k)) := by
  unfold read_inode
  rw [h.inode_start_eq i hi]
  apply INode.of_bytes_congr
  intro k hk
  unfold fs_read INODE_SIZE
  rw [if_pos hk]

theorem Layout.address_entry_eq {s : FFSys} {B : Nat} (h : s.Layout B) (n T : Nat)
    (hn : n < 8 * B) :
    s.address_entry (n : Int) T = i32 (le32 s.fs_ (963 * B + n * B + T * 4)) := by
  unfold address_entry read_block
  rw [le32_fs_read, h.data_pos n _ hn]

end FFSys

end ffsys


/-! ## The allocator keeps the basic invariant -/

namespace ffsys
namespace FFSys

theorem tdiv_natCast_8 (n : Nat) : u32 (Int.tdiv (n : Int) 8) = (n / 8) % 4294967296 := by
  rw [Int.tdiv_eq_ediv (by omega) (by omega)]
  unfold u32
  have : ((n : Int) / 8) = ((n / 8 : Nat) : Int) := by norm_cast
  rw [this]
  omega

@[simp] theorem write_block_sb (s : FFSys) (b : Nat) (m : Mem) (c o : Nat) :
    (s.write_block b m c o).sb_ = s.sb_ := rfl
@[simp] theorem write_block_errnum (s : FFSys) (b : Nat) (m : Mem) (c o : Nat) :
    (s.write_block b m c o).errnum_ = s.errnum_ := rfl
@[simp] theorem write_block_open_files (s : FFSys) (b : Nat) (m : Mem) (c o : Nat) :
    (s.write_block b m c o).open_files_ = s.open_files_ := rfl
@[simp] theorem write_block_ibm (s : FFSys) (b : Nat) (m : Mem) (c o : Nat) :
    (s.write_block b m c o).inode_bitmap_ = s.inode_bitmap_ := rfl
@[simp] theorem write_block_dbm (s : FFSys) (b : Nat) (m : Mem) (c o : Nat) :
    (s.write_block b m c o).data_block_bitmap_ = s.data_block_bitmap_ := rfl
@[simp] theorem write_block_fs (s : FFSys) (b : Nat) (m : Mem) (c o : Nat) :
    (s.write_block b m c o).fs_ = fs_write s.fs_ (s.block_pos b o) m c := rfl

@[simp] theorem write_inode_sb (s : FFSys) (x : INode) : (s.write_inode x).sb_ = s.sb_ := rfl
@[simp] theorem write_inode_errnum (s : FFSys) (x : INode) :
    (s.write_inode x).errnum_ = s.errnum_ := rfl
@[simp] theorem write_inode_open_files (s : FFSys) (x : INode) :
    (s.write_inode x).open_files_ = s.open_files_ := rfl
@[simp] theorem write_inode_ibm (s : FFSys) (x : INode) :
    (s.write_inode x).inode_bitmap_ = s.inode_bitmap_ := rfl
@[simp] theorem write_inode_dbm (s : FFSys) (x : INode) :
    (s.write_inode x).data_block_bitmap_ = s.data_block_bitmap_ := rfl
@[simp] theorem write_inode_fs (s : FFSys) (x : INode) :
    (s.write_inode x).fs_ = fs_write s.fs_ (s.inode_start x.index) x.bytes INODE_SIZE := rfl

@[simp] theorem write_superblock_sb (s : FFSys) : s.write_superblock.sb_ = s.sb_ := rfl
@[simp] theorem write_superblock_errnum (s : FFSys) :
    s.write_superblock.errnum_ = s.errnum_ := rfl
@[simp] theorem write_superblock_open_files (s : FFSys) :
    s.write_superblock.open_files_ = s.open_files_ := rfl
@[simp] theorem write_superblock_ibm (s : FFSys) :
    s.write_superblock.inode_bitmap_ = s.inode_bitmap_ := rfl
@[simp] theorem write_superblock_dbm (s : FFSys) :
    s.write_superblock.data_block_bitmap_ = s.data_block_bitmap_ := rfl

theorem Layout.of_sb_eq {s t : FFSys} {B : Nat} (h : s.Layout B)
    (e1 : t.sb_.block_size = s.sb_.block_size) (e2 : t.sb_.n_inodes = s.sb_.n_inodes)
    (e3 : t.sb_.n_inode_blocks = s.sb_.n_inode_blocks)
    (e4 : t.sb_.n_data_blocks = s.sb_.n_data_blocks)
    (e5 : t.sb_.inode_bitmap_i = s.sb_.inode_bitmap_i)
    (e6 : t.sb_.data_block_bitmap_i = s.sb_.data_block_bitmap_i)
    (e7 : t.sb_.inodes_start_i = s.sb_.inodes_start_i)
    (e8 : t.sb_.data_blocks_start_i = s.sb_.data_blocks_start_i)
    (e9 : t.sb_.address_block_capacity = s.sb_.address_block_capacity) : t.Layout B :=
  ⟨h.hB, h.hB8, e1 ▸ h.block_size, e2 ▸ h.n_inodes, e3 ▸ h.n_inode_blocks,
    e4 ▸ h.n_data_blocks, e5 ▸ h.inode_bitmap_i, e6 ▸ h.data_block_bitmap_i,
    e7 ▸ h.inodes_start_i, e8 ▸ h.data_blocks_start_i, e9 ▸ h.address_block_capacity⟩

theorem Layout.of_sb {s t : FFSys} {B : Nat} (h : s.Layout B) (e : t.sb_ = s.sb_) :
    t.Layout B := by
  apply h.of_sb_eq <;> rw [e]

theorem write_superblock_fs (s : FFSys) :
    s.write_superblock.fs_ = fs_write s.fs_ (s.block_pos 0 0) s.sb_.bytes 24 := rfl

/-- A write above the bitmaps keeps the basic invariant. -/
theorem Basic.fs_write_high {s : FFSys} {B : Nat} (h : s.Basic B) (pos : Nat) (src : Mem)
    (n : Nat) (hpos : 3 * B ≤ pos) (hsrc : ∀ k, k < n → src k < 256) :
    Basic { s with fs_ := fs_write s.fs_ pos src n } B := by
  have hB := h.layout.hB
  refine ⟨h.layout.of_sb rfl, h.ibm_size, h.dbm_size, h.ibm_bytes, h.dbm_bytes, h.free_inodes,
    h.free_data, fs_write_lt _ _ _ _ h.disk_bytes hsrc, ?_, ?_, ?_⟩
  · intro k hk
    show fs_write s.fs_ pos src n k = _
    rw [fs_write_out _ _ _ _ _ (by omega)]
    exact h.sb_disk k hk
  · intro k hk
    show fs_write s.fs_ pos src n (B + k) = _
    rw [fs_write_out _ _ _ _ _ (by omega)]
    exact h.ibm_disk k hk
  · intro k hk
    show fs_write s.fs_ pos src n (2 * B + k) = _
    rw [fs_write_out _ _ _ _ _ (by omega)]
    exact h.dbm_disk k hk

theorem Basic.basic_of_errnum {s : FFSys} {B : Nat} (h : s.Basic B) (e : ErrorNumber) :
    Basic { s with errnum_ := e } B :=
  ⟨h.layout.of_sb rfl, h.ibm_size, h.dbm_size, h.ibm_bytes, h.dbm_bytes, h.free_inodes,
    h.free_data, h.disk_bytes, h.sb_disk, h.ibm_disk, h.dbm_disk⟩

theorem Basic.basic_of_open_files {s : FFSys} {B : Nat} (h : s.Basic B) (l : List OpenFile) :
    Basic { s with open_files_ := l } B :=
  ⟨h.layout.of_sb rfl, h.ibm_size, h.dbm_size, h.ibm_bytes, h.dbm_bytes, h.free_inodes,
    h.free_data, h.disk_bytes, h.sb_disk, h.ibm_disk, h.dbm_disk⟩

theorem write_superblock_eq (s : FFSys) :
    s.write_superblock = { s with fs_ := fs_write s.fs_ 0 s.sb_.bytes 24 } := by
  unfold write_superblock write_block block_pos SUPERBLOCK_I SUPERBLOCK_SIZE
  simp

theorem get_bm_lt (bm : Bitmap) (hbm : ∀ x, x ∈ bm.bm_ → x < 256) (n k : Nat) :
    bm.get_bm n k < 256 := by
  unfold Bitmap.get_bm
  by_cases hl : n + k < bm.bm_.length
  · rw [List.getD_eq_getElem _ _ hl]
    exact hbm _ (List.getElem_mem hl)
  · rw [List.getD_eq_default _ _ (by omega)]; omega

theorem Basic.basic_with_data_bitmap {s : FFSys} {B : Nat} (hb : s.Basic B) (bm : Bitmap) (k : Nat)
    (hk : k < B) (hsize : bm.size_ = B) (hbytes : ∀ x, x ∈ bm.bm_ → x < 256)
    (hsame : ∀ j, j ≠ k → bm.bm_.getD j 0 = s.data_block_bitmap_.bm_.getD j 0) :
    (s.with_data_bitmap bm k).Basic B ∧ s.Frame (s.with_data_bitmap bm k) B := by
  have hL := hb.layout
  have hB := hL.hB
  have hbs := hL.block_size
  unfold FFSys.with_data_bitmap
  rw [hbs]
  constructor
  · refine ⟨?_, hb.ibm_size, hsize, hb.ibm_bytes, hbytes, hb.free_inodes, rfl, ?_, ?_, ?_, ?_⟩
    · exact hL.of_sb_eq rfl rfl rfl rfl rfl rfl rfl rfl rfl
    · apply fs_write_lt
      · apply fs_write_lt _ _ _ _ hb.disk_bytes
        intro j _
        exact get_bm_lt bm hbytes _ _
      · intro j _
        exact Superblock.bytes_lt _ _
    · intro j hj
      show fs_write _ 0 _ 24 j = _
      rw [fs_write_in _ _ _ _ _ (by omega) (by omega)]
      rfl
    · intro j hj
      show fs_write (fs_write s.fs_ (2 * B + k) _ 1) 0 _ 24 (B + j) = _
      rw [fs_write_out _ _ _ _ _ (by omega), fs_write_out _ _ _ _ _ (by omega)]
      exact hb.ibm_disk j hj
    · intro j hj
      show fs_write (fs_write s.fs_ (2 * B + k) _ 1) 0 _ 24 (2 * B + j) = _
      rw [fs_write_out _ _ _ _ _ (by omega)]
      by_cases hjk : j = k
      · rw [fs_write_in _ _ _ _ _ (by omega) (by omega)]
        unfold Bitmap.get_bm
        congr 1
        omega
      · rw [fs_write_out _ _ _ _ _ (by omega), hb.dbm_disk j hj]
        exact (hsame j hjk).symm
  · refine ⟨?_, rfl, rfl⟩
    intro off hoff
    show fs_write (fs_write s.fs_ (2 * B + k) _ 1) 0 _ 24 off = _
    rw [fs_write_out _ _ _ _ _ (by omega), fs_write_out _ _ _ _ _ (by omega)]

theorem Basic.with_inode_bitmap {s : FFSys} {B : Nat} (hb : s.Basic B) (bm : Bitmap) (k : Nat)
    (hk : k < B) (hsize : bm.size_ = B) (hbytes : ∀ x, x ∈ bm.bm_ → x < 256)
    (hsame : ∀ j, j ≠ k → bm.bm_.getD j 0 = s.inode_bitmap_.bm_.getD j 0) :
    (s.with_inode_bitmap bm k).Basic B := by
  have hL := hb.layout
  have hB := hL.hB
  have hbs := hL.block_size
  unfold FFSys.with_inode_bitmap
  rw [hbs]
  refine ⟨?_, hsize, hb.dbm_size, hbytes, hb.dbm_bytes, rfl, hb.free_data, ?_, ?_, ?_, ?_⟩
  · exact hL.of_sb_eq rfl rfl rfl rfl rfl rfl rfl rfl rfl
  · apply fs_write_lt
    · apply fs_write_lt _ _ _ _ hb.disk_bytes
      intro j _
      exact get_bm_lt bm hbytes _ _
    · intro j _
      exact Superblock.bytes_lt _ _
  · intro j hj
    show fs_write _ 0 _ 24 j = _
    rw [fs_write_in _ _ _ _ _ (by omega) (by omega)]
    rfl
  · intro j hj
    show fs_write (fs_write s.fs_ (B + k) _ 1) 0 _ 24 (B + j) = _
    rw [fs_write_out _ _ _ _ _ (by omega)]
    by_cases hjk : j = k
    · rw [fs_write_in _ _ _ _ _ (by omega) (by omega)]
      unfold Bitmap.get_bm
      congr 1
      omega
    · rw [fs_write_out _ _ _ _ _ (by omega), hb.ibm_disk j hj]
      exact (hsame j hjk).symm
  · intro j hj
    show fs_write (fs_write s.fs_ (B + k) _ 1) 0 _ 24 (2 * B + j) = _
    rw [fs_write_out _ _ _ _ _ (by omega), fs_write_out _ _ _ _ _ (by omega)]
    exact hb.dbm_disk j hj

theorem with_inode_bitmap_fs_high {s : FFSys} {B : Nat} (hb : s.Basic B) (bm : Bitmap)
    (k : Nat) (hk : k < B) (off : Nat) (hoff : 2 * B ≤ off) :
    (s.with_inode_bitmap bm k).fs_ off = s.fs_ off := by
  have hB := hb.layout.hB
  unfold FFSys.with_inode_bitmap
  rw [hb.layout.block_size]
  show fs_write (fs_write s.fs_ (B + k) _ 1) 0 _ 24 off = _
  rw [fs_write_out _ _ _ _ _ (by omega), fs_write_out _ _ _ _ _ (by omega)]

theorem reserve_getD_ne (b : Bitmap) (a j : Nat) (h : j ≠ a / 8) :
    (b.reserve a).2.bm_.getD j 0 = b.bm_.getD j 0 := by
  unfold Bitmap.reserve
  split_ifs
  · rfl
  · simp only
    rw [getD_set_eq, if_neg (fun e => h e.1.symm)]

theorem free_getD_ne (b : Bitmap) (a j : Nat) (h : j ≠ a / 8) :
    (b.free a).2.bm_.getD j 0 = b.bm_.getD j 0 := by
  unfold Bitmap.free
  split_ifs
  · rfl
  · simp only
    rw [getD_set_eq, if_neg (fun e => h e.1.symm)]

theorem reserve_data_block_fail {s : FFSys}
    (h : s.data_block_bitmap_.reserve_first_free.1 = -1)
    (h2 : s.data_block_bitmap_.reserve_first_free.2 = s.data_block_bitmap_) :
    s.reserve_data_block = (-1, { s with errnum_ := ErrorNumber.NO_FREE_DATA_BLOCKS }) := by
  unfold reserve_data_block
  simp only [h, h2, if_true]

theorem reserve_data_block_eq {s : FFSys} {B : Nat} (hb : s.Basic B) (a : Nat)
    (ha : a < B) (hfree : s.data_block_bitmap_.is_free a = true)
    (h1 : s.data_block_bitmap_.reserve_first_free.1 = (a : Int))
    (h2 : s.data_block_bitmap_.reserve_first_free.2 = (s.data_block_bitmap_.reserve a).2) :
    s.reserve_data_block
      = ((a : Int), s.with_data_bitmap (s.data_block_bitmap_.reserve a).2 (a / 8)) := by
  have hL := hb.layout
  have hB := hL.hB
  have hB8 := hL.hB8
  have hne : ¬ ((a : Int) = -1) := by omega
  have hbyte : u32 (Int.tdiv (a : Int) 8) = a / 8 := by
    rw [tdiv_natCast_8]; omega
  have hpos : (s.sb_.data_block_bitmap_i * s.sb_.block_size % 4294967296 + a / 8) % 4294967296
      = 2 * s.sb_.block_size + a / 8 := by
    rw [hL.data_block_bitmap_i, hL.block_size]; omega
  have hpc := Bitmap.popcount_reserve s.data_block_bitmap_ a hfree
  have hple := Bitmap.popcount_le (s.data_block_bitmap_.reserve a).2
  rw [Bitmap.reserve_size, hb.dbm_size] at hple
  have hcnt : (s.sb_.n_free_data_blocks + 65535) % 65536
      = (s.data_block_bitmap_.reserve a).2.popcount := by
    rw [hb.free_data]; omega
  unfold reserve_data_block FFSys.with_data_bitmap
  simp only [h1, h2, hne, if_false, hbyte, hpos, hcnt, write_superblock_eq]

theorem free_data_block_eq {s : FFSys} {B : Nat} (hb : s.Basic B) (a : Nat)
    (ha : a < 8 * B) (hres : s.data_block_bitmap_.is_free a = false) :
    s.free_data_block (a : Int)
      = (true, s.with_data_bitmap (s.data_block_bitmap_.free a).2 (a / 8)) := by
  have hL := hb.layout
  have hB := hL.hB
  have hB8 := hL.hB8
  have hu : u32 (a : Int) = a := u32_natCast a (by omega)
  have hbyte : u32 (Int.tdiv (a : Int) 8) = a / 8 := by
    rw [tdiv_natCast_8]; omega
  have hpos : (s.sb_.data_block_bitmap_i * s.sb_.block_size % 4294967296 + a / 8) % 4294967296
      = 2 * s.sb_.block_size + a / 8 := by
    rw [hL.data_block_bitmap_i, hL.block_size]; omega
  have hpc := Bitmap.popcount_free s.data_block_bitmap_ a hres (by rw [hb.dbm_size]; exact ha)
  have hple := Bitmap.popcount_le (s.data_block_bitmap_.free a).2
  rw [Bitmap.free_size, hb.dbm_size] at hple
  have hcnt : (s.sb_.n_free_data_blocks + 1) % 65536
      = (s.data_block_bitmap_.free a).2.popcount := by
    rw [hb.free_data]; omega
  have hf : (s.data_block_bitmap_.free a).1 = true := by
    rw [Bitmap.free_fst, hres]; rfl
  unfold free_data_block FFSys.with_data_bitmap
  simp only [hu, hf, Bool.not_true, Bool.false_eq_true, if_false, hbyte, hpos, hcnt,
    write_superblock_eq]

theorem reserve_inode_fail {s : FFSys}
    (h : s.inode_bitmap_.reserve_first_free.1 = -1)
    (h2 : s.inode_bitmap_.reserve_first_free.2 = s.inode_bitmap_) :
    s.reserve_inode = (-1, s) := by
  unfold reserve_inode
  simp only [h, h2, if_true]

theorem reserve_inode_eq {s : FFSys} {B : Nat} (hb : s.Basic B) (a : Nat)
    (ha : a < B) (hfree : s.inode_bitmap_.is_free a = true)
    (h1 : s.inode_bitmap_.reserve_first_free.1 = (a : Int))
    (h2 : s.inode_bitmap_.reserve_first_free.2 = (s.inode_bitmap_.reserve a).2) :
    s.reserve_inode
      = ((a : Int), s.with_inode_bitmap (s.inode_bitmap_.reserve a).2 (a / 8)) := by
  have hL := hb.layout
  have hB := hL.hB
  have hB8 := hL.hB8
  have hne : ¬ ((a : Int) = -1) := by omega
  have hbyte : u32 (Int.tdiv (a : Int) 8) = a / 8 := by
    rw [tdiv_natCast_8]; omega
  have hpos : (s.sb_.inode_bitmap_i * s.sb_.block_size % 4294967296 + a / 8) % 4294967296
      = s.sb_.block_size + a / 8 := by
    rw [hL.inode_bitmap_i, hL.block_size]; omega
  have hpc := Bitmap.popcount_reserve s.inode_bitmap_ a hfree
  have hple := Bitmap.popcount_le (s.inode_bitmap_.reserve a).2
  rw [Bitmap.reserve_size, hb.ibm_size] at hple
  have hcnt : (s.sb_.n_free_inodes + 65535) % 65536
      = (s.inode_bitmap_.reserve a).2.popcount := by
    rw [hb.free_inodes]; omega
  unfold reserve_inode FFSys.with_inode_bitmap
  simp only [h1, h2, hne, if_false, hbyte, hpos, hcnt, write_superblock_eq]

end FFSys

end ffsys


namespace ffsys
namespace FFSys

/-! ## Stored addresses -/

theorem RefsV.update {s t : FFSys} {v w : Nat → List Int} (h : s.RefsV v) (C : Ref → Prop)
    (hold : ∀ r : Ref, r.ok t w → ¬ C r → r.ok s v ∧ r.val t w = r.val s v)
    (hrsv : ∀ r : Ref, r.ok t w → ¬ C r → r.val s v ≠ -1 → s.reserved (r.val s v) →
      t.reserved (r.val s v))
    (hnew : ∀ r : Ref, r.ok t w → C r → r.val t w ≠ -1 →
      t.reserved (r.val t w)
        ∧ (∀ r' : Ref, r'.ok s v → ¬ C r' → r'.val s v ≠ r.val t w)
        ∧ (∀ r' : Ref, r'.ok t w → C r' → r'.val t w = r.val t w → r' = r)) :
    t.RefsV w := by
  constructor
  · intro r hr hne
    by_cases hc : C r
    · exact (hnew r hr hc hne).1
    · obtain ⟨h1, h2⟩ := hold r hr hc
      rw [h2] at hne ⊢
      exact hrsv r hr hc hne (h.rsv r h1 hne)
  · intro r r' hr hr' hne heq
    by_cases hc : C r
    · by_cases hc' : C r'
      · exact ((hnew r hr hc hne).2.2 r' hr' hc' heq.symm).symm
      · obtain ⟨h1, h2⟩ := hold r' hr' hc'
        exact absurd (h2 ▸ heq.symm) ((hnew r hr hc hne).2.1 r' h1 hc')
    · obtain ⟨h1, h2⟩ := hold r hr hc
      by_cases hc' : C r'
      · have hne' : r'.val t w ≠ -1 := heq ▸ hne
        exact absurd (h2 ▸ heq) ((hnew r' hr' hc' hne').2.1 r h1 hc)
      · obtain ⟨h1', h2'⟩ := hold r' hr' hc'
        exact h.inj r r' h1 h1' (h2 ▸ hne) (h2 ▸ h2' ▸ heq)

theorem Layout.live_iff {s : FFSys} {B : Nat} (h : s.Layout B) (i : Nat) :
    s.live i ↔ i < 8 * B ∧ s.inode_bitmap_.is_free i = false := by
  unfold live
  rw [h.n_inodes]

theorem Layout.reserved_iff {s : FFSys} {B : Nat} (h : s.Layout B) (a : Int) :
    s.reserved a ↔ ∃ n : Nat, a = (n : Int) ∧ n < 8 * B
      ∧ s.data_block_bitmap_.is_free n = false := by
  unfold reserved
  rw [h.n_data_blocks]
  constructor
  · rintro ⟨h0, h1, h2⟩
    refine ⟨a.toNat, (Int.toNat_of_nonneg h0).symm, by omega, h2⟩
  · rintro ⟨n, rfl, h1, h2⟩
    refine ⟨by omega, by exact_mod_cast h1, by simpa using h2⟩

theorem Layout.read_inode_congr {s t : FFSys} {B : Nat} (hs : s.Layout B) (ht : t.Layout B)
    (j : Nat) (hj : j < 8 * B)
    (h : ∀ k, k < 120 → t.fs_ (3 * B + 120 * j + k) = s.fs_ (3 * B + 120 * j + k)) :
    t.read_inode j = s.read_inode j := by
  rw [hs.read_inode_eq j hj, ht.read_inode_eq j hj]
  exact INode.of_bytes_congr _ _ h

theorem Layout.address_entry_congr {s t : FFSys} {B : Nat} (hs : s.Layout B)
    (ht : t.Layout B) (n T : Nat) (hn : n < 8 * B)
    (h : ∀ k, k < 4 → t.fs_ (963 * B + n * B + T * 4 + k)
      = s.fs_ (963 * B + n * B + T * 4 + k)) :
    t.address_entry (n : Int) T = s.address_entry (n : Int) T := by
  rw [hs.address_entry_eq n T hn, ht.address_entry_eq n T hn]
  rw [le32_congr _ _ _ h]

/-- The value at a place is the same in two states when the addressing table of its inode
is the same and, for an entry, the four bytes of the entry on disk are the same. -/
theorem Ref.val_congr {s t : FFSys} {B : Nat} (hs : s.Layout B) (ht : t.Layout B)
    (v w : Nat → List Int) (r : Ref) (hv : w r.ino = v r.ino)
    (hent : ∀ T, r.ent = some T → ∃ n : Nat, (v r.ino).getD r.slot 0 = (n : Int) ∧ n < 8 * B
      ∧ ∀ k, k < 4 → t.fs_ (963 * B + n * B + T * 4 + k)
          = s.fs_ (963 * B + n * B + T * 4 + k)) :
    r.val t w = r.val s v := by
  unfold Ref.val
  rw [hv]
  cases he : r.ent with
  | none => rfl
  | some T =>
    obtain ⟨n, h1, h2, h3⟩ := hent T he
    simp only [h1]
    exact hs.address_entry_congr ht n T h2 h3

/-- In a consistent state the slot behind an existing entry names a reserved block. -/
theorem RefsV.slot_valid {s : FFSys} {B : Nat} {v : Nat → List Int} (h : s.RefsV v)
    (hs : s.Layout B) (r : Ref) (hr : r.ok s v) (T : Nat) (he : r.ent = some T) :
    ∃ n : Nat, (v r.ino).getD r.slot 0 = (n : Int) ∧ n < 8 * B
      ∧ s.data_block_bitmap_.is_free n = false := by
  obtain ⟨h1, h2, h3⟩ := hr
  rw [he] at h3
  have hok : Ref.ok s v ⟨r.ino, r.slot, none⟩ := ⟨h1, h2, trivial⟩
  have := h.rsv ⟨r.ino, r.slot, none⟩ hok h3.2.2
  exact (hs.reserved_iff _).mp this

theorem mul_block_lt (n m B : Nat) (h : n < m) : n * B + B ≤ m * B := by
  have : (n + 1) * B ≤ m * B := Nat.mul_le_mul_right B h
  rw [Nat.add_mul, Nat.one_mul] at this
  exact this

theorem Layout.live_congr {s t : FFSys} {B : Nat} (hs : s.Layout B) (ht : t.Layout B)
    (hibm : t.inode_bitmap_ = s.inode_bitmap_) (i : Nat) : t.live i ↔ s.live i := by
  rw [hs.live_iff, ht.live_iff, hibm]

theorem Layout.live_lt {s : FFSys} {B : Nat} (hs : s.Layout B) {i : Nat} (h : s.live i) :
    i < 8 * B := ((hs.live_iff i).mp h).1

/-- No stored address changes: the consistency of the stored addresses carries over. -/
theorem RefsV.refs_same {s t : FFSys} {B : Nat} {v w : Nat → List Int} (h : s.RefsV v)
    (hs : s.Layout B) (ht : t.Layout B) (hibm : t.inode_bitmap_ = s.inode_bitmap_)
    (hview : ∀ j, s.live j → w j = v j)
    (hdbm : ∀ n, n < 8 * B → s.data_block_bitmap_.is_free n = false →
      t.data_block_bitmap_.is_free n = false)
    (hdisk : ∀ (i S T n : Nat), s.live i → (v i).getD S 0 = (n : Int) → n < 8 * B →
      s.data_block_bitmap_.is_free n = false → 15 ≤ S → S < 20 → T < B / 4 →
      ∀ k, k < 4 → t.fs_ (963 * B + n * B + T * 4 + k) = s.fs_ (963 * B + n * B + T * 4 + k)) :
    t.RefsV w := by
  have hok : ∀ r : Ref, r.ok t w → r.ok s v := by
    rintro r ⟨h1, h2, h3⟩
    have hl : s.live r.ino := (hs.live_congr ht hibm _).mp h1
    refine ⟨hl, h2, ?_⟩
    cases he : r.ent with
    | none => trivial
    | some T =>
      rw [he] at h3
      simp only at h3 ⊢
      rw [ht.address_block_capacity, hview _ hl] at h3
      rw [hs.address_block_capacity]
      exact h3
  apply h.update (fun _ => False)
  · intro r hr _
    have hr' := hok r hr
    refine ⟨hr', ?_⟩
    apply Ref.val_congr hs ht v w r (hview _ hr'.1)
    intro T he
    obtain ⟨n, h1, h2, h3⟩ := h.slot_valid hs r hr' T he
    refine ⟨n, h1, h2, ?_⟩
    have h4 := hr'.2.2
    rw [he] at h4
    simp only at h4
    rw [hs.address_block_capacity] at h4
    exact hdisk r.ino r.slot T n hr'.1 h1 h2 h3 h4.1 hr'.2.1 h4.2.1
  · intro r _ _ _ hres
    obtain ⟨n, h1, h2, h3⟩ := (hs.reserved_iff _).mp hres
    exact (ht.reserved_iff _).mpr ⟨n, h1, h2, hdbm n h2 h3⟩
  · intro r _ hc
    exact absurd hc id

/-- A place that stores the address of a free block does not exist. -/
theorem RefsV.fresh_of_free {s : FFSys} {B : Nat} {v : Nat → List Int} (h : s.RefsV v)
    (hs : s.Layout B) (a : Nat) (hfree : s.data_block_bitmap_.is_free a = true) :
    ∀ r : Ref, r.ok s v → r.val s v ≠ (a : Int) := by
  intro r hr heq
  have := h.rsv r hr (by rw [heq]; omega)
  rw [heq] at this
  obtain ⟨n, h1, _, h3⟩ := (hs.reserved_iff _).mp this
  have : n = a := by omega
  rw [this, hfree] at h3
  exact absurd h3 (by simp)

/-! ## The invariant around the in-memory inode -/

theorem view_with_self (s : FFSys) (i : Nat) :
    s.view_with i (s.read_inode i).blocks = s.view := by
  funext j
  unfold view_with view
  split_ifs with h
  · rw [h]
  · rfl

theorem read_inode_wf {s : FFSys} {B : Nat} (hb : s.Basic B) (i : Nat) :
    (s.read_inode i).WF := by
  unfold read_inode
  apply INode.of_bytes_wf
  intro k
  unfold fs_read
  split_ifs
  · exact hb.disk_bytes _
  · show (0 : Nat) < 256
    omega

theorem InvX.of_inv {s : FFSys} {B : Nat} (h : s.Inv B) (i : Nat) (hi : s.live i) :
    s.InvX B (s.read_inode i) := by
  have hidx := h.index i hi
  refine ⟨h.basic, ?_, ?_, h.handles, h.pos_lt, ?_, read_inode_wf h.basic i⟩
  · rw [hidx, view_with_self]; exact h.refs
  · intro j hj _; exact h.index j hj
  · rw [hidx]; exact hi

theorem InvX.of_fields {s : FFSys} {B : Nat} {x y : INode} (h : s.InvX B x)
    (h1 : y.index = x.index) (h2 : y.blocks = x.blocks) (hwf : y.WF) : s.InvX B y :=
  ⟨h.basic, by rw [h1, h2]; exact h.refs, by rw [h1]; exact h.index, h.handles, h.pos_lt,
    by rw [h1]; exact h.live_x, hwf⟩

theorem read_inode_write_inode {s : FFSys} {B : Nat} (hs : s.Layout B) (x : INode)
    (hx : x.WF) (hi : x.index < 8 * B) : (s.write_inode x).read_inode x.index = x := by
  have ht : (s.write_inode x).Layout B := hs.of_sb rfl
  rw [ht.read_inode_eq _ hi]
  rw [← INode.of_bytes_bytes x hx]
  apply INode.of_bytes_congr
  intro k hk
  rw [INode.of_bytes_bytes x hx]
  rw [write_inode_fs, hs.inode_start_eq _ hi]
  rw [fs_write_in _ _ _ _ _ (by omega) (by unfold INODE_SIZE; omega)]
  congr 1
  omega

theorem read_inode_write_inode_ne {s : FFSys} {B : Nat} (hs : s.Layout B) (x : INode)
    (hi : x.index < 8 * B) (j : Nat) (hj : j < 8 * B) (hne : j ≠ x.index) :
    (s.write_inode x).read_inode j = s.read_inode j := by
  have ht : (s.write_inode x).Layout B := hs.of_sb rfl
  apply hs.read_inode_congr ht j hj
  intro k hk
  rw [write_inode_fs, hs.inode_start_eq _ hi]
  apply fs_write_out
  unfold INODE_SIZE
  omega

theorem Basic.basic_write_inode {s : FFSys} {B : Nat} (hb : s.Basic B) (x : INode) (hx : x.WF)
    (hi : x.index < 8 * B) : (s.write_inode x).Basic B := by
  have := hb.fs_write_high (s.inode_start x.index) x.bytes INODE_SIZE
    (by rw [hb.layout.inode_start_eq _ hi]; omega) (fun k _ => INode.record_bytes_lt x hx k)
  exact this

/-- Writing the in-memory inode back re-establishes the invariant between calls. -/
theorem InvX.write_back {s : FFSys} {B : Nat} {x : INode} (h : s.InvX B x) :
    (s.write_inode x).Inv B := by
  have hs := h.basic.layout
  have hi : x.index < 8 * B := hs.live_lt h.live_x
  have hb := h.basic.basic_write_inode x h.wf hi
  have ht := hb.layout
  have hlive : ∀ j, (s.write_inode x).live j ↔ s.live j := hs.live_congr ht rfl
  refine ⟨hb, ?_, ?_, ?_, h.pos_lt⟩
  · apply h.refs.refs_same hs ht rfl
    · intro j hj
      unfold view view_with
      split_ifs with e
      · rw [e, read_inode_write_inode hs x h.wf hi]
      · rw [read_inode_write_inode_ne hs x hi j (hs.live_lt hj) e]
    · intro n _ hn; exact hn
    · intro i S T n _ _ hn _ _ _ hT k hk
      rw [write_inode_fs, hs.inode_start_eq _ hi]
      apply fs_write_out
      unfold INODE_SIZE
      omega
  · intro j hj
    have hj' := (hlive j).mp hj
    by_cases e : j = x.index
    · rw [e, read_inode_write_inode hs x h.wf hi]
    · rw [read_inode_write_inode_ne hs x hi j (hs.live_lt hj') e]
      exact h.index j hj' e
  · intro f hf
    exact (hlive _).mpr (h.handles f hf)

theorem Ref.val_congr_slot {s t : FFSys} {B : Nat} (hs : s.Layout B) (ht : t.Layout B)
    (v w : Nat → List Int) (r : Ref)
    (hv : (w r.ino).getD r.slot 0 = (v r.ino).getD r.slot 0)
    (hent : ∀ T, r.ent = some T → ∃ n : Nat, (v r.ino).getD r.slot 0 = (n : Int) ∧ n < 8 * B
      ∧ ∀ k, k < 4 → t.fs_ (963 * B + n * B + T * 4 + k)
          = s.fs_ (963 * B + n * B + T * 4 + k)) :
    r.val t w = r.val s v := by
  unfold Ref.val
  rw [hv]
  cases he : r.ent with
  | none => rfl
  | some T =>
    obtain ⟨n, h1, h2, h3⟩ := hent T he
    simp only [h1]
    exact hs.address_entry_congr ht n T h2 h3

/-- The places outside `C` keep existing and keep their value when their slots and the
bytes of their entries are not touched. -/
theorem RefsV.hold_of {s t : FFSys} {B : Nat} {v w : Nat → List Int} (h : s.RefsV v)
    (hs : s.Layout B) (ht : t.Layout B) (hibm : t.inode_bitmap_ = s.inode_bitmap_)
    (C : Ref → Prop)
    (hview : ∀ r : Ref, ¬ C r → s.live r.ino →
      (w r.ino).getD r.slot 0 = (v r.ino).getD r.slot 0)
    (hdisk : ∀ (r : Ref) (T n : Nat), ¬ C r → r.ok s v → r.ent = some T →
      (v r.ino).getD r.slot 0 = (n : Int) → n < 8 * B →
      ∀ k, k < 4 → t.fs_ (963 * B + n * B + T * 4 + k) = s.fs_ (963 * B + n * B + T * 4 + k)) :
    ∀ r : Ref, r.ok t w → ¬ C r → r.ok s v ∧ r.val t w = r.val s v := by
  intro r hr hc
  obtain ⟨h1, h2, h3⟩ := hr
  have hl : s.live r.ino := (hs.live_congr ht hibm _).mp h1
  have hr' : r.ok s v := by
    refine ⟨hl, h2, ?_⟩
    cases he : r.ent with
    | none => trivial
    | some T =>
      rw [he] at h3
      simp only at h3 ⊢
      rw [ht.address_block_capacity, hview r hc hl] at h3
      rw [hs.address_block_capacity]
      exact h3
  refine ⟨hr', ?_⟩
  apply Ref.val_congr_slot hs ht v w r (hview r hc hl)
  intro T he
  obtain ⟨n, h4, h5, _⟩ := h.slot_valid hs r hr' T he
  exact ⟨n, h4, h5, hdisk r T n hc hr' he h4 h5⟩

/-- Two different existing entries occupy different bytes of the disk. -/
theorem RefsV.entry_disjoint {s : FFSys} {B : Nat} {v : Nat → List Int} (h : s.RefsV v)
    (hs : s.Layout B) (r r' : Ref) (T T' n n' : Nat) (hr : r.ok s v) (hr' : r'.ok s v)
    (he : r.ent = some T) (he' : r'.ent = some T')
    (hn : (v r.ino).getD r.slot 0 = (n : Int)) (hn' : (v r'.ino).getD r'.slot 0 = (n' : Int))
    (hne : r ≠ r') (k k' : Nat) (hk : k < 4) (hk' : k' < 4) :
    963 * B + n * B + T * 4 + k ≠ 963 * B + n' * B + T' * 4 + k' := by
  have hT : T < B / 4 := by
    have := hr.2.2; rw [he] at this; simp only at this
    rw [hs.address_block_capacity] at this; exact this.2.1
  have hT' : T' < B / 4 := by
    have := hr'.2.2; rw [he'] at this; simp only at this
    rw [hs.address_block_capacity] at this; exact this.2.1
  rcases Nat.lt_trichotomy n n' with hlt | heq | hgt
  · have := mul_block_lt n n' B hlt
    omega
  · have hs1 : Ref.ok s v ⟨r.ino, r.slot, none⟩ := ⟨hr.1, hr.2.1, trivial⟩
    have hs2 : Ref.ok s v ⟨r'.ino, r'.slot, none⟩ := ⟨hr'.1, hr'.2.1, trivial⟩
    have hv1 : Ref.val s v ⟨r.ino, r.slot, none⟩ = (n : Int) := hn
    have hv2 : Ref.val s v ⟨r'.ino, r'.slot, none⟩ = (n' : Int) := hn'
    have := h.inj _ _ hs1 hs2 (by rw [hv1]; omega) (by rw [hv1, hv2, heq])
    have hTT : T ≠ T' := by
      intro e
      apply hne
      cases r; cases r'
      simp only [Ref.mk.injEq] at this ⊢
      simp only at he he'
      exact ⟨this.1, this.2.1, by rw [he, he', e]⟩
    rw [heq]
    omega
  · have := mul_block_lt n' n B hgt
    omega

/-- A slot of inode `i` is overwritten, with `-1` or with the address of a reserved block
that no other place stores (an indirect slot only with `-1`). -/
theorem RefsV.refs_set_slot {s t : FFSys} {B : Nat} {v w : Nat → List Int} (h : s.RefsV v)
    (hs : s.Layout B) (ht : t.Layout B) (hibm : t.inode_bitmap_ = s.inode_bitmap_)
    (i k : Nat) (a : Int) (hka : 15 ≤ k → a = -1)
    (hwi : ∀ j, (w i).getD j 0 = if j = k then a else (v i).getD j 0)
    (hwo : ∀ j, s.live j → j ≠ i → w j = v j)
    (hdisk : ∀ off, 963 * B ≤ off → t.fs_ off = s.fs_ off)
    (hmono : ∀ r : Ref, r.ok s v → ¬ (r.ino = i ∧ r.slot = k) → r.val s v ≠ -1 →
      t.reserved (r.val s v))
    (hnew : a ≠ -1 → t.reserved a
      ∧ ∀ r : Ref, r.ok s v → ¬ (r.ino = i ∧ r.slot = k) → r.val s v ≠ a) :
    t.RefsV w := by
  have hview : ∀ r : Ref, ¬ (r.ino = i ∧ r.slot = k) → s.live r.ino →
      (w r.ino).getD r.slot 0 = (v r.ino).getD r.slot 0 := by
    intro r hc hl
    by_cases e : r.ino = i
    · rw [e, hwi, if_neg (fun e2 => hc ⟨e, e2⟩)]
    · rw [hwo _ hl e]
  have hold := h.hold_of hs ht hibm (fun r => r.ino = i ∧ r.slot = k) hview
    (fun r T n _ _ _ _ _ k hk => hdisk _ (by omega))
  apply h.update (fun r => r.ino = i ∧ r.slot = k) hold
  · intro r hr hc hne _
    exact hmono r (hold r hr hc).1 hc hne
  · intro r hr hc hne
    have hslot : (w r.ino).getD r.slot 0 = a := by
      rw [hc.1, hc.2, hwi, if_pos rfl]
    have hnone : ∀ r' : Ref, r'.ok t w → (r'.ino = i ∧ r'.slot = k) → r'.val t w ≠ -1 →
        r'.ent = none := by
      intro r' hr' hc' hne'
      cases he : r'.ent with
      | none => rfl
      | some T =>
        exfalso
        have h3 := hr'.2.2
        rw [he] at h3
        simp only at h3
        have h4 : (w r'.ino).getD r'.slot 0 = a := by rw [hc'.1, hc'.2, hwi, if_pos rfl]
        rw [h4] at h3
        exact h3.2.2 (hka (hc'.2 ▸ h3.1))
    have he := hnone r hr hc hne
    have hv : r.val t w = a := by
      unfold Ref.val; rw [he]; exact hslot
    rw [hv] at hne ⊢
    obtain ⟨h1, h2⟩ := hnew hne
    refine ⟨h1, h2, ?_⟩
    intro r' hr' hc' heq
    have he' := hnone r' hr' hc' (by rw [heq]; exact hne)
    cases r; cases r'
    simp only at he he' hc hc'
    simp only [Ref.mk.injEq]
    exact ⟨by rw [hc.1, hc'.1], by rw [hc.2, hc'.2], by rw [he, he']⟩

/-- Entry `T` of the address block `n` in slot `S` of inode `i` is overwritten, with `-1`
or with the address of a reserved block that no other place stores. -/
theorem RefsV.refs_set_entry {s t : FFSys} {B : Nat} {v w : Nat → List Int} (h : s.RefsV v)
    (hs : s.Layout B) (ht : t.Layout B) (hibm : t.inode_bitmap_ = s.inode_bitmap_)
    (i S T n : Nat) (a : Int) (hi : s.live i) (hS : 15 ≤ S) (hS2 : S < 20)
    (hT : T < B / 4) (hn : (v i).getD S 0 = (n : Int))
    (hw : ∀ j, s.live j → w j = v j)
    (hdisk : ∀ off, 963 * B ≤ off →
      (off < 963 * B + n * B + T * 4 ∨ 963 * B + n * B + T * 4 + 4 ≤ off) →
      t.fs_ off = s.fs_ off)
    (hval : t.address_entry (n : Int) T = a)
    (hmono : ∀ r : Ref, r.ok s v → r ≠ ⟨i, S, some T⟩ → r.val s v ≠ -1 →
      t.reserved (r.val s v))
    (hnew : a ≠ -1 → t.reserved a
      ∧ ∀ r : Ref, r.ok s v → r ≠ ⟨i, S, some T⟩ → r.val s v ≠ a) :
    t.RefsV w := by
  have hr0 : Ref.ok s v ⟨i, S, some T⟩ := by
    refine ⟨hi, hS2, hS, ?_, ?_⟩
    · rw [hs.address_block_capacity]; exact hT
    · show (v i).getD S 0 ≠ -1
      rw [hn]; omega
  have hview : ∀ r : Ref, ¬ (r = ⟨i, S, some T⟩) → s.live r.ino →
      (w r.ino).getD r.slot 0 = (v r.ino).getD r.slot 0 := by
    intro r _ hl
    rw [hw _ hl]
  have hold := h.hold_of hs ht hibm (fun r => r = ⟨i, S, some T⟩) hview
    (fun r T' n' hc hr he hn' hn8' k hk => by
      apply hdisk _ (by omega)
      have := h.entry_disjoint hs r ⟨i, S, some T⟩ T' T n' n hr hr0 he rfl hn' hn hc
      have h0 := this k 0 hk (by omega)
      have h1 := this k 1 hk (by omega)
      have h2 := this k 2 hk (by omega)
      have h3 := this k 3 hk (by omega)
      omega)
  apply h.update (fun r => r = ⟨i, S, some T⟩) hold
  · intro r hr hc hne _
    exact hmono r (hold r hr hc).1 hc hne
  · intro r hr hc hne
    have hc' : r = ⟨i, S, some T⟩ := hc
    have hv : r.val t w = a := by
      rw [hc']
      unfold Ref.val
      simp only
      rw [hw _ hi, hn]
      exact hval
    rw [hv] at hne ⊢
    obtain ⟨h1, h2⟩ := hnew hne
    refine ⟨h1, h2, ?_⟩
    intro r' _ hr' _
    rw [hc']; exact hr'

/-- A fresh address block `b`, whose entries read `-1` except entry `T0` which reads `a`,
is put into the empty indirect slot `S` of inode `i`; `a` is `-1` or the address of
another reserved block that is stored nowhere. -/
theorem RefsV.add_address_block {s t : FFSys} {B : Nat} {v w : Nat → List Int}
    (h : s.RefsV v) (hs : s.Layout B) (ht : t.Layout B)
    (hibm : t.inode_bitmap_ = s.inode_bitmap_)
    (i S b T0 : Nat) (a : Int)
    (hwi : ∀ j, (w i).getD j 0 = if j = S then (b : Int) else (v i).getD j 0)
    (hwo : ∀ j, s.live j → j ≠ i → w j = v j)
    (hdisk : ∀ off, 963 * B ≤ off → (off < 963 * B + b * B ∨ 963 * B + b * B + B ≤ off) →
      t.fs_ off = s.fs_ off)
    (hent : ∀ T, T < B / 4 → T ≠ T0 → t.address_entry (b : Int) T = -1)
    (hent0 : t.address_entry (b : Int) T0 = a)
    (hmono : ∀ r : Ref, r.ok s v → ¬ (r.ino = i ∧ r.slot = S) → r.val s v ≠ -1 →
      t.reserved (r.val s v))
    (hres : t.reserved (b : Int))
    (hfresh : ∀ r : Ref, r.ok s v → r.val s v ≠ (b : Int))
    (hnew : a ≠ -1 → t.reserved a ∧ a ≠ (b : Int) ∧ ∀ r : Ref, r.ok s v → r.val s v ≠ a) :
    t.RefsV w := by
  have hview : ∀ r : Ref, ¬ (r.ino = i ∧ r.slot = S) → s.live r.ino →
      (w r.ino).getD r.slot 0 = (v r.ino).getD r.slot 0 := by
    intro r hc hl
    by_cases e : r.ino = i
    · rw [e, hwi, if_neg (fun e2 => hc ⟨e, e2⟩)]
    · rw [hwo _ hl e]
  have hold := h.hold_of hs ht hibm (fun r => r.ino = i ∧ r.slot = S) hview
    (fun r T' n' hc hr he hn' hn8' k hk => by
      have hT' : T' < B / 4 := by
        have := hr.2.2; rw [he] at this; simp only at this
        rw [hs.address_block_capacity] at this; exact this.2.1
      have hs1 : Ref.ok s v ⟨r.ino, r.slot, none⟩ := ⟨hr.1, hr.2.1, trivial⟩
      have hne : n' ≠ b := by
        intro e
        apply hfresh _ hs1
        show (v r.ino).getD r.slot 0 = (b : Int)
        rw [hn', e]
      apply hdisk _ (by omega)
      rcases Nat.lt_or_gt_of_ne hne with hlt | hgt
      · have := mul_block_lt n' b B hlt
        left; omega
      · have := mul_block_lt b n' B hgt
        right; omega)
  have hslot : ∀ r' : Ref, (r'.ino = i ∧ r'.slot = S) →
      (w r'.ino).getD r'.slot 0 = (b : Int) := by
    intro r' hc'
    rw [hc'.1, hc'.2, hwi, if_pos rfl]
  -- the value of a changed place, by the kind of the place
  have hkind : ∀ r' : Ref, r'.ok t w → (r'.ino = i ∧ r'.slot = S) → r'.val t w ≠ -1 →
      (r'.ent = none ∧ r'.val t w = (b : Int)) ∨ (r'.ent = some T0 ∧ r'.val t w = a) := by
    intro r' hr' hc' hne'
    cases he : r'.ent with
    | none =>
      left
      refine ⟨rfl, ?_⟩
      unfold Ref.val; rw [he]; exact hslot r' hc'
    | some T =>
      right
      have h3 := hr'.2.2
      rw [he] at h3
      simp only at h3
      rw [ht.address_block_capacity] at h3
      have hv : r'.val t w = t.address_entry (b : Int) T := by
        unfold Ref.val
        rw [he]
        simp only
        rw [hslot r' hc']
      by_cases e : T = T0
      · rw [e]
        refine ⟨rfl, ?_⟩
        rw [hv, e]; exact hent0
      · exfalso
        apply hne'
        rw [hv]
        exact hent T h3.2.1 e
  have hext : ∀ r r' : Ref, r.ino = i ∧ r.slot = S → r'.ino = i ∧ r'.slot = S →
      r.ent = r'.ent → r' = r := by
    intro r r' hc hc' he
    cases r; cases r'
    simp only at he hc hc'
    simp only [Ref.mk.injEq]
    exact ⟨by rw [hc.1, hc'.1], by rw [hc.2, hc'.2], he.symm⟩
  apply h.update (fun r => r.ino = i ∧ r.slot = S) hold
  · intro r hr hc hne _
    exact hmono r (hold r hr hc).1 hc hne
  · intro r hr hc hne
    rcases hkind r hr hc hne with ⟨he, hv⟩ | ⟨he, hv⟩
    · rw [hv]
      refine ⟨hres, fun r' hr' _ => hfresh r' hr', ?_⟩
      intro r' hr' hc' heq
      rcases hkind r' hr' hc' (by rw [heq]; omega) with ⟨he', _⟩ | ⟨_, hv'⟩
      · exact hext r r' hc hc' (by rw [he, he'])
      · exfalso
        have hab : a = (b : Int) := by rw [← hv', heq]
        exact (hnew (by rw [hab]; omega)).2.1 hab
    · rw [hv] at hne ⊢
      obtain ⟨h1, h2, h3⟩ := hnew hne
      refine ⟨h1, fun r' hr' _ => h3 r' hr', ?_⟩
      intro r' hr' hc' heq
      rcases hkind r' hr' hc' (by rw [heq]; exact hne) with ⟨_, hv'⟩ | ⟨he', _⟩
      · exfalso
        exact h2 (by rw [← heq, hv'])
      · exact hext r r' hc hc' (by rw [he, he'])

end FFSys

end ffsys


namespace ffsys
namespace FFSys

/-! ## Operations on the in-memory inode -/

theorem get_eq (s : FFSys) (x : INode) (L : Nat) :
    s.get_file_block_address x L =
      if L < 15 then x.blocks.getD L 0
      else if (L - 15) / s.sb_.address_block_capacity + 15 ≥ 20
          ∨ x.blocks.getD ((L - 15) / s.sb_.address_block_capacity + 15) 0 = -1 then -1
      else s.address_entry (x.blocks.getD ((L - 15) / s.sb_.address_block_capacity + 15) 0)
            ((L - 15) % s.sb_.address_block_capacity) := rfl

theorem view_with_same (s : FFSys) (i : Nat) (bl : List Int) : s.view_with i bl i = bl := by
  unfold view_with; rw [if_pos rfl]

theorem view_with_ne (s : FFSys) (i j : Nat) (bl : List Int) (h : j ≠ i) :
    s.view_with i bl j = (s.read_inode j).blocks := by
  unfold view_with; rw [if_neg h]

/-- A mapped logical block is stored at an existing place. -/
theorem get_is_ref {s : FFSys} {B : Nat} (hs : s.Layout B) (x : INode) (L : Nat)
    (hl : s.live x.index) (h : s.get_file_block_address x L ≠ -1) :
    (s.data_ref x.index L).ok s (s.view_with x.index x.blocks)
      ∧ (s.data_ref x.index L).val s (s.view_with x.index x.blocks)
          = s.get_file_block_address x L := by
  have hB := hs.hB
  rw [get_eq] at h ⊢
  unfold data_ref
  by_cases h15 : L < 15
  · rw [if_pos h15] at h ⊢
    rw [if_pos h15]
    refine ⟨⟨hl, by show L < 20; omega, trivial⟩, ?_⟩
    unfold Ref.val
    simp only
    rw [view_with_same]
  · rw [if_neg h15] at h ⊢
    rw [if_neg h15]
    by_cases hc : (L - 15) / s.sb_.address_block_capacity + 15 ≥ 20
        ∨ x.blocks.getD ((L - 15) / s.sb_.address_block_capacity + 15) 0 = -1
    · rw [if_pos hc] at h
      exact absurd rfl h
    · rw [if_neg hc]
      have hc1 : (L - 15) / s.sb_.address_block_capacity + 15 < 20 := by
        by_contra e; exact hc (Or.inl (by omega))
      have hc2 : x.blocks.getD ((L - 15) / s.sb_.address_block_capacity + 15) 0 ≠ -1 :=
        fun e => hc (Or.inr e)
      have hcap : 0 < s.sb_.address_block_capacity := by
        rw [hs.address_block_capacity]; omega
      refine ⟨⟨hl, hc1, ?_⟩, ?_⟩
      · simp only
        rw [view_with_same]
        exact ⟨Nat.le_add_left 15 _, Nat.mod_lt _ hcap, hc2⟩
      · unfold Ref.val
        simp only
        rw [view_with_same]

theorem InvX.transfer {s t : FFSys} {B : Nat} {x y : INode} (h : s.InvX B x)
    (hb : t.Basic B) (hibm : t.inode_bitmap_ = s.inode_bitmap_)
    (hof : t.open_files_ = s.open_files_) (hidx : y.index = x.index) (hwf : y.WF)
    (hino : ∀ j, j < 8 * B → j ≠ x.index → t.read_inode j = s.read_inode j)
    (hrefs : t.RefsV (t.view_with y.index y.blocks)) : t.InvX B y := by
  have hlive : ∀ j, t.live j ↔ s.live j := h.basic.layout.live_congr hb.layout hibm
  refine ⟨hb, hrefs, ?_, ?_, ?_, ?_, hwf⟩
  · intro j hj hne
    rw [hidx] at hne
    have hj' := (hlive j).mp hj
    rw [hino j (h.basic.layout.live_lt hj') hne]
    exact h.index j hj' hne
  · intro f hf
    rw [hof] at hf
    exact (hlive _).mpr (h.handles f hf)
  · intro f hf
    rw [hof] at hf
    exact h.pos_lt f hf
  · rw [hidx]; exact (hlive _).mpr h.live_x

theorem InvX.view_other {s t : FFSys} {B : Nat} {x : INode} (h : s.InvX B x) (bl : List Int)
    (hino : ∀ j, j < 8 * B → j ≠ x.index → t.read_inode j = s.read_inode j) :
    ∀ j, s.live j → j ≠ x.index → t.view_with x.index bl j = s.view_with x.index x.blocks j := by
  intro j hj hne
  rw [view_with_ne _ _ _ _ hne, view_with_ne _ _ _ _ hne, hino j (h.basic.layout.live_lt hj) hne]

/-- Inodes other than those whose record is overwritten read the same. -/
theorem Layout.read_inode_of_table {s t : FFSys} {B : Nat} (hs : s.Layout B)
    (ht : t.Layout B)
    (h : ∀ off, 3 * B ≤ off → off < 963 * B → t.fs_ off = s.fs_ off) :
    ∀ j, j < 8 * B → t.read_inode j = s.read_inode j := by
  intro j hj
  apply hs.read_inode_congr ht j hj
  intro k hk
  exact h _ (by omega) (by omega)

/-- Nothing that stores addresses changes. -/
theorem InvX.same {s t : FFSys} {B : Nat} {x : INode} (h : s.InvX B x)
    (hb : t.Basic B) (hibm : t.inode_bitmap_ = s.inode_bitmap_)
    (hof : t.open_files_ = s.open_files_)
    (htable : ∀ off, 3 * B ≤ off → off < 963 * B → t.fs_ off = s.fs_ off)
    (hdbm : ∀ n, n < 8 * B → s.data_block_bitmap_.is_free n = false →
      t.data_block_bitmap_.is_free n = false)
    (hdisk : ∀ (i S T n : Nat), s.live i → (s.view_with x.index x.blocks i).getD S 0 = (n : Int) →
      n < 8 * B → s.data_block_bitmap_.is_free n = false → 15 ≤ S → S < 20 → T < B / 4 →
      ∀ k, k < 4 → t.fs_ (963 * B + n * B + T * 4 + k) = s.fs_ (963 * B + n * B + T * 4 + k)) :
    t.InvX B x := by
  have hino := fun j hj (_ : j ≠ x.index) =>
    h.basic.layout.read_inode_of_table hb.layout htable j hj
  apply h.transfer hb hibm hof rfl h.wf hino
  apply h.refs.refs_same h.basic.layout hb.layout hibm _ hdbm hdisk
  intro j hj
  by_cases e : j = x.index
  · rw [e, view_with_same, view_with_same]
  · exact h.view_other x.blocks hino j hj e

theorem InvX.with_errnum {s : FFSys} {B : Nat} {x : INode} (h : s.InvX B x) (e : ErrorNumber) :
    InvX { s with errnum_ := e } B x :=
  h.same (h.basic.basic_of_errnum e) rfl rfl (fun _ _ _ => rfl) (fun _ _ hn => hn)
    (fun _ _ _ _ _ _ _ _ _ _ _ _ _ => rfl)

theorem Frame.frame_refl (s : FFSys) (B : Nat) : s.Frame s B := ⟨fun _ _ => rfl, rfl, rfl⟩

theorem Frame.frame_trans {s t u : FFSys} {B : Nat} (h1 : s.Frame t B) (h2 : t.Frame u B) :
    s.Frame u B :=
  ⟨fun off h => (h2.fs_high off h).trans (h1.fs_high off h), h2.ibm.trans h1.ibm,
    h2.open_files.trans h1.open_files⟩

theorem Frame.frame_of_errnum (s : FFSys) (B : Nat) (e : ErrorNumber) :
    s.Frame { s with errnum_ := e } B := ⟨fun _ _ => rfl, rfl, rfl⟩

/-- A change of the data-block bitmap that keeps reserved blocks reserved. -/
theorem InvX.with_data_bitmap {s : FFSys} {B : Nat} {x : INode} (h : s.InvX B x)
    (bm : Bitmap) (k : Nat) (hk : k < B) (hsize : bm.size_ = B)
    (hbytes : ∀ y, y ∈ bm.bm_ → y < 256)
    (hsame : ∀ j, j ≠ k → bm.bm_.getD j 0 = s.data_block_bitmap_.bm_.getD j 0)
    (hmono : ∀ n, n < 8 * B → s.data_block_bitmap_.is_free n = false → bm.is_free n = false) :
    (s.with_data_bitmap bm k).InvX B x := by
  obtain ⟨hb, hf⟩ := h.basic.basic_with_data_bitmap bm k hk hsize hbytes hsame
  have hB := h.basic.layout.hB
  exact h.same hb hf.ibm hf.open_files (fun off h1 _ => hf.fs_high off h1) hmono
    (fun _ _ _ _ _ _ _ _ _ _ _ _ _ => hf.fs_high _ (by omega))

/-- `reserve_data_block` keeps the invariant; the block it returns is reserved and is
stored nowhere. -/
theorem InvX.reserve_data_block {s : FFSys} {B : Nat} {x : INode} (h : s.InvX B x) :
    s.reserve_data_block.2.InvX B x ∧ s.Frame s.reserve_data_block.2 B
      ∧ (∀ c, s.unref x c → s.reserve_data_block.2.unref x c)
      ∧ (s.reserve_data_block.1 = -1
          ∨ ∃ a : Nat, s.reserve_data_block.1 = (a : Int) ∧ a < B
              ∧ s.data_block_bitmap_.is_free a = true
              ∧ s.reserve_data_block.2.data_block_bitmap_.is_free a = false
              ∧ (∀ n, n ≠ a → s.reserve_data_block.2.data_block_bitmap_.is_free n
                    = s.data_block_bitmap_.is_free n)
              ∧ ∀ r : Ref, r.ok s.reserve_data_block.2
                    (s.reserve_data_block.2.view_with x.index x.blocks) →
                  r.val s.reserve_data_block.2
                    (s.reserve_data_block.2.view_with x.index x.blocks) ≠ (a : Int)) := by
  have hb := h.basic
  rcases Bitmap.reserve_first_free_spec s.data_block_bitmap_ with
    ⟨h1, h2, _⟩ | ⟨a, h1, h2, _, h4, h5⟩
  · rw [reserve_data_block_fail h1 h2]
    refine ⟨h.with_errnum _, Frame.frame_of_errnum _ _ _, ?_, Or.inl rfl⟩
    intro c hc r hr
    exact hc r hr
  · rw [hb.dbm_size] at h1
    rw [reserve_data_block_eq hb a h1 h2 h4 h5]
    have hfree' : ∀ n, (s.data_block_bitmap_.reserve a).2.is_free n
        = (decide (n ≠ a) && s.data_block_bitmap_.is_free n) :=
      fun n => Bitmap.is_free_reserve _ a n h2
    have hx : (s.with_data_bitmap (s.data_block_bitmap_.reserve a).2 (a / 8)).InvX B x := by
      apply h.with_data_bitmap _ _ (by omega)
      · rw [Bitmap.reserve_size]; exact hb.dbm_size
      · exact Bitmap.reserve_bytes _ _ hb.dbm_bytes
      · intro j hj; exact reserve_getD_ne _ _ _ hj
      · intro n _ hn
        rw [hfree' n, hn]; simp
    have hfr := (hb.basic_with_data_bitmap (s.data_block_bitmap_.reserve a).2 (a / 8) (by omega)
      (by rw [Bitmap.reserve_size]; exact hb.dbm_size)
      (Bitmap.reserve_bytes _ _ hb.dbm_bytes) (fun j hj => reserve_getD_ne _ _ _ hj)).2
    have hs := hb.layout
    have ht := hx.basic.layout
    have hview : ∀ r : Ref, ¬ False → s.live r.ino →
        ((s.with_data_bitmap (s.data_block_bitmap_.reserve a).2 (a / 8)).view_with
            x.index x.blocks r.ino).getD r.slot 0
          = (s.view_with x.index x.blocks r.ino).getD r.slot 0 := by
      intro r _ hl
      by_cases e : r.ino = x.index
      · rw [e, view_with_same, view_with_same]
      · rw [view_with_ne _ _ _ _ e, view_with_ne _ _ _ _ e,
          hs.read_inode_of_table ht (fun off h1 _ => hfr.fs_high off h1) _ (hs.live_lt hl)]
    have hold := h.refs.hold_of hs ht hfr.ibm (fun _ => False) hview
      (fun _ _ _ _ _ _ _ _ k _ => hfr.fs_high _ (by have := hs.hB; omega))
    refine ⟨hx, hfr, ?_, Or.inr ⟨a, rfl, h1, h2, ?_, ?_, ?_⟩⟩
    · intro c hc r hr heq
      obtain ⟨h6, h7⟩ := hold r hr id
      exact hc r h6 (h7 ▸ heq)
    · show (s.data_block_bitmap_.reserve a).2.is_free a = false
      rw [hfree' a]; simp
    · intro n hn
      show (s.data_block_bitmap_.reserve a).2.is_free n = _
      rw [hfree' n]; simp [hn]
    · -- the values are those of `s`, where block `a` is free
      intro r hr heq
      obtain ⟨h6, h7⟩ := hold r hr id
      exact h.refs.fresh_of_free hs a h2 r h6 (h7 ▸ heq)

theorem Layout.write_data_eq {s : FFSys} {B : Nat} (hs : s.Layout B) (m : Nat) (src : Mem)
    (c o : Nat) (hm : m < 8 * B) :
    s.write_block (u32 ((s.sb_.data_blocks_start_i : Int) + (m : Int))) src c o
      = s.write_at (963 * B + m * B + o) src c := by
  unfold write_block write_at
  rw [hs.data_pos m o hm]

/-- A write inside data block `m`, which is not an address block. -/
theorem InvX.write_data {s : FFSys} {B : Nat} {x : INode} (h : s.InvX B x) (m o c : Nat)
    (src : Mem) (hm : m < 8 * B) (hoc : o + c ≤ B) (hsrc : ∀ k, k < c → src k < 256)
    (hna : ∀ i S, s.live i → 15 ≤ S → S < 20 →
      (s.view_with x.index x.blocks i).getD S 0 ≠ (m : Int)) :
    (s.write_at (963 * B + m * B + o) src c).InvX B x := by
  have hB := h.basic.layout.hB
  apply h.same (h.basic.fs_write_high _ _ _ (by omega) hsrc) rfl rfl
  · intro off h1 h2
    exact fs_write_out _ _ _ _ _ (by omega)
  · intro n _ hn; exact hn
  · intro i S T n hi hn hn8 _ hS hS2 hT k hk
    have hne : n ≠ m := by
      intro e
      apply hna i S hi hS hS2
      rw [hn, e]
    apply fs_write_out
    rcases Nat.lt_or_gt_of_ne hne with hlt | hgt
    · have := mul_block_lt n m B hlt
      left; omega
    · have := mul_block_lt m n B hgt
      right; omega

/-- A mapped block of the file is not an address block of any file. -/
theorem InvX.get_not_address_block {s : FFSys} {B : Nat} {x : INode} (h : s.InvX B x)
    (L : Nat) (hne : s.get_file_block_address x L ≠ -1) :
    ∀ i S, s.live i → 15 ≤ S → S < 20 →
      (s.view_with x.index x.blocks i).getD S 0 ≠ s.get_file_block_address x L := by
  intro i S hi hS hS2 heq
  obtain ⟨h1, h2⟩ := get_is_ref h.basic.layout x L h.live_x hne
  have hok : Ref.ok s (s.view_with x.index x.blocks) ⟨i, S, none⟩ := ⟨hi, hS2, trivial⟩
  have hv : Ref.val s (s.view_with x.index x.blocks) ⟨i, S, none⟩
      = s.get_file_block_address x L := heq
  have := h.refs.inj _ _ h1 hok (by rw [h2]; exact hne) (by rw [h2, hv])
  unfold data_ref at this
  split_ifs at this with h15
  · simp only [Ref.mk.injEq] at this
    omega
  · simp only [Ref.mk.injEq] at this
    exact absurd this.2.2 (by simp)

/-- A mapped block of the file is a reserved data block. -/
theorem InvX.get_reserved {s : FFSys} {B : Nat} {x : INode} (h : s.InvX B x)
    (L : Nat) (hne : s.get_file_block_address x L ≠ -1) :
    ∃ n : Nat, s.get_file_block_address x L = (n : Int) ∧ n < 8 * B
      ∧ s.data_block_bitmap_.is_free n = false := by
  obtain ⟨h1, h2⟩ := get_is_ref h.basic.layout x L h.live_x hne
  have := h.refs.rsv _ h1 (by rw [h2]; exact hne)
  rw [h2] at this
  exact (h.basic.layout.reserved_iff _).mp this

theorem int32_bytes_lt (a : Int) (k : Nat) : int32_bytes a k < 256 := le_byte_lt _ _

theorem Layout.address_entry_write {s : FFSys} {B : Nat} (hs : s.Layout B) (n T : Nat)
    (a : Int) (hn : n < 8 * B) (h0 : -2147483648 ≤ a) (h1 : a < 2147483648) :
    (s.write_at (963 * B + n * B + T * 4) (int32_bytes a) 4).address_entry (n : Int) T
      = a := by
  have ht : (s.write_at (963 * B + n * B + T * 4) (int32_bytes a) 4).Layout B :=
    hs.of_sb rfl
  rw [ht.address_entry_eq n T hn]
  have : le32 (fs_write s.fs_ (963 * B + n * B + T * 4) (int32_bytes a) 4)
      (963 * B + n * B + T * 4) = u32 a := by
    apply le32_eq _ _ _ (u32_lt a)
    intro j hj
    rw [fs_write_in _ _ _ _ _ (by omega) (by omega)]
    unfold int32_bytes
    congr 1
    omega
  show i32 (le32 (fs_write s.fs_ (963 * B + n * B + T * 4) (int32_bytes a) 4)
      (963 * B + n * B + T * 4)) = a
  rw [this, i32_u32 a h0 h1]

theorem le32_all_ones (m : Mem) (p : Nat) (h : ∀ j, j < 4 → m (p + j) = 255) :
    i32 (le32 m p) = -1 := by
  have : le32 m p = 4294967295 := by
    unfold le32
    have h0 := h 0 (by omega)
    rw [Nat.add_zero] at h0
    rw [h0, h 1 (by omega), h 2 (by omega), h 3 (by omega)]
  rw [this, i32_minus_one]


end FFSys

theorem INode.set_block_wf (x : INode) (hx : x.WF) (k : Nat) (a : Int)
    (h0 : -2147483648 ≤ a) (h1 : a < 2147483648) : (x.set_block k a).WF := by
  refine ⟨hx.index_lt, hx.name_len, hx.name_lt, hx.size_lt, ?_, ?_, hx.created_lt⟩
  · show (x.blocks.set k a).length = 20
    rw [List.length_set]; exact hx.blocks_len
  · intro b hb
    rcases List.mem_or_eq_of_mem_set hb with h | h
    · exact hx.blocks_range b h
    · rw [h]; exact ⟨h0, h1⟩

theorem INode.set_block_getD (x : INode) (hx : x.WF) (k : Nat) (a : Int) (hk : k < 20)
    (j : Nat) : (x.set_block k a).blocks.getD j 0 = if j = k then a else x.blocks.getD j 0 := by
  show (x.blocks.set k a).getD j 0 = _
  rw [getD_set_eq]
  by_cases e : j = k
  · rw [if_pos e, if_pos ⟨e.symm, by rw [hx.blocks_len]; exact hk⟩]
  · rw [if_neg e, if_neg (fun h => e h.1.symm)]

@[simp] theorem INode.set_block_index (x : INode) (k : Nat) (a : Int) :
    (x.set_block k a).index = x.index := rfl

@[simp] theorem INode.set_block_size (x : INode) (k : Nat) (a : Int) :
    (x.set_block k a).size = x.size := rfl

theorem INode.set_block_self (x : INode) (k : Nat) (h : x.blocks.getD k 0 = a)
    (hk : k < x.blocks.length) : x.set_block k a = x := by
  unfold INode.set_block
  have : x.blocks.set k a = x.blocks := by
    rw [List.getD_eq_getElem _ _ hk] at h
    apply List.ext_getElem?
    intro j
    rw [List.getElem?_set]
    by_cases e : k = j
    · rw [if_pos e, if_pos hk, ← h, ← e, List.getElem?_eq_getElem hk]
    · rw [if_neg e]
  rw [this]

namespace FFSys

/-- The in-memory table changes in one slot: to `-1`, or (direct slots only) to the
address of a reserved block that is stored nowhere. -/
theorem InvX.set_slot {s : FFSys} {B : Nat} {x : INode} (h : s.InvX B x) (k : Nat) (a : Int)
    (hk : k < 20) (hka : 15 ≤ k → a = -1)
    (hnew : a ≠ -1 → s.reserved a
      ∧ ∀ r : Ref, r.ok s (s.view_with x.index x.blocks) →
          r.val s (s.view_with x.index x.blocks) ≠ a) :
    s.InvX B (x.set_block k a) := by
  have hs := h.basic.layout
  have hrange : -2147483648 ≤ a ∧ a < 2147483648 := by
    by_cases e : a = -1
    · rw [e]; omega
    · obtain ⟨n, h1, h2, _⟩ := (hs.reserved_iff a).mp (hnew e).1
      have := hs.hB8
      omega
  apply h.transfer h.basic rfl rfl (x.set_block_index k a)
    (x.set_block_wf h.wf k a hrange.1 hrange.2)
    (fun _ _ _ => rfl)
  rw [INode.set_block_index]
  apply h.refs.refs_set_slot hs hs rfl x.index k a hka
  · intro j
    rw [view_with_same, view_with_same]
    exact x.set_block_getD h.wf k a hk j
  · intro j _ hne
    rw [view_with_ne _ _ _ _ hne, view_with_ne _ _ _ _ hne]
  · intro _ _; rfl
  · intro r hr _ hne
    exact h.refs.rsv r hr hne
  · intro hne
    exact ⟨(hnew hne).1, fun r hr _ => (hnew hne).2 r hr⟩

/-- The block named by a slot of the in-memory table is freed and the slot set to `-1`. -/
theorem InvX.free_slot {s : FFSys} {B : Nat} {x : INode} (h : s.InvX B x) (k n : Nat)
    (hk : k < 20) (hn : x.blocks.getD k 0 = (n : Int)) :
    (s.with_data_bitmap (s.data_block_bitmap_.free n).2 (n / 8)).InvX B (x.set_block k (-1))
      ∧ s.free_data_block (n : Int)
          = (true, s.with_data_bitmap (s.data_block_bitmap_.free n).2 (n / 8)) := by
  have hs := h.basic.layout
  have hB8 := hs.hB8
  have hr0 : Ref.ok s (s.view_with x.index x.blocks) ⟨x.index, k, none⟩ :=
    ⟨h.live_x, hk, trivial⟩
  have hv0 : Ref.val s (s.view_with x.index x.blocks) ⟨x.index, k, none⟩ = (n : Int) := by
    unfold Ref.val; simp only; rw [view_with_same]; exact hn
  have hres := h.refs.rsv _ hr0 (by rw [hv0]; omega)
  rw [hv0] at hres
  obtain ⟨n', e1, hn8, hnres⟩ := (hs.reserved_iff _).mp hres
  have e2 : n' = n := by omega
  rw [e2] at hn8 hnres
  have hfree' : ∀ m, (s.data_block_bitmap_.free n).2.is_free m
      = (decide (m = n) || s.data_block_bitmap_.is_free m) :=
    fun m => Bitmap.is_free_free _ n m hnres (by rw [h.basic.dbm_size]; exact hn8)
  obtain ⟨hb, hf⟩ := h.basic.basic_with_data_bitmap (s.data_block_bitmap_.free n).2 (n / 8)
    (by omega) (by rw [Bitmap.free_size]; exact h.basic.dbm_size)
    (Bitmap.free_bytes _ _ h.basic.dbm_bytes) (fun j hj => free_getD_ne _ _ _ hj)
  have ht := hb.layout
  refine ⟨?_, free_data_block_eq h.basic n hn8 hnres⟩
  have hino := hs.read_inode_of_table ht (fun off h1 _ => hf.fs_high off h1)
  apply h.transfer hb hf.ibm hf.open_files (x.set_block_index k (-1))
    (x.set_block_wf h.wf k (-1) (by omega) (by omega)) (fun j hj _ => hino j hj)
  rw [INode.set_block_index]
  apply h.refs.refs_set_slot hs ht hf.ibm x.index k (-1) (fun _ => rfl)
  · intro j
    rw [view_with_same, view_with_same]
    exact x.set_block_getD h.wf k (-1) hk j
  · intro j hj hne
    rw [view_with_ne _ _ _ _ hne, view_with_ne _ _ _ _ hne, hino j (hs.live_lt hj)]
  · intro off hoff
    exact hf.fs_high off (by have := hs.hB; omega)
  · intro r hr hc hne
    obtain ⟨m, hm1, hm2, hm3⟩ := (hs.reserved_iff _).mp (h.refs.rsv r hr hne)
    refine (ht.reserved_iff _).mpr ⟨m, hm1, hm2, ?_⟩
    show (s.data_block_bitmap_.free n).2.is_free m = false
    rw [hfree' m, hm3]
    have hmn : m ≠ n := by
      intro e
      have := h.refs.inj r ⟨x.index, k, none⟩ hr hr0 hne (by rw [hv0, hm1, e])
      apply hc
      rw [this]
      exact ⟨rfl, rfl⟩
    simp [hmn]
  · intro hne
    exact absurd rfl hne

/-- Writing the in-memory inode to its slot keeps the invariant around it. -/
theorem InvX.write_inode {s : FFSys} {B : Nat} {x : INode} (h : s.InvX B x) :
    (s.write_inode x).InvX B x := by
  have hs := h.basic.layout
  have hi : x.index < 8 * B := hs.live_lt h.live_x
  rw [show s.write_inode x = s.write_at (s.inode_start x.index) x.bytes INODE_SIZE from rfl,
    hs.inode_start_eq _ hi]
  have hb : (s.write_at (3 * B + 120 * x.index) x.bytes INODE_SIZE).Basic B :=
    h.basic.fs_write_high _ _ _ (by omega) (fun k _ => INode.record_bytes_lt x h.wf k)
  have ht := hb.layout
  have hino : ∀ j, j < 8 * B → j ≠ x.index →
      (s.write_at (3 * B + 120 * x.index) x.bytes INODE_SIZE).read_inode j = s.read_inode j := by
    intro j hj hne
    apply hs.read_inode_congr ht j hj
    intro k hk
    apply fs_write_out
    unfold INODE_SIZE
    omega
  apply h.transfer hb rfl rfl rfl h.wf hino
  apply h.refs.refs_same hs ht rfl
  · intro j hj
    by_cases e : j = x.index
    · rw [e, view_with_same, view_with_same]
    · exact h.view_other x.blocks hino j hj e
  · intro n _ hn; exact hn
  · intro i S T n _ _ hn _ _ _ hT k hk
    apply fs_write_out
    unfold INODE_SIZE
    omega

/-- Entry `T` of the address block in slot `S` of the in-memory inode is overwritten;
`s1` is the state before the write, which differs from `s` at most in the data-block
bitmap and its on-disk copies. -/
theorem InvX.set_entry {s s1 : FFSys} {B : Nat} {x : INode} (h : s.InvX B x)
    (hb1 : s1.Basic B) (hf : s.Frame s1 B) (S T b : Nat) (a : Int)
    (hS : 15 ≤ S) (hS2 : S < 20) (hT : T < B / 4) (hb : x.blocks.getD S 0 = (b : Int))
    (h0 : -2147483648 ≤ a) (h1 : a < 2147483648)
    (hmono : ∀ r : Ref, r.ok s (s.view_with x.index x.blocks) → r ≠ ⟨x.index, S, some T⟩ →
      r.val s (s.view_with x.index x.blocks) ≠ -1 →
      s1.reserved (r.val s (s.view_with x.index x.blocks)))
    (hnew : a ≠ -1 → s1.reserved a
      ∧ ∀ r : Ref, r.ok s (s.view_with x.index x.blocks) → r ≠ ⟨x.index, S, some T⟩ →
          r.val s (s.view_with x.index x.blocks) ≠ a) :
    (s1.write_at (963 * B + b * B + T * 4) (int32_bytes a) 4).InvX B x := by
  have hs := h.basic.layout
  have hs1 := hb1.layout
  have hB := hs.hB
  have hr0 : Ref.ok s (s.view_with x.index x.blocks) ⟨x.index, S, none⟩ :=
    ⟨h.live_x, hS2, trivial⟩
  have hv0 : Ref.val s (s.view_with x.index x.blocks) ⟨x.index, S, none⟩ = (b : Int) := by
    unfold Ref.val; simp only; rw [view_with_same]; exact hb
  obtain ⟨b', e1, hb8, _⟩ := (hs.reserved_iff _).mp
    (h.refs.rsv _ hr0 (by rw [hv0]; omega))
  rw [hv0] at e1
  have e2 : b' = b := by omega
  rw [e2] at hb8
  have hbt : (s1.write_at (963 * B + b * B + T * 4) (int32_bytes a) 4).Basic B :=
    hb1.fs_write_high _ _ _ (by omega) (fun k _ => int32_bytes_lt a k)
  have ht := hbt.layout
  have htable : ∀ off, 3 * B ≤ off → off < 963 * B →
      (s1.write_at (963 * B + b * B + T * 4) (int32_bytes a) 4).fs_ off = s.fs_ off := by
    intro off h3 h4
    rw [← hf.fs_high off h3]
    exact fs_write_out _ _ _ _ _ (by omega)
  have hino := hs.read_inode_of_table ht htable
  apply h.transfer hbt hf.ibm hf.open_files rfl h.wf (fun j hj _ => hino j hj)
  apply h.refs.refs_set_entry hs ht hf.ibm x.index S T b a h.live_x hS hS2 hT
  · rw [view_with_same]; exact hb
  · intro j hj
    by_cases e : j = x.index
    · rw [e, view_with_same, view_with_same]
    · rw [view_with_ne _ _ _ _ e, view_with_ne _ _ _ _ e, hino j (hs.live_lt hj)]
  · intro off h3 h4
    rw [← hf.fs_high off (by omega)]
    exact fs_write_out _ _ _ _ _ (by omega)
  · exact hs1.address_entry_write b T a hb8 h0 h1
  · intro r hr hne hv
    obtain ⟨m, hm1, hm2, hm3⟩ := (hs1.reserved_iff _).mp (hmono r hr hne hv)
    exact (ht.reserved_iff _).mpr ⟨m, hm1, hm2, hm3⟩
  · intro hne
    obtain ⟨hr1, hr2⟩ := hnew hne
    obtain ⟨m, hm1, hm2, hm3⟩ := (hs1.reserved_iff _).mp hr1
    exact ⟨(ht.reserved_iff _).mpr ⟨m, hm1, hm2, hm3⟩, hr2⟩

theorem Layout.write_inode_eq {s : FFSys} {B : Nat} (hs : s.Layout B) (x : INode)
    (hi : x.index < 8 * B) :
    s.write_inode x = s.write_at (3 * B + 120 * x.index) x.bytes 120 := by
  unfold write_inode write_at
  rw [hs.inode_start_eq _ hi]
  rfl

@[simp] theorem write_at_fs (s : FFSys) (pos : Nat) (src : Mem) (n : Nat) :
    (s.write_at pos src n).fs_ = fs_write s.fs_ pos src n := rfl
@[simp] theorem write_at_sb (s : FFSys) (pos : Nat) (src : Mem) (n : Nat) :
    (s.write_at pos src n).sb_ = s.sb_ := rfl
@[simp] theorem write_at_ibm (s : FFSys) (pos : Nat) (src : Mem) (n : Nat) :
    (s.write_at pos src n).inode_bitmap_ = s.inode_bitmap_ := rfl
@[simp] theorem write_at_dbm (s : FFSys) (pos : Nat) (src : Mem) (n : Nat) :
    (s.write_at pos src n).data_block_bitmap_ = s.data_block_bitmap_ := rfl
@[simp] theorem write_at_open_files (s : FFSys) (pos : Nat) (src : Mem) (n : Nat) :
    (s.write_at pos src n).open_files_ = s.open_files_ := rfl
@[simp] theorem write_at_errnum (s : FFSys) (pos : Nat) (src : Mem) (n : Nat) :
    (s.write_at pos src n).errnum_ = s.errnum_ := rfl

theorem Basic.write_at {s : FFSys} {B : Nat} (h : s.Basic B) (pos : Nat) (src : Mem)
    (n : Nat) (hpos : 3 * B ≤ pos) (hsrc : ∀ k, k < n → src k < 256) :
    (s.write_at pos src n).Basic B := h.fs_write_high pos src n hpos hsrc

/-- A reserved block `b` that is stored nowhere is initialised as an address block, put
into the empty indirect slot `S` of the in-memory inode, the inode is written, and entry
`T` of the new address block is set to `a`. -/
theorem InvX.new_address_block {s : FFSys} {B : Nat} {x : INode} (h : s.InvX B x)
    (S b T : Nat) (a : Int) (hS2 : S < 20) (hT : T < B / 4) (hb8 : b < 8 * B)
    (hres : s.data_block_bitmap_.is_free b = false) (hfresh : s.unref x (b : Int))
    (h0 : -2147483648 ≤ a) (h1 : a < 2147483648)
    (hnew : a ≠ -1 → s.reserved a ∧ a ≠ (b : Int) ∧ s.unref x a) :
    (((s.write_at (963 * B + b * B) empty_address_block_buffer (B / 4 * 4)).write_at
        (3 * B + 120 * x.index) (x.set_block S (b : Int)).bytes 120).write_at
        (963 * B + b * B + T * 4) (int32_bytes a) 4).InvX B (x.set_block S (b : Int))
      ∧ (((s.write_at (963 * B + b * B) empty_address_block_buffer (B / 4 * 4)).write_at
        (3 * B + 120 * x.index) (x.set_block S (b : Int)).bytes 120).write_at
        (963 * B + b * B + T * 4) (int32_bytes a) 4).address_entry (b : Int) T = a := by
  have hs := h.basic.layout
  have hB := hs.hB
  have hB8 := hs.hB8
  have hi : x.index < 8 * B := hs.live_lt h.live_x
  have hwf := x.set_block_wf h.wf S b (by omega) (by omega)
  have hb1 : (s.write_at (963 * B + b * B) empty_address_block_buffer (B / 4 * 4)).Basic B :=
    h.basic.write_at _ _ _ (by omega) (fun k _ => by
      show (255 : Nat) < 256
      omega)
  have hb2 := hb1.write_at (3 * B + 120 * x.index) (x.set_block S (b : Int)).bytes 120
    (by omega) (fun k _ => INode.record_bytes_lt _ hwf k)
  have hb3 := hb2.write_at (963 * B + b * B + T * 4) (int32_bytes a) 4 (by omega)
    (fun k _ => int32_bytes_lt a k)
  have hent0 := hb2.layout.address_entry_write b T a hb8 h0 h1
  refine ⟨?_, hent0⟩
  have ht := hb3.layout
  have hino : ∀ j, j < 8 * B → j ≠ x.index →
      (((s.write_at (963 * B + b * B) empty_address_block_buffer (B / 4 * 4)).write_at
        (3 * B + 120 * x.index) (x.set_block S (b : Int)).bytes 120).write_at
        (963 * B + b * B + T * 4) (int32_bytes a) 4).read_inode j = s.read_inode j := by
    intro j hj hne
    apply hs.read_inode_congr ht j hj
    intro k hk
    rw [write_at_fs, write_at_fs, write_at_fs, fs_write_out _ _ _ _ _ (by omega), fs_write_out _ _ _ _ _ (by omega),
      fs_write_out _ _ _ _ _ (by omega)]
  apply h.transfer hb3 rfl rfl (x.set_block_index S b) hwf hino
  rw [INode.set_block_index]
  apply h.refs.add_address_block hs ht rfl x.index S b T a
  · intro j
    rw [view_with_same, view_with_same]
    exact x.set_block_getD h.wf S b hS2 j
  · intro j hj hne
    rw [view_with_ne _ _ _ _ hne, view_with_ne _ _ _ _ hne, hino j (hs.live_lt hj) hne]
  · intro off h3 h4
    rw [write_at_fs, write_at_fs, write_at_fs, fs_write_out _ _ _ _ _ (by omega), fs_write_out _ _ _ _ _ (by omega),
      fs_write_out _ _ _ _ _ (by omega)]
  · intro T' hT' hne
    rw [ht.address_entry_eq b T' hb8]
    apply le32_all_ones
    intro j hj
    rw [write_at_fs, write_at_fs, write_at_fs, fs_write_out _ _ _ _ _ (by omega), fs_write_out _ _ _ _ _ (by omega),
      fs_write_in _ _ _ _ _ (by omega) (by omega)]
    rfl
  · exact hent0
  · intro r hr _ hv
    obtain ⟨m, hm1, hm2, hm3⟩ := (hs.reserved_iff _).mp (h.refs.rsv r hr hv)
    exact (ht.reserved_iff _).mpr ⟨m, hm1, hm2, hm3⟩
  · exact (ht.reserved_iff _).mpr ⟨b, rfl, hb8, hres⟩
  · exact hfresh
  · intro hne
    obtain ⟨h3, h4, h5⟩ := hnew hne
    obtain ⟨m, hm1, hm2, hm3⟩ := (hs.reserved_iff _).mp h3
    exact ⟨(ht.reserved_iff _).mpr ⟨m, hm1, hm2, hm3⟩, h4, h5⟩

theorem set_eq_direct (s : FFSys) (x : INode) (L : Nat) (a : Int) (h : L < 15) :
    s.set_file_block_address x L a
      = (true, x.set_block L a, s.write_inode (x.set_block L a)) := by
  unfold set_file_block_address N_STATIC_FILE_BLOCKS
  rw [if_pos h]
  rfl

theorem set_eq_range (s : FFSys) (x : INode) (L : Nat) (a : Int) (h : ¬ L < 15)
    (h2 : (L - 15) / s.sb_.address_block_capacity + 15 ≥ 20) :
    s.set_file_block_address x L a = (false, x, s) := by
  unfold set_file_block_address N_STATIC_FILE_BLOCKS N_DYNAMIC_FILE_BLOCKS
  rw [if_neg h]
  simp only
  rw [if_pos h2]

theorem set_eq_entry (s : FFSys) (x : INode) (L : Nat) (a : Int) (h : ¬ L < 15)
    (h2 : ¬ (L - 15) / s.sb_.address_block_capacity + 15 ≥ 20)
    (h3 : x.blocks.getD ((L - 15) / s.sb_.address_block_capacity + 15) 0 ≠ -1) :
    s.set_file_block_address x L a
      = (true, x, s.write_block
          (u32 (s.sb_.data_blocks_start_i
            + x.blocks.getD ((L - 15) / s.sb_.address_block_capacity + 15) 0))
          (int32_bytes a) 4 ((L - 15) % s.sb_.address_block_capacity * 4)) := by
  unfold set_file_block_address N_STATIC_FILE_BLOCKS N_DYNAMIC_FILE_BLOCKS
  rw [if_neg h]
  simp only
  rw [if_neg h2, if_neg h3]

theorem set_eq_new (s : FFSys) (x : INode) (L : Nat) (a : Int) (h : ¬ L < 15)
    (h2 : ¬ (L - 15) / s.sb_.address_block_capacity + 15 ≥ 20)
    (h3 : x.blocks.getD ((L - 15) / s.sb_.address_block_capacity + 15) 0 = -1) :
    s.set_file_block_address x L a
      = if (x.set_block ((L - 15) / s.sb_.address_block_capacity + 15)
              s.initialize_address_block.1).blocks.getD
              ((L - 15) / s.sb_.address_block_capacity + 15) 0 = -1
        then (false, x.set_block ((L - 15) / s.sb_.address_block_capacity + 15)
                s.initialize_address_block.1, s.initialize_address_block.2)
        else (true, x.set_block ((L - 15) / s.sb_.address_block_capacity + 15)
                s.initialize_address_block.1,
              (s.initialize_address_block.2.write_inode
                (x.set_block ((L - 15) / s.sb_.address_block_capacity + 15)
                  s.initialize_address_block.1)).write_block
                (u32 (s.initialize_address_block.2.sb_.data_blocks_start_i
                  + (x.set_block ((L - 15) / s.sb_.address_block_capacity + 15)
                      s.initialize_address_block.1).blocks.getD
                      ((L - 15) / s.sb_.address_block_capacity + 15) 0))
                (int32_bytes a) 4 ((L - 15) % s.sb_.address_block_capacity * 4)) := by
  unfold set_file_block_address N_STATIC_FILE_BLOCKS N_DYNAMIC_FILE_BLOCKS
  rw [if_neg h]
  simp only
  rw [if_neg h2, if_pos h3]
  rfl

theorem initialize_address_block_eq (s : FFSys) :
    s.initialize_address_block
      = if s.reserve_data_block.1 = -1 then (-1, s.reserve_data_block.2)
        else (s.reserve_data_block.1,
          s.reserve_data_block.2.write_block
            (u32 (s.reserve_data_block.1 + s.reserve_data_block.2.sb_.data_blocks_start_i))
            empty_address_block_buffer
            (s.reserve_data_block.2.sb_.address_block_capacity * 4) 0) := rfl

theorem Layout.write_data_lit {s : FFSys} {B : Nat} (hs : s.Layout B) (m : Nat) (src : Mem)
    (c o : Nat) (hm : m < 8 * B) :
    s.write_block (u32 (((963 : Nat) : Int) + (m : Int))) src c o
      = s.write_at (963 * B + m * B + o) src c := by
  have := hs.write_data_eq m src c o hm
  rw [hs.data_blocks_start_i] at this
  exact this

/-- `set_file_block_address` with the address of a reserved block that is stored nowhere
keeps the invariant; on success the logical block resolves to that address. -/
theorem InvX.set_address_fresh {s : FFSys} {B : Nat} {x : INode} (h : s.InvX B x)
    (L a : Nat) (ha8 : a < 8 * B) (hres : s.data_block_bitmap_.is_free a = false)
    (hfresh : s.unref x (a : Int)) :
    (s.set_file_block_address x L a).2.2.InvX B (s.set_file_block_address x L a).2.1
      ∧ ((s.set_file_block_address x L a).1 = true →
          (s.set_file_block_address x L a).2.2.get_file_block_address
            (s.set_file_block_address x L a).2.1 L = (a : Int)) := by
  have hs := h.basic.layout
  have hB := hs.hB
  have hB8 := hs.hB8
  have hcap := hs.address_block_capacity
  have hcap0 : 0 < B / 4 := by omega
  have hi : x.index < 8 * B := hs.live_lt h.live_x
  have hares : s.reserved (a : Int) := (hs.reserved_iff _).mpr ⟨a, rfl, ha8, hres⟩
  by_cases h15 : L < 15
  · rw [set_eq_direct s x L a h15]
    have h1 := h.set_slot L a (by omega) (fun h' => by omega) (fun _ => ⟨hares, hfresh⟩)
    refine ⟨h1.write_inode, fun _ => ?_⟩
    rw [get_eq, if_pos h15]
    rw [x.set_block_getD h.wf L a (by omega) L, if_pos rfl]
  · by_cases h20 : (L - 15) / s.sb_.address_block_capacity + 15 ≥ 20
    · rw [set_eq_range s x L a h15 h20]
      exact ⟨h, fun h' => absurd h' (by simp)⟩
    · have hS2 : (L - 15) / (B / 4) + 15 < 20 := by rw [hcap] at h20; omega
      have hT : (L - 15) % (B / 4) < B / 4 := Nat.mod_lt _ hcap0
      by_cases hslot : x.blocks.getD ((L - 15) / s.sb_.address_block_capacity + 15) 0 = -1
      · -- a new address block is needed
        rw [set_eq_new s x L a h15 h20 hslot, initialize_address_block_eq]
        obtain ⟨hx1, hf1, hun1, hcase⟩ := h.reserve_data_block
        rcases hcase with hfail | ⟨b, hb1, hb2, hb3, hb4, hb5, hb6⟩
        · rw [if_pos hfail]
          simp only
          have hself : x.set_block ((L - 15) / s.sb_.address_block_capacity + 15) (-1) = x :=
            x.set_block_self _ hslot (by rw [h.wf.blocks_len, hcap]; exact hS2)
          rw [hself, if_pos hslot]
          exact ⟨hx1, fun h' => absurd h' (by simp)⟩
        · have hne : ¬ s.reserve_data_block.1 = -1 := by rw [hb1]; omega
          rw [if_neg hne]
          simp only
          have hs1 := hx1.basic.layout
          have hgetb : (x.set_block ((L - 15) / s.sb_.address_block_capacity + 15)
              s.reserve_data_block.1).blocks.getD
                ((L - 15) / s.sb_.address_block_capacity + 15) 0 = (b : Int) := by
            rw [x.set_block_getD h.wf _ _ (by rw [hcap]; exact hS2), if_pos rfl, hb1]
          rw [hgetb, if_neg (by omega)]
          simp only
          rw [hb1]
          rw [hs1.address_block_capacity, hcap, Int.add_comm (b : Int) _,
            hs1.write_data_eq b _ _ _ (by omega), Nat.add_zero]
          have hl2 : (s.reserve_data_block.2.write_at (963 * B + b * B)
              empty_address_block_buffer (B / 4 * 4)).Layout B := hs1.of_sb rfl
          rw [hl2.write_inode_eq _ (by rw [INode.set_block_index]; exact hi)]
          have hl3 : ((s.reserve_data_block.2.write_at (963 * B + b * B)
              empty_address_block_buffer (B / 4 * 4)).write_at
                (3 * B + 120 * (x.set_block ((L - 15) / (B / 4) + 15) (b : Int)).index)
                (x.set_block ((L - 15) / (B / 4) + 15) (b : Int)).bytes 120).Layout B :=
            hl2.of_sb rfl
          simp only [write_at_sb]
          rw [hs1.data_blocks_start_i, hl3.write_data_lit b _ _ _ (by omega)]
          rw [INode.set_block_index]
          have ha1 : s.reserve_data_block.2.data_block_bitmap_.is_free a = false := by
            rw [hb5 a (by intro e; rw [e, hb3] at hres; exact absurd hres (by simp))]
            exact hres
          have hab : (a : Int) ≠ (b : Int) := by
            intro e
            have : a = b := by omega
            rw [this, hb3] at hres
            exact absurd hres (by simp)
          obtain ⟨hx4, hent⟩ := hx1.new_address_block ((L - 15) / (B / 4) + 15) b
            ((L - 15) % (B / 4)) (a : Int) hS2 hT (by omega) hb4 hb6 (by omega) (by omega)
            (fun _ => ⟨(hs1.reserved_iff _).mpr ⟨a, rfl, ha8, ha1⟩, hab, hun1 _ hfresh⟩)
          refine ⟨hx4, fun _ => ?_⟩
          rw [get_eq, if_neg h15, write_at_sb, write_at_sb, write_at_sb, hs1.address_block_capacity]
          rw [x.set_block_getD h.wf _ _ hS2, if_pos rfl, if_neg (by
            intro hc
            rcases hc with hc | hc
            · omega
            · omega)]
          exact hent
      · -- the address block exists
        rw [set_eq_entry s x L a h15 h20 hslot]
        have hr0 : Ref.ok s (s.view_with x.index x.blocks)
            ⟨x.index, (L - 15) / (B / 4) + 15, none⟩ := ⟨h.live_x, hS2, trivial⟩
        have hv0 : Ref.val s (s.view_with x.index x.blocks)
            ⟨x.index, (L - 15) / (B / 4) + 15, none⟩
            = x.blocks.getD ((L - 15) / (B / 4) + 15) 0 := by
          unfold Ref.val; simp only; rw [view_with_same]
        rw [hcap] at hslot ⊢
        obtain ⟨b, hb1, hb2, _⟩ := (hs.reserved_iff _).mp
          (h.refs.rsv _ hr0 (by rw [hv0]; exact hslot))
        rw [hv0] at hb1
        rw [hb1, hs.write_data_eq b _ _ _ hb2]
        have hx1 := h.set_entry h.basic (Frame.frame_refl s B) ((L - 15) / (B / 4) + 15)
          ((L - 15) % (B / 4)) b (a : Int) (Nat.le_add_left 15 _) hS2 hT hb1 (by omega)
          (by omega) (fun r hr _ hv => h.refs.rsv r hr hv)
          (fun _ => ⟨hares, fun r hr _ => hfresh r hr⟩)
        refine ⟨hx1, fun _ => ?_⟩
        rw [get_eq, if_neg h15, write_at_sb, hcap, hb1, if_neg (by
          intro hc
          rcases hc with hc | hc
          · omega
          · omega)]
        exact hs.address_entry_write b _ (a : Int) hb2 (by omega) (by omega)

theorem reserve_file_block_eq (s : FFSys) (x : INode) (L : Nat) :
    s.reserve_file_block x L
      = if s.reserve_data_block.1 = -1 then (-1, x, s.reserve_data_block.2)
        else if (s.reserve_data_block.2.set_file_block_address x L s.reserve_data_block.1).1
          then (s.reserve_data_block.1,
            (s.reserve_data_block.2.set_file_block_address x L s.reserve_data_block.1).2.1,
            (s.reserve_data_block.2.set_file_block_address x L s.reserve_data_block.1).2.2)
          else (-1,
            (s.reserve_data_block.2.set_file_block_address x L s.reserve_data_block.1).2.1,
            (s.reserve_data_block.2.set_file_block_address x L s.reserve_data_block.1).2.2) :=
  rfl

/-- `reserve_file_block` keeps the invariant; on success the logical block resolves to
the returned address. -/
theorem InvX.reserve_file_block {s : FFSys} {B : Nat} {x : INode} (h : s.InvX B x) (L : Nat) :
    (s.reserve_file_block x L).2.2.InvX B (s.reserve_file_block x L).2.1
      ∧ ((s.reserve_file_block x L).1 ≠ -1 →
          (s.reserve_file_block x L).2.2.get_file_block_address
            (s.reserve_file_block x L).2.1 L = (s.reserve_file_block x L).1) := by
  rw [reserve_file_block_eq]
  obtain ⟨hx1, _, _, hcase⟩ := h.reserve_data_block
  rcases hcase with hfail | ⟨a, ha1, ha2, _, ha4, _, ha6⟩
  · rw [if_pos hfail]
    exact ⟨hx1, fun h' => absurd rfl h'⟩
  · have hne : ¬ s.reserve_data_block.1 = -1 := by rw [ha1]; omega
    rw [if_neg hne, ha1]
    obtain ⟨hx2, hget⟩ := hx1.set_address_fresh L a
      (by have := hx1.basic.layout.hB; omega) ha4 ha6
    cases hw : (s.reserve_data_block.2.set_file_block_address x L (a : Int)).1
    · simp only [Bool.false_eq_true, if_false]
      exact ⟨hx2, fun h' => absurd rfl h'⟩
    · simp only [if_true]
      exact ⟨hx2, fun _ => hget hw⟩

theorem free_file_block_eq (s : FFSys) (x : INode) (L : Nat) :
    s.free_file_block x L
      = if s.get_file_block_address x L = -1 then (false, x, s)
        else (true,
          ((s.free_data_block (s.get_file_block_address x L)).2.set_file_block_address
              x L (-1)).2.1,
          ((s.free_data_block (s.get_file_block_address x L)).2.set_file_block_address
              x L (-1)).2.2) := rfl

@[simp] theorem with_data_bitmap_cap (s : FFSys) (bm : Bitmap) (k : Nat) :
    (s.with_data_bitmap bm k).sb_.address_block_capacity = s.sb_.address_block_capacity := rfl

/-- `free_file_block` keeps the invariant. -/
theorem InvX.free_file_block {s : FFSys} {B : Nat} {x : INode} (h : s.InvX B x) (L : Nat) :
    (s.free_file_block x L).2.2.InvX B (s.free_file_block x L).2.1 := by
  have hs := h.basic.layout
  have hB := hs.hB
  have hcap := hs.address_block_capacity
  rw [free_file_block_eq]
  by_cases hget : s.get_file_block_address x L = -1
  · rw [if_pos hget]; exact h
  · rw [if_neg hget]
    simp only
    obtain ⟨n, hn1, hn2, hn3⟩ := h.get_reserved L hget
    obtain ⟨hok, hval⟩ := get_is_ref hs x L h.live_x hget
    rw [hn1, free_data_block_eq h.basic n hn2 hn3]
    simp only
    by_cases h15 : L < 15
    · rw [set_eq_direct _ x L (-1) h15]
      have hslot : x.blocks.getD L 0 = (n : Int) := by
        rw [← hn1, get_eq, if_pos h15]
      exact (h.free_slot L n (by omega) hslot).1.write_inode
    · have hge := hget
      rw [get_eq, if_neg h15] at hge
      have hc : ¬ ((L - 15) / s.sb_.address_block_capacity + 15 ≥ 20
          ∨ x.blocks.getD ((L - 15) / s.sb_.address_block_capacity + 15) 0 = -1) := by
        intro hc
        rw [if_pos hc] at hge
        exact hge rfl
      have h20 : ¬ (L - 15) / s.sb_.address_block_capacity + 15 ≥ 20 := fun e => hc (Or.inl e)
      have hslot : x.blocks.getD ((L - 15) / s.sb_.address_block_capacity + 15) 0 ≠ -1 :=
        fun e => hc (Or.inr e)
      rw [set_eq_entry _ x L (-1) (by simpa using h15) (by simpa using h20)
        (by simpa using hslot)]
      simp only [with_data_bitmap_cap]
      have hS2 : (L - 15) / (B / 4) + 15 < 20 := by rw [hcap] at h20; omega
      have hT : (L - 15) % (B / 4) < B / 4 := Nat.mod_lt _ (by omega)
      have hr0 : Ref.ok s (s.view_with x.index x.blocks)
          ⟨x.index, (L - 15) / (B / 4) + 15, none⟩ := ⟨h.live_x, hS2, trivial⟩
      have hv0 : Ref.val s (s.view_with x.index x.blocks)
          ⟨x.index, (L - 15) / (B / 4) + 15, none⟩
          = x.blocks.getD ((L - 15) / (B / 4) + 15) 0 := by
        unfold Ref.val; simp only; rw [view_with_same]
      rw [hcap] at hslot ⊢
      obtain ⟨b, hb1, hb2, _⟩ := (hs.reserved_iff _).mp
        (h.refs.rsv _ hr0 (by rw [hv0]; exact hslot))
      rw [hv0] at hb1
      obtain ⟨hbas, hfr⟩ := h.basic.basic_with_data_bitmap (s.data_block_bitmap_.free n).2 (n / 8)
        (by have := hs.hB8; omega) (by rw [Bitmap.free_size]; exact h.basic.dbm_size)
        (Bitmap.free_bytes _ _ h.basic.dbm_bytes) (fun j hj => free_getD_ne _ _ _ hj)
      have ht := hbas.layout
      rw [hb1, ht.write_data_eq b _ _ _ hb2]
      have hfree' : ∀ m, (s.data_block_bitmap_.free n).2.is_free m
          = (decide (m = n) || s.data_block_bitmap_.is_free m) :=
        fun m => Bitmap.is_free_free _ n m hn3 (by rw [h.basic.dbm_size]; exact hn2)
      have hdr : s.data_ref x.index L
          = ⟨x.index, (L - 15) / (B / 4) + 15, some ((L - 15) % (B / 4))⟩ := by
        unfold data_ref
        rw [if_neg h15, hcap]
      rw [hdr] at hok hval
      apply h.set_entry hbas hfr ((L - 15) / (B / 4) + 15) ((L - 15) % (B / 4)) b (-1)
        (Nat.le_add_left 15 _) hS2 hT hb1 (by omega) (by omega)
      · intro r hr hne hv
        obtain ⟨m, hm1, hm2, hm3⟩ := (hs.reserved_iff _).mp (h.refs.rsv r hr hv)
        refine (ht.reserved_iff _).mpr ⟨m, hm1, hm2, ?_⟩
        show (s.data_block_bitmap_.free n).2.is_free m = false
        rw [hfree' m, hm3]
        have hmn : m ≠ n := by
          intro e
          apply hne
          apply h.refs.inj r _ hr hok hv
          rw [hval, hn1, hm1, e]
        simp [hmn]
      · intro hne
        exact absurd rfl hne

end FFSys
end ffsys

namespace ffsys
namespace FFSys

/-! ## Metadata is untouched by the block-table operations -/

theorem INode.same_meta.refl (x : INode) : x.same_meta x := ⟨rfl, rfl, rfl, rfl⟩

theorem INode.same_meta.trans {x y z : INode} (h1 : x.same_meta y) (h2 : y.same_meta z) :
    x.same_meta z :=
  ⟨h2.1.trans h1.1, h2.2.1.trans h1.2.1, h2.2.2.1.trans h1.2.2.1, h2.2.2.2.trans h1.2.2.2⟩

theorem INode.same_meta.set_block (x : INode) (k : Nat) (a : Int) :
    x.same_meta (x.set_block k a) := ⟨rfl, rfl, rfl, rfl⟩

theorem set_file_block_address_meta (s : FFSys) (x : INode) (L : Nat) (a : Int) :
    x.same_meta (s.set_file_block_address x L a).2.1 := by
  by_cases h : L < 15
  · rw [set_eq_direct s x L a h]; exact INode.same_meta.set_block x L a
  · by_cases h2 : (L - 15) / s.sb_.address_block_capacity + 15 ≥ 20
    · rw [set_eq_range s x L a h h2]; exact INode.same_meta.refl x
    · by_cases h3 : x.blocks.getD ((L - 15) / s.sb_.address_block_capacity + 15) 0 = -1
      · rw [set_eq_new s x L a h h2 h3]
        split_ifs <;> exact INode.same_meta.set_block x _ _
      · rw [set_eq_entry s x L a h h2 h3]; exact INode.same_meta.refl x

theorem reserve_file_block_meta (s : FFSys) (x : INode) (L : Nat) :
    x.same_meta (s.reserve_file_block x L).2.1 := by
  rw [reserve_file_block_eq]
  split_ifs
  · exact INode.same_meta.refl x
  · exact set_file_block_address_meta _ x L _
  · exact set_file_block_address_meta _ x L _

theorem free_file_block_meta (s : FFSys) (x : INode) (L : Nat) :
    x.same_meta (s.free_file_block x L).2.1 := by
  rw [free_file_block_eq]
  split_ifs
  · exact INode.same_meta.refl x
  · exact set_file_block_address_meta _ x L _

/-! ## The handle table is untouched by the block-table operations -/

@[simp] theorem reserve_data_block_open_files (s : FFSys) :
    s.reserve_data_block.2.open_files_ = s.open_files_ := by
  unfold FFSys.reserve_data_block
  simp only
  split_ifs <;> rfl

@[simp] theorem free_data_block_open_files (s : FFSys) (a : Int) :
    (s.free_data_block a).2.open_files_ = s.open_files_ := by
  unfold FFSys.free_data_block
  simp only
  split_ifs <;> rfl

@[simp] theorem reserve_inode_open_files (s : FFSys) :
    s.reserve_inode.2.open_files_ = s.open_files_ := by
  unfold FFSys.reserve_inode
  simp only
  split_ifs <;> rfl

@[simp] theorem initialize_address_block_open_files (s : FFSys) :
    s.initialize_address_block.2.open_files_ = s.open_files_ := by
  rw [initialize_address_block_eq]
  split_ifs <;> simp

@[simp] theorem set_file_block_address_open_files (s : FFSys) (x : INode) (L : Nat) (a : Int) :
    (s.set_file_block_address x L a).2.2.open_files_ = s.open_files_ := by
  by_cases h : L < 15
  · rw [set_eq_direct s x L a h]; simp
  · by_cases h2 : (L - 15) / s.sb_.address_block_capacity + 15 ≥ 20
    · rw [set_eq_range s x L a h h2]
    · by_cases h3 : x.blocks.getD ((L - 15) / s.sb_.address_block_capacity + 15) 0 = -1
      · rw [set_eq_new s x L a h h2 h3]
        split_ifs <;> simp
      · rw [set_eq_entry s x L a h h2 h3]; simp

@[simp] theorem reserve_file_block_open_files (s : FFSys) (x : INode) (L : Nat) :
    (s.reserve_file_block x L).2.2.open_files_ = s.open_files_ := by
  rw [reserve_file_block_eq]
  split_ifs <;> simp

@[simp] theorem free_file_block_open_files (s : FFSys) (x : INode) (L : Nat) :
    (s.free_file_block x L).2.2.open_files_ = s.open_files_ := by
  rw [free_file_block_eq]
  split_ifs <;> simp

/-! ## Truncation -/

theorem free_unused_loop_open_files (limit : Nat) :
    ∀ (fuel : Nat) (s : FFSys) (x : INode) (i : Nat),
      (free_unused_loop limit fuel s x i).2.open_files_ = s.open_files_ := by
  intro fuel
  induction fuel with
  | zero => intro s x i; rfl
  | succ fuel ih =>
    intro s x i
    rw [FFSys.free_unused_loop]
    by_cases h1 : i < limit
    · by_cases h2 : s.get_file_block_address x i = -1
      · simp only [h1, h2, not_true_eq_false, if_true, if_false]
      · simp only [h1, h2, not_true_eq_false, if_true, if_false]
        rw [ih]; simp
    · simp only [h1, not_false_eq_true, if_true]

theorem free_address_block_step_open_files (last_block : Nat) (p : INode × FFSys) (i : Nat) :
    (free_address_block_step last_block p i).2.open_files_ = p.2.open_files_ := by
  unfold FFSys.free_address_block_step
  simp only
  split_ifs
  · simp
  · rfl

theorem foldl_step_open_files (last_block : Nat) :
    ∀ (l : List Nat) (p : INode × FFSys),
      (l.foldl (free_address_block_step last_block) p).2.open_files_ = p.2.open_files_ := by
  intro l
  induction l with
  | nil => intro p; rfl
  | cons a l ih =>
    intro p
    rw [List.foldl_cons, ih, free_address_block_step_open_files]


theorem free_unused_loop_meta (limit : Nat) :
    ∀ (fuel : Nat) (s : FFSys) (x : INode) (i : Nat),
      x.same_meta (free_unused_loop limit fuel s x i).1 := by
  intro fuel
  induction fuel with
  | zero => intro s x i; exact INode.same_meta.refl x
  | succ fuel ih =>
    intro s x i
    rw [FFSys.free_unused_loop]
    by_cases h1 : i < limit
    · by_cases h2 : s.get_file_block_address x i = -1
      · simp only [h1, h2, not_true_eq_false, if_true, if_false]
        exact INode.same_meta.refl x
      · simp only [h1, h2, not_true_eq_false, if_true, if_false]
        exact INode.same_meta.trans (free_file_block_meta s x i) (ih _ _ _)
    · simp only [h1, not_false_eq_true, if_true]
      exact INode.same_meta.refl x

theorem free_address_block_step_meta (last_block : Nat) (p : INode × FFSys) (i : Nat) :
    p.1.same_meta (free_address_block_step last_block p i).1 := by
  unfold FFSys.free_address_block_step
  simp only
  split_ifs
  · exact ⟨rfl, rfl, rfl, rfl⟩
  · exact INode.same_meta.refl _

theorem foldl_step_meta (last_block : Nat) :
    ∀ (l : List Nat) (p : INode × FFSys),
      p.1.same_meta (l.foldl (free_address_block_step last_block) p).1 := by
  intro l
  induction l with
  | nil => intro p; exact INode.same_meta.refl _
  | cons a l ih =>
    intro p
    rw [List.foldl_cons]
    exact INode.same_meta.trans (free_address_block_step_meta last_block p a) (ih _)


theorem InvX.free_unused_loop {B : Nat} (limit : Nat) :
    ∀ (fuel : Nat) (s : FFSys) (x : INode) (i : Nat), s.InvX B x →
      (free_unused_loop limit fuel s x i).2.InvX B (free_unused_loop limit fuel s x i).1 := by
  intro fuel
  induction fuel with
  | zero => intro s x i h; exact h
  | succ fuel ih =>
    intro s x i h
    rw [FFSys.free_unused_loop]
    by_cases h1 : i < limit
    · by_cases h2 : s.get_file_block_address x i = -1
      · simp only [h1, h2, not_true_eq_false, if_true, if_false]
        exact h
      · simp only [h1, h2, not_true_eq_false, if_true, if_false]
        exact ih _ _ _ (h.free_file_block i)
    · simp only [h1, not_false_eq_true, if_true]
      exact h

theorem InvX.free_address_block_step {B : Nat} (last_block : Nat) (p : INode × FFSys)
    (i : Nat) (hi : i < 5) (h : p.2.InvX B p.1) :
    (free_address_block_step last_block p i).2.InvX B
      (free_address_block_step last_block p i).1 := by
  unfold FFSys.free_address_block_step N_STATIC_FILE_BLOCKS
  simp only
  split_ifs with hc
  · have hs := h.basic.layout
    have hr0 : Ref.ok p.2 (p.2.view_with p.1.index p.1.blocks) ⟨p.1.index, 15 + i, none⟩ :=
      ⟨h.live_x, by show 15 + i < 20; omega, trivial⟩
    have hv0 : Ref.val p.2 (p.2.view_with p.1.index p.1.blocks) ⟨p.1.index, 15 + i, none⟩
        = p.1.blocks.getD (15 + i) 0 := by
      unfold Ref.val; simp only; rw [view_with_same]
    obtain ⟨n, hn1, _, _⟩ := (hs.reserved_iff _).mp
      (h.refs.rsv _ hr0 (by rw [hv0]; exact hc.1))
    rw [hv0] at hn1
    obtain ⟨h1, h2⟩ := h.free_slot (15 + i) n (by omega) hn1
    rw [hn1, h2]
    exact h1
  · exact h

theorem InvX.foldl_step {B : Nat} (last_block : Nat) :
    ∀ (l : List Nat) (p : INode × FFSys), (∀ i, i ∈ l → i < 5) → p.2.InvX B p.1 →
      (l.foldl (FFSys.free_address_block_step last_block) p).2.InvX B
        (l.foldl (FFSys.free_address_block_step last_block) p).1 := by
  intro l
  induction l with
  | nil => intro p _ h; exact h
  | cons a l ih =>
    intro p hl h
    rw [List.foldl_cons]
    apply ih
    · intro i hi; exact hl i (List.mem_cons_of_mem _ hi)
    · exact InvX.free_address_block_step last_block p a (hl a (List.mem_cons_self _ _)) h

theorem Basic.write_bitmap_noop {s : FFSys} {B : Nat} (h : s.Basic B) :
    s.write_block s.sb_.data_block_bitmap_i (s.data_block_bitmap_.get_bm 0) s.sb_.block_size 0
      = s := by
  have hs := h.layout
  have hB := hs.hB
  have e : fs_write s.fs_ (s.block_pos s.sb_.data_block_bitmap_i 0)
      (s.data_block_bitmap_.get_bm 0) s.sb_.block_size = s.fs_ := by
    rw [hs.data_block_bitmap_i, hs.block_pos_low 2 0 (by omega), hs.block_size]
    funext off
    unfold fs_write
    split_ifs with hc
    · have := h.dbm_disk (off - (2 * B + 0)) (by omega)
      rw [show 2 * B + (off - (2 * B + 0)) = off by omega] at this
      rw [this]
      unfold Bitmap.get_bm
      rw [Nat.zero_add]
    · rfl
  unfold write_block
  rw [e]

theorem Basic.write_superblock_noop {s : FFSys} {B : Nat} (h : s.Basic B) :
    s.write_superblock = s := by
  have e : fs_write s.fs_ 0 s.sb_.bytes 24 = s.fs_ := by
    funext off
    unfold fs_write
    split_ifs with hc
    · rw [h.sb_disk off (by omega)]
      rfl
    · rfl
  rw [write_superblock_eq, e]



theorem InvX.free_unused_file_blocks {s : FFSys} {B : Nat} {x : INode} (h : s.InvX B x) :
    (s.free_unused_file_blocks x).2.Inv B
      ∧ x.same_meta (s.free_unused_file_blocks x).1
      ∧ (s.free_unused_file_blocks x).2.live (s.free_unused_file_blocks x).1.index
      ∧ (s.free_unused_file_blocks x).2.open_files_ = s.open_files_ := by
  unfold FFSys.free_unused_file_blocks
  simp only
  generalize hlb : (if (x.size + s.sb_.block_size - 1) % 18446744073709551616
      / s.sb_.block_size % 4294967296 = 0 then 1
    else (x.size + s.sb_.block_size - 1) % 18446744073709551616 / s.sb_.block_size
      % 4294967296) = lb
  generalize hlim : (N_STATIC_FILE_BLOCKS + N_DYNAMIC_FILE_BLOCKS * s.sb_.address_block_capacity)
      % 4294967296 = lim
  have h1 := InvX.free_unused_loop lim (lim - lb) s x lb h
  have m1 := free_unused_loop_meta lim (lim - lb) s x lb
  have h2 := InvX.foldl_step lb (List.range N_DYNAMIC_FILE_BLOCKS) _
    (by intro i hi; simpa [N_DYNAMIC_FILE_BLOCKS] using hi) h1
  have m2 := foldl_step_meta lb (List.range N_DYNAMIC_FILE_BLOCKS)
    (FFSys.free_unused_loop lim (lim - lb) s x lb)
  have ho2 : s.open_files_ = ((List.range N_DYNAMIC_FILE_BLOCKS).foldl
      (FFSys.free_address_block_step lb)
      (FFSys.free_unused_loop lim (lim - lb) s x lb)).2.open_files_ := by
    rw [foldl_step_open_files, free_unused_loop_open_files]
  generalize (List.range N_DYNAMIC_FILE_BLOCKS).foldl (FFSys.free_address_block_step lb)
    (FFSys.free_unused_loop lim (lim - lb) s x lb) = r2 at h2 m2 ho2
  rw [h2.basic.write_bitmap_noop, h2.basic.write_superblock_noop]
  refine ⟨h2.write_back, INode.same_meta.trans m1 m2, ?_, ?_⟩
  · exact ⟨h2.live_x.1, h2.live_x.2⟩
  · rw [write_inode_open_files, ← ho2]


/-! ## Stored addresses and file data are kept by block reservation -/

theorem Keep.keep_refl (s : FFSys) (v : Nat → List Int) (B i : Nat) : s.Keep s v v B i :=
  ⟨fun _ h _ => ⟨h, rfl⟩, fun _ _ _ _ _ _ _ => rfl, fun _ _ _ => rfl, rfl⟩

theorem Keep.keep_trans {s t u : FFSys} {v w z : Nat → List Int} {B i : Nat}
    (h1 : s.Keep t v w B i) (h2 : t.Keep u w z B i) : s.Keep u v z B i := by
  constructor
  · intro r hr hv
    obtain ⟨a1, a2⟩ := h1.refs r hr hv
    obtain ⟨b1, b2⟩ := h2.refs r a1 (by rw [a2]; exact hv)
    exact ⟨b1, b2.trans a2⟩
  · intro r n hr hd hv o ho
    obtain ⟨a1, a2⟩ := h1.refs r hr (by rw [hv]; omega)
    rw [h2.data r n a1 hd (a2.trans hv) o ho, h1.data r n hr hd hv o ho]
  · intro j hj hne
    rw [h2.others j hj hne, h1.others j hj hne]
  · exact h2.ibm.trans h1.ibm

theorem Keep.refs_of_disk {s t : FFSys} {B : Nat} {v w : Nat → List Int} (h : s.RefsV v)
    (hs : s.Layout B) (ht : t.Layout B) (hibm : t.inode_bitmap_ = s.inode_bitmap_)
    (hslot : ∀ i S, s.live i → S < 20 → (v i).getD S 0 ≠ -1 →
      (w i).getD S 0 = (v i).getD S 0)
    (hent : ∀ (r : Ref) (T n : Nat), r.ok s v → r.ent = some T → r.val s v ≠ -1 →
      (v r.ino).getD r.slot 0 = (n : Int) → ∀ k, k < 4 →
        t.fs_ (963 * B + n * B + T * 4 + k) = s.fs_ (963 * B + n * B + T * 4 + k)) :
    ∀ r : Ref, r.ok s v → r.val s v ≠ -1 → r.ok t w ∧ r.val t w = r.val s v := by
  intro r hr hv
  obtain ⟨i, S, e⟩ := r
  cases e with
  | none =>
    have hv2 : (v i).getD S 0 ≠ -1 := hv
    have e1 := hslot i S hr.1 hr.2.1 hv2
    exact ⟨⟨(hs.live_congr ht hibm i).mpr hr.1, hr.2.1, trivial⟩, e1⟩
  | some T =>
    obtain ⟨hl, hS, hS15, hT, hne⟩ := hr
    have e1 := hslot i S hl hS hne
    have hok : Ref.ok s v ⟨i, S, some T⟩ := ⟨hl, hS, hS15, hT, hne⟩
    refine ⟨⟨(hs.live_congr ht hibm i).mpr hl, hS, hS15, ?_, ?_⟩, ?_⟩
    · rw [ht.address_block_capacity]; rw [hs.address_block_capacity] at hT; exact hT
    · show (w i).getD S 0 ≠ -1
      rw [e1]; exact hne
    · apply Ref.val_congr_slot hs ht v w _ e1
      intro T' hT'
      obtain ⟨n, hn1, hn2, _⟩ := h.slot_valid hs _ hok T rfl
      refine ⟨n, hn1, hn2, ?_⟩
      have : T' = T := by simpa using hT'.symm
      subst this
      exact hent _ T' n hok rfl hv hn1

theorem Keep.refs_of_fs {s t : FFSys} {B : Nat} {x y : INode} (h : s.InvX B x)
    (ht : t.Layout B) (hibm : t.inode_bitmap_ = s.inode_bitmap_)
    (hidx : y.index = x.index)
    (hx : ∀ S, S < 20 → x.blocks.getD S 0 ≠ -1 → y.blocks.getD S 0 = x.blocks.getD S 0)
    (hfs : ∀ off, s.addressing_offset x B off → t.fs_ off = s.fs_ off) :
    ∀ r : Ref, r.ok s (s.view_with x.index x.blocks) →
      r.val s (s.view_with x.index x.blocks) ≠ -1 →
      r.ok t (t.view_with y.index y.blocks)
        ∧ r.val t (t.view_with y.index y.blocks) = r.val s (s.view_with x.index x.blocks) := by
  have hs := h.basic.layout
  apply Keep.refs_of_disk h.refs hs ht hibm
  · intro i S hi hS hne
    by_cases hix : i = x.index
    · subst hix
      rw [hidx, view_with_same, view_with_same] at *
      exact hx S hS hne
    · rw [hidx, view_with_ne _ _ _ _ hix, view_with_ne _ _ _ _ hix] at *
      congr 2
      apply hs.read_inode_congr ht i (hs.live_lt hi)
      intro k hk
      exact hfs _ (Or.inl ⟨i, k, hs.live_lt hi, hix, hk, rfl⟩)
  · intro r T n hr he hv hn k hk
    exact hfs _ (Or.inr ⟨r, T, n, k, hr, he, hv, hn, hk, rfl⟩)

theorem Keep.of_fs {s t : FFSys} {B : Nat} {x y : INode} (h : s.InvX B x)
    (ht : t.Layout B) (hibm : t.inode_bitmap_ = s.inode_bitmap_)
    (hidx : y.index = x.index)
    (hx : ∀ S, S < 20 → x.blocks.getD S 0 ≠ -1 → y.blocks.getD S 0 = x.blocks.getD S 0)
    (hfs : ∀ off, s.addressing_offset x B off → t.fs_ off = s.fs_ off)
    (hfd : ∀ off, s.file_data_offset x B off → t.fs_ off = s.fs_ off) :
    s.Keep t (s.view_with x.index x.blocks) (t.view_with y.index y.blocks) B x.index :=
  ⟨Keep.refs_of_fs h ht hibm hidx hx hfs,
   fun r n hr hd hv o ho => hfd _ ⟨r, n, o, hr, hd, hv, ho, rfl⟩,
   fun j hj hne => h.basic.layout.read_inode_congr ht j hj
     (fun k hk => hfs _ (Or.inl ⟨j, k, hj, hne, hk, rfl⟩)),
   hibm⟩

theorem Keep.of_frame {s t : FFSys} {B : Nat} {x : INode} (h : s.InvX B x)
    (ht : t.Layout B) (hf : s.Frame t B) :
    s.Keep t (s.view_with x.index x.blocks) (t.view_with x.index x.blocks) B x.index := by
  have hB := ht.hB
  apply Keep.of_fs h ht hf.ibm rfl (fun _ _ _ => rfl)
  · intro off ho
    apply hf.fs_high
    rcases ho with ⟨j, k, _, _, _, e⟩ | ⟨r, T, n, k, _, _, _, _, _, e⟩
    · omega
    · rw [e]; generalize n * B = z; omega
  · rintro off ⟨r, n, o, _, _, _, _, e⟩
    apply hf.fs_high
    rw [e]; generalize n * B = z; omega

/-! ### Regions that hold neither another inode, nor an address, nor file data -/

theorem addressing_offset_record {s : FFSys} {B : Nat} {x : INode} (h : s.InvX B x)
    (off : Nat) (ho : s.addressing_offset x B off) :
    off < 3 * B + 120 * x.index ∨ 3 * B + 120 * x.index + 120 ≤ off := by
  have hi := h.basic.layout.live_lt h.live_x
  rcases ho with ⟨j, k, _, _, _, e⟩ | ⟨r, T, n, k, _, _, _, _, _, e⟩
  · omega
  · rw [e]; generalize n * B = z; omega

theorem file_data_offset_record {s : FFSys} {B : Nat} {x : INode} (h : s.InvX B x)
    (off : Nat) (ho : s.file_data_offset x B off) : 3 * B + 120 * x.index + 120 ≤ off := by
  have hi := h.basic.layout.live_lt h.live_x
  obtain ⟨r, n, o, _, _, _, _, e⟩ := ho
  rw [e]; generalize n * B = z; omega

theorem block_disjoint (B n b o o' : Nat) (hne : n ≠ b) (ho : o < B) :
    963 * B + n * B + o < 963 * B + b * B + o' ∨ 963 * B + b * B + B ≤ 963 * B + n * B + o := by
  rcases Nat.lt_or_gt_of_ne hne with h | h
  · have := mul_block_lt n b B h
    left; omega
  · have := mul_block_lt b n B h
    right; omega

theorem Ref.slot_val_of_entry {s : FFSys} {v : Nat → List Int} (r : Ref)
    (hr : r.ok s v) :
    Ref.ok s v ⟨r.ino, r.slot, none⟩
      ∧ Ref.val s v ⟨r.ino, r.slot, none⟩ = (v r.ino).getD r.slot 0 :=
  ⟨⟨hr.1, hr.2.1, trivial⟩, rfl⟩

theorem addressing_offset_fresh {s : FFSys} {B : Nat} {x : INode} (h : s.InvX B x)
    (b : Nat) (hfresh : s.unref x (b : Int)) (off : Nat) (ho : s.addressing_offset x B off) :
    off < 963 * B + b * B ∨ 963 * B + b * B + B ≤ off := by
  have hi := h.basic.layout.live_lt h.live_x
  have hB := h.basic.layout.hB
  rcases ho with ⟨j, k, _, _, _, e⟩ | ⟨r, T, n, k, hr, he, hv, hn, hk, e⟩
  · left; rw [e]; generalize b * B = z; omega
  · obtain ⟨hok, hval⟩ := Ref.slot_val_of_entry r hr
    have hne : n ≠ b := by
      intro e2
      apply hfresh _ hok
      rw [hval, hn, e2]
    have hT : T < B / 4 := by
      have := hr.2.2
      rw [he] at this
      have h2 := this.2.1
      rw [h.basic.layout.address_block_capacity] at h2
      exact h2
    have := block_disjoint B n b (T * 4 + k) 0 hne (by omega)
    rw [e]; omega

theorem file_data_offset_fresh {s : FFSys} {B : Nat} {x : INode}
    (b : Nat) (hfresh : s.unref x (b : Int)) (off : Nat) (ho : s.file_data_offset x B off) :
    off < 963 * B + b * B ∨ 963 * B + b * B + B ≤ off := by
  obtain ⟨r, n, o, hr, _, hv, ho, e⟩ := ho
  have hne : n ≠ b := by
    intro e2
    apply hfresh _ hr
    rw [hv, e2]
  have := block_disjoint B n b o 0 hne ho
  rw [e]; omega


theorem Ref.entry_bounds {s : FFSys} {B : Nat} {v : Nat → List Int} (hs : s.Layout B)
    (r : Ref) (T : Nat) (hr : r.ok s v) (he : r.ent = some T) :
    15 ≤ r.slot ∧ T < B / 4 ∧ (v r.ino).getD r.slot 0 ≠ -1 := by
  have := hr.2.2
  rw [he] at this
  have h2 := this.2.1
  rw [hs.address_block_capacity] at h2
  exact ⟨this.1, h2, this.2.2⟩

theorem addressing_offset_entry {s : FFSys} {B : Nat} {x : INode} (h : s.InvX B x)
    (S T b : Nat) (hS : 15 ≤ S) (hS2 : S < 20) (hT : T < B / 4)
    (hb : x.blocks.getD S 0 = (b : Int)) (hval : s.address_entry (b : Int) T = -1)
    (off : Nat) (ho : s.addressing_offset x B off) :
    off < 963 * B + b * B + T * 4 ∨ 963 * B + b * B + T * 4 + 4 ≤ off := by
  have hs := h.basic.layout
  have hB := hs.hB
  rcases ho with ⟨j, k, _, _, _, e⟩ | ⟨r, T', n, k, hr, he, hv, hn, hk, e⟩
  · left; rw [e]; generalize b * B = z; omega
  · have hr0 : Ref.ok s (s.view_with x.index x.blocks) ⟨x.index, S, some T⟩ := by
      refine ⟨h.live_x, hS2, hS, ?_, ?_⟩
      · rw [hs.address_block_capacity]; exact hT
      · show (s.view_with x.index x.blocks x.index).getD S 0 ≠ -1
        rw [view_with_same, hb]; omega
    have hv0 : Ref.val s (s.view_with x.index x.blocks) ⟨x.index, S, some T⟩ = -1 := by
      show s.address_entry ((s.view_with x.index x.blocks x.index).getD S 0) T = -1
      rw [view_with_same, hb]; exact hval
    have hne : r ≠ ⟨x.index, S, some T⟩ := by
      intro e2
      rw [e2] at hv
      exact hv hv0
    have hb2 : (s.view_with x.index x.blocks x.index).getD S 0 = (b : Int) := by
      rw [view_with_same]; exact hb
    have d0 := h.refs.entry_disjoint hs r ⟨x.index, S, some T⟩ T' T n b hr hr0 he rfl hn hb2
      hne k 0 hk (by omega)
    have d1 := h.refs.entry_disjoint hs r ⟨x.index, S, some T⟩ T' T n b hr hr0 he rfl hn hb2
      hne k 1 hk (by omega)
    have d2 := h.refs.entry_disjoint hs r ⟨x.index, S, some T⟩ T' T n b hr hr0 he rfl hn hb2
      hne k 2 hk (by omega)
    have d3 := h.refs.entry_disjoint hs r ⟨x.index, S, some T⟩ T' T n b hr hr0 he rfl hn hb2
      hne k 3 hk (by omega)
    rw [e]
    generalize n * B = z at *
    generalize b * B = z2 at *
    omega

theorem file_data_offset_address_block {s : FFSys} {B : Nat} {x : INode} (h : s.InvX B x)
    (i S b : Nat) (hi : s.live i) (hS : 15 ≤ S) (hS2 : S < 20)
    (hb : (s.view_with x.index x.blocks i).getD S 0 = (b : Int))
    (off : Nat) (ho : s.file_data_offset x B off) :
    off < 963 * B + b * B ∨ 963 * B + b * B + B ≤ off := by
  obtain ⟨r, n, o, hr, hd, hv, ho, e⟩ := ho
  have hra : Ref.ok s (s.view_with x.index x.blocks) ⟨i, S, none⟩ := ⟨hi, hS2, trivial⟩
  have hne : n ≠ b := by
    intro e2
    have := h.refs.inj r ⟨i, S, none⟩ hr hra (by rw [hv]; omega)
      (by rw [hv, e2]; exact hb.symm)
    rw [this] at hd
    have := hd rfl
    simp only at this
    omega
  have := block_disjoint B n b o 0 hne ho
  rw [e]; omega

theorem addressing_offset_data_block {s : FFSys} {B : Nat} {x : INode} (h : s.InvX B x)
    (L a : Nat) (ha : s.get_file_block_address x L = (a : Int))
    (off : Nat) (ho : s.addressing_offset x B off) :
    off < 963 * B + a * B ∨ 963 * B + a * B + B ≤ off := by
  have hs := h.basic.layout
  have hB := hs.hB
  rcases ho with ⟨j, k, _, _, _, e⟩ | ⟨r, T, n, k, hr, he, hv, hn, hk, e⟩
  · left; rw [e]; generalize a * B = z; omega
  · obtain ⟨h15, hT, _⟩ := Ref.entry_bounds hs r T hr he
    have hne : n ≠ a := by
      intro e2
      have := h.get_not_address_block L (by rw [ha]; omega) r.ino r.slot hr.1 h15 hr.2.1
      apply this
      rw [hn, ha, e2]
    have := block_disjoint B n a (T * 4 + k) 0 hne (by omega)
    rw [e]; omega

theorem Layout.get_congr {s t : FFSys} {B : Nat} {x : INode} (h : s.InvX B x)
    (ht : t.Layout B) (hf : ∀ off, 963 * B ≤ off → t.fs_ off = s.fs_ off) (L : Nat) :
    t.get_file_block_address x L = s.get_file_block_address x L := by
  have hs := h.basic.layout
  rw [get_eq, get_eq, hs.address_block_capacity, ht.address_block_capacity]
  by_cases h15 : L < 15
  · rw [if_pos h15, if_pos h15]
  · rw [if_neg h15, if_neg h15]
    by_cases hc : (L - 15) / (B / 4) + 15 ≥ 20 ∨ x.blocks.getD ((L - 15) / (B / 4) + 15) 0 = -1
    · rw [if_pos hc, if_pos hc]
    · rw [if_neg hc, if_neg hc]
      push_neg at hc
      have hr0 : Ref.ok s (s.view_with x.index x.blocks)
          ⟨x.index, (L - 15) / (B / 4) + 15, none⟩ := ⟨h.live_x, hc.1, trivial⟩
      have hv0 : Ref.val s (s.view_with x.index x.blocks)
          ⟨x.index, (L - 15) / (B / 4) + 15, none⟩
          = x.blocks.getD ((L - 15) / (B / 4) + 15) 0 := by
        unfold Ref.val; simp only; rw [view_with_same]
      obtain ⟨b, hb1, hb2, _⟩ := (hs.reserved_iff _).mp
        (h.refs.rsv _ hr0 (by rw [hv0]; exact hc.2))
      rw [hv0] at hb1
      rw [hb1]
      apply hs.address_entry_congr ht b _ hb2
      intro k hk
      apply hf
      generalize b * B = z
      omega


theorem Keep.keep_set_address_fresh {s : FFSys} {B : Nat} {x : INode} (h : s.InvX B x)
    (L a : Nat)
    (hget : s.get_file_block_address x L = -1) :
    s.Keep (s.set_file_block_address x L a).2.2 (s.view_with x.index x.blocks)
      ((s.set_file_block_address x L a).2.2.view_with
        (s.set_file_block_address x L a).2.1.index
        (s.set_file_block_address x L a).2.1.blocks) B x.index := by
  have hs := h.basic.layout
  have hB := hs.hB
  have hB8 := hs.hB8
  have hcap := hs.address_block_capacity
  have hcap0 : 0 < B / 4 := by omega
  have hi : x.index < 8 * B := hs.live_lt h.live_x
  rw [get_eq] at hget
  by_cases h15 : L < 15
  · rw [set_eq_direct s x L a h15, hs.write_inode_eq _ (by rw [INode.set_block_index]; exact hi)]
    rw [if_pos h15] at hget
    have ht : (s.write_at (3 * B + 120 * (x.set_block L (a : Int)).index)
        (x.set_block L (a : Int)).bytes 120).Layout B := hs.of_sb rfl
    apply Keep.of_fs h ht rfl (INode.set_block_index x L a)
    · intro S hS hne
      rw [x.set_block_getD h.wf L a (by omega) S, if_neg (by intro e; rw [e] at hne; exact hne hget)]
    · intro off ho
      exact fs_write_out _ _ _ _ _ (addressing_offset_record h off ho)
    · intro off ho
      exact fs_write_out _ _ _ _ _ (Or.inr (file_data_offset_record h off ho))
  · rw [if_neg h15] at hget
    by_cases h20 : (L - 15) / s.sb_.address_block_capacity + 15 ≥ 20
    · rw [set_eq_range s x L a h15 h20]
      exact Keep.keep_refl _ _ _ _
    · have hS2 : (L - 15) / (B / 4) + 15 < 20 := by rw [hcap] at h20; omega
      have hT : (L - 15) % (B / 4) < B / 4 := Nat.mod_lt _ hcap0
      by_cases hslot : x.blocks.getD ((L - 15) / s.sb_.address_block_capacity + 15) 0 = -1
      · rw [set_eq_new s x L a h15 h20 hslot, initialize_address_block_eq]
        obtain ⟨hx1, hf1, hun1, hcase⟩ := h.reserve_data_block
        have hs1 := hx1.basic.layout
        have k1 := Keep.of_frame h hs1 hf1
        rcases hcase with hfail | ⟨b, hb1, hb2, hb3, hb4, hb5, hb6⟩
        · rw [if_pos hfail]
          simp only
          have hself : x.set_block ((L - 15) / s.sb_.address_block_capacity + 15) (-1) = x :=
            x.set_block_self _ hslot (by rw [h.wf.blocks_len, hcap]; exact hS2)
          rw [hself, if_pos hslot]
          exact k1
        · have hne : ¬ s.reserve_data_block.1 = -1 := by rw [hb1]; omega
          rw [if_neg hne]
          simp only
          have hgetb : (x.set_block ((L - 15) / s.sb_.address_block_capacity + 15)
              s.reserve_data_block.1).blocks.getD
                ((L - 15) / s.sb_.address_block_capacity + 15) 0 = (b : Int) := by
            rw [x.set_block_getD h.wf _ _ (by rw [hcap]; exact hS2), if_pos rfl, hb1]
          rw [hgetb, if_neg (by omega)]
          simp only
          rw [hb1]
          rw [hs1.address_block_capacity, hcap, Int.add_comm (b : Int) _,
            hs1.write_data_eq b _ _ _ (by omega), Nat.add_zero]
          have hl2 : (s.reserve_data_block.2.write_at (963 * B + b * B)
              empty_address_block_buffer (B / 4 * 4)).Layout B := hs1.of_sb rfl
          rw [hl2.write_inode_eq _ (by rw [INode.set_block_index]; exact hi)]
          have hl3 : ((s.reserve_data_block.2.write_at (963 * B + b * B)
              empty_address_block_buffer (B / 4 * 4)).write_at
                (3 * B + 120 * (x.set_block ((L - 15) / (B / 4) + 15) (b : Int)).index)
                (x.set_block ((L - 15) / (B / 4) + 15) (b : Int)).bytes 120).Layout B :=
            hl2.of_sb rfl
          simp only [write_at_sb]
          rw [hs1.data_blocks_start_i, hl3.write_data_lit b _ _ _ (by omega)]
          have hl4 : (((s.reserve_data_block.2.write_at (963 * B + b * B)
              empty_address_block_buffer (B / 4 * 4)).write_at
                (3 * B + 120 * (x.set_block ((L - 15) / (B / 4) + 15) (b : Int)).index)
                (x.set_block ((L - 15) / (B / 4) + 15) (b : Int)).bytes 120).write_at
                (963 * B + b * B + (L - 15) % (B / 4) * 4) (int32_bytes (a : Int)) 4).Layout B :=
            hl3.of_sb rfl
          refine Keep.keep_trans k1 ?_
          apply Keep.of_fs hx1 hl4 rfl (INode.set_block_index x _ _)
          · intro S hS hne
            rw [x.set_block_getD h.wf _ _ hS2 S, if_neg (by
              intro e; rw [e] at hne; rw [hcap] at hslot; exact hne hslot)]
          · intro off ho
            have r1 := addressing_offset_record hx1 off ho
            have r2 := addressing_offset_fresh hx1 b hb6 off ho
            simp only [write_at_fs, INode.set_block_index]
            rw [fs_write_out _ _ _ _ _ (by omega), fs_write_out _ _ _ _ _ r1,
              fs_write_out _ _ _ _ _ (by omega)]
          · intro off ho
            have r1 := file_data_offset_record hx1 off ho
            have r2 := file_data_offset_fresh b hb6 off ho
            simp only [write_at_fs, INode.set_block_index]
            rw [fs_write_out _ _ _ _ _ (by omega), fs_write_out _ _ _ _ _ (Or.inr r1),
              fs_write_out _ _ _ _ _ (by omega)]
      · rw [set_eq_entry s x L a h15 h20 hslot]
        have hr0 : Ref.ok s (s.view_with x.index x.blocks)
            ⟨x.index, (L - 15) / (B / 4) + 15, none⟩ := ⟨h.live_x, hS2, trivial⟩
        have hv0 : Ref.val s (s.view_with x.index x.blocks)
            ⟨x.index, (L - 15) / (B / 4) + 15, none⟩
            = x.blocks.getD ((L - 15) / (B / 4) + 15) 0 := by
          unfold Ref.val; simp only; rw [view_with_same]
        rw [hcap] at hslot hget h20 ⊢
        obtain ⟨b, hb1, hb2, _⟩ := (hs.reserved_iff _).mp
          (h.refs.rsv _ hr0 (by rw [hv0]; exact hslot))
        rw [hv0] at hb1
        rw [hb1, hs.write_data_eq b _ _ _ hb2]
        rw [if_neg (by
          intro hc
          rcases hc with hc | hc
          · omega
          · exact hslot hc), hb1] at hget
        have ht : (s.write_at (963 * B + b * B + (L - 15) % (B / 4) * 4)
            (int32_bytes (a : Int)) 4).Layout B := hs.of_sb rfl
        apply Keep.of_fs h ht rfl rfl (fun _ _ _ => rfl)
        · intro off ho
          exact fs_write_out _ _ _ _ _ (addressing_offset_entry h _ _ b
            (Nat.le_add_left 15 _) hS2 hT hb1 hget off ho)
        · intro off ho
          have := file_data_offset_address_block h x.index _ b h.live_x
            (Nat.le_add_left 15 _) hS2 (by rw [view_with_same]; exact hb1) off ho
          apply fs_write_out
          omega


theorem Keep.keep_reserve_file_block {s : FFSys} {B : Nat} {x : INode} (h : s.InvX B x)
    (L : Nat) (hget : s.get_file_block_address x L = -1) :
    s.Keep (s.reserve_file_block x L).2.2 (s.view_with x.index x.blocks)
      ((s.reserve_file_block x L).2.2.view_with (s.reserve_file_block x L).2.1.index
        (s.reserve_file_block x L).2.1.blocks) B x.index := by
  obtain ⟨hx1, hf1, _, hcase⟩ := h.reserve_data_block
  have hs1 := hx1.basic.layout
  have hB := hs1.hB
  have k1 := Keep.of_frame h hs1 hf1
  rw [reserve_file_block_eq]
  rcases hcase with hfail | ⟨a, ha1, _⟩
  · rw [if_pos hfail]
    exact k1
  · have hne : ¬ s.reserve_data_block.1 = -1 := by rw [ha1]; omega
    rw [if_neg hne, ha1]
    have hget1 : s.reserve_data_block.2.get_file_block_address x L = -1 := by
      rw [Layout.get_congr h hs1 (fun off ho => hf1.fs_high off (by omega)) L]
      exact hget
    have k2 := Keep.keep_set_address_fresh hx1 L a hget1
    split_ifs
    · exact Keep.keep_trans k1 k2
    · exact Keep.keep_trans k1 k2


/-! ## The write loop -/

theorem data_ref_is_data (s : FFSys) (i L : Nat) : (s.data_ref i L).is_data := by
  unfold data_ref Ref.is_data
  split_ifs with h
  · intro _; exact h
  · intro e; exact absurd e (by simp)

theorem data_ref_congr {s t : FFSys} {B : Nat} (hs : s.Layout B) (ht : t.Layout B)
    (i L : Nat) : t.data_ref i L = s.data_ref i L := by
  unfold data_ref
  rw [hs.address_block_capacity, ht.address_block_capacity]

theorem data_ref_inj {s : FFSys} {B : Nat} (hs : s.Layout B) (i L L' : Nat)
    (h : s.data_ref i L = s.data_ref i L') : L = L' := by
  have hB := hs.hB
  unfold data_ref at h
  rw [hs.address_block_capacity] at h
  split_ifs at h with h1 h2 h2
  · simp only [Ref.mk.injEq] at h; omega
  · simp only [Ref.mk.injEq] at h; exact absurd h.2.2 (by simp)
  · simp only [Ref.mk.injEq] at h; exact absurd h.2.2 (by simp)
  · simp only [Ref.mk.injEq, Option.some.injEq] at h
    have e1 := Nat.div_add_mod (L - 15) (B / 4)
    have e2 := Nat.div_add_mod (L' - 15) (B / 4)
    have e3 : (L - 15) / (B / 4) = (L' - 15) / (B / 4) := by omega
    rw [e3, h.2.2] at e1
    omega

theorem get_of_ref {s : FFSys} (x : INode) (L : Nat)
    (hok : (s.data_ref x.index L).ok s (s.view_with x.index x.blocks)) :
    s.get_file_block_address x L
      = (s.data_ref x.index L).val s (s.view_with x.index x.blocks) := by
  rw [get_eq]
  unfold data_ref at hok ⊢
  by_cases h15 : L < 15
  · rw [if_pos h15, if_pos h15]
    unfold Ref.val
    simp only
    rw [view_with_same]
  · rw [if_neg h15] at hok
    rw [if_neg h15, if_neg h15]
    obtain ⟨_, hS, _, _, hne⟩ := hok
    simp only at hS hne
    rw [view_with_same] at hne
    rw [if_neg (by
      intro hc
      rcases hc with hc | hc
      · omega
      · exact hne hc)]
    unfold Ref.val
    simp only
    rw [view_with_same]

theorem data_ref_bound {s : FFSys} {B : Nat} (hs : s.Layout B) (i L : Nat)
    {v : Nat → List Int} (hok : (s.data_ref i L).ok s v) : L < 15 + 5 * (B / 4) := by
  have hB := hs.hB
  unfold data_ref at hok
  rw [hs.address_block_capacity] at hok
  by_cases h15 : L < 15
  · omega
  · rw [if_neg h15] at hok
    have hS := hok.2.1
    simp only at hS
    have : (L - 15) / (B / 4) < 5 := by omega
    have := (Nat.div_lt_iff_lt_mul (by omega : 0 < B / 4)).mp this
    omega

/-- Writing a chunk into a mapped block of the file. -/
theorem InvX.write_chunk {s : FFSys} {B : Nat} {x : INode} (h : s.InvX B x)
    (L a off tw : Nat) (src : Mem) (ha : s.get_file_block_address x L = (a : Int))
    (hoc : off + tw ≤ B) (hsrc : ∀ k, k < tw → src k < 256) :
    s.write_block (u32 ((s.sb_.data_blocks_start_i : Int) + (a : Int))) src tw off
        = s.write_at (963 * B + a * B + off) src tw
      ∧ (s.write_at (963 * B + a * B + off) src tw).InvX B x
      ∧ (∀ r : Ref, r.ok s (s.view_with x.index x.blocks) →
          r.val s (s.view_with x.index x.blocks) ≠ -1 →
          r.ok (s.write_at (963 * B + a * B + off) src tw)
              ((s.write_at (963 * B + a * B + off) src tw).view_with x.index x.blocks)
            ∧ r.val (s.write_at (963 * B + a * B + off) src tw)
              ((s.write_at (963 * B + a * B + off) src tw).view_with x.index x.blocks)
              = r.val s (s.view_with x.index x.blocks))
      ∧ (s.write_at (963 * B + a * B + off) src tw).get_file_block_address x L = (a : Int)
      ∧ L < 15 + 5 * (B / 4) := by
  have hs := h.basic.layout
  have hne : s.get_file_block_address x L ≠ -1 := by rw [ha]; omega
  obtain ⟨n, hn1, hn2, _⟩ := h.get_reserved L hne
  have hna : n = a := by rw [ha] at hn1; omega
  subst hna
  have hx2 : (s.write_at (963 * B + n * B + off) src tw).InvX B x :=
    h.write_data n off tw src hn2 hoc hsrc (by
      intro i S hi hS hS2
      rw [← ha]
      exact h.get_not_address_block L hne i S hi hS hS2)
  have ht := hx2.basic.layout
  have hrefs := Keep.refs_of_fs h ht rfl rfl (fun _ _ _ => rfl) (by
    intro o ho
    have := addressing_offset_data_block h L n ha o ho
    apply fs_write_out
    omega)
  obtain ⟨hok, hval⟩ := get_is_ref hs x L h.live_x hne
  refine ⟨hs.write_data_eq n src tw off hn2, hx2, hrefs, ?_, data_ref_bound hs _ _ hok⟩
  obtain ⟨hok2, hval2⟩ := hrefs _ hok (by rw [hval]; exact hne)
  rw [← data_ref_congr hs ht] at hok2 hval2
  rw [get_of_ref x L hok2, hval2, data_ref_congr hs ht, hval, ha]


theorem WriteSpec.step {buffer : Mem} {B : Nat} {s s1 : FFSys} {x x1 : INode}
    (h : s.InvX B x) (h1 : s1.InvX B x1)
    (hk : s.Keep s1 (s.view_with x.index x.blocks) (s1.view_with x1.index x1.blocks) B
      x.index)
    (hm : x.same_meta x1) (hof : s1.open_files_ = s.open_files_)
    (left written pos a tw : Nat)
    (ha : s1.get_file_block_address x1 (pos / B) = (a : Int))
    (htw : tw = min (B - pos % B) left) (hleft : 0 < left) (hbuf : ∀ k, buffer k < 256)
    (res : Nat × Nat × INode × FFSys)
    (ih : WriteSpec buffer B (s1.write_at (963 * B + a * B + pos % B) (buffer.shift written) tw)
      x1 (left - tw) (written + tw) (pos + tw) res) :
    WriteSpec buffer B s x left written pos res := by
  have hs := h.basic.layout
  have hs1 := h1.basic.layout
  have hB := hs.hB
  have hoff : pos % B < B := Nat.mod_lt _ (by omega)
  have htw1 : 1 ≤ tw := by rw [htw]; omega
  have htw2 : tw ≤ B - pos % B := by rw [htw]; omega
  have htw3 : tw ≤ left := by rw [htw]; omega
  have hdm := Nat.div_add_mod pos B
  obtain ⟨_, hx2, hrefs2, hget2, hLb⟩ := h1.write_chunk (pos / B) a (pos % B) tw
    (buffer.shift written) ha (by omega) (fun k _ => hbuf _)
  have hs2 := hx2.basic.layout
  have hge := ih.ge
  have hle := ih.le
  have hpe := ih.pos_eq
  have hidx : x1.index = x.index := hm.1
  have hmul : pos / B * B + B ≤ (15 + 5 * (B / 4)) * B := mul_block_lt _ _ B hLb
  have hcomm : B * (pos / B) = pos / B * B := Nat.mul_comm _ _
  have hne1 : s1.get_file_block_address x1 (pos / B) ≠ -1 := by rw [ha]; omega
  obtain ⟨hok1, hval1⟩ := get_is_ref hs1 x1 (pos / B) h1.live_x hne1
  refine ⟨ih.inv, INode.same_meta.trans hm ih.same_meta, ?_, by omega, by omega, by omega,
    ?_, ?_, ?_, ?_, ?_, ih.ibm.trans hk.ibm⟩
  · rw [ih.open_files, write_at_open_files, hof]
  · intro _
    by_cases hc : written + tw < res.1
    · exact ih.bound hc
    · omega
  · intro r hr hv
    obtain ⟨a1, a2⟩ := hk.refs r hr hv
    obtain ⟨b1, b2⟩ := hrefs2 r a1 (by rw [a2]; exact hv)
    obtain ⟨c1, c2⟩ := ih.refs r b1 (by rw [b2, a2]; exact hv)
    exact ⟨c1, c2.trans (b2.trans a2)⟩
  · intro r n o hr hd hv ho hout
    have hvn : r.val s (s.view_with x.index x.blocks) ≠ -1 := by rw [hv]; omega
    obtain ⟨a1, a2⟩ := hk.refs r hr hvn
    obtain ⟨b1, b2⟩ := hrefs2 r a1 (by rw [a2]; exact hvn)
    have e1 := hk.data r n hr hd hv o ho
    have e2 : (s1.write_at (963 * B + a * B + pos % B) (buffer.shift written) tw).fs_
        (963 * B + n * B + o) = s1.fs_ (963 * B + n * B + o) := by
      apply fs_write_out
      by_cases hna : n = a
      · subst hna
        have hr1 : r = s1.data_ref x1.index (pos / B) :=
          h1.refs.inj r _ a1 hok1 (by rw [a2]; exact hvn) (by rw [a2, hv, hval1, ha])
        rw [data_ref_congr hs hs1, hidx] at hr1
        have := hout (pos / B) hr1
        omega
      · have := block_disjoint B n a o (pos % B) hna ho
        omega
    have e3 := ih.frame r n o b1 hd (by rw [b2, a2, hv]) ho (by
      intro L hL
      rw [data_ref_congr hs hs2, hidx] at hL
      have := hout L hL
      omega)
    rw [e3, e2, e1]
  · intro k hk2
    by_cases hkt : k < tw
    · have hdiv : (pos + k) / B = pos / B := by
        apply Nat.div_eq_of_lt_le
        · omega
        · rw [Nat.succ_mul]; omega
      have hmod : (pos + k) % B = pos % B + k := by
        have := Nat.div_add_mod (pos + k) B
        rw [hdiv] at this
        omega
      rw [hdiv, hmod]
      have hne2 : (s1.write_at (963 * B + a * B + pos % B) (buffer.shift written)
          tw).get_file_block_address x1 (pos / B) ≠ -1 := by rw [hget2]; omega
      obtain ⟨hok2, hval2⟩ := get_is_ref hs2 x1 (pos / B) hx2.live_x hne2
      obtain ⟨c1, c2⟩ := ih.refs _ hok2 (by rw [hval2]; exact hne2)
      have hs3 := ih.inv.basic.layout
      rw [← data_ref_congr hs2 hs3, ← ih.same_meta.1] at c1 c2
      refine ⟨a, ?_, ?_⟩
      · rw [get_of_ref _ _ c1, c2, data_ref_congr hs2 hs3, ih.same_meta.1, hval2, hget2]
      · have e3 := ih.frame _ a (pos % B + k) hok2 (data_ref_is_data _ _ _)
          (by rw [hval2, hget2]) (by omega) (by
            intro L hL
            have := data_ref_inj hs2 _ _ _ hL
            subst this
            omega)
        rw [← Nat.add_assoc] at e3
        rw [← Nat.add_assoc, e3]
        show fs_write s1.fs_ _ _ _ _ = _
        rw [fs_write_in _ _ _ _ _ (by omega) (by omega)]
        unfold Mem.shift
        congr 1
        omega
    · obtain ⟨a', h1', h2'⟩ := ih.content (k - tw) (by omega)
      have e1 : pos + tw + (k - tw) = pos + k := by omega
      have e2 : written + tw + (k - tw) = written + k := by omega
      rw [e1] at h1' h2'
      rw [e2] at h2'
      exact ⟨a', h1', h2'⟩
  · intro j hj hne
    rw [ih.others j hj (by rw [hidx]; exact hne), ← hk.others j hj hne]
    apply hs1.read_inode_of_table hs2 _ j hj
    intro off _ ho
    apply fs_write_out
    left
    generalize a * B = z
    omega


theorem WriteSpec.stop {buffer : Mem} {B : Nat} {s s1 : FFSys} {x x1 : INode}
    (h1 : s1.InvX B x1)
    (hk : s.Keep s1 (s.view_with x.index x.blocks) (s1.view_with x1.index x1.blocks) B
      x.index)
    (hm : x.same_meta x1) (hof : s1.open_files_ = s.open_files_) (left written pos : Nat) :
    WriteSpec buffer B s x left written pos (written, pos, x1, s1) :=
  ⟨h1, hm, hof, Nat.le_refl _, Nat.le_add_right _ _, by simp, fun h => absurd h (by simp),
   hk.refs, fun r n o hr hd hv ho _ => hk.data r n hr hd hv o ho,
   fun k hk2 => absurd hk2 (by simp), hk.others, hk.ibm⟩

theorem write_loop_succ (buffer : Mem) (fuel : Nat) (s : FFSys) (x : INode)
    (left written pos cur : Nat) (hleft : 0 < left) (r : Int × INode × FFSys)
    (hr : r = if s.get_file_block_address x cur = -1 then s.reserve_file_block x cur
      else (s.get_file_block_address x cur, x, s)) :
    write_loop buffer (fuel + 1) s x left written pos cur
      = if r.1 = -1 then (written, pos, r.2.1, r.2.2)
        else write_loop buffer fuel
          (r.2.2.write_block (u32 (r.2.2.sb_.data_blocks_start_i + r.1))
            (buffer.shift written)
            (min (r.2.2.sb_.block_size - pos % r.2.2.sb_.block_size) left)
            (pos % r.2.2.sb_.block_size))
          r.2.1 (left - min (r.2.2.sb_.block_size - pos % r.2.2.sb_.block_size) left)
          (written + min (r.2.2.sb_.block_size - pos % r.2.2.sb_.block_size) left)
          (pos + min (r.2.2.sb_.block_size - pos % r.2.2.sb_.block_size) left)
          ((cur + 1) % 4294967296) := by
  subst hr
  rw [write_loop]
  simp only [gt_iff_lt, hleft, not_true_eq_false, if_false]

theorem write_loop_spec (buffer : Mem) (hbuf : ∀ k, buffer k < 256) {B : Nat} :
    ∀ (fuel : Nat) (s : FFSys) (x : INode) (left written pos cur : Nat),
      s.InvX B x → left ≤ fuel → (0 < left → cur = pos / B) →
      WriteSpec buffer B s x left written pos
        (write_loop buffer fuel s x left written pos cur) := by
  intro fuel
  induction fuel with
  | zero =>
    intro s x left written pos cur h hf _
    rw [write_loop]
    exact WriteSpec.stop h (Keep.keep_refl _ _ _ _) (INode.same_meta.refl x) rfl _ _ _
  | succ fuel ih =>
    intro s x left written pos cur h hf hcur
    by_cases hleft : 0 < left
    · have hs := h.basic.layout
      have hB := hs.hB
      have hB8 := hs.hB8
      have hc := hcur hleft
      subst hc
      -- the state and inode once the block is there
      have key : ∀ (r : Int × INode × FFSys), r.2.2.InvX B r.2.1 →
          s.Keep r.2.2 (s.view_with x.index x.blocks)
            (r.2.2.view_with r.2.1.index r.2.1.blocks) B x.index →
          x.same_meta r.2.1 → r.2.2.open_files_ = s.open_files_ →
          (r.1 ≠ -1 → r.2.2.get_file_block_address r.2.1 (pos / B) = r.1) →
          WriteSpec buffer B s x left written pos
            (if r.1 = -1 then (written, pos, r.2.1, r.2.2)
              else write_loop buffer fuel
                (r.2.2.write_block (u32 (r.2.2.sb_.data_blocks_start_i + r.1))
                  (buffer.shift written)
                  (min (r.2.2.sb_.block_size - pos % r.2.2.sb_.block_size) left)
                  (pos % r.2.2.sb_.block_size))
                r.2.1 (left - min (r.2.2.sb_.block_size - pos % r.2.2.sb_.block_size) left)
                (written + min (r.2.2.sb_.block_size - pos % r.2.2.sb_.block_size) left)
                (pos + min (r.2.2.sb_.block_size - pos % r.2.2.sb_.block_size) left)
                ((pos / B + 1) % 4294967296)) := by
        intro r h1 hk hm hof hget
        by_cases hr : r.1 = -1
        · rw [if_pos hr]
          exact WriteSpec.stop h1 hk hm hof _ _ _
        · rw [if_neg hr]
          have hs1 := h1.basic.layout
          have hg := hget hr
          obtain ⟨a, ha1, _, _⟩ := h1.get_reserved (pos / B) (by rw [hg]; exact hr)
          rw [hg] at ha1
          rw [hs1.block_size, ha1]
          rw [ha1] at hg
          obtain ⟨e1, hx2, _, _, hLb⟩ := h1.write_chunk (pos / B) a (pos % B)
            (min (B - pos % B) left) (buffer.shift written) hg
            (by have := Nat.mod_lt pos (by omega : 0 < B); omega) (fun k _ => hbuf _)
          rw [e1]
          apply WriteSpec.step h h1 hk hm hof left written pos a _ hg rfl hleft hbuf
          apply ih _ _ _ _ _ _ hx2 (by
            have := Nat.mod_lt pos (by omega : 0 < B); omega)
          intro hl
          have hoff := Nat.mod_lt pos (by omega : 0 < B)
          have hmin : min (B - pos % B) left = B - pos % B := by omega
          rw [hmin, Nat.mod_eq_of_lt (by omega)]
          have hdm := Nat.div_add_mod pos B
          have hcomm : B * (pos / B) = pos / B * B := Nat.mul_comm _ _
          symm
          apply Nat.div_eq_of_lt_le
          · rw [Nat.add_mul, Nat.one_mul]; omega
          · rw [Nat.succ_mul, Nat.add_mul, Nat.one_mul]; omega
      rw [write_loop_succ buffer fuel s x left written pos (pos / B) hleft _ rfl]
      by_cases hg : s.get_file_block_address x (pos / B) = -1
      · rw [if_pos hg]
        exact key _ (h.reserve_file_block (pos / B)).1 (Keep.keep_reserve_file_block h _ hg)
          (reserve_file_block_meta s x _) (reserve_file_block_open_files s x _)
          (h.reserve_file_block (pos / B)).2
      · rw [if_neg hg]
        exact key (s.get_file_block_address x (pos / B), x, s) h (Keep.keep_refl _ _ _ _)
          (INode.same_meta.refl x) rfl (fun _ => rfl)
    · have h0 : left = 0 := by omega
      subst h0
      rw [write_loop]
      simp only [gt_iff_lt, Nat.lt_irrefl, not_false_eq_true, if_true]
      exact WriteSpec.stop h (Keep.keep_refl _ _ _ _) (INode.same_meta.refl x) rfl _ _ _


theorem write_inode_fs_high {s : FFSys} {B : Nat} (hs : s.Layout B) (x : INode)
    (hi : x.index < 8 * B) (off : Nat) (ho : 963 * B ≤ off) :
    (s.write_inode x).fs_ off = s.fs_ off := by
  rw [hs.write_inode_eq x hi]
  exact fs_write_out _ _ _ _ _ (Or.inr (by omega))

theorem write_n_bytes_done (buffer : Mem) (hbuf : ∀ k, buffer k < 256) {s : FFSys} {B : Nat}
    {x : INode} (h : s.InvX B x) (count pos : Nat) (hpos : pos < 4294967296) :
    WriteDone buffer B s x count pos (s.write_n_bytes_to_file x buffer count pos) := by
  have hs := h.basic.layout
  have hB := hs.hB
  have hB8 := hs.hB8
  have hdiv : pos / B < 4294967296 := lt_of_le_of_lt (Nat.div_le_self _ _) hpos
  unfold write_n_bytes_to_file
  simp only
  rw [hs.block_size, Nat.mod_eq_of_lt hdiv]
  have W := write_loop_spec buffer hbuf count s x count 0 pos (pos / B) h (Nat.le_refl _)
    (fun _ => rfl)
  generalize write_loop buffer count s x count 0 pos (pos / B) = r at W ⊢
  obtain ⟨w, p, y, t⟩ := r
  simp only at W ⊢
  have hpe : p = pos + w := by have := W.pos_eq; simpa using this
  have hbound : p < 18446744073709551616 := by
    by_cases hw : 0 < w
    · have h1 := W.bound hw
      simp only at h1
      have h2 : (15 + 5 * (B / 4)) * B ≤ 65536 * 65536 :=
        Nat.mul_le_mul (by omega) (by omega)
      omega
    · omega
  have hy := W.inv
  simp only at hy
  have hm := W.same_meta
  simp only at hm
  have ht := hy.basic.layout
  have hi : y.index < 8 * B := ht.live_lt hy.live_x
  obtain ⟨y1, e1, e2, e3, e4, e5, e6⟩ : ∃ y1 : INode, y1 = { y with size := max p y.size }
      ∧ y1.index = y.index ∧ y1.name = y.name ∧ y1.size = max p y.size
      ∧ y1.blocks = y.blocks ∧ y1.created_time = y.created_time :=
    ⟨_, rfl, rfl, rfl, rfl, rfl, rfl⟩
  rw [← e1]
  have hwf : y1.WF :=
    ⟨by rw [e2]; exact hy.wf.index_lt, by rw [e3]; exact hy.wf.name_len,
      by rw [e3]; exact hy.wf.name_lt,
      by have := hy.wf.size_lt; rw [e4]; omega,
      by rw [e5]; exact hy.wf.blocks_len, by rw [e5]; exact hy.wf.blocks_range,
      by rw [e6]; exact hy.wf.created_lt⟩
  have hx1 : t.InvX B y1 := hy.of_fields e2 e5 hwf
  have hi1 : y1.index < 8 * B := by rw [e2]; exact hi
  have hstored : (t.write_inode y1).read_inode y1.index = y1 :=
    read_inode_write_inode ht y1 hwf hi1
  have hl2 : (t.write_inode y1).Layout B := ht.of_sb rfl
  have hrefs := Keep.refs_of_fs hx1 hl2 rfl rfl (fun _ _ _ => rfl) (by
    intro off ho
    rw [ht.write_inode_eq y1 hi1]
    exact fs_write_out _ _ _ _ _ (addressing_offset_record hx1 off ho))
  have hview : (t.write_inode y1).view_with y1.index y1.blocks = (t.write_inode y1).view := by
    have := view_with_self (t.write_inode y1) y1.index
    rw [hstored] at this
    exact this
  refine ⟨hx1.write_back, e2.trans hm.1, e3.trans hm.2.1, ?_, ?_, ?_, ?_, ?_, ?_, ?_, ?_,
    ?_, ?_⟩
  · show y1.size = _
    rw [e4, hpe, hm.2.2.1]
  · have := W.le; simpa using this
  · rw [write_inode_open_files]; exact W.open_files
  · show (t.write_inode y1).read_inode x.index = y1
    rw [← hm.1, ← e2]; exact hstored
  · intro r hr hv
    obtain ⟨a1, a2⟩ := W.refs r hr hv
    simp only at a1 a2
    rw [← e2, ← e5] at a1 a2
    obtain ⟨b1, b2⟩ := hrefs r a1 (by rw [a2]; exact hv)
    rw [hview] at b1 b2
    exact ⟨b1, b2.trans a2⟩
  · intro r n o hr hd hv ho hout
    have := W.frame r n o hr hd hv ho (by
      intro L hL
      have := hout L hL
      simp only at this ⊢
      omega)
    simp only at this ⊢
    rw [← this]
    apply write_inode_fs_high ht y1 hi1
    generalize n * B = z
    omega
  · intro k hk
    obtain ⟨a, h1, h2⟩ := W.content k (by simpa using hk)
    simp only [Nat.zero_add] at h1 h2
    refine ⟨a, ?_, ?_⟩
    · rw [← h1]
      show (t.write_inode y1).get_file_block_address y1 _ = _
      rw [Layout.get_congr hx1 hl2 (fun off ho => write_inode_fs_high ht y1 hi1 off ho)]
      rw [get_eq, get_eq, e5]
    · rw [← h2]
      apply write_inode_fs_high ht y1 hi1
      generalize a * B = z
      omega
  · intro j hj hne
    show (t.write_inode y1).read_inode j = s.read_inode j
    rw [read_inode_write_inode_ne ht y1 hi1 j hj (by rw [e2, hm.1]; exact hne)]
    exact W.others j hj hne
  · show (t.write_inode y1).live x.index
    rw [← hm.1, ← e2]
    exact ⟨hx1.live_x.1, hx1.live_x.2⟩
  · show (t.write_inode y1).inode_bitmap_ = s.inode_bitmap_
    rw [write_inode_ibm]
    exact W.ibm

end FFSys
end ffsys

namespace ffsys
namespace FFSys

/-! ## File creation -/

/-- Reserving a free inode slot `a` for an in-memory inode without blocks. -/
theorem Inv.new_inode {s : FFSys} {B : Nat} (h : s.Inv B) (a : Nat) (ha : a < B)
    (hfree : s.inode_bitmap_.is_free a = true) (x : INode) (hxi : x.index = a)
    (hxb : x.blocks = List.replicate 20 (-1)) (hwf : x.WF) :
    (s.with_inode_bitmap (s.inode_bitmap_.reserve a).2 (a / 8)).InvX B x := by
  have hb := h.basic
  have hs := hb.layout
  have hB := hs.hB
  have hb1 : (s.with_inode_bitmap (s.inode_bitmap_.reserve a).2 (a / 8)).Basic B :=
    hb.with_inode_bitmap _ (a / 8) (by omega)
      (by rw [Bitmap.reserve_size]; exact hb.ibm_size)
      (Bitmap.reserve_bytes _ _ hb.ibm_bytes) (fun j hj => reserve_getD_ne _ _ _ hj)
  have ht := hb1.layout
  have hfs : ∀ off, 3 * B ≤ off →
      (s.with_inode_bitmap (s.inode_bitmap_.reserve a).2 (a / 8)).fs_ off = s.fs_ off :=
    fun off ho => with_inode_bitmap_fs_high hb _ (a / 8) (by omega) off (by omega)
  have hfree' : ∀ n, (s.with_inode_bitmap (s.inode_bitmap_.reserve a).2
      (a / 8)).inode_bitmap_.is_free n = (decide (n ≠ a) && s.inode_bitmap_.is_free n) :=
    fun n => Bitmap.is_free_reserve _ a n hfree
  have hlive : ∀ j, (s.with_inode_bitmap (s.inode_bitmap_.reserve a).2 (a / 8)).live j →
      j ≠ a → s.live j := by
    intro j hj hne
    rw [ht.live_iff] at hj
    rw [hs.live_iff]
    refine ⟨hj.1, ?_⟩
    have := hj.2
    rw [hfree' j] at this
    simpa [hne] using this
  have hlive2 : ∀ j, s.live j →
      (s.with_inode_bitmap (s.inode_bitmap_.reserve a).2 (a / 8)).live j := by
    intro j hj
    rw [hs.live_iff] at hj
    rw [ht.live_iff]
    refine ⟨hj.1, ?_⟩
    rw [hfree' j, hj.2]; simp
  have hread : ∀ j, j < 8 * B →
      (s.with_inode_bitmap (s.inode_bitmap_.reserve a).2 (a / 8)).read_inode j
        = s.read_inode j :=
    hs.read_inode_of_table ht (fun off h1 _ => hfs off h1)
  have hrefs : (s.with_inode_bitmap (s.inode_bitmap_.reserve a).2 (a / 8)).RefsV
      ((s.with_inode_bitmap (s.inode_bitmap_.reserve a).2 (a / 8)).view_with
        x.index x.blocks) := by
    apply h.refs.update (fun r => r.ino = a)
    · intro r hr hC
      have hC' : r.ino ≠ x.index := by rw [hxi]; exact hC
      have hl := hlive r.ino hr.1 hC
      have hv : (s.with_inode_bitmap (s.inode_bitmap_.reserve a).2 (a / 8)).view_with
          x.index x.blocks r.ino = s.view r.ino := by
        rw [view_with_ne _ _ _ _ hC', hread _ (hs.live_lt hl)]
        rfl
      have hok : r.ok s s.view := by
        refine ⟨hl, hr.2.1, ?_⟩
        have h3 := hr.2.2
        cases he : r.ent with
        | none => trivial
        | some T =>
          rw [he] at h3
          simp only at h3 ⊢
          rw [hv] at h3
          exact h3
      refine ⟨hok, ?_⟩
      apply Ref.val_congr hs ht _ _ r hv
      intro T he
      obtain ⟨n, hn1, hn2, _⟩ := h.refs.slot_valid hs r hok T he
      exact ⟨n, hn1, hn2, fun k _ => hfs _ (by generalize n * B = z; omega)⟩
    · intro r _ _ _ hres
      exact hres
    · intro r hr hC hv
      exfalso
      have hC' : r.ino = x.index := by rw [hxi]; exact hC
      have hslot : ((s.with_inode_bitmap (s.inode_bitmap_.reserve a).2 (a / 8)).view_with
          x.index x.blocks r.ino).getD r.slot 0 = -1 := by
        rw [hC', view_with_same, hxb, getD_replicate_eq, if_pos hr.2.1]
      cases he : r.ent with
      | none =>
        apply hv
        unfold Ref.val
        rw [he]
        exact hslot
      | some T =>
        have h3 := hr.2.2
        rw [he] at h3
        exact h3.2.2 hslot
  refine ⟨hb1, hrefs, ?_, ?_, h.pos_lt, ?_, hwf⟩
  · intro j hj hne
    rw [hxi] at hne
    have hl := hlive j hj hne
    rw [hread j (hs.live_lt hl)]
    exact h.index j hl
  · intro f hf
    exact hlive2 _ (h.handles f hf)
  · rw [ht.live_iff, hxi]
    refine ⟨by omega, ?_⟩
    rw [hfree' a]; simp


theorem stored_name_length (name : List Nat) : (stored_name name).length = 17 := by
  unfold stored_name
  rw [List.length_append, List.length_take, List.length_replicate]
  omega

theorem stored_name_lt (name : List Nat) (h : ∀ c, c ∈ name → c < 256) :
    ∀ c, c ∈ stored_name name → c < 256 := by
  intro c hc
  unfold stored_name at hc
  rcases List.mem_append.mp hc with h1 | h1
  · exact h c (List.mem_of_mem_take h1)
  · rw [List.eq_of_mem_replicate h1]; omega

theorem Inv.of_errnum {s : FFSys} {B : Nat} (h : s.Inv B) (e : ErrorNumber) :
    Inv { s with errnum_ := e } B :=
  ⟨h.basic.basic_of_errnum e, ⟨h.refs.rsv, h.refs.inj⟩, h.index, h.handles, h.pos_lt⟩

theorem CreateDone.of_written {s t : FFSys} {B : Nat} {name : List Nat} {a : Nat}
    (hs : s.Layout B) (ha : a < B) (hfree : s.inode_bitmap_.is_free a = true)
    (hfirst : ∀ j, j < a → s.inode_bitmap_.is_free j = false)
    (hibm : t.inode_bitmap_ = (s.inode_bitmap_.reserve a).2)
    (hof : t.open_files_ = s.open_files_)
    (hfs : ∀ off, 3 * B ≤ off → t.fs_ off = s.fs_ off)
    (y : INode) (hy1 : y.index = a) (hy2 : y.name = stored_name name) (hy3 : y.size = 0)
    (hy : t.InvX B y) :
    CreateDone B s name (some y, t.write_inode y) := by
  have ht := hy.basic.layout
  have hB := hs.hB
  have hiy : y.index < 8 * B := by rw [hy1]; omega
  refine ⟨hy.write_back, ?_, ?_, Or.inr ⟨a, y, ha, hfree, hfirst, rfl, hy1, hy2, hy3, ?_, ?_, ?_⟩⟩
  · rw [write_inode_open_files]; exact hof
  · intro off ho
    show (t.write_inode y).fs_ off = s.fs_ off
    rw [write_inode_fs_high ht y hiy off ho, hfs off (by omega)]
  · show (t.write_inode y).read_inode a = y
    rw [← hy1]
    exact read_inode_write_inode ht y hy.wf hiy
  · intro n
    show (t.write_inode y).inode_bitmap_.is_free n = _
    rw [write_inode_ibm, hibm]
    exact Bitmap.is_free_reserve _ a n hfree
  · intro j hj hne
    show (t.write_inode y).read_inode j = s.read_inode j
    rw [read_inode_write_inode_ne ht y hiy j hj (by rw [hy1]; exact hne)]
    exact hs.read_inode_of_table ht (fun off ho _ => hfs off ho) j hj

theorem create_file_eq (s : FFSys) (name : List Nat) (now : Nat) :
    s.create_file name now
      = if s.reserve_inode.1 = -1 then
          (none, { s.reserve_inode.2 with errnum_ := ErrorNumber.NO_FREE_INODES })
        else if s.reserve_inode.2.reserve_data_block.1 ≠ -1 then
          (some (INode.set_block
                  { index := u32 s.reserve_inode.1, name := stored_name name, size := 0,
                    blocks := List.replicate 20 (-1),
                    created_time := now % 18446744073709551616 }
                  0 s.reserve_inode.2.reserve_data_block.1),
           s.reserve_inode.2.reserve_data_block.2.write_inode
             (INode.set_block
                  { index := u32 s.reserve_inode.1, name := stored_name name, size := 0,
                    blocks := List.replicate 20 (-1),
                    created_time := now % 18446744073709551616 }
                  0 s.reserve_inode.2.reserve_data_block.1))
        else
          (some { index := u32 s.reserve_inode.1, name := stored_name name, size := 0,
                  blocks := List.replicate 20 (-1),
                  created_time := now % 18446744073709551616 },
           s.reserve_inode.2.reserve_data_block.2.write_inode
             { index := u32 s.reserve_inode.1, name := stored_name name, size := 0,
               blocks := List.replicate 20 (-1),
               created_time := now % 18446744073709551616 }) := by
  unfold FFSys.create_file
  simp only
  split_ifs <;> rfl

theorem Inv.create_file {s : FFSys} {B : Nat} (h : s.Inv B) (name : List Nat)
    (hname : ∀ c, c ∈ name → c < 256) (now : Nat) :
    CreateDone B s name (s.create_file name now) := by
  have hb := h.basic
  have hs := hb.layout
  have hB := hs.hB
  have hB8 := hs.hB8
  rw [create_file_eq]
  rcases Bitmap.reserve_first_free_spec s.inode_bitmap_ with
    ⟨h1, h2, _⟩ | ⟨a, h1, h2, h3, h4, h5⟩
  · rw [reserve_inode_fail h1 h2, if_pos rfl]
    exact ⟨h.of_errnum _, rfl, fun _ _ => rfl, Or.inl ⟨rfl, rfl, fun _ _ => rfl⟩⟩
  · rw [hb.ibm_size] at h1
    rw [reserve_inode_eq hb a h1 h2 h4 h5]
    simp only
    rw [if_neg (by omega)]
    have hu : u32 (a : Int) = a := by
      unfold u32
      omega
    rw [hu]
    obtain ⟨x0, e0, e1, e2, e3, e4, e5⟩ : ∃ x0 : INode,
        x0 = { index := a, name := stored_name name, size := 0,
               blocks := List.replicate 20 (-1),
               created_time := now % 18446744073709551616 }
        ∧ x0.index = a ∧ x0.name = stored_name name ∧ x0.size = 0
        ∧ x0.blocks = List.replicate 20 (-1)
        ∧ x0.created_time = now % 18446744073709551616 := ⟨_, rfl, rfl, rfl, rfl, rfl, rfl⟩
    rw [← e0]
    have hwf : x0.WF :=
      ⟨by rw [e1]; omega, by rw [e2]; exact stored_name_length name,
        by rw [e2]; exact stored_name_lt name hname, by rw [e3]; omega,
        by rw [e4]; simp, by
          rw [e4]; intro b hb'
          rw [List.eq_of_mem_replicate hb']; omega,
        by rw [e5]; omega⟩
    have hx1 := h.new_inode a h1 h2 x0 e1 e4 hwf
    have hfs1 : ∀ off, 3 * B ≤ off →
        (s.with_inode_bitmap (s.inode_bitmap_.reserve a).2 (a / 8)).fs_ off = s.fs_ off :=
      fun off ho => with_inode_bitmap_fs_high hb _ (a / 8) (by omega) off (by omega)
    have hibm1 : (s.with_inode_bitmap (s.inode_bitmap_.reserve a).2 (a / 8)).inode_bitmap_
        = (s.inode_bitmap_.reserve a).2 := rfl
    have hof1 : (s.with_inode_bitmap (s.inode_bitmap_.reserve a).2 (a / 8)).open_files_
        = s.open_files_ := rfl
    generalize s.with_inode_bitmap (s.inode_bitmap_.reserve a).2 (a / 8) = s1 at *
    obtain ⟨hx2, hf2, _, hcase⟩ := hx1.reserve_data_block
    have hs2 := hx2.basic.layout
    have hof2 := reserve_data_block_open_files s1
    generalize s1.reserve_data_block = d at *
    obtain ⟨d1, s2⟩ := d
    simp only at *
    have hfs2 : ∀ off, 3 * B ≤ off → s2.fs_ off = s.fs_ off :=
      fun off ho => by rw [hf2.fs_high off ho, hfs1 off ho]
    rcases hcase with hfail | ⟨b, hb1', hb2, hb3, hb4, hb5, hb6⟩
    · rw [if_neg (by rw [hfail]; simp)]
      exact CreateDone.of_written hs h1 h2 h3 (hf2.ibm.trans hibm1) (hof2.trans hof1) hfs2
        x0 e1 e2 e3 hx2
    · rw [if_pos (by rw [hb1']; omega), hb1']
      have := hx2.set_slot 0 (b : Int) (by omega) (fun h' => by omega)
        (fun _ => ⟨(hs2.reserved_iff _).mpr ⟨b, rfl, by omega, hb4⟩, hb6⟩)
      exact CreateDone.of_written hs h1 h2 h3 (hf2.ibm.trans hibm1) (hof2.trans hof1) hfs2
        (x0.set_block 0 (b : Int)) e1 e2 e3 this


/-! ## The public calls keep the invariant -/

theorem Inv.of_open_files {s : FFSys} {B : Nat} (h : s.Inv B) (l : List OpenFile)
    (hl : ∀ f, f ∈ l → s.live f.inode ∧ f.pos < 4294967296) :
    Inv { s with open_files_ := l } B :=
  ⟨h.basic.basic_of_open_files l, ⟨h.refs.rsv, h.refs.inj⟩, h.index,
    fun f hf => (hl f hf).1, fun f hf => (hl f hf).2⟩

theorem Inv.set_pos {s : FFSys} {B : Nat} (h : s.Inv B) (fd : Int) (pos : Nat) :
    (s.set_pos fd pos).Inv B := by
  unfold FFSys.set_pos
  apply h.of_open_files
  intro f hf
  obtain ⟨g, hg, e⟩ := List.mem_map.mp hf
  split_ifs at e
  · rw [← e]
    exact ⟨h.handles g hg, Nat.mod_lt _ (by omega)⟩
  · rw [← e]
    exact ⟨h.handles g hg, h.pos_lt g hg⟩

theorem lookup_mem {s : FFSys} {fd : Int} {f : OpenFile} (h : s.lookup fd = some f) :
    f ∈ s.open_files_ ∧ f.fd = fd := by
  unfold FFSys.lookup at h
  refine ⟨List.mem_of_find?_eq_some h, ?_⟩
  have := List.find?_some h
  simpa using this

theorem Inv.read {s : FFSys} {B : Nat} (h : s.Inv B) (fd : Int) (buffer : Mem) (count : Nat) :
    (s.read fd buffer count).2.2.Inv B := by
  unfold FFSys.read
  cases hl : s.lookup fd with
  | none => exact h.of_errnum _
  | some f => exact h.set_pos _ _

theorem Inv.seek {s : FFSys} {B : Nat} (h : s.Inv B) (fd : Int) (pos : Nat) :
    (s.seek fd pos).2.Inv B := by
  unfold FFSys.seek
  cases hl : s.lookup fd with
  | none => exact h.of_errnum _
  | some f =>
    simp only
    split_ifs
    · exact h
    · exact h.set_pos _ _

theorem Inv.close {s : FFSys} {B : Nat} (h : s.Inv B) (fd : Int) :
    (s.close fd).2.Inv B := by
  unfold FFSys.close
  cases hl : s.lookup fd with
  | none => exact h.of_errnum _
  | some f =>
    apply h.of_open_files
    intro g hg
    have := List.mem_of_mem_filter hg
    exact ⟨h.handles g this, h.pos_lt g this⟩

theorem Inv.write {s : FFSys} {B : Nat} (h : s.Inv B) (fd : Int) (buffer : Mem)
    (hbuf : ∀ k, buffer k < 256) (count : Nat) :
    (s.write fd buffer count).2.Inv B := by
  unfold FFSys.write
  cases hl : s.lookup fd with
  | none => exact h.of_errnum _
  | some f =>
    obtain ⟨hf, _⟩ := lookup_mem hl
    have hx := InvX.of_inv h f.inode (h.handles f hf)
    have hd := write_n_bytes_done buffer hbuf hx count f.pos (h.pos_lt f hf)
    exact hd.inv.set_pos _ _

theorem find_file_loop_some (s : FFSys) (name : List Nat) :
    ∀ (fuel i c : Nat) (f : INode), find_file_loop s name fuel i c = some f →
      ∃ j, i ≤ j ∧ j < i + fuel ∧ s.inode_bitmap_.is_free j = false
        ∧ f = s.read_inode j ∧ (s.read_inode j).cname = name := by
  intro fuel
  induction fuel with
  | zero => intro i c f h; simp [find_file_loop] at h
  | succ fuel ih =>
    intro i c f h
    rw [find_file_loop] at h
    split_ifs at h with h1 h2 h3
    · simp only [Option.some.injEq] at h
      exact ⟨i, Nat.le_refl _, by omega, by simpa using h2, h.symm, h3⟩
    · obtain ⟨j, a1, a2, a3⟩ := ih _ _ _ h
      exact ⟨j, by omega, by omega, a3⟩
    · obtain ⟨j, a1, a2, a3⟩ := ih _ _ _ h
      exact ⟨j, by omega, by omega, a3⟩

theorem find_file_some {s : FFSys} {B : Nat} (h : s.Inv B) (name : List Nat) (f : INode)
    (hf : s.find_file name = some f) :
    ∃ j, s.live j ∧ f = s.read_inode j ∧ f.index = j ∧ f.cname = name := by
  unfold FFSys.find_file at hf
  obtain ⟨j, _, a2, a3, a4, a5⟩ := find_file_loop_some s name _ _ _ f hf
  have hl : s.live j := ⟨by omega, a3⟩
  exact ⟨j, hl, a4, by rw [a4]; exact h.index j hl, by rw [a4]; exact a5⟩


theorem Inv.open_file {s : FFSys} {B : Nat} (h : s.Inv B) (j : Nat) (hj : s.live j)
    (hidx : (s.read_inode j).index = j) (flags : Nat) :
    (s.open_file (s.read_inode j) flags).2.Inv B := by
  have hs := h.basic.layout
  have hB8 := hs.hB8
  have hx := InvX.of_inv h j hj
  have hj8 := hs.live_lt hj
  unfold FFSys.open_file
  simp only
  by_cases ht : flags &&& TRUNCATE ≠ 0
  · rw [if_pos ht]
    have hwf := hx.wf
    have hwf0 : ({ s.read_inode j with size := 0 } : INode).WF :=
      ⟨hwf.index_lt, hwf.name_len, hwf.name_lt, by show (0 : Nat) < _; omega,
        hwf.blocks_len, hwf.blocks_range, hwf.created_lt⟩
    have hx0 : s.InvX B { s.read_inode j with size := 0 } := hx.of_fields rfl rfl hwf0
    obtain ⟨h1, h2, h3, h4⟩ := hx0.free_unused_file_blocks
    generalize s.free_unused_file_blocks { s.read_inode j with size := 0 } = p at *
    apply h1.of_open_files
    intro f hf
    rcases List.mem_cons.mp hf with e | e
    · rw [e]
      simp only
      have hi : p.1.index = j := by rw [h2.1]; exact hidx
      rw [hi, Nat.mod_eq_of_lt (by omega)]
      rw [hi] at h3
      exact ⟨h3, Nat.mod_lt _ (by omega)⟩
    · exact ⟨h1.handles f e, h1.pos_lt f e⟩
  · rw [if_neg ht]
    apply h.of_open_files
    intro f hf
    rcases List.mem_cons.mp hf with e | e
    · rw [e]
      simp only
      rw [hidx, Nat.mod_eq_of_lt (by omega)]
      exact ⟨hj, Nat.mod_lt _ (by omega)⟩
    · exact ⟨h.handles f e, h.pos_lt f e⟩

theorem Inv.open {s : FFSys} {B : Nat} (h : s.Inv B) (name : List Nat)
    (hname : ∀ c, c ∈ name → c < 256) (flags now : Nat) :
    (s.open name flags now).2.Inv B := by
  unfold FFSys.open
  cases hf : s.find_file name with
  | some file =>
    obtain ⟨j, hj, e1, e2, _⟩ := find_file_some h name file hf
    simp only
    rw [e1] at e2 ⊢
    exact h.open_file j hj e2 flags
  | none =>
    simp only
    split_ifs with hc
    · exact h.of_errnum _
    · have hd := h.create_file name hname now
      generalize s.create_file name now = r at hd
      obtain ⟨o, s1⟩ := r
      cases o with
      | none => exact hd.inv
      | some file =>
        simp only
        rcases hd.outcome with ⟨e, _⟩ | ⟨a, file', ha, _, _, e1, e2, _, _, e3, e4, _⟩
        · exact absurd e (by simp)
        · simp only [Option.some.injEq] at e1
          subst e1
          simp only at e3 e4
          have hs1 := hd.inv.basic.layout
          have hB := hs1.hB
          have hl : s1.live a := by
            rw [hs1.live_iff]
            refine ⟨by omega, ?_⟩
            rw [e4 a]; simp
          rw [← e3]
          exact hd.inv.open_file a hl (by rw [e3]; exact e2) flags


/-! ## The formatted state -/

theorem format_superblock_eq (B : Nat) (hB : 24 ≤ B) (hB8 : 8 * B < 65536) :
    format_superblock B =
      { block_size := B, n_inodes := 8 * B, n_inode_blocks := 960, n_data_blocks := 8 * B,
        inode_bitmap_i := 1, data_block_bitmap_i := 2, inodes_start_i := 3,
        data_blocks_start_i := 963, n_free_inodes := 8 * B, n_free_data_blocks := 8 * B,
        address_block_capacity := B / 4 } := by
  have h1 : (8 * B) % 65536 = 8 * B := Nat.mod_eq_of_lt hB8
  have h2 : (8 * B * 120 + B - 1) / B = 960 := by
    apply Nat.div_eq_of_lt_le
    · omega
    · rw [Nat.succ_mul]; omega
  unfold format_superblock INODE_SIZE
  simp only [h1, h2]
  rw [Nat.mod_eq_of_lt (by omega : B < 65536),
    Nat.mod_eq_of_lt (by omega : B / 4 < 4294967296)]

theorem formatted_eq (B : Nat) (hB : 24 ≤ B) (hB8 : 8 * B < 65536) :
    formatted B =
      { fs_ := fs_write (fs_write (fs_write (fun _ => 0) 0 (format_superblock B).bytes 24)
                  B ((Bitmap.init B).get_bm 0) B) (2 * B) ((Bitmap.init B).get_bm 0) B
        sb_ := format_superblock B
        errnum_ := ErrorNumber.NO_ERROR
        open_files_ := []
        inode_bitmap_ := Bitmap.init B
        data_block_bitmap_ := Bitmap.init B } := by
  unfold formatted
  simp only [write_superblock_eq]
  unfold write_block block_pos
  simp only [format_superblock_eq B hB hB8]
  rw [Nat.mod_eq_of_lt (by omega : B < 4294967296), Nat.one_mul,
    Nat.mod_eq_of_lt (by omega : B < 4294967296),
    Nat.mod_eq_of_lt (by omega : 2 * B < 4294967296), Nat.add_zero, Nat.add_zero]

theorem formatted_inv (B : Nat) (hB : 24 ≤ B) (hB8 : 8 * B < 65536) : (formatted B).Inv B := by
  have hsb := format_superblock_eq B hB hB8
  have hlay : (formatted B).Layout B := by
    rw [formatted_eq B hB hB8]
    simp only [hsb]
    exact ⟨hB, hB8, rfl, rfl, rfl, rfl, rfl, rfl, rfl, rfl, rfl⟩
  have hibm : (formatted B).inode_bitmap_ = Bitmap.init B := by
    rw [formatted_eq B hB hB8]
  have hdbm : (formatted B).data_block_bitmap_ = Bitmap.init B := by
    rw [formatted_eq B hB hB8]
  have hof : (formatted B).open_files_ = [] := by
    rw [formatted_eq B hB hB8]
  have hbytes : ∀ x, x ∈ (Bitmap.init B).bm_ → x < 256 := by
    intro x hx
    unfold Bitmap.init at hx
    rw [List.eq_of_mem_replicate hx]; omega
  have hnolive : ∀ j, ¬ (formatted B).live j := by
    intro j hj
    rw [hlay.live_iff, hibm, Bitmap.is_free_init] at hj
    have h2 := hj.2
    simp only [decide_eq_false_iff_not] at h2
    exact h2 hj.1
  have hfs : (formatted B).fs_ = fs_write (fs_write (fs_write (fun _ => 0) 0
      (format_superblock B).bytes 24) B ((Bitmap.init B).get_bm 0) B) (2 * B)
      ((Bitmap.init B).get_bm 0) B := by
    rw [formatted_eq B hB hB8]
  have hsbf : (formatted B).sb_ = format_superblock B := by
    rw [formatted_eq B hB hB8]
  refine ⟨⟨hlay, ?_, ?_, ?_, ?_, ?_, ?_, ?_, ?_, ?_, ?_⟩, ⟨?_, ?_⟩, ?_, ?_, ?_⟩
  · rw [hibm, Bitmap.size_init]
  · rw [hdbm, Bitmap.size_init]
  · rw [hibm]; exact hbytes
  · rw [hdbm]; exact hbytes
  · rw [hibm, Bitmap.popcount_init, hsbf, hsb]
  · rw [hdbm, Bitmap.popcount_init, hsbf, hsb]
  · rw [hfs]
    apply fs_write_lt
    · apply fs_write_lt
      · apply fs_write_lt
        · intro off; show (0 : Nat) < 256; omega
        · intro k _; exact Superblock.bytes_lt _ k
      · intro k _; exact get_bm_lt _ hbytes 0 k
    · intro k _; exact get_bm_lt _ hbytes 0 k
  · intro k hk
    rw [hfs, hsbf, fs_write_out _ _ _ _ _ (by omega), fs_write_out _ _ _ _ _ (by omega),
      fs_write_in _ _ _ _ _ (by omega) (by omega), Nat.sub_zero]
  · intro k hk
    rw [hfs, hibm, fs_write_out _ _ _ _ _ (by omega),
      fs_write_in _ _ _ _ _ (by omega) (by omega)]
    unfold Bitmap.get_bm
    rw [Nat.zero_add, Nat.add_sub_cancel_left]
  · intro k hk
    rw [hfs, hdbm, fs_write_in _ _ _ _ _ (by omega) (by omega)]
    unfold Bitmap.get_bm
    rw [Nat.zero_add, Nat.add_sub_cancel_left]
  · intro r hr; exact absurd hr.1 (hnolive _)
  · intro r _ hr; exact absurd hr.1 (hnolive _)
  · intro j hj; exact absurd hj (hnolive _)
  · intro f hf; rw [hof] at hf; exact absurd hf (by simp)
  · intro f hf; rw [hof] at hf; exact absurd hf (by simp)

theorem Reachable.inv {B : Nat} {s : FFSys} (h : Reachable B s) (hB8 : 8 * B < 65536) :
    s.Inv B := by
  induction h with
  | after_format hB => exact formatted_inv B hB hB8
  | after_open s name flags now _ hname ih => exact ih.open name hname flags now
  | after_read s fd buffer count _ ih => exact ih.read fd buffer count
  | after_write s fd buffer count _ hbuf ih => exact ih.write fd buffer hbuf count
  | after_close s fd _ ih => exact ih.close fd
  | after_seek s fd pos _ ih => exact ih.seek fd pos

end FFSys


theorem Superblock.of_bytes_roundtrip (sb : Superblock) (m : Mem)
    (hm : ∀ k, k < 24 → m k = sb.bytes k)
    (h1 : sb.block_size < 65536) (h2 : sb.n_inodes < 65536) (h3 : sb.n_inode_blocks < 65536)
    (h4 : sb.n_data_blocks < 65536) (h5 : sb.inode_bitmap_i < 65536)
    (h6 : sb.data_block_bitmap_i < 65536) (h7 : sb.inodes_start_i < 65536)
    (h8 : sb.data_blocks_start_i < 65536) (h9 : sb.n_free_inodes < 65536)
    (h10 : sb.n_free_data_blocks < 65536) (h11 : sb.address_block_capacity < 4294967296) :
    Superblock.of_bytes m = sb := by
  have f : ∀ (p v : Nat), v < 65536 → p + 2 ≤ 24 →
      (∀ j, j < 2 → sb.bytes (p + j) = le_byte v j) → le16 m p = v := by
    intro p v hv hp hb
    apply le16_eq _ _ _ hv
    intro j hj
    rw [hm _ (by omega), hb j hj]
  have e1 := f 0 _ h1 (by omega) (by
    intro j hj; unfold Superblock.bytes
    rw [if_pos (by omega), Nat.zero_add])
  have e2 := f 2 _ h2 (by omega) (by
    intro j hj; unfold Superblock.bytes
    repeat (first | rw [if_pos (by omega)] | rw [if_neg (by omega)])
    rw [Nat.add_sub_cancel_left])
  have e3 := f 4 _ h3 (by omega) (by
    intro j hj; unfold Superblock.bytes
    repeat (first | rw [if_pos (by omega)] | rw [if_neg (by omega)])
    rw [Nat.add_sub_cancel_left])
  have e4 := f 6 _ h4 (by omega) (by
    intro j hj; unfold Superblock.bytes
    repeat (first | rw [if_pos (by omega)] | rw [if_neg (by omega)])
    rw [Nat.add_sub_cancel_left])
  have e5 := f 8 _ h5 (by omega) (by
    intro j hj; unfold Superblock.bytes
    repeat (first | rw [if_pos (by omega)] | rw [if_neg (by omega)])
    rw [Nat.add_sub_cancel_left])
  have e6 := f 10 _ h6 (by omega) (by
    intro j hj; unfold Superblock.bytes
    repeat (first | rw [if_pos (by omega)] | rw [if_neg (by omega)])
    rw [Nat.add_sub_cancel_left])
  have e7 := f 12 _ h7 (by omega) (by
    intro j hj; unfold Superblock.bytes
    repeat (first | rw [if_pos (by omega)] | rw [if_neg (by omega)])
    rw [Nat.add_sub_cancel_left])
  have e8 := f 14 _ h8 (by omega) (by
    intro j hj; unfold Superblock.bytes
    repeat (first | rw [if_pos (by omega)] | rw [if_neg (by omega)])
    rw [Nat.add_sub_cancel_left])
  have e9 := f 16 _ h9 (by omega) (by
    intro j hj; unfold Superblock.bytes
    repeat (first | rw [if_pos (by omega)] | rw [if_neg (by omega)])
    rw [Nat.add_sub_cancel_left])
  have e10 := f 18 _ h10 (by omega) (by
    intro j hj; unfold Superblock.bytes
    repeat (first | rw [if_pos (by omega)] | rw [if_neg (by omega)])
    rw [Nat.add_sub_cancel_left])
  have e11 : le32 m 20 = sb.address_block_capacity := by
    apply le32_eq _ _ _ h11
    intro j hj
    rw [hm _ (by omega)]
    unfold Superblock.bytes
    repeat (first | rw [if_pos (by omega)] | rw [if_neg (by omega)])
    rw [Nat.add_sub_cancel_left]
  unfold Superblock.of_bytes
  rw [e1, e2, e3, e4, e5, e6, e7, e8, e9, e10, e11]

namespace FFSys

theorem bitmap_of_disk (d : Disk) (bm : Bitmap) (B p : Nat) (z : Mem) (hsize : bm.size_ = B)
    (hd : ∀ k, k < B → d (p + k) = bm.bm_.getD k 0) :
    Bitmap.of_buffer (fs_read d p z B) B = bm := by
  unfold Bitmap.of_buffer
  congr 1
  unfold Bitmap.size_ at hsize
  apply List.ext_getElem
  · simp [hsize]
  · intro n hn1 hn2
    simp only [List.length_map, List.length_range] at hn1
    simp only [List.getElem_map, List.getElem_range]
    unfold fs_read
    rw [if_pos hn1, hd n hn1, List.getD_eq_getElem _ _ hn2]

/-- Mounting the host file of a consistent state gives back its superblock and bitmaps. -/
theorem Basic.mount_eq {s : FFSys} {B : Nat} (h : s.Basic B) :
    mount s.fs_ = { s with errnum_ := ErrorNumber.NO_ERROR, open_files_ := [] } := by
  have hs := h.layout
  have hB := hs.hB
  have hB8 := hs.hB8
  have p1 := Bitmap.popcount_le s.inode_bitmap_
  have p2 := Bitmap.popcount_le s.data_block_bitmap_
  rw [h.ibm_size] at p1
  rw [h.dbm_size] at p2
  have hsb : Superblock.of_bytes (fs_read s.fs_ 0 (fun _ => 0) SUPERBLOCK_SIZE) = s.sb_ := by
    apply Superblock.of_bytes_roundtrip
    · intro k hk
      unfold fs_read SUPERBLOCK_SIZE
      rw [if_pos hk, Nat.zero_add]
      exact h.sb_disk k hk
    · rw [hs.block_size]; omega
    · rw [hs.n_inodes]; omega
    · rw [hs.n_inode_blocks]; omega
    · rw [hs.n_data_blocks]; omega
    · rw [hs.inode_bitmap_i]; omega
    · rw [hs.data_block_bitmap_i]; omega
    · rw [hs.inodes_start_i]; omega
    · rw [hs.data_blocks_start_i]; omega
    · rw [h.free_inodes]; omega
    · rw [h.free_data]; omega
    · rw [hs.address_block_capacity]; omega
  unfold mount
  simp only [hsb]
  rw [hs.block_size, hs.inode_bitmap_i, hs.data_block_bitmap_i, Nat.one_mul,
    Nat.mod_eq_of_lt (by omega : B < 4294967296),
    Nat.mod_eq_of_lt (by omega : 2 * B < 4294967296),
    bitmap_of_disk s.fs_ s.inode_bitmap_ B B _ h.ibm_size h.ibm_disk,
    bitmap_of_disk s.fs_ s.data_block_bitmap_ B (2 * B) _ h.dbm_size h.dbm_disk]


/-! ## Reading after an open depends on the host file, the superblock and the bitmaps only -/

theorem read_loop_with (s : FFSys) (e : ErrorNumber) (l : List OpenFile) (file : INode)
    (count : Nat) : ∀ (fuel : Nat) (b : Mem) (rc bi : Nat),
      read_loop { s with errnum_ := e, open_files_ := l } file count fuel b rc bi
        = read_loop s file count fuel b rc bi := by
  intro fuel
  induction fuel with
  | zero => intro b rc bi; rfl
  | succ fuel ih =>
    intro b rc bi
    rw [read_loop, read_loop]
    simp only [ih]
    rfl

theorem read_n_bytes_with (s : FFSys) (e : ErrorNumber) (l : List OpenFile) (file : INode)
    (buffer : Mem) (count pos : Nat) :
    read_n_bytes_from_file { s with errnum_ := e, open_files_ := l } file buffer count pos
      = s.read_n_bytes_from_file file buffer count pos := by
  unfold read_n_bytes_from_file
  simp only [read_loop_with]
  rfl

theorem find_file_loop_with (s : FFSys) (e : ErrorNumber) (l : List OpenFile)
    (name : List Nat) : ∀ (fuel i c : Nat),
      find_file_loop { s with errnum_ := e, open_files_ := l } name fuel i c
        = find_file_loop s name fuel i c := by
  intro fuel
  induction fuel with
  | zero => intro i c; rfl
  | succ fuel ih =>
    intro i c
    rw [find_file_loop, find_file_loop]
    simp only [ih]
    rfl

theorem find_file_with (s : FFSys) (e : ErrorNumber) (l : List OpenFile) (name : List Nat) :
    find_file { s with errnum_ := e, open_files_ := l } name = s.find_file name := by
  unfold find_file
  exact find_file_loop_with s e l name _ _ _

theorem new_fd_loop_nonneg (l : List OpenFile) :
    ∀ (fuel : Nat) (fd : Int), 0 ≤ fd → 0 ≤ new_fd_loop l fuel fd := by
  intro fuel
  induction fuel with
  | zero => intro fd h; exact h
  | succ fuel ih =>
    intro fd h
    rw [new_fd_loop]
    split_ifs
    · exact ih _ (by omega)
    · exact h

/-- A read through the handle that `open(name, 0)` returns for an existing file. -/
theorem open_then_read (s : FFSys) (name : List Nat) (file : INode) (now : Nat)
    (buffer : Mem) (count : Nat) (hf : s.find_file name = some file) :
    (s.open name 0 now).1 ≠ -1
      ∧ ((s.open name 0 now).2.read (s.open name 0 now).1 buffer count).1
          = ((s.read_n_bytes_from_file (s.read_inode (file.index % 4294967296))
                buffer count 0).1 : Int)
      ∧ ((s.open name 0 now).2.read (s.open name 0 now).1 buffer count).2.1
          = (s.read_n_bytes_from_file (s.read_inode (file.index % 4294967296))
                buffer count 0).2 := by
  have hfd := new_fd_loop_nonneg s.open_files_ s.open_files_.length 0 (Int.le_refl 0)
  unfold FFSys.open
  rw [hf]
  simp only
  unfold open_file
  have ht : ¬ (0 &&& TRUNCATE ≠ 0) := by decide
  have he : ¬ (0 &&& END ≠ 0) := by decide
  simp only [if_neg ht, if_neg he]
  refine ⟨by omega, ?_, ?_⟩
  · unfold FFSys.read FFSys.lookup
    simp only [List.find?_cons_of_pos, beq_self_eq_true, Nat.zero_mod]
    rw [← read_n_bytes_with s s.errnum_ _]
    rfl
  · unfold FFSys.read FFSys.lookup
    simp only [List.find?_cons_of_pos, beq_self_eq_true, Nat.zero_mod]
    rw [← read_n_bytes_with s s.errnum_ _]
    rfl


/-! ## The name lookup -/

theorem used_below_succ (s : FFSys) (i : Nat) :
    s.used_below (i + 1)
      = s.used_below i + (if s.inode_bitmap_.is_free i = false then 1 else 0) := by
  unfold used_below
  rw [List.range_succ, List.countP_append, List.countP_singleton]
  cases s.inode_bitmap_.is_free i <;> simp

theorem used_below_mono (s : FFSys) (i j : Nat) (h : i ≤ j) :
    s.used_below i ≤ s.used_below j := by
  induction j with
  | zero =>
    have : i = 0 := by omega
    rw [this]
  | succ j ih =>
    by_cases e : i = j + 1
    · rw [e]
    · have := ih (by omega)
      rw [used_below_succ]
      omega

theorem used_below_lt (s : FFSys) (i a N : Nat) (hi : i ≤ a) (ha : a < N)
    (hu : s.inode_bitmap_.is_free a = false) : s.used_below i < s.used_below N := by
  have h1 := used_below_mono s i a hi
  have h2 := used_below_mono s (a + 1) N (by omega)
  rw [used_below_succ, if_pos hu] at h2
  omega

theorem used_below_total (b : FFSys) :
    b.inode_bitmap_.popcount + b.used_below (8 * b.inode_bitmap_.size_)
      = 8 * b.inode_bitmap_.size_ := by
  unfold Bitmap.popcount used_below
  have := List.length_eq_countP_add_countP (fun i => b.inode_bitmap_.is_free i)
    (List.range (8 * b.inode_bitmap_.size_))
  rw [List.length_range] at this
  have e : List.countP (fun a => decide ¬b.inode_bitmap_.is_free a = true)
      (List.range (8 * b.inode_bitmap_.size_))
      = List.countP (fun j => !b.inode_bitmap_.is_free j)
          (List.range (8 * b.inode_bitmap_.size_)) := by
    apply List.countP_congr
    intro x _
    simp
  rw [e] at this
  omega

theorem Basic.checked_bound {s : FFSys} {B : Nat} (h : s.Basic B) :
    u32 ((s.sb_.n_inodes : Int) - (s.sb_.n_free_inodes : Int)) = s.used_below (8 * B) := by
  have := used_below_total s
  rw [h.ibm_size] at this
  have hB8 := h.layout.hB8
  rw [h.layout.n_inodes, h.free_inodes]
  have e : ((8 * B : Nat) : Int) - (s.inode_bitmap_.popcount : Int)
      = ((s.used_below (8 * B) : Nat) : Int) := by omega
  rw [e]
  exact u32_natCast _ (by omega)

/-- The lookup returns the first inode in use whose stored name is `name`. -/
theorem find_file_loop_first (s : FFSys) (name : List Nat) (a N : Nat) (haN : a < N)
    (hu : s.inode_bitmap_.is_free a = false) (hname : (s.read_inode a).cname = name)
    (hbefore : ∀ j, j < a → s.inode_bitmap_.is_free j = false →
      (s.read_inode j).cname ≠ name)
    (htotal : u32 ((s.sb_.n_inodes : Int) - (s.sb_.n_free_inodes : Int)) = s.used_below N) :
    ∀ (fuel i : Nat), i ≤ a → a < i + fuel →
      find_file_loop s name fuel i (s.used_below i) = some (s.read_inode a) := by
  intro fuel
  induction fuel with
  | zero => intro i h1 h2; omega
  | succ fuel ih =>
    intro i h1 h2
    rw [find_file_loop, htotal]
    have hlt := used_below_lt s i a N h1 haN hu
    rw [if_neg (by omega)]
    by_cases hf : s.inode_bitmap_.is_free i = false
    · simp only [hf, Bool.not_false, if_true]
      by_cases hia : i = a
      · subst hia
        rw [if_pos hname]
      · rw [if_neg (hbefore i (by omega) hf)]
        have := ih (i + 1) (by omega) (by omega)
        rw [used_below_succ, if_pos hf] at this
        exact this
    · have hf2 : s.inode_bitmap_.is_free i = true := by
        cases h : s.inode_bitmap_.is_free i
        · exact absurd h hf
        · rfl
      simp only [hf2, Bool.not_true, Bool.false_eq_true, if_false]
      have hia : i ≠ a := by
        intro e; rw [e, hu] at hf2; exact absurd hf2 (by simp)
      have := ih (i + 1) (by omega) (by omega)
      rw [used_below_succ, if_neg hf] at this
      exact this

/-- When the lookup fails, no inode in use stores `name`. -/
theorem find_file_loop_none (s : FFSys) (name : List Nat) (N : Nat)
    (htotal : u32 ((s.sb_.n_inodes : Int) - (s.sb_.n_free_inodes : Int)) = s.used_below N) :
    ∀ (fuel i : Nat), i + fuel = N →
      find_file_loop s name fuel i (s.used_below i) = none →
      ∀ j, i ≤ j → j < N → s.inode_bitmap_.is_free j = false →
        (s.read_inode j).cname ≠ name := by
  intro fuel
  induction fuel with
  | zero => intro i h1 _ j hj1 hj2; omega
  | succ fuel ih =>
    intro i h1 h2 j hj1 hj2 hj3
    rw [find_file_loop, htotal] at h2
    have hlt := used_below_lt s i j N hj1 hj2 hj3
    rw [if_neg (by omega)] at h2
    by_cases hf : s.inode_bitmap_.is_free i = false
    · simp only [hf, Bool.not_false, if_true] at h2
      by_cases hn : (s.read_inode i).cname = name
      · rw [if_pos hn] at h2
        exact absurd h2 (by simp)
      · rw [if_neg hn] at h2
        by_cases hij : j = i
        · rw [hij]; exact hn
        · have h3 := h2
          rw [show s.used_below i + 1 = s.used_below (i + 1) by
            rw [used_below_succ, if_pos hf]] at h3
          exact ih (i + 1) (by omega) h3 j (by omega) hj2 hj3
    · have hf2 : s.inode_bitmap_.is_free i = true := by
        cases h : s.inode_bitmap_.is_free i
        · exact absurd h hf
        · rfl
      simp only [hf2, Bool.not_true, Bool.false_eq_true, if_false] at h2
      have hij : j ≠ i := by
        intro e; rw [e, hf2] at hj3; exact absurd hj3 (by simp)
      have h3 := h2
      rw [show s.used_below i = s.used_below (i + 1) by
        rw [used_below_succ, if_neg hf, Nat.add_zero]] at h3
      exact ih (i + 1) (by omega) h3 j (by omega) hj2 hj3

theorem find_file_first {s : FFSys} {B : Nat} (h : s.Basic B) (name : List Nat) (a : Nat)
    (ha : a < 8 * B) (hu : s.inode_bitmap_.is_free a = false)
    (hname : (s.read_inode a).cname = name)
    (hbefore : ∀ j, j < a → s.inode_bitmap_.is_free j = false →
      (s.read_inode j).cname ≠ name) :
    s.find_file name = some (s.read_inode a) := by
  unfold find_file
  rw [h.layout.n_inodes]
  have := find_file_loop_first s name a (8 * B) ha hu hname hbefore h.checked_bound
    (8 * B) 0 (by omega) (by omega)
  exact this

theorem find_file_none {s : FFSys} {B : Nat} (h : s.Basic B) (name : List Nat)
    (hn : s.find_file name = none) :
    ∀ j, j < 8 * B → s.inode_bitmap_.is_free j = false → (s.read_inode j).cname ≠ name := by
  unfold find_file at hn
  rw [h.layout.n_inodes] at hn
  intro j hj hf
  exact find_file_loop_none s name (8 * B) h.checked_bound (8 * B) 0 (by omega) hn j
    (by omega) hj hf

theorem stored_name_cname (name : List Nat) (hlen : name.length ≤ 16)
    (hnul : ∀ c, c ∈ name → c ≠ 0) :
    (stored_name name).takeWhile (fun c => c != 0) = name := by
  unfold stored_name
  rw [List.take_of_length_le hlen, List.takeWhile_append_of_pos (by
    intro c hc
    simpa using hnul c hc)]
  have : 17 - min 16 name.length = (16 - name.length) + 1 := by omega
  rw [this, List.replicate_succ]
  simp


theorem open_file_plain (s : FFSys) (file : INode) (flags : Nat)
    (ht : flags &&& TRUNCATE = 0) (he : flags &&& END = 0) :
    s.open_file file flags
      = (new_fd_loop s.open_files_ s.open_files_.length 0,
         { s with open_files_ :=
            { fd := new_fd_loop s.open_files_ s.open_files_.length 0,
              inode := file.index % 4294967296, pos := 0 } :: s.open_files_ }) := by
  unfold open_file
  simp only [ht, he, ne_eq, not_true_eq_false, if_false, Nat.zero_mod]

theorem lookup_head (s : FFSys) (f : OpenFile) (l : List OpenFile) :
    lookup { s with open_files_ := f :: l } f.fd = some f := by
  unfold lookup
  simp

/-- Create, close, open again: the lookup finds the inode that the create reserved. -/
theorem Inv.lookup_after_create {s : FFSys} {B : Nat} (h : s.Inv B) (name : List Nat)
    (now now2 : Nat) (hlen : name.length ≤ 16) (hchr : ∀ c, c ∈ name → c ≠ 0 ∧ c < 256)
    (hnone : s.find_file name = none) (hok : (s.open name CREATE now).1 ≠ -1) :
    ((s.open name CREATE now).2.close (s.open name CREATE now).1).1 = true
      ∧ (((s.open name CREATE now).2.close (s.open name CREATE now).1).2.open
            name 0 now2).1 ≠ -1
      ∧ ∃ f1 f3 : OpenFile,
          (s.open name CREATE now).2.lookup (s.open name CREATE now).1 = some f1
          ∧ (((s.open name CREATE now).2.close (s.open name CREATE now).1).2.open
                name 0 now2).2.lookup
              (((s.open name CREATE now).2.close (s.open name CREATE now).1).2.open
                name 0 now2).1 = some f3
          ∧ f3.inode = f1.inode
          ∧ s.inode_bitmap_.is_free f1.inode = true
          ∧ (s.open name CREATE now).2.inode_bitmap_.is_free f1.inode = false := by
  have hs := h.basic.layout
  have hB := hs.hB
  have hB8 := hs.hB8
  have d := h.create_file name (fun c hc => (hchr c hc).2) now
  have hopen : s.open name CREATE now
      = match s.create_file name now with
        | (none, s1) => (-1, s1)
        | (some file, s1) => s1.open_file file CREATE := by
    unfold FFSys.open
    rw [hnone]
    simp only
    rw [if_neg (by decide)] <;> rfl
  rw [hopen] at hok ⊢
  generalize s.create_file name now = r at d hok ⊢
  obtain ⟨o, s1⟩ := r
  cases o with
  | none => exact absurd rfl hok
  | some file =>
    simp only
    rcases d.outcome with ⟨e, _⟩ | ⟨a, file', ha, hfree, hfirst, e1, e2, e3, _, e5, e6, e7⟩
    · exact absurd e (by simp)
    · simp only [Option.some.injEq] at e1
      subst e1
      simp only at e5 e6 e7
      rw [open_file_plain s1 file CREATE (by decide) (by decide)]
      simp only
      have hb1 := d.inv.basic
      have hia : file.index % 4294967296 = a := by rw [e2]; exact Nat.mod_eq_of_lt (by omega)
      rw [hia]
      generalize new_fd_loop s1.open_files_ s1.open_files_.length 0 = fd
      have hl1 := lookup_head s1 ⟨fd, a, 0⟩ s1.open_files_
      simp only at hl1
      -- the lookup in the state after the create
      have hcn : (s1.read_inode a).cname = name := by
        rw [e5]
        unfold INode.cname
        rw [e3]
        exact stored_name_cname name hlen (fun c hc => (hchr c hc).1)
      have hnot := find_file_none h.basic name hnone
      have hfind : s1.find_file name = some file := by
        rw [← e5]
        apply find_file_first hb1 name a (by omega) (by rw [e6 a]; simp) hcn
        intro j hj hu
        rw [e6 j] at hu
        have hne : j ≠ a := by omega
        simp only [ne_eq, hne, not_false_eq_true, decide_True, Bool.true_and] at hu
        rw [e7 j (by omega) hne]
        exact hnot j (by omega) hu
      unfold FFSys.close
      rw [hl1]
      simp only
      have hfind2 : ∀ l : List OpenFile,
          find_file { s1 with open_files_ := l } name = some file := by
        intro l
        have := find_file_with s1 s1.errnum_ l name
        rw [hfind] at this
        exact this
      generalize List.filter (fun f => f.fd != fd)
        ({ fd := fd, inode := a, pos := 0 } :: s1.open_files_) = l2
      have hopen2 : FFSys.open { s1 with open_files_ := l2 } name 0 now2
          = FFSys.open_file { s1 with open_files_ := l2 } file 0 := by
        unfold FFSys.open
        have := hfind2 l2
        simp only at this
        rw [this]
      rw [hopen2, open_file_plain _ file 0 (by decide) (by decide)]
      simp only
      rw [hia]
      have hfd2 : (0 : Int) ≤ new_fd_loop l2 l2.length 0 :=
        new_fd_loop_nonneg l2 l2.length 0 (Int.le_refl 0)
      generalize new_fd_loop l2 l2.length 0 = fd2 at *
      have hl3 := lookup_head s1 ⟨fd2, a, 0⟩ l2
      simp only at hl3
      exact ⟨trivial, by omega, ⟨fd, a, 0⟩, ⟨fd2, a, 0⟩, rfl, hl3, rfl, hfree, by rw [e6 a]; simp⟩


theorem Layout.data_block_byte_eq {s : FFSys} {B : Nat} (h : s.Layout B) (n off : Nat)
    (hn : n < 8 * B) : s.data_block_byte (n : Int) off = s.fs_ (963 * B + n * B + off) := by
  unfold data_block_byte
  rw [h.data_pos n off hn]

/-- The layout of a write in a consistent state: the bytes written are found through the
addressing table afterwards, and the mapped blocks of the file keep their address and,
outside the range written, their bytes. -/
theorem Inv.write_layout {s : FFSys} {B : Nat} (h : s.Inv B) (i : Nat) (hi : s.live i)
    (buffer : Mem) (hbuf : ∀ k, buffer k < 256) (count pos : Nat)
    (hpos : pos < 4294967296) :
    (∀ k, k < (s.write_n_bytes_to_file (s.read_inode i) buffer count pos).1 →
        (s.write_n_bytes_to_file (s.read_inode i) buffer count pos).2.2.get_file_block_address
            (s.write_n_bytes_to_file (s.read_inode i) buffer count pos).2.1 ((pos + k) / B)
          ≠ -1
        ∧ (s.write_n_bytes_to_file (s.read_inode i) buffer count pos).2.2.data_block_byte
            ((s.write_n_bytes_to_file (s.read_inode i) buffer count
                pos).2.2.get_file_block_address
              (s.write_n_bytes_to_file (s.read_inode i) buffer count pos).2.1 ((pos + k) / B))
            ((pos + k) % B) = buffer k)
      ∧ (∀ L, s.get_file_block_address (s.read_inode i) L ≠ -1 →
          (s.write_n_bytes_to_file (s.read_inode i) buffer count
              pos).2.2.get_file_block_address
            (s.write_n_bytes_to_file (s.read_inode i) buffer count pos).2.1 L
            = s.get_file_block_address (s.read_inode i) L)
      ∧ ∀ L o, s.get_file_block_address (s.read_inode i) L ≠ -1 → o < B →
          (L * B + o < pos
            ∨ pos + (s.write_n_bytes_to_file (s.read_inode i) buffer count pos).1
                ≤ L * B + o) →
          (s.write_n_bytes_to_file (s.read_inode i) buffer count pos).2.2.data_block_byte
              (s.get_file_block_address (s.read_inode i) L) o
            = s.data_block_byte (s.get_file_block_address (s.read_inode i) L) o := by
  have hs := h.basic.layout
  have hx := InvX.of_inv h i hi
  have hidx : (s.read_inode i).index = i := h.index i hi
  have D := write_n_bytes_done buffer hbuf hx count pos hpos
  generalize s.write_n_bytes_to_file (s.read_inode i) buffer count pos = res at D ⊢
  generalize s.read_inode i = x at hx hidx D ⊢
  obtain ⟨w, y, t⟩ := res
  have hst : t.read_inode x.index = y := D.stored
  have hlv : t.live x.index := D.live_x
  have ht : t.Layout B := D.inv.basic.layout
  have hyi : y.index = x.index := D.index_eq
  have hy : t.InvX B y := by
    have := InvX.of_inv D.inv x.index hlv
    rw [hst] at this
    exact this
  have hview : t.view_with y.index y.blocks = t.view := by
    have := view_with_self t x.index
    rw [hst, ← hyi] at this
    exact this
  have hmap : ∀ L, s.get_file_block_address x L ≠ -1 →
      t.get_file_block_address y L = s.get_file_block_address x L
        ∧ ∃ n : Nat, s.get_file_block_address x L = (n : Int) ∧ n < 8 * B
          ∧ (s.data_ref x.index L).ok s (s.view_with x.index x.blocks)
          ∧ (s.data_ref x.index L).val s (s.view_with x.index x.blocks) = (n : Int) := by
    intro L hL
    obtain ⟨hok, hval⟩ := get_is_ref hs x L hx.live_x hL
    obtain ⟨b1, b2⟩ := D.refs _ hok (by rw [hval]; exact hL)
    have b1' : (t.data_ref y.index L).ok t (t.view_with y.index y.blocks) := by
      rw [hview, data_ref_congr hs ht, hyi]; exact b1
    have b2' : (t.data_ref y.index L).val t (t.view_with y.index y.blocks)
        = s.get_file_block_address x L := by
      rw [hview, data_ref_congr hs ht, hyi, ← hval]; exact b2
    obtain ⟨n, hn1, hn2, _⟩ := hx.get_reserved L hL
    exact ⟨by rw [get_of_ref y L b1', b2'], n, hn1, hn2, hok, by rw [hval, hn1]⟩
  refine ⟨?_, fun L hL => (hmap L hL).1, ?_⟩
  · intro k hk
    obtain ⟨a, h1, h2⟩ := D.content k hk
    simp only at h1 h2 ⊢
    obtain ⟨n, hn1, hn2, _⟩ := hy.get_reserved ((pos + k) / B) (by rw [h1]; omega)
    have : n = a := by rw [h1] at hn1; omega
    subst this
    rw [h1, ht.data_block_byte_eq n _ hn2]
    exact ⟨by omega, h2⟩
  · intro L o hL ho hout
    obtain ⟨_, n, hn1, hn2, hok, hval⟩ := hmap L hL
    simp only at hout ⊢
    rw [hn1, ht.data_block_byte_eq n _ hn2, hs.data_block_byte_eq n _ hn2]
    apply D.frame _ n o hok (data_ref_is_data _ _ _) hval ho
    intro L' hL'
    have := data_ref_inj hs _ _ _ hL'
    subst this
    exact hout

end FFSys
end ffsys

namespace ffsys
namespace FFSys

/-! ## Truncation changes the own region of the file only -/

theorem Confined.confined_refl (s : FFSys) (x : INode) (B : Nat) : s.Confined s x x B :=
  ⟨rfl, fun _ _ => rfl, rfl, fun _ _ _ => Or.inl rfl⟩

theorem own_region_shrink {x y : INode} {B : Nat} (hidx : y.index = x.index)
    (hsh : ∀ S, 15 ≤ S → S < 20 →
      y.blocks.getD S 0 = x.blocks.getD S 0 ∨ y.blocks.getD S 0 = -1)
    (off : Nat) (h : own_region y B off) : own_region x B off := by
  rcases h with h | h | ⟨S, b, h1, h2, h3, h4, h5⟩
  · exact Or.inl h
  · rw [hidx] at h; exact Or.inr (Or.inl h)
  · refine Or.inr (Or.inr ⟨S, b, h1, h2, ?_, h4, h5⟩)
    rcases hsh S h1 h2 with e | e
    · rw [← e]; exact h3
    · rw [e] at h3; omega

theorem Confined.confined_trans {s t u : FFSys} {x y z : INode} {B : Nat}
    (h1 : s.Confined t x y B) (h2 : t.Confined u y z B) : s.Confined u x z B := by
  refine ⟨h2.ibm.trans h1.ibm, ?_, h2.index.trans h1.index, ?_⟩
  · intro off ho
    rw [h2.fs off (fun e => ho (own_region_shrink h1.index h1.shrink off e)), h1.fs off ho]
  · intro S hS hS2
    rcases h2.shrink S hS hS2 with e | e
    · rw [e]; exact h1.shrink S hS hS2
    · exact Or.inr e

theorem Confined.confined_of_frame {s t : FFSys} {B : Nat} (x : INode) (hf : s.Frame t B) :
    s.Confined t x x B :=
  ⟨hf.ibm, fun off ho => hf.fs_high off (by
      by_contra e
      exact ho (Or.inl (by omega))), rfl, fun _ _ _ => Or.inl rfl⟩

theorem free_data_block_frame {s : FFSys} {B : Nat} (hb : s.Basic B) (n : Nat)
    (hn : n < 8 * B) (hres : s.data_block_bitmap_.is_free n = false) :
    (s.free_data_block (n : Int)).2.Basic B ∧ s.Frame (s.free_data_block (n : Int)).2 B := by
  rw [free_data_block_eq hb n hn hres]
  exact hb.basic_with_data_bitmap (s.data_block_bitmap_.free n).2 (n / 8)
    (by have := hb.layout.hB8; omega) (by rw [Bitmap.free_size]; exact hb.dbm_size)
    (Bitmap.free_bytes _ _ hb.dbm_bytes) (fun j hj => free_getD_ne _ _ _ hj)

theorem Confined.confined_write_record {s : FFSys} {B : Nat} (hs : s.Layout B) (x y : INode)
    (hidx : y.index = x.index) (hi : x.index < 8 * B)
    (hsh : ∀ S, 15 ≤ S → S < 20 →
      y.blocks.getD S 0 = x.blocks.getD S 0 ∨ y.blocks.getD S 0 = -1) :
    s.Confined (s.write_inode y) x y B := by
  refine ⟨rfl, ?_, hidx, hsh⟩
  intro off ho
  rw [hs.write_inode_eq y (by rw [hidx]; exact hi)]
  apply fs_write_out
  rw [hidx]
  by_contra e
  exact ho (Or.inr (Or.inl (by omega)))

theorem Confined.confined_free_file_block {s : FFSys} {B : Nat} {x : INode} (h : s.InvX B x)
    (L : Nat) :
    s.Confined (s.free_file_block x L).2.2 x (s.free_file_block x L).2.1 B := by
  have hs := h.basic.layout
  have hB := hs.hB
  have hcap := hs.address_block_capacity
  have hi := hs.live_lt h.live_x
  rw [free_file_block_eq]
  by_cases hget : s.get_file_block_address x L = -1
  · rw [if_pos hget]; exact Confined.confined_refl s x B
  · rw [if_neg hget]
    simp only
    obtain ⟨n, hn1, hn2, hn3⟩ := h.get_reserved L hget
    obtain ⟨hb1, hf1⟩ := free_data_block_frame h.basic n hn2 hn3
    have hs1 := hb1.layout
    rw [hn1]
    have c1 : s.Confined (s.free_data_block (n : Int)).2 x x B := Confined.confined_of_frame x hf1
    generalize (s.free_data_block (n : Int)).2 = s1 at hb1 hf1 hs1 c1 ⊢
    by_cases h15 : L < 15
    · rw [set_eq_direct _ x L (-1) h15]
      refine Confined.confined_trans c1 ?_
      apply Confined.confined_write_record hs1 x _ (INode.set_block_index x L (-1)) hi
      intro S hS hS2
      left
      rw [x.set_block_getD h.wf L (-1) (by omega) S, if_neg (by omega)]
    · have hge := hget
      rw [get_eq, if_neg h15] at hge
      have hc : ¬ ((L - 15) / s.sb_.address_block_capacity + 15 ≥ 20
          ∨ x.blocks.getD ((L - 15) / s.sb_.address_block_capacity + 15) 0 = -1) := by
        intro hc
        rw [if_pos hc] at hge
        exact hge rfl
      rw [hcap] at hc
      have h20 : ¬ (L - 15) / (B / 4) + 15 ≥ 20 := fun e => hc (Or.inl e)
      have hslot : x.blocks.getD ((L - 15) / (B / 4) + 15) 0 ≠ -1 := fun e => hc (Or.inr e)
      have hcap1 := hs1.address_block_capacity
      rw [set_eq_entry _ x L (-1) h15 (by rw [hcap1]; exact h20) (by rw [hcap1]; exact hslot)]
      rw [hcap1]
      have hr0 : Ref.ok s (s.view_with x.index x.blocks)
          ⟨x.index, (L - 15) / (B / 4) + 15, none⟩ :=
        ⟨h.live_x, by show (L - 15) / (B / 4) + 15 < 20; omega, trivial⟩
      have hv0 : Ref.val s (s.view_with x.index x.blocks)
          ⟨x.index, (L - 15) / (B / 4) + 15, none⟩
          = x.blocks.getD ((L - 15) / (B / 4) + 15) 0 := by
        unfold Ref.val; simp only; rw [view_with_same]
      obtain ⟨b, hb1', hb2, _⟩ := (hs.reserved_iff _).mp
        (h.refs.rsv _ hr0 (by rw [hv0]; exact hslot))
      rw [hv0] at hb1'
      rw [hb1', hs1.write_data_eq b _ _ _ hb2]
      refine Confined.confined_trans c1 ⟨rfl, ?_, rfl, fun _ _ _ => Or.inl rfl⟩
      intro off ho
      apply fs_write_out
      have hT : (L - 15) % (B / 4) < B / 4 := Nat.mod_lt _ (by omega)
      by_contra e
      exact ho (Or.inr (Or.inr ⟨(L - 15) / (B / 4) + 15, b, Nat.le_add_left 15 _, by omega,
        hb1', by omega, by omega⟩))


theorem Confined.confined_free_unused_loop {B : Nat} (limit : Nat) :
    ∀ (fuel : Nat) (s : FFSys) (x : INode) (i : Nat), s.InvX B x →
      s.Confined (FFSys.free_unused_loop limit fuel s x i).2 x
        (FFSys.free_unused_loop limit fuel s x i).1 B := by
  intro fuel
  induction fuel with
  | zero => intro s x i _; exact Confined.confined_refl s x B
  | succ fuel ih =>
    intro s x i h
    rw [FFSys.free_unused_loop]
    by_cases h1 : i < limit
    · by_cases h2 : s.get_file_block_address x i = -1
      · simp only [h1, h2, not_true_eq_false, if_true, if_false]
        exact Confined.confined_refl s x B
      · simp only [h1, h2, not_true_eq_false, if_true, if_false]
        exact Confined.confined_trans (Confined.confined_free_file_block h i)
          (ih _ _ _ (h.free_file_block i))
    · simp only [h1, not_false_eq_true, if_true]
      exact Confined.confined_refl s x B

theorem Confined.confined_free_address_block_step {B : Nat} (last_block : Nat) (p : INode × FFSys)
    (i : Nat) (hi : i < 5) (h : p.2.InvX B p.1) :
    p.2.Confined (FFSys.free_address_block_step last_block p i).2 p.1
      (FFSys.free_address_block_step last_block p i).1 B := by
  unfold FFSys.free_address_block_step N_STATIC_FILE_BLOCKS
  simp only
  split_ifs with hc
  · have hs := h.basic.layout
    have hr0 : Ref.ok p.2 (p.2.view_with p.1.index p.1.blocks) ⟨p.1.index, 15 + i, none⟩ :=
      ⟨h.live_x, by show 15 + i < 20; omega, trivial⟩
    have hv0 : Ref.val p.2 (p.2.view_with p.1.index p.1.blocks) ⟨p.1.index, 15 + i, none⟩
        = p.1.blocks.getD (15 + i) 0 := by
      unfold Ref.val; simp only; rw [view_with_same]
    obtain ⟨n, hn1, hn2, hn3⟩ := (hs.reserved_iff _).mp
      (h.refs.rsv _ hr0 (by rw [hv0]; exact hc.1))
    rw [hv0] at hn1
    rw [hn1]
    obtain ⟨_, hf1⟩ := free_data_block_frame h.basic n hn2 hn3
    refine ⟨hf1.ibm, fun off ho => hf1.fs_high off (by
      by_contra e
      exact ho (Or.inl (by omega))), rfl, ?_⟩
    intro S hS hS2
    show (p.1.blocks.set (15 + i) (-1)).getD S 0 = _ ∨ (p.1.blocks.set (15 + i) (-1)).getD S 0 = -1
    rw [getD_set_eq]
    by_cases e : 15 + i = S ∧ 15 + i < p.1.blocks.length
    · right; rw [if_pos e]
    · left; rw [if_neg e]
  · exact Confined.confined_refl _ _ _

theorem Confined.confined_foldl_step {B : Nat} (last_block : Nat) :
    ∀ (l : List Nat) (p : INode × FFSys), (∀ i, i ∈ l → i < 5) → p.2.InvX B p.1 →
      p.2.Confined (l.foldl (FFSys.free_address_block_step last_block) p).2 p.1
        (l.foldl (FFSys.free_address_block_step last_block) p).1 B := by
  intro l
  induction l with
  | nil => intro p _ _; exact Confined.confined_refl _ _ _
  | cons a l ih =>
    intro p hl h
    rw [List.foldl_cons]
    have ha := hl a (List.mem_cons_self _ _)
    exact Confined.confined_trans (Confined.confined_free_address_block_step last_block p a ha h)
      (ih _ (fun i hi => hl i (List.mem_cons_of_mem _ hi))
        (InvX.free_address_block_step last_block p a ha h))

theorem Confined.confined_free_unused_file_blocks {s : FFSys} {B : Nat} {x : INode}
    (h : s.InvX B x) :
    s.Confined (s.free_unused_file_blocks x).2 x (s.free_unused_file_blocks x).1 B
      ∧ (s.free_unused_file_blocks x).2.read_inode x.index
          = (s.free_unused_file_blocks x).1 := by
  unfold FFSys.free_unused_file_blocks
  simp only
  generalize hlb : (if (x.size + s.sb_.block_size - 1) % 18446744073709551616
      / s.sb_.block_size % 4294967296 = 0 then 1
    else (x.size + s.sb_.block_size - 1) % 18446744073709551616 / s.sb_.block_size
      % 4294967296) = lb
  generalize hlim : (N_STATIC_FILE_BLOCKS + N_DYNAMIC_FILE_BLOCKS * s.sb_.address_block_capacity)
      % 4294967296 = lim
  have h1 := InvX.free_unused_loop lim (lim - lb) s x lb h
  have c1 := Confined.confined_free_unused_loop lim (lim - lb) s x lb h
  have h2 := InvX.foldl_step lb (List.range N_DYNAMIC_FILE_BLOCKS) _
    (by intro i hi; simpa [N_DYNAMIC_FILE_BLOCKS] using hi) h1
  have c2 := Confined.confined_foldl_step lb (List.range N_DYNAMIC_FILE_BLOCKS) _
    (by intro i hi; simpa [N_DYNAMIC_FILE_BLOCKS] using hi) h1
  have c12 := Confined.confined_trans c1 c2
  generalize (List.range N_DYNAMIC_FILE_BLOCKS).foldl (FFSys.free_address_block_step lb)
    (FFSys.free_unused_loop lim (lim - lb) s x lb) = r2 at h2 c12
  rw [h2.basic.write_bitmap_noop, h2.basic.write_superblock_noop]
  have ht := h2.basic.layout
  have hi := ht.live_lt h2.live_x
  constructor
  · exact Confined.confined_trans c12
      (Confined.confined_write_record ht r2.1 r2.1 rfl hi (fun _ _ _ => Or.inl rfl))
  · rw [← c12.index]
    exact read_inode_write_inode ht r2.1 h2.wf hi


theorem Confined.confined_others {s t : FFSys} {B : Nat} {x y : INode} (h : s.InvX B x)
    (c : s.Confined t x y B) (ht : t.Layout B) :
    ∀ j, j < 8 * B → j ≠ x.index → t.read_inode j = s.read_inode j := by
  have hs := h.basic.layout
  have hi := hs.live_lt h.live_x
  intro j hj hne
  apply hs.read_inode_congr ht j hj
  intro k hk
  apply c.fs
  rintro (e | e | ⟨S, b, _, _, _, e1, _⟩)
  · omega
  · omega
  · generalize b * B = z at e1
    omega

theorem Confined.confined_foreign_get {s t : FFSys} {B : Nat} {x y : INode} (h : s.InvX B x)
    (c : s.Confined t x y B) (ht : t.Layout B) (j L : Nat) (hj : s.live j)
    (hne : j ≠ x.index) :
    t.get_file_block_address (s.read_inode j) L
      = s.get_file_block_address (s.read_inode j) L := by
  have hs := h.basic.layout
  have hB := hs.hB
  have hi := hs.live_lt h.live_x
  rw [get_eq, get_eq, hs.address_block_capacity, ht.address_block_capacity]
  by_cases h15 : L < 15
  · rw [if_pos h15, if_pos h15]
  · rw [if_neg h15, if_neg h15]
    by_cases hc : (L - 15) / (B / 4) + 15 ≥ 20
        ∨ (s.read_inode j).blocks.getD ((L - 15) / (B / 4) + 15) 0 = -1
    · rw [if_pos hc, if_pos hc]
    · rw [if_neg hc, if_neg hc]
      push_neg at hc
      have hvj : s.view_with x.index x.blocks j = (s.read_inode j).blocks :=
        view_with_ne _ _ _ _ hne
      have hr0 : Ref.ok s (s.view_with x.index x.blocks)
          ⟨j, (L - 15) / (B / 4) + 15, none⟩ := ⟨hj, hc.1, trivial⟩
      have hv0 : Ref.val s (s.view_with x.index x.blocks)
          ⟨j, (L - 15) / (B / 4) + 15, none⟩
          = (s.read_inode j).blocks.getD ((L - 15) / (B / 4) + 15) 0 := by
        unfold Ref.val; simp only; rw [hvj]
      obtain ⟨n, hn1, hn2, _⟩ := (hs.reserved_iff _).mp
        (h.refs.rsv _ hr0 (by rw [hv0]; exact hc.2))
      rw [hv0] at hn1
      rw [hn1]
      apply hs.address_entry_congr ht n _ hn2
      intro k hk
      apply c.fs
      have hT : (L - 15) % (B / 4) < B / 4 := Nat.mod_lt _ (by omega)
      rintro (e | e | ⟨S, b, e1, e2, e3, e4, e5⟩)
      · generalize n * B = z at e; omega
      · generalize n * B = z at e; omega
      · have hra : Ref.ok s (s.view_with x.index x.blocks) ⟨x.index, S, none⟩ :=
          ⟨h.live_x, e2, trivial⟩
        have hva : Ref.val s (s.view_with x.index x.blocks) ⟨x.index, S, none⟩ = (b : Int) := by
          unfold Ref.val; simp only; rw [view_with_same]; exact e3
        have hnb : n ≠ b := by
          intro e
          have := h.refs.inj _ _ hr0 hra (by rw [hv0, hn1]; omega)
            (by rw [hv0, hn1, hva, e])
          simp only [Ref.mk.injEq] at this
          exact hne this.1
        have := block_disjoint B n b ((L - 15) % (B / 4) * 4 + k) 0 hnb (by omega)
        omega

end FFSys
end ffsys

namespace ffsys
namespace FFSys

/-! ## Handle numbers -/

theorem any_fd_iff (l : List OpenFile) (fd : Int) :
    l.any (fun f => f.fd == fd) = true ↔ fd ∈ l.map (fun f => f.fd) := by
  simp only [List.any_eq_true, beq_iff_eq, List.mem_map]

theorem full_range_not_mem (fds : List Int)
    (hall : ∀ k : Nat, k < fds.length → (k : Int) ∈ fds) : ((fds.length : Nat) : Int) ∉ fds := by
  have hR : ((List.range fds.length).map (fun k : Nat => (k : Int))).Nodup :=
    (List.nodup_range _).map (fun a b h => by simpa using h)
  have hsub : (List.range fds.length).map (fun k : Nat => (k : Int)) ⊆ fds := by
    intro z hz
    obtain ⟨k, hk, e⟩ := List.mem_map.mp hz
    rw [← e]
    exact hall k (List.mem_range.mp hk)
  have hsp := List.subperm_of_subset hR hsub
  have hperm := hsp.perm_of_length_le (by simp)
  intro hmem
  have := hperm.symm.subset hmem
  obtain ⟨k, hk, e⟩ := List.mem_map.mp this
  have := List.mem_range.mp hk
  omega

theorem new_fd_loop_fresh (l : List OpenFile) :
    ∀ (fuel : Nat) (n : Nat), n + fuel = l.length →
      (∀ k : Nat, k < n → (k : Int) ∈ l.map (fun f => f.fd)) →
      new_fd_loop l fuel (n : Int) ∉ l.map (fun f => f.fd) := by
  intro fuel
  induction fuel with
  | zero =>
    intro n hn hall
    rw [new_fd_loop]
    have := full_range_not_mem (l.map (fun f => f.fd)) (by
      intro k hk
      rw [List.length_map] at hk
      exact hall k (by omega))
    rw [List.length_map] at this
    have e : n = l.length := by omega
    rw [e]
    exact this
  | succ fuel ih =>
    intro n hn hall
    rw [new_fd_loop]
    by_cases hc : l.any (fun f => f.fd == (n : Int)) = true
    · rw [if_pos hc]
      have := ih (n + 1) (by omega) (by
        intro k hk
        by_cases e : k = n
        · rw [e]; exact (any_fd_iff l _).mp hc
        · exact hall k (by omega))
      simpa using this
    · rw [if_neg hc]
      exact fun e => hc ((any_fd_iff l _).mpr e)

theorem new_fd_fresh (l : List OpenFile) :
    new_fd_loop l l.length 0 ∉ l.map (fun f => f.fd) := by
  have := new_fd_loop_fresh l l.length 0 (by omega) (fun k hk => absurd hk (by omega))
  simpa using this

theorem eq_of_fd_eq {l : List OpenFile} (hnd : (l.map (fun f => f.fd)).Nodup)
    {f g : OpenFile} (hf : f ∈ l) (hg : g ∈ l) (e : f.fd = g.fd) : f = g :=
  List.inj_on_of_nodup_map hnd hf hg e


/-! ## The mapped-prefix invariant -/

theorem Synced.synced_of_handles {s : FFSys} {B : Nat} (h : s.Synced B) (l : List OpenFile)
    (e : ErrorNumber) (hnd : (l.map (fun f => f.fd)).Nodup)
    (hl : ∀ f, f ∈ l → s.live f.inode ∧ f.pos < 4294967296
      ∧ f.pos ≤ (s.read_inode f.inode).size) :
    Synced { s with errnum_ := e, open_files_ := l } B :=
  ⟨(h.inv.of_errnum e).of_open_files l (fun f hf => ⟨(hl f hf).1, (hl f hf).2.1⟩), hnd,
    fun f hf => (hl f hf).2.2, h.mapped⟩

theorem Synced.synced_of_errnum {s : FFSys} {B : Nat} (h : s.Synced B) (e : ErrorNumber) :
    Synced { s with errnum_ := e } B :=
  h.synced_of_handles s.open_files_ e h.fds
    (fun f hf => ⟨h.inv.handles f hf, h.inv.pos_lt f hf, h.pos_le f hf⟩)

theorem Synced.synced_set_pos {s : FFSys} {B : Nat} (h : s.Synced B) (fd : Int) (f : OpenFile)
    (hf : s.lookup fd = some f) (pos : Nat) (hpos : pos ≤ (s.read_inode f.inode).size) :
    (s.set_pos fd pos).Synced B := by
  obtain ⟨hmem, hfd⟩ := lookup_mem hf
  unfold FFSys.set_pos
  apply h.synced_of_handles _ s.errnum_
  · rw [List.map_map]
    have : ((fun f => f.fd) ∘ fun f : OpenFile =>
        if (f.fd == fd) = true then { f with pos := pos % 4294967296 } else f)
        = fun f => f.fd := by
      funext g
      simp only [Function.comp]
      split_ifs <;> rfl
    rw [this]
    exact h.fds
  · intro g hg
    obtain ⟨g0, hg0, e⟩ := List.mem_map.mp hg
    by_cases hc : (g0.fd == fd) = true
    · rw [if_pos hc] at e
      have e2 : g0 = f := eq_of_fd_eq h.fds hg0 hmem (by
        rw [hfd]; simpa using hc)
      rw [← e, e2]
      have := Nat.mod_le pos 4294967296
      exact ⟨h.inv.handles f hmem, Nat.mod_lt _ (by omega), by
        show pos % 4294967296 ≤ (s.read_inode f.inode).size
        omega⟩
    · rw [if_neg hc] at e
      rw [← e]
      exact ⟨h.inv.handles g0 hg0, h.inv.pos_lt g0 hg0, h.pos_le g0 hg0⟩

theorem Synced.synced_seek {s : FFSys} {B : Nat} (h : s.Synced B) (fd : Int) (pos : Nat) :
    (s.seek fd pos).2.Synced B := by
  unfold FFSys.seek
  cases hl : s.lookup fd with
  | none => exact h.synced_of_errnum _
  | some f =>
    simp only
    split_ifs with hc
    · exact h
    · exact h.synced_set_pos fd f hl pos (by omega)

theorem Synced.synced_close {s : FFSys} {B : Nat} (h : s.Synced B) (fd : Int) :
    (s.close fd).2.Synced B := by
  unfold FFSys.close
  cases hl : s.lookup fd with
  | none => exact h.synced_of_errnum _
  | some f =>
    apply h.synced_of_handles _ s.errnum_
    · exact h.fds.sublist ((List.filter_sublist _).map _)
    · intro g hg
      have := List.mem_of_mem_filter hg
      exact ⟨h.inv.handles g this, h.inv.pos_lt g this, h.pos_le g this⟩

/-- The size of a file whose prefix is mapped is at most the file capacity. -/
theorem Synced.synced_size_bound {s : FFSys} {B : Nat} (h : s.Synced B) (j : Nat) (hj : s.live j) :
    (s.read_inode j).size / B ≤ 15 + 5 * (B / 4) := by
  have hs := h.inv.basic.layout
  have hB := hs.hB
  by_cases h0 : (s.read_inode j).size = 0
  · rw [h0]; simp
  · have hx := InvX.of_inv h.inv j hj
    have hidx := h.inv.index j hj
    have hm := h.mapped j hj (((s.read_inode j).size - 1) / B) (by
      rw [hs.block_size]
      have e : (s.read_inode j).size + B - 1 = ((s.read_inode j).size - 1) + B := by omega
      rw [e, Nat.add_div_right _ (by omega)]
      omega)
    obtain ⟨hok, _⟩ := get_is_ref hs (s.read_inode j) _ hx.live_x hm
    have hb := data_ref_bound hs _ _ hok
    have e2 : (s.read_inode j).size = ((s.read_inode j).size - 1) + 1 := by omega
    have := Nat.add_div_le_add_div ((s.read_inode j).size - 1) 1 B
    have h3 : (s.read_inode j).size / B ≤ ((s.read_inode j).size - 1) / B + 1 := by
      rw [Nat.div_le_iff_le_mul_add_pred (by omega)]
      have := Nat.div_add_mod ((s.read_inode j).size - 1) B
      have := Nat.mod_lt ((s.read_inode j).size - 1) (by omega : 0 < B)
      rw [Nat.mul_add, Nat.mul_one]
      omega
    omega


theorem read_loop_le (s : FFSys) (file : INode) (count : Nat) :
    ∀ (fuel : Nat) (buffer : Mem) (read_count block_index : Nat), read_count ≤ count →
      (s.read_loop file count fuel buffer read_count block_index).1 ≤ count := by
  intro fuel
  induction fuel with
  | zero => intro buffer rc bi h; exact h
  | succ fuel ih =>
    intro buffer rc bi h
    unfold read_loop
    by_cases h1 : rc < count
    · simp only [h1, not_true_eq_false, if_false]
      split_ifs
      · exact h
      · exact ih _ _ _ (by omega)
    · simp only [h1, not_false_eq_true, if_true]
      exact h

theorem read_n_bytes_le (s : FFSys) (file : INode) (buffer : Mem) (count pos : Nat)
    (hpos : pos ≤ file.size) (hcnt : pos + count < 18446744073709551616) :
    pos + (s.read_n_bytes_from_file file buffer count pos).1 ≤ file.size := by
  have hc1 : (if (pos + count) % 18446744073709551616 ≥ file.size
        then u64 ((file.size : Int) - pos) else count) ≤ file.size - pos := by
    rw [Nat.mod_eq_of_lt hcnt]
    by_cases h : pos + count ≥ file.size
    · rw [if_pos h]
      have := u64_of_nonneg_lt ((file.size : Int) - pos) (by omega) (by omega)
      omega
    · rw [if_neg h]; omega
  unfold read_n_bytes_from_file
  simp only
  generalize (if (pos + count) % 18446744073709551616 ≥ file.size
        then u64 ((file.size : Int) - pos) else count) = c1 at hc1 ⊢
  by_cases hl : pos % s.sb_.block_size ≠ 0
  · rw [if_pos hl]
    exact le_trans (Nat.add_le_add_left
      (read_loop_le s file c1 _ _ _ _ (Nat.min_le_right _ _)) pos) (by omega)
  · rw [if_neg hl]
    exact le_trans (Nat.add_le_add_left
      (read_loop_le s file c1 _ _ _ _ (Nat.zero_le _)) pos) (by omega)

theorem Synced.synced_read {s : FFSys} {B : Nat} (h : s.Synced B) (fd : Int) (buffer : Mem)
    (count : Nat) (hc : count < 18446744069414584320) :
    (s.read fd buffer count).2.2.Synced B := by
  unfold FFSys.read
  cases hl : s.lookup fd with
  | none => exact h.synced_of_errnum _
  | some f =>
    obtain ⟨hmem, _⟩ := lookup_mem hl
    have := h.inv.pos_lt f hmem
    exact h.synced_set_pos fd f hl _
      (read_n_bytes_le s _ buffer count f.pos (h.pos_le f hmem) (by omega))

theorem lt_blocks_iff (B n L : Nat) (hB : 0 < B) : L < (n + B - 1) / B ↔ L * B < n := by
  rw [Nat.lt_iff_add_one_le, Nat.le_div_iff_mul_le hB, Nat.add_mul, Nat.one_mul]
  omega

/-- A mapped logical block keeps its address when every stored address is kept. -/
theorem get_kept {s t : FFSys} {B : Nat} (hs : s.Inv B) (ht : t.Inv B)
    (hrefs : ∀ r : Ref, r.ok s s.view → r.val s s.view ≠ -1 →
      r.ok t t.view ∧ r.val t t.view = r.val s s.view)
    (j : Nat) (hj : s.live j) (htj : t.live j) (L : Nat)
    (hL : s.get_file_block_address (s.read_inode j) L ≠ -1) :
    t.get_file_block_address (t.read_inode j) L
      = s.get_file_block_address (s.read_inode j) L := by
  have e1 := hs.index j hj
  have e2 := ht.index j htj
  obtain ⟨hok, hval⟩ := get_is_ref hs.basic.layout (s.read_inode j) L (by rw [e1]; exact hj) hL
  rw [e1, view_with_self] at hok hval
  obtain ⟨b1, b2⟩ := hrefs _ hok (by rw [hval]; exact hL)
  have hc := data_ref_congr hs.basic.layout ht.basic.layout j L
  have := get_of_ref (s := t) (t.read_inode j) L (by
    rw [e2, view_with_self, hc]; exact b1)
  rw [e2, view_with_self, hc] at this
  rw [this, b2, hval]

theorem Synced.synced_write_n_bytes {s : FFSys} {B : Nat} (h : s.Synced B) (f : OpenFile)
    (hf : f ∈ s.open_files_) (buffer : Mem) (hbuf : ∀ k, buffer k < 256) (count : Nat) :
    (s.write_n_bytes_to_file (s.read_inode f.inode) buffer count f.pos).2.2.Synced B
      ∧ (s.write_n_bytes_to_file (s.read_inode f.inode) buffer count f.pos).2.2.open_files_
          = s.open_files_
      ∧ f.pos + (s.write_n_bytes_to_file (s.read_inode f.inode) buffer count f.pos).1
          ≤ ((s.write_n_bytes_to_file (s.read_inode f.inode) buffer count
                f.pos).2.2.read_inode f.inode).size := by
  have hi := h.inv.handles f hf
  have hs := h.inv.basic.layout
  have hB := hs.hB
  have hx := InvX.of_inv h.inv f.inode hi
  have hidx : (s.read_inode f.inode).index = f.inode := h.inv.index f.inode hi
  have D := write_n_bytes_done buffer hbuf hx count f.pos (h.inv.pos_lt f hf)
  have hpl := h.pos_le f hf
  have hmp := h.mapped f.inode hi
  have hview := view_with_self s f.inode
  generalize s.write_n_bytes_to_file (s.read_inode f.inode) buffer count f.pos = res at D ⊢
  obtain ⟨w, y, t⟩ := res
  have hrefs := D.refs
  have hst : t.read_inode (s.read_inode f.inode).index = y := D.stored
  have hsz : y.size = max (f.pos + w) (s.read_inode f.inode).size := D.size_eq
  have hof : t.open_files_ = s.open_files_ := D.open_files
  have hoth := D.others
  have hib : t.inode_bitmap_ = s.inode_bitmap_ := D.ibm
  have hcont := D.content
  have hti : t.Inv B := D.inv
  simp only at hrefs hoth hcont
  rw [hidx] at hrefs hst hoth
  rw [hview] at hrefs
  have ht := hti.basic.layout
  have hlive := hs.live_congr ht hib
  refine ⟨⟨hti, by rw [hof]; exact h.fds, ?_, ?_⟩, hof, ?_⟩
  · intro g hg
    rw [hof] at hg
    have h1 := h.pos_le g hg
    by_cases e : g.inode = f.inode
    · rw [e] at h1 ⊢
      rw [hst, hsz]
      omega
    · have := (h.inv.handles g hg).1
      rw [hs.n_inodes] at this
      rw [hoth g.inode this e]
      exact h1
  · intro j hj L hL
    have hjs := (hlive j).mp hj
    rw [ht.block_size, lt_blocks_iff _ _ _ (by omega)] at hL
    by_cases e : j = f.inode
    · subst e
      rw [hst] at hL ⊢
      by_cases hlt : L * B < (s.read_inode f.inode).size
      · have h2 := hmp L (by rw [hs.block_size, lt_blocks_iff _ _ _ (by omega)]; exact hlt)
        have := get_kept h.inv hti hrefs f.inode hjs hj L h2
        rw [hst] at this
        rw [this]
        exact h2
      · obtain ⟨a, ha, _⟩ := hcont (L * B - f.pos) (by omega)
        have e2 : f.pos + (L * B - f.pos) = L * B := by omega
        rw [e2, Nat.mul_div_cancel _ (by omega : 0 < B)] at ha
        rw [ha]
        omega
    · have hj8 := hjs.1
      rw [hs.n_inodes] at hj8
      have e3 := hoth j hj8 e
      rw [e3] at hL
      have h2 := h.mapped j hjs L (by
        rw [hs.block_size, lt_blocks_iff _ _ _ (by omega)]; exact hL)
      rw [get_kept h.inv hti hrefs j hjs hj L h2]
      exact h2
  · show f.pos + w ≤ (t.read_inode f.inode).size
    rw [hst, hsz]
    omega

theorem Synced.synced_write {s : FFSys} {B : Nat} (h : s.Synced B) (fd : Int) (buffer : Mem)
    (hbuf : ∀ k, buffer k < 256) (count : Nat) :
    (s.write fd buffer count).2.Synced B := by
  unfold FFSys.write
  cases hl : s.lookup fd with
  | none => exact h.synced_of_errnum _
  | some f =>
    obtain ⟨hf, _⟩ := lookup_mem hl
    obtain ⟨h1, h2, h3⟩ := h.synced_write_n_bytes f hf buffer hbuf count
    apply h1.synced_set_pos fd f _ _ h3
    unfold FFSys.lookup
    rw [h2]
    exact hl

theorem Synced.synced_add_handle {t : FFSys} {B : Nat} (h : t.Synced B) (j : Nat)
    (hj : t.live j) (pos : Nat) (hpos : pos ≤ (t.read_inode j).size) :
    Synced { t with open_files_ :=
      { fd := new_fd_loop t.open_files_ t.open_files_.length 0, inode := j,
        pos := pos % 4294967296 } :: t.open_files_ } B := by
  have := h.synced_of_handles
    ({ fd := new_fd_loop t.open_files_ t.open_files_.length 0, inode := j,
        pos := pos % 4294967296 } :: t.open_files_) t.errnum_
    (by
      rw [List.map_cons, List.nodup_cons]
      exact ⟨new_fd_fresh t.open_files_, h.fds⟩)
    (by
      intro f hf
      rcases List.mem_cons.mp hf with e | e
      · rw [e]
        have := Nat.mod_le pos 4294967296
        exact ⟨hj, Nat.mod_lt _ (by omega), by
          show pos % 4294967296 ≤ (t.read_inode j).size
          omega⟩
      · exact ⟨h.inv.handles f e, h.inv.pos_lt f e, h.pos_le f e⟩)
  exact this

theorem mapped_prefix_of_size_zero {s : FFSys} {B : Nat} (hs : s.Layout B) (j : Nat)
    (h0 : (s.read_inode j).size = 0) : s.mapped_prefix j := by
  have hB := hs.hB
  intro L hL
  rw [hs.block_size, lt_blocks_iff _ _ _ (by omega), h0] at hL
  omega

theorem Synced.synced_truncate {s : FFSys} {B : Nat} (h : s.Synced B) (j : Nat)
    (hj : s.live j)
    (hpre : ∀ f, f ∈ s.open_files_ → f.inode = j → f.pos = 0) :
    (s.free_unused_file_blocks { s.read_inode j with size := 0 }).2.Synced B
      ∧ (s.free_unused_file_blocks { s.read_inode j with size := 0 }).2.live j
      ∧ (s.free_unused_file_blocks { s.read_inode j with size := 0 }).1.index = j
      ∧ (s.free_unused_file_blocks { s.read_inode j with size := 0 }).1.size = 0
      ∧ (s.free_unused_file_blocks { s.read_inode j with size := 0 }).2.read_inode j
          = (s.free_unused_file_blocks { s.read_inode j with size := 0 }).1 := by
  have hs := h.inv.basic.layout
  have hB := hs.hB
  have hB8 := hs.hB8
  have hx := InvX.of_inv h.inv j hj
  have hidx := h.inv.index j hj
  have hj8 := hs.live_lt hj
  have hwf := hx.wf
  have hwf0 : ({ s.read_inode j with size := 0 } : INode).WF :=
    ⟨hwf.index_lt, hwf.name_len, hwf.name_lt, by show (0 : Nat) < _; omega,
      hwf.blocks_len, hwf.blocks_range, hwf.created_lt⟩
  have hx0 : s.InvX B { s.read_inode j with size := 0 } := hx.of_fields rfl rfl hwf0
  obtain ⟨h1, h2, h3, h4⟩ := hx0.free_unused_file_blocks
  obtain ⟨c, hst⟩ := Confined.confined_free_unused_file_blocks hx0
  generalize s.free_unused_file_blocks { s.read_inode j with size := 0 } = p at *
  obtain ⟨y, t⟩ := p
  have hyi : y.index = j := by
    have := h2.1
    simp only at this
    rw [this]; exact hidx
  have hys : y.size = 0 := h2.2.2.1
  have hst2 : t.read_inode j = y := by
    have : t.read_inode (s.read_inode j).index = y := hst
    rw [hidx] at this
    exact this
  have ht : t.Layout B := h1.basic.layout
  have hof : t.open_files_ = s.open_files_ := h4
  have hoth : ∀ i, i < 8 * B → i ≠ j → t.read_inode i = s.read_inode i := by
    have := Confined.confined_others hx0 c ht
    intro i hi hne
    exact this i hi (by show i ≠ (s.read_inode j).index; rw [hidx]; exact hne)
  have hlive := hs.live_congr ht c.ibm
  refine ⟨⟨h1, by rw [hof]; exact h.fds, ?_, ?_⟩, (hlive j).mpr hj, hyi, hys, hst2⟩
  · intro g hg
    rw [hof] at hg
    by_cases e : g.inode = j
    · rw [hpre g hg e]; exact Nat.zero_le _
    · rw [hoth g.inode (hs.live_lt (h.inv.handles g hg)) e]
      exact h.pos_le g hg
  · intro i hi
    have his := (hlive i).mp hi
    by_cases e : i = j
    · subst e
      exact mapped_prefix_of_size_zero ht i (by rw [hst2]; exact hys)
    · intro L hL
      have e3 := hoth i (hs.live_lt his) e
      rw [e3] at hL ⊢
      rw [ht.block_size] at hL
      have h2 := h.mapped i his L (by rw [hs.block_size]; exact hL)
      have := Confined.confined_foreign_get hx0 c ht i L his
        (by show i ≠ (s.read_inode j).index; rw [hidx]; exact e)
      rw [this]
      exact h2

theorem Synced.synced_open_file {s : FFSys} {B : Nat} (h : s.Synced B) (j : Nat)
    (hj : s.live j) (flags : Nat)
    (hpre : flags &&& TRUNCATE ≠ 0 → ∀ f, f ∈ s.open_files_ → f.inode = j → f.pos = 0) :
    (s.open_file (s.read_inode j) flags).2.Synced B := by
  have hs := h.inv.basic.layout
  have hB8 := hs.hB8
  have hidx := h.inv.index j hj
  have hj8 := hs.live_lt hj
  unfold FFSys.open_file
  simp only
  by_cases ht : flags &&& TRUNCATE ≠ 0
  · rw [if_pos ht]
    obtain ⟨h1, h2, h3, h4, h5⟩ := h.synced_truncate j hj (hpre ht)
    generalize s.free_unused_file_blocks { s.read_inode j with size := 0 } = p at *
    rw [h3, Nat.mod_eq_of_lt (by omega : j < 4294967296)]
    apply h1.synced_add_handle j h2
    rw [h5]
    split_ifs <;> omega
  · rw [if_neg ht]
    simp only
    rw [hidx, Nat.mod_eq_of_lt (by omega : j < 4294967296)]
    apply h.synced_add_handle j hj
    split_ifs <;> omega

theorem Synced.synced_create_file {s : FFSys} {B : Nat} (h : s.Synced B) (name : List Nat)
    (hname : ∀ c, c ∈ name → c < 256) (now : Nat) :
    (s.create_file name now).2.Synced B
      ∧ ∀ file, (s.create_file name now).1 = some file →
          (s.create_file name now).2.live file.index
            ∧ (s.create_file name now).2.read_inode file.index = file
            ∧ file.size = 0 := by
  have hs := h.inv.basic.layout
  have hB := hs.hB
  have hd := h.inv.create_file name hname now
  generalize s.create_file name now = r at hd ⊢
  obtain ⟨o, t⟩ := r
  have hti : t.Inv B := hd.inv
  have ht := hti.basic.layout
  have hof : t.open_files_ = s.open_files_ := hd.open_files
  have hfs : ∀ off, 963 * B ≤ off → t.fs_ off = s.fs_ off := hd.fs_data
  have hget : ∀ i, s.live i → ∀ L, t.get_file_block_address (s.read_inode i) L
      = s.get_file_block_address (s.read_inode i) L :=
    fun i hi L => Layout.get_congr (InvX.of_inv h.inv i hi) ht hfs L
  rcases hd.outcome with ⟨e1, e2, e3⟩ | ⟨a, file, ha, hfree, _, e1, e2, _, e3, e4, e5, e6⟩
  · simp only at e1 e2 e3
    have hlive := hs.live_congr ht e2
    refine ⟨⟨hti, by rw [hof]; exact h.fds, ?_, ?_⟩, ?_⟩
    · intro g hg
      rw [hof] at hg
      rw [e3 _ (hs.live_lt (h.inv.handles g hg))]
      exact h.pos_le g hg
    · intro i hi L hL
      have his := (hlive i).mp hi
      rw [e3 i (hs.live_lt his)] at hL ⊢
      rw [ht.block_size] at hL
      rw [hget i his L]
      exact h.mapped i his L (by rw [hs.block_size]; exact hL)
    · intro file hfile
      rw [e1] at hfile
      exact absurd hfile (by simp)
  · simp only at e1 e4 e5 e6
    have hlt : t.live a := by
      rw [ht.live_iff]
      refine ⟨by omega, ?_⟩
      rw [e5 a]; simp
    have hlive : ∀ i, t.live i → i ≠ a → s.live i := by
      intro i hi hne
      rw [ht.live_iff] at hi
      rw [hs.live_iff]
      refine ⟨hi.1, ?_⟩
      have := hi.2
      rw [e5 i] at this
      simpa [hne] using this
    have hna : ∀ i, s.live i → i ≠ a := by
      intro i hi e
      rw [hs.live_iff, e, hfree] at hi
      exact absurd hi.2 (by simp)
    refine ⟨⟨hti, by rw [hof]; exact h.fds, ?_, ?_⟩, ?_⟩
    · intro g hg
      rw [hof] at hg
      have hl := h.inv.handles g hg
      rw [e6 _ (hs.live_lt hl) (hna _ hl)]
      exact h.pos_le g hg
    · intro i hi
      by_cases e : i = a
      · subst e
        exact mapped_prefix_of_size_zero ht i (by rw [e4]; exact e3)
      · intro L hL
        have his := hlive i hi e
        rw [e6 i (hs.live_lt his) e] at hL ⊢
        rw [ht.block_size] at hL
        rw [hget i his L]
        exact h.mapped i his L (by rw [hs.block_size]; exact hL)
    · intro file' hfile
      rw [e1] at hfile
      have : file = file' := by simpa using hfile
      subst this
      rw [e2]
      exact ⟨hlt, e4, e3⟩

theorem Synced.synced_open {s : FFSys} {B : Nat} (h : s.Synced B) (name : List Nat)
    (hname : ∀ c, c ∈ name → c < 256) (flags now : Nat)
    (hpre : flags &&& TRUNCATE ≠ 0 → ∀ file, s.find_file name = some file →
      ∀ f, f ∈ s.open_files_ → f.inode = file.index → f.pos = 0) :
    (s.open name flags now).2.Synced B := by
  unfold FFSys.open
  cases hf : s.find_file name with
  | some file =>
    obtain ⟨j, hj, e1, e2, _⟩ := find_file_some h.inv name file hf
    simp only
    rw [e1]
    apply h.synced_open_file j hj flags
    intro ht
    have := hpre ht file hf
    rw [e2] at this
    exact this
  | none =>
    simp only
    split_ifs with hc
    · exact h.synced_of_errnum _
    · obtain ⟨h1, h2⟩ := h.synced_create_file name hname now
      generalize s.create_file name now = r at h1 h2
      obtain ⟨o, s1⟩ := r
      cases o with
      | none => exact h1
      | some file =>
        simp only
        obtain ⟨a1, a2, a3⟩ := h2 file rfl
        simp only at a1 a2 a3
        rw [← a2]
        apply h1.synced_open_file file.index a1 flags
        intro _ f hf0 hfi
        have := h1.pos_le f hf0
        rw [hfi, a2, a3] at this
        omega

theorem formatted_synced (B : Nat) (hB : 24 ≤ B) (hB8 : 8 * B < 65536) :
    (formatted B).Synced B := by
  have hi := formatted_inv B hB hB8
  have hibm : (formatted B).inode_bitmap_ = Bitmap.init B := by
    rw [formatted_eq B hB hB8]
  have hof : (formatted B).open_files_ = [] := by
    rw [formatted_eq B hB hB8]
  have hnolive : ∀ j, ¬ (formatted B).live j := by
    intro j hj
    rw [hi.basic.layout.live_iff, hibm, Bitmap.is_free_init] at hj
    have h2 := hj.2
    simp only [decide_eq_false_iff_not] at h2
    exact h2 hj.1
  refine ⟨hi, by rw [hof]; exact List.nodup_nil, ?_, fun j hj => absurd hj (hnolive j)⟩
  intro f hf
  rw [hof] at hf
  exact absurd hf (List.not_mem_nil f)

theorem ReachableSynced.synced {B : Nat} {s : FFSys} (h : ReachableSynced B s)
    (hB8 : 8 * B < 65536) : s.Synced B := by
  induction h with
  | after_format hB => exact formatted_synced B hB hB8
  | after_open s name flags now _ hname hpre ih => exact ih.synced_open name hname flags now hpre
  | after_read s fd buffer count _ hc ih => exact ih.synced_read fd buffer count hc
  | after_write s fd buffer count _ hbuf ih => exact ih.synced_write fd buffer hbuf count
  | after_close s fd _ ih => exact ih.synced_close fd
  | after_seek s fd pos _ ih => exact ih.synced_seek fd pos

end FFSys
end ffsys

namespace ffsys

/-! ## Bitmaps: reserve and free are inverse -/

theorem set_getElem_same (l : List Nat) (k : Nat) (hk : k < l.length) :
    l.set k (l.get ⟨k, hk⟩) = l := by
  apply List.ext_getElem
  · simp
  · intro n h1 h2
    rw [List.getElem_set]
    split_ifs with e
    · subst e; rfl
    · rfl

namespace Bitmap

theorem or_and_clear (x k : Nat) (hx : x < 256) (hk : k < 8) (hbit : x.testBit k = true) :
    (x &&& (255 - (1 <<< k))) ||| (1 <<< k) = x := by
  apply Nat.eq_of_testBit_eq
  intro m
  rw [testBit_or_set]
  by_cases hm : m < 8
  · rw [testBit_and_clear x k m hk hm]
    by_cases e : m = k
    · subst e; simp [hbit]
    · simp [e]
  · have hx2 : x.testBit m = false := by
      apply Nat.testBit_lt_two_pow
      calc x < 2 ^ 8 := by simpa using hx
        _ ≤ 2 ^ m := Nat.pow_le_pow_right (by omega) (by omega)
    rw [Nat.testBit_and, hx2]
    have : m ≠ k := by omega
    simp [this]

/-- A successful `reserve(i)` followed by `free(i)` gives the bitmap back. -/
theorem free_reserve (b : Bitmap) (i : Nat) (hb : ∀ x ∈ b.bm_, x < 256)
    (h : b.is_free i = true) : (b.reserve i).2.free i = (true, b) := by
  have hlt := lt_of_is_free b i h
  unfold size_ at hlt
  have hk : i / 8 < b.bm_.length := by omega
  have h8 : i % 8 < 8 := Nat.mod_lt _ (by omega)
  have hnf : (b.reserve i).2.is_free i = false := by
    rw [is_free_reserve b i i h]; simp
  have hx : b.bm_.getD (i / 8) 0 < 256 := by
    rw [List.getD_eq_getElem _ _ hk]
    exact hb _ (List.getElem_mem _)
  have hbit : (b.bm_.getD (i / 8) 0).testBit (i % 8) = true := by
    rw [← is_free_eq]; exact h
  unfold free
  rw [hnf]
  simp only [Bool.false_eq_true, if_false]
  unfold reserve
  simp only [h, Bool.not_true, Bool.false_eq_true, if_false]
  rw [getD_set_eq, if_pos ⟨rfl, hk⟩, List.set_set, or_and_clear _ _ hx h8 hbit]
  rw [List.getD_eq_getElem _ _ hk]
  exact congrArg (fun l => (true, Bitmap.mk l)) (set_getElem_same b.bm_ (i / 8) hk)

end Bitmap

namespace FFSys

/-! ## Further facts for the public calls -/

/-! ## Handle allocation -/

theorem new_fd_loop_below (l : List OpenFile) :
    ∀ (fuel : Nat) (n : Nat),
      (∀ k : Nat, k < n → (k : Int) ∈ l.map (fun f => f.fd)) →
      ∀ k : Int, 0 ≤ k → k < new_fd_loop l fuel (n : Int) → k ∈ l.map (fun f => f.fd) := by
  intro fuel
  induction fuel with
  | zero =>
    intro n hall k hk hlt
    rw [new_fd_loop] at hlt
    have := hall k.toNat (by omega)
    rwa [Int.toNat_of_nonneg hk] at this
  | succ fuel ih =>
    intro n hall k hk hlt
    rw [new_fd_loop] at hlt
    by_cases hany : l.any (fun f => f.fd == (n : Int)) = true
    · rw [if_pos hany] at hlt
      have hn := (any_fd_iff l n).mp hany
      apply ih (n + 1) _ k hk (by push_cast; exact hlt)
      intro j hj
      by_cases e : j = n
      · subst e; exact hn
      · exact hall j (by omega)
    · rw [if_neg hany] at hlt
      have := hall k.toNat (by omega)
      rwa [Int.toNat_of_nonneg hk] at this

/-- The handle number that `open` generates is the least non-negative integer that is
not a key of the handle map. -/
theorem new_fd_least (l : List OpenFile) :
    0 ≤ new_fd_loop l l.length 0
      ∧ new_fd_loop l l.length 0 ∉ l.map (fun f => f.fd)
      ∧ ∀ k : Int, 0 ≤ k → k < new_fd_loop l l.length 0 → k ∈ l.map (fun f => f.fd) := by
  refine ⟨new_fd_loop_nonneg l l.length 0 (Int.le_refl 0), new_fd_fresh l, ?_⟩
  have := new_fd_loop_below l l.length 0 (fun k hk => absurd hk (by omega))
  simpa using this

theorem write_loop_open_files (buffer : Mem) :
    ∀ (fuel : Nat) (s : FFSys) (x : INode) (left written pos cur : Nat),
      (write_loop buffer fuel s x left written pos cur).2.2.2.open_files_ = s.open_files_ := by
  intro fuel
  induction fuel with
  | zero => intro s x left written pos cur; rfl
  | succ fuel ih =>
    intro s x left written pos cur
    by_cases hleft : 0 < left
    · rw [write_loop_succ buffer fuel s x left written pos cur hleft _ rfl]
      by_cases hg : s.get_file_block_address x cur = -1
      · rw [if_pos hg]
        split_ifs
        · exact reserve_file_block_open_files s x cur
        · rw [ih, write_block_open_files, reserve_file_block_open_files]
      · rw [if_neg hg]
        simp only
        rw [if_neg hg, ih, write_block_open_files]
    · rw [write_loop]
      simp only [gt_iff_lt, hleft, not_false_eq_true, if_true]

theorem write_n_bytes_open_files (s : FFSys) (x : INode) (buffer : Mem) (count pos : Nat) :
    (s.write_n_bytes_to_file x buffer count pos).2.2.open_files_ = s.open_files_ := by
  unfold write_n_bytes_to_file
  simp only
  rw [write_inode_open_files, write_loop_open_files]

theorem create_file_open_files (s : FFSys) (name : List Nat) (now : Nat) :
    (s.create_file name now).2.open_files_ = s.open_files_ := by
  rw [create_file_eq]
  split_ifs <;> simp

theorem free_unused_file_blocks_open_files (s : FFSys) (x : INode) :
    (s.free_unused_file_blocks x).2.open_files_ = s.open_files_ := by
  unfold FFSys.free_unused_file_blocks
  simp only
  rw [write_inode_open_files, write_superblock_open_files, write_block_open_files,
    foldl_step_open_files, free_unused_loop_open_files]

theorem open_file_keys (s : FFSys) (file : INode) (flags : Nat) :
    (s.open_file file flags).1 = new_fd_loop s.open_files_ s.open_files_.length 0
      ∧ (s.open_file file flags).2.keys = (s.open_file file flags).1 :: s.keys := by
  unfold FFSys.open_file keys
  simp only
  by_cases ht : flags &&& TRUNCATE ≠ 0
  · rw [if_pos ht, free_unused_file_blocks_open_files]
    exact ⟨rfl, rfl⟩
  · rw [if_neg ht]
    exact ⟨rfl, rfl⟩

/-- A successful `open` adds one key, the generated handle number. -/
theorem open_keys (s : FFSys) (name : List Nat) (flags now : Nat)
    (hok : (s.open name flags now).1 ≠ -1) :
    (s.open name flags now).1 = new_fd_loop s.open_files_ s.open_files_.length 0
      ∧ (s.open name flags now).2.keys = (s.open name flags now).1 :: s.keys := by
  unfold FFSys.open at hok ⊢
  cases hf : s.find_file name with
  | some file =>
    simp only
    exact open_file_keys s file flags
  | none =>
    rw [hf] at hok
    simp only at hok ⊢
    by_cases hc : flags &&& CREATE = 0
    · rw [if_pos hc] at hok
      exact absurd rfl hok
    · rw [if_neg hc] at hok ⊢
      have hof := create_file_open_files s name now
      generalize s.create_file name now = r at hok hof ⊢
      obtain ⟨o, s1⟩ := r
      cases o with
      | none => exact absurd rfl hok
      | some file =>
        simp only at hof ⊢
        have := open_file_keys s1 file flags
        unfold keys at this ⊢
        rw [hof] at this
        exact this

/-- A failed `open` leaves the handle map as it is. -/
theorem open_keys_of_fail (s : FFSys) (name : List Nat) (flags now : Nat)
    (hfail : (s.open name flags now).1 = -1) :
    (s.open name flags now).2.keys = s.keys := by
  unfold FFSys.open at hfail ⊢
  cases hf : s.find_file name with
  | some file =>
    rw [hf] at hfail
    simp only at hfail
    have h1 := (open_file_keys s file flags).1
    have h2 := (new_fd_least s.open_files_).1
    omega
  | none =>
    rw [hf] at hfail
    simp only at hfail ⊢
    by_cases hc : flags &&& CREATE = 0
    · rw [if_pos hc]; rfl
    · rw [if_neg hc] at hfail ⊢
      have hof := create_file_open_files s name now
      generalize s.create_file name now = r at hfail hof ⊢
      obtain ⟨o, s1⟩ := r
      cases o with
      | none => unfold keys; simp only at hof ⊢; rw [hof]
      | some file =>
        simp only at hfail
        have h1 := (open_file_keys s1 file flags).1
        have h2 := (new_fd_least s1.open_files_).1
        omega

theorem set_pos_keys (s : FFSys) (fd : Int) (pos : Nat) : (s.set_pos fd pos).keys = s.keys := by
  unfold FFSys.set_pos keys
  simp only
  rw [List.map_map]
  congr 1
  funext g
  simp only [Function.comp]
  split_ifs <;> rfl

theorem read_keys (s : FFSys) (fd : Int) (buffer : Mem) (count : Nat) :
    (s.read fd buffer count).2.2.keys = s.keys := by
  unfold FFSys.read
  cases s.lookup fd with
  | none => rfl
  | some f => exact set_pos_keys s fd _

theorem seek_keys (s : FFSys) (fd : Int) (pos : Nat) : (s.seek fd pos).2.keys = s.keys := by
  unfold FFSys.seek
  cases s.lookup fd with
  | none => rfl
  | some f =>
    simp only
    split_ifs
    · rfl
    · exact set_pos_keys s fd _

theorem write_keys (s : FFSys) (fd : Int) (buffer : Mem) (count : Nat) :
    (s.write fd buffer count).2.keys = s.keys := by
  unfold FFSys.write
  cases s.lookup fd with
  | none => rfl
  | some f =>
    simp only
    rw [set_pos_keys]
    unfold keys
    rw [write_n_bytes_open_files]

theorem lookup_none_iff (s : FFSys) (fd : Int) : s.lookup fd = none ↔ fd ∉ s.keys := by
  unfold FFSys.lookup keys
  constructor
  · intro h hmem
    obtain ⟨f, hf, e⟩ := List.mem_map.mp hmem
    have := List.find?_eq_none.mp h f hf
    exact this (by simpa using e)
  · intro h
    apply List.find?_eq_none.mpr
    intro f hf hc
    exact h (List.mem_map.mpr ⟨f, hf, by simpa using hc⟩)

theorem close_keys (s : FFSys) (fd : Int) :
    (s.close fd).2.keys = s.keys.filter (fun k => k != fd) := by
  unfold FFSys.close
  cases hl : s.lookup fd with
  | none =>
    have := (lookup_none_iff s fd).mp hl
    show s.keys = _
    symm
    rw [List.filter_eq_self]
    intro k hk
    simp only [bne_iff_ne, ne_eq]
    intro e
    exact this (e ▸ hk)
  | some f =>
    unfold keys
    simp only
    rw [List.filter_map]
    rfl

/-- The keys of the handle map are distinct and non-negative in every state that public
calls produce from a state with an empty handle map. -/
theorem ReachableFrom.keys_ok {s0 s : FFSys} (h0 : s0.open_files_ = [])
    (hr : ReachableFrom s0 s) : s.keys.Nodup ∧ ∀ k, k ∈ s.keys → 0 ≤ k := by
  induction hr with
  | start =>
    unfold keys
    rw [h0]
    exact ⟨List.nodup_nil, fun k hk => absurd hk (List.not_mem_nil k)⟩
  | after_open s name flags now _ ih =>
    by_cases hok : (s.open name flags now).1 = -1
    · rw [open_keys_of_fail s name flags now hok]; exact ih
    · obtain ⟨e1, e2⟩ := open_keys s name flags now hok
      obtain ⟨l1, l2, _⟩ := new_fd_least s.open_files_
      rw [e2, e1]
      refine ⟨List.nodup_cons.mpr ⟨l2, ih.1⟩, ?_⟩
      intro k hk
      rcases List.mem_cons.mp hk with e | e
      · rw [e]; exact l1
      · exact ih.2 k e
  | after_read s fd buffer count _ ih => rw [read_keys]; exact ih
  | after_write s fd buffer count _ ih => rw [write_keys]; exact ih
  | after_close s fd _ ih =>
    rw [close_keys]
    exact ⟨ih.1.filter _, fun k hk => ih.2 k (List.mem_of_mem_filter hk)⟩
  | after_seek s fd pos _ ih => rw [seek_keys]; exact ih

/-! ## Why a write stops short -/

theorem reserve_data_block_fail_errnum (s : FFSys) (h : s.reserve_data_block.1 = -1) :
    s.reserve_data_block.2.errnum_ = ErrorNumber.NO_FREE_DATA_BLOCKS := by
  unfold FFSys.reserve_data_block at h ⊢
  simp only at h ⊢
  by_cases hc : s.data_block_bitmap_.reserve_first_free.1 = -1
  · rw [if_pos hc]
  · rw [if_neg hc] at h
    exact absurd h hc

theorem reserve_data_block_cap (s : FFSys) :
    s.reserve_data_block.2.sb_.address_block_capacity = s.sb_.address_block_capacity := by
  unfold FFSys.reserve_data_block
  simp only
  by_cases hc : s.data_block_bitmap_.reserve_first_free.1 = -1
  · rw [if_pos hc]
  · rw [if_neg hc, write_superblock_sb]

theorem initialize_address_block_fail_errnum (s : FFSys)
    (h : s.initialize_address_block.1 = -1) :
    s.initialize_address_block.2.errnum_ = ErrorNumber.NO_FREE_DATA_BLOCKS := by
  unfold FFSys.initialize_address_block at h ⊢
  simp only at h ⊢
  by_cases hc : s.reserve_data_block.1 = -1
  · rw [if_pos hc]
    exact reserve_data_block_fail_errnum s hc
  · rw [if_neg hc] at h
    exact absurd h hc

/-- `set_file_block_address` returns `false` only when no address block could be
reserved, or at its guard for a logical block index beyond the addressing capacity. -/
theorem set_file_block_address_fail (s : FFSys) (x : INode) (i : Nat) (v : Int)
    (h : (s.set_file_block_address x i v).1 = false) :
    (s.set_file_block_address x i v).2.2.errnum_ = ErrorNumber.NO_FREE_DATA_BLOCKS
      ∨ (15 ≤ i ∧ 20 ≤ (i - 15) / s.sb_.address_block_capacity + 15) := by
  unfold FFSys.set_file_block_address at h ⊢
  unfold N_STATIC_FILE_BLOCKS N_DYNAMIC_FILE_BLOCKS at h ⊢
  simp only at h ⊢
  by_cases h15 : i < 15
  · rw [if_pos h15] at h
    exact absurd h (by simp)
  · rw [if_neg h15] at h ⊢
    by_cases hd : (i - 15) / s.sb_.address_block_capacity + 15 ≥ 15 + 5
    · exact Or.inr ⟨by omega, by omega⟩
    · rw [if_neg hd] at h ⊢
      by_cases hb : x.blocks.getD ((i - 15) / s.sb_.address_block_capacity + 15) 0 = -1
      · rw [if_pos hb] at h ⊢
        by_cases hn : (x.blocks.set ((i - 15) / s.sb_.address_block_capacity + 15)
            s.initialize_address_block.1).getD
              ((i - 15) / s.sb_.address_block_capacity + 15) 0 = -1
        · rw [if_pos hn]
          left
          apply initialize_address_block_fail_errnum
          rw [getD_set_eq] at hn
          by_cases hl : (i - 15) / s.sb_.address_block_capacity + 15 < x.blocks.length
          · rw [if_pos ⟨rfl, hl⟩] at hn
            exact hn
          · rw [List.getD_eq_default _ _ (by omega)] at hb
            exact absurd hb (by decide)
        · rw [if_neg hn] at h
          exact absurd h (by simp)
      · rw [if_neg hb] at h
        exact absurd h (by simp)

/-- `reserve_file_block` returns `-1` only when no data block could be reserved, or at
the guard of `set_file_block_address`. -/
theorem reserve_file_block_fail (s : FFSys) (x : INode) (i : Nat)
    (h : (s.reserve_file_block x i).1 = -1) :
    (s.reserve_file_block x i).2.2.errnum_ = ErrorNumber.NO_FREE_DATA_BLOCKS
      ∨ (15 ≤ i ∧ 20 ≤ (i - 15) / s.sb_.address_block_capacity + 15) := by
  rw [reserve_file_block_eq] at h ⊢
  by_cases hc : s.reserve_data_block.1 = -1
  · rw [if_pos hc]
    exact Or.inl (reserve_data_block_fail_errnum s hc)
  · rw [if_neg hc] at h ⊢
    cases hw : (s.reserve_data_block.2.set_file_block_address x i s.reserve_data_block.1).1
    · simp only [Bool.false_eq_true, if_false]
      have := set_file_block_address_fail _ x i _ hw
      rw [reserve_data_block_cap] at this
      exact this
    · rw [hw] at h
      simp only [if_true] at h
      exact absurd h hc

theorem write_loop_stop (buffer : Mem) (hbuf : ∀ k, buffer k < 256) {B : Nat} :
    ∀ (fuel : Nat) (s : FFSys) (x : INode) (left written pos cur : Nat),
      s.InvX B x → left ≤ fuel → (0 < left → cur = pos / B) →
      WriteStop B (written + left) (write_loop buffer fuel s x left written pos cur) := by
  intro fuel
  induction fuel with
  | zero =>
    intro s x left written pos cur h hf _
    rw [write_loop]
    intro hlt
    simp only at hlt
    omega
  | succ fuel ih =>
    intro s x left written pos cur h hf hcur
    by_cases hleft : 0 < left
    · have hs := h.basic.layout
      have hB := hs.hB
      have hB8 := hs.hB8
      have hc := hcur hleft
      subst hc
      have key : ∀ (r : Int × INode × FFSys), r.2.2.InvX B r.2.1 →
          (r.1 = -1 → r.2.2.errnum_ = ErrorNumber.NO_FREE_DATA_BLOCKS
            ∨ 15 + 5 * (B / 4) ≤ pos / B) →
          (r.1 ≠ -1 → r.2.2.get_file_block_address r.2.1 (pos / B) = r.1) →
          WriteStop B (written + left)
            (if r.1 = -1 then (written, pos, r.2.1, r.2.2)
              else write_loop buffer fuel
                (r.2.2.write_block (u32 (r.2.2.sb_.data_blocks_start_i + r.1))
                  (buffer.shift written)
                  (min (r.2.2.sb_.block_size - pos % r.2.2.sb_.block_size) left)
                  (pos % r.2.2.sb_.block_size))
                r.2.1 (left - min (r.2.2.sb_.block_size - pos % r.2.2.sb_.block_size) left)
                (written + min (r.2.2.sb_.block_size - pos % r.2.2.sb_.block_size) left)
                (pos + min (r.2.2.sb_.block_size - pos % r.2.2.sb_.block_size) left)
                ((pos / B + 1) % 4294967296)) := by
        intro r h1 hfail hget
        by_cases hr : r.1 = -1
        · rw [if_pos hr]
          intro _
          exact hfail hr
        · rw [if_neg hr]
          have hs1 := h1.basic.layout
          have hg := hget hr
          obtain ⟨a, ha1, _, _⟩ := h1.get_reserved (pos / B) (by rw [hg]; exact hr)
          rw [hg] at ha1
          rw [hs1.block_size, ha1]
          rw [ha1] at hg
          have hoff := Nat.mod_lt pos (by omega : 0 < B)
          obtain ⟨e1, hx2, _, _, hLb⟩ := h1.write_chunk (pos / B) a (pos % B)
            (min (B - pos % B) left) (buffer.shift written) hg
            (by omega) (fun k _ => hbuf _)
          rw [e1]
          have hmle : min (B - pos % B) left ≤ left := Nat.min_le_right _ _
          have := ih (r.2.2.write_at (963 * B + a * B + pos % B) (buffer.shift written)
              (min (B - pos % B) left)) r.2.1 (left - min (B - pos % B) left)
            (written + min (B - pos % B) left) (pos + min (B - pos % B) left)
            ((pos / B + 1) % 4294967296) hx2 (by omega) (by
              intro hl
              have hmin : min (B - pos % B) left = B - pos % B := by omega
              rw [hmin, Nat.mod_eq_of_lt (by omega)]
              have hdm := Nat.div_add_mod pos B
              have hcomm : B * (pos / B) = pos / B * B := Nat.mul_comm _ _
              symm
              apply Nat.div_eq_of_lt_le
              · rw [Nat.add_mul, Nat.one_mul]; omega
              · rw [Nat.succ_mul, Nat.add_mul, Nat.one_mul]; omega)
          have e2 : written + min (B - pos % B) left + (left - min (B - pos % B) left)
              = written + left := by omega
          rw [e2] at this
          exact this
      rw [write_loop_succ buffer fuel s x left written pos (pos / B) hleft _ rfl]
      by_cases hg : s.get_file_block_address x (pos / B) = -1
      · rw [if_pos hg]
        apply key _ (h.reserve_file_block (pos / B)).1 _ (h.reserve_file_block (pos / B)).2
        intro hfail
        rcases reserve_file_block_fail s x (pos / B) hfail with e | ⟨e1, e2⟩
        · exact Or.inl e
        · right
          rw [hs.address_block_capacity] at e2
          have h5 : 5 ≤ (pos / B - 15) / (B / 4) := by omega
          have := (Nat.le_div_iff_mul_le (by omega : 0 < B / 4)).mp h5
          omega
      · rw [if_neg hg]
        exact key (s.get_file_block_address x (pos / B), x, s) h
          (fun e => absurd e hg) (fun _ => rfl)
    · have h0 : left = 0 := by omega
      subst h0
      rw [write_loop]
      simp only [gt_iff_lt, Nat.lt_irrefl, not_false_eq_true, if_true]
      intro hlt
      simp only at hlt
      omega

/-- The bytes written end within the addressing capacity, and a write that stops short
has left `NO_FREE_DATA_BLOCKS` or has stopped at the addressing capacity. -/
theorem write_n_bytes_stop (buffer : Mem) (hbuf : ∀ k, buffer k < 256) {s : FFSys} {B : Nat}
    {x : INode} (h : s.InvX B x) (count pos : Nat) (hpos : pos < 4294967296) :
    (0 < (s.write_n_bytes_to_file x buffer count pos).1 →
        pos + (s.write_n_bytes_to_file x buffer count pos).1 ≤ (15 + 5 * (B / 4)) * B)
      ∧ ((s.write_n_bytes_to_file x buffer count pos).1 < count →
          (s.write_n_bytes_to_file x buffer count pos).2.2.errnum_
              = ErrorNumber.NO_FREE_DATA_BLOCKS
            ∨ 15 + 5 * (B / 4) ≤ (pos + (s.write_n_bytes_to_file x buffer count pos).1) / B) := by
  have hs := h.basic.layout
  have hdiv : pos / B < 4294967296 := lt_of_le_of_lt (Nat.div_le_self _ _) hpos
  unfold write_n_bytes_to_file
  simp only
  rw [hs.block_size, Nat.mod_eq_of_lt hdiv]
  have W := write_loop_spec buffer hbuf count s x count 0 pos (pos / B) h (Nat.le_refl _)
    (fun _ => rfl)
  have S := write_loop_stop buffer hbuf count s x count 0 pos (pos / B) h (Nat.le_refl _)
    (fun _ => rfl)
  generalize write_loop buffer count s x count 0 pos (pos / B) = r at W S ⊢
  obtain ⟨w, p, y, t⟩ := r
  have hpe : p = pos + w := by have := W.pos_eq; simpa using this
  constructor
  · intro hw
    have h1 := W.bound hw
    simp only at h1 hw ⊢
    omega
  · intro hw
    simp only at hw ⊢
    have := S (by simpa using hw)
    simp only at this
    rw [hpe] at this
    exact this

/-! ## File sizes fit a handle position -/

theorem Bounded.bounded_of_same {s t : FFSys} (h : s.Bounded) (hfs : t.fs_ = s.fs_)
    (hsb : t.sb_ = s.sb_) (hib : t.inode_bitmap_ = s.inode_bitmap_) : t.Bounded := by
  intro j hj
  have e : t.read_inode j = s.read_inode j := by
    unfold read_inode inode_start
    rw [hfs, hsb]
  rw [e]
  apply h j
  unfold live at hj ⊢
  rw [hsb, hib] at hj
  exact hj

theorem capacity_lt {B : Nat} (hB8 : 8 * B < 65536) : (15 + 5 * (B / 4)) * B < 4294967296 := by
  have h2 : (15 + 5 * (B / 4)) * B ≤ 65535 * 65535 :=
    Nat.mul_le_mul (by omega) (by omega)
  omega

theorem Bounded.bounded_write_n_bytes {s : FFSys} {B : Nat} (h : s.Inv B) (hb : s.Bounded)
    (j : Nat) (hj : s.live j) (buffer : Mem) (hbuf : ∀ k, buffer k < 256)
    (count pos : Nat) (hpos : pos < 4294967296) :
    (s.write_n_bytes_to_file (s.read_inode j) buffer count pos).2.2.Bounded := by
  have hs := h.basic.layout
  have hx := InvX.of_inv h j hj
  have hidx : (s.read_inode j).index = j := h.index j hj
  have D := write_n_bytes_done buffer hbuf hx count pos hpos
  have hbd := (write_n_bytes_stop buffer hbuf hx count pos hpos).1
  have hcap := capacity_lt hs.hB8
  generalize s.write_n_bytes_to_file (s.read_inode j) buffer count pos = res at D hbd ⊢
  obtain ⟨w, y, t⟩ := res
  have hst : t.read_inode (s.read_inode j).index = y := D.stored
  have hsz : y.size = max (pos + w) (s.read_inode j).size := D.size_eq
  have hoth := D.others
  have hib : t.inode_bitmap_ = s.inode_bitmap_ := D.ibm
  have hti : t.Inv B := D.inv
  simp only at hoth hbd
  rw [hidx] at hst hoth
  have hlive := hs.live_congr hti.basic.layout hib
  intro i hi
  have his := (hlive i).mp hi
  by_cases e : i = j
  · subst e
    show (t.read_inode i).size < _
    rw [hst, hsz]
    have := hb i his
    by_cases hw : 0 < w
    · have := hbd hw
      omega
    · have : w = 0 := by omega
      subst this
      omega
  · show (t.read_inode i).size < _
    rw [hoth i (hs.live_lt his) e]
    exact hb i his

/-- What the truncation of inode `j` by `open` leaves behind. -/
theorem truncate_facts {s : FFSys} {B : Nat} (h : s.Inv B) (j : Nat) (hj : s.live j) :
    (s.free_unused_file_blocks { s.read_inode j with size := 0 }).2.Inv B
      ∧ (s.free_unused_file_blocks { s.read_inode j with size := 0 }).1.index = j
      ∧ (s.free_unused_file_blocks { s.read_inode j with size := 0 }).1.size = 0
      ∧ (s.free_unused_file_blocks { s.read_inode j with size := 0 }).2.read_inode j
          = (s.free_unused_file_blocks { s.read_inode j with size := 0 }).1
      ∧ (∀ i, i < 8 * B → i ≠ j →
          (s.free_unused_file_blocks { s.read_inode j with size := 0 }).2.read_inode i
            = s.read_inode i)
      ∧ (s.free_unused_file_blocks { s.read_inode j with size := 0 }).2.inode_bitmap_
          = s.inode_bitmap_ := by
  have hs := h.basic.layout
  have hB := hs.hB
  have hx := InvX.of_inv h j hj
  have hidx := h.index j hj
  have hwf := hx.wf
  have hwf0 : ({ s.read_inode j with size := 0 } : INode).WF :=
    ⟨hwf.index_lt, hwf.name_len, hwf.name_lt, by show (0 : Nat) < _; omega,
      hwf.blocks_len, hwf.blocks_range, hwf.created_lt⟩
  have hx0 : s.InvX B { s.read_inode j with size := 0 } := hx.of_fields rfl rfl hwf0
  obtain ⟨h1, h2, _, _⟩ := hx0.free_unused_file_blocks
  obtain ⟨c, hst⟩ := Confined.confined_free_unused_file_blocks hx0
  generalize s.free_unused_file_blocks { s.read_inode j with size := 0 } = p at *
  obtain ⟨y, t⟩ := p
  have hyi : y.index = j := by
    have := h2.1
    simp only at this
    rw [this]; exact hidx
  have hst2 : t.read_inode j = y := by
    have : t.read_inode (s.read_inode j).index = y := hst
    rw [hidx] at this
    exact this
  refine ⟨h1, hyi, h2.2.2.1, hst2, ?_, c.ibm⟩
  have := Confined.confined_others hx0 c h1.basic.layout
  intro i hi hne
  exact this i hi (by show i ≠ (s.read_inode j).index; rw [hidx]; exact hne)

theorem Bounded.bounded_open_file {s : FFSys} {B : Nat} (h : s.Inv B) (hb : s.Bounded) (j : Nat)
    (hj : s.live j) (flags : Nat) : (s.open_file (s.read_inode j) flags).2.Bounded := by
  have hs := h.basic.layout
  unfold FFSys.open_file
  simp only
  by_cases ht : flags &&& TRUNCATE ≠ 0
  · rw [if_pos ht]
    obtain ⟨h1, _, h3, h4, h5, h6⟩ := truncate_facts h j hj
    generalize s.free_unused_file_blocks { s.read_inode j with size := 0 } = p at *
    have hbp : p.2.Bounded := by
      intro i hi
      have his := (hs.live_congr h1.basic.layout h6 i).mp hi
      by_cases e : i = j
      · rw [e, h4, h3]; omega
      · rw [h5 i (hs.live_lt his) e]; exact hb i his
    exact hbp.bounded_of_same rfl rfl rfl
  · rw [if_neg ht]
    exact hb.bounded_of_same rfl rfl rfl

theorem Bounded.bounded_create_file {s : FFSys} {B : Nat} (h : s.Inv B) (hb : s.Bounded)
    (name : List Nat) (hname : ∀ c, c ∈ name → c < 256) (now : Nat) :
    (s.create_file name now).2.Bounded := by
  have hs := h.basic.layout
  have hd := h.create_file name hname now
  generalize s.create_file name now = r at hd ⊢
  obtain ⟨o, t⟩ := r
  have ht := hd.inv.basic.layout
  rcases hd.outcome with ⟨_, e2, e3⟩ | ⟨a, file, _, _, _, _, _, _, e3, e4, e5, e6⟩
  · simp only at e2 e3
    intro i hi
    have his := (hs.live_congr ht e2 i).mp hi
    show (t.read_inode i).size < _
    rw [e3 i (hs.live_lt his)]
    exact hb i his
  · simp only at e4 e5 e6
    intro i hi
    show (t.read_inode i).size < _
    by_cases e : i = a
    · rw [e, e4, e3]; omega
    · have his : s.live i := by
        have hi2 : t.live i := hi
        rw [ht.live_iff] at hi2
        rw [hs.live_iff]
        refine ⟨hi2.1, ?_⟩
        have := hi2.2
        rw [e5 i] at this
        simpa [e] using this
      rw [e6 i (hs.live_lt his) e]
      exact hb i his

theorem Bounded.bounded_open {s : FFSys} {B : Nat} (h : s.Inv B) (hb : s.Bounded)
    (name : List Nat) (hname : ∀ c, c ∈ name → c < 256) (flags now : Nat) :
    (s.open name flags now).2.Bounded := by
  unfold FFSys.open
  cases hf : s.find_file name with
  | some file =>
    obtain ⟨j, hj, e1, _, _⟩ := find_file_some h name file hf
    simp only
    rw [e1]
    exact Bounded.bounded_open_file h hb j hj flags
  | none =>
    simp only
    split_ifs with hc
    · exact hb.bounded_of_same rfl rfl rfl
    · have h1 := Bounded.bounded_create_file h hb name hname now
      have hd := h.create_file name hname now
      generalize s.create_file name now = r at h1 hd
      obtain ⟨o, s1⟩ := r
      cases o with
      | none => exact h1
      | some file =>
        simp only
        rcases hd.outcome with ⟨e, _⟩ | ⟨a, file2, ha, _, _, e1, e2, _, _, e4, e5, _⟩
        · exact absurd e (by simp)
        · simp only at e1 e4 e5 h1
          have : file = file2 := by simpa using e1
          subst this
          have hl : s1.live a := by
            rw [hd.inv.basic.layout.live_iff]
            have := h.basic.layout.hB
            refine ⟨by omega, ?_⟩
            rw [e5 a]; simp
          rw [← e4]
          exact Bounded.bounded_open_file hd.inv h1 a hl flags

theorem Reachable.bounded {B : Nat} {s : FFSys} (h : Reachable B s) (hB8 : 8 * B < 65536) :
    s.Bounded := by
  induction h with
  | after_format hB =>
    have hi := formatted_inv B hB hB8
    have hibm : (formatted B).inode_bitmap_ = Bitmap.init B := by
      rw [formatted_eq B hB hB8]
    intro j hj
    rw [hi.basic.layout.live_iff, hibm, Bitmap.is_free_init] at hj
    have h2 := hj.2
    simp only [decide_eq_false_iff_not] at h2
    exact absurd hj.1 h2
  | after_open s name flags now hr hname ih =>
    exact Bounded.bounded_open (hr.inv hB8) ih name hname flags now
  | after_read s fd buffer count hr ih =>
    unfold FFSys.read
    cases s.lookup fd with
    | none => exact ih.bounded_of_same rfl rfl rfl
    | some f => exact ih.bounded_of_same rfl rfl rfl
  | after_write s fd buffer count hr hbuf ih =>
    unfold FFSys.write
    cases hl : s.lookup fd with
    | none => exact ih.bounded_of_same rfl rfl rfl
    | some f =>
      obtain ⟨hf, _⟩ := lookup_mem hl
      have hi := hr.inv hB8
      have := Bounded.bounded_write_n_bytes hi ih f.inode (hi.handles f hf) buffer hbuf count f.pos
        (hi.pos_lt f hf)
      exact this.bounded_of_same rfl rfl rfl
  | after_close s fd hr ih =>
    unfold FFSys.close
    cases s.lookup fd with
    | none => exact ih.bounded_of_same rfl rfl rfl
    | some f => exact ih.bounded_of_same rfl rfl rfl
  | after_seek s fd pos hr ih =>
    unfold FFSys.seek
    cases s.lookup fd with
    | none => exact ih.bounded_of_same rfl rfl rfl
    | some f =>
      simp only
      split_ifs
      · exact ih
      · exact ih.bounded_of_same rfl rfl rfl

/-! ## Lookups in the handle map -/

theorem lookup_set_pos (s : FFSys) (fd : Int) (f : OpenFile) (p : Nat)
    (hl : s.lookup fd = some f) :
    (s.set_pos fd p).lookup fd = some { f with pos := p % 4294967296 } := by
  obtain ⟨_, hfd⟩ := lookup_mem hl
  unfold FFSys.lookup FFSys.set_pos at *
  simp only
  rw [List.find?_map]
  have : ((fun g : OpenFile => g.fd == fd) ∘ fun g : OpenFile =>
      if (g.fd == fd) = true then { g with pos := p % 4294967296 } else g)
      = fun g : OpenFile => g.fd == fd := by
    funext g
    simp only [Function.comp]
    split_ifs <;> rfl
  rw [this, hl]
  simp only [Option.map_some']
  rw [if_pos (by simpa using hfd)]

theorem lookup_of_open_files {s t : FFSys} (h : t.open_files_ = s.open_files_) (fd : Int) :
    t.lookup fd = s.lookup fd := by
  unfold FFSys.lookup
  rw [h]

/-- A name that no live inode carries is not found. -/
theorem find_file_of_no_match (s : FFSys) (name : List Nat)
    (h : ∀ j, s.live j → (s.read_inode j).cname ≠ name) : s.find_file name = none := by
  cases hf : s.find_file name with
  | none => rfl
  | some f =>
    unfold FFSys.find_file at hf
    obtain ⟨j, _, a2, a3, _, a5⟩ := find_file_loop_some s name _ _ _ f hf
    exact absurd a5 (h j ⟨by omega, a3⟩)

/-- A name that a live inode carries is found, at a live inode that carries it. -/
theorem find_file_of_match {s : FFSys} {B : Nat} (h : s.Inv B) (name : List Nat) (j : Nat)
    (hj : s.live j) (hname : (s.read_inode j).cname = name) :
    ∃ j0, s.live j0 ∧ (s.read_inode j0).cname = name ∧ (s.read_inode j0).index = j0
      ∧ s.find_file name = some (s.read_inode j0) := by
  have hs := h.basic.layout
  obtain ⟨j0, hj0, hmin⟩ := WellFounded.has_min Nat.lt_wfRel.wf
    { i | s.live i ∧ (s.read_inode i).cname = name } ⟨j, hj, hname⟩
  obtain ⟨l0, n0⟩ := hj0
  refine ⟨j0, l0, n0, h.index j0 l0, ?_⟩
  apply find_file_first h.basic name j0 (hs.live_lt l0) ((hs.live_iff j0).mp l0).2 n0
  intro i hi hfree hc
  exact hmin i ⟨(hs.live_iff i).mpr ⟨by have := hs.live_lt l0; omega, hfree⟩, hc⟩ hi

end FFSys
end ffsys


/-! ## The claims -/

namespace ffsys

/-! ### Shared facts about the concrete scenarios -/

theorem scenario_created_reachable : FFSys.Reachable 24 scenario_created :=
  FFSys.Reachable.after_open _ name_a CREATE 0 (FFSys.Reachable.after_format (by decide))
    (by decide)

theorem scenario_written_reachable : FFSys.Reachable 24 scenario_written :=
  FFSys.Reachable.after_write _ 0 pattern_buffer 30 scenario_created_reachable
    (fun k => Nat.mod_lt k (by decide))

set_option maxRecDepth 1000000 in
theorem scenario_written_live : scenario_written.live 0 := by
  unfold FFSys.live
  decide

set_option maxRecDepth 1000000 in
/-- C1 (evaluation at block size 24): on a freshly formatted filesystem, `open("a", CREATE)`
returns handle 0, and a write of `file_capacity = (15 + 5 * 6) * 24 = 1080` bytes through it
returns 528, not 1080, leaving `NO_FREE_DATA_BLOCKS` as the error code:
`Bitmap::reserve_first_free` only scans the first `size_ = 24` bit indices, so the
allocator gives out 24 data blocks and then reports exhaustion. -/
theorem C1_full_capacity_write_is_short :
    (FFSys.format 24).map (fun s =>
      ((s.open name_a CREATE 0).1,
       (15 + 5 * (24 / 4)) * 24,
       ((s.open name_a CREATE 0).2.write 0 pattern_buffer 1080).1,
       ((s.open name_a CREATE 0).2.write 0 pattern_buffer 1080).2.errnum))
      = some (0, 1080, 528, ErrorNumber.NO_FREE_DATA_BLOCKS) := by
  decide

/-- C2 (counterexample at block size 8192): `format(8192)` succeeds; `open("a", CREATE)` and
`open("b", CREATE)` return handles 0 and 1; the inode table starts at block 3 and so
does data block 0, so the write of 240 crafted bytes through handle 0 lands on the
records of inodes 0 and 1; a write of one byte through handle 1 then goes to the block
`3 + (-3) = 0`.  Afterwards the in-memory superblock has `block_size = 8192`, but byte 0
of the host file is 7 and a mount of that file reads `block_size = 8199`. -/
theorem C2_host_superblock_differs_at_8192 :
    (FFSys.format 8192).isSome = true
      ∧ ((FFSys.formatted 8192).open name_a CREATE 0).1 = 0
      ∧ (scenario_wide_created.open name_b CREATE 0).1 = 1
      ∧ (scenario_wide.write 0 crafted_buffer 240).1 = 240
      ∧ (scenario_overlap.write 1 (fun _ => 7) 1).1 = 1
      ∧ scenario_superblock_hit.sb_.block_size = 8192
      ∧ scenario_superblock_hit.sb_.bytes 0 = 0
      ∧ scenario_superblock_hit.fs_ 0 = 7
      ∧ (FFSys.mount scenario_superblock_hit.fs_).sb_.block_size = 8199 := by
  decide!

/-- C2 (amended to block sizes whose whole layout fits the 16-bit block counters,
`963 + 8 * B < 65536`): in every state reachable from a format by public calls, the host
file holds the in-memory superblock in block 0 and the two in-memory bitmaps in blocks 1
and 2; a mount of the host file has the same superblock and bitmaps; and for every name
that `find_file` finds, `open(name, 0)` succeeds on the mounted object as on the live one
and a read through the new handle returns the same count and the same bytes. -/
theorem C2_persistence_across_remount (B : Nat) (s : FFSys) (hB : 963 + 8 * B < 65536)
    (hr : FFSys.Reachable B s) :
    (∀ k, k < 24 → s.fs_ k = s.sb_.bytes k)
      ∧ (∀ k, k < B → s.fs_ (B + k) = s.inode_bitmap_.bm_.getD k 0)
      ∧ (∀ k, k < B → s.fs_ (2 * B + k) = s.data_block_bitmap_.bm_.getD k 0)
      ∧ (FFSys.mount s.fs_).sb_ = s.sb_
      ∧ (FFSys.mount s.fs_).inode_bitmap_ = s.inode_bitmap_
      ∧ (FFSys.mount s.fs_).data_block_bitmap_ = s.data_block_bitmap_
      ∧ ∀ (name : List Nat) (file : INode) (buffer : Mem) (count now now2 : Nat),
          s.find_file name = some file →
          ((FFSys.mount s.fs_).open name 0 now).1 ≠ -1 ∧ (s.open name 0 now2).1 ≠ -1
            ∧ (((FFSys.mount s.fs_).open name 0 now).2.read
                  ((FFSys.mount s.fs_).open name 0 now).1 buffer count).1
                = ((s.open name 0 now2).2.read (s.open name 0 now2).1 buffer count).1
            ∧ (((FFSys.mount s.fs_).open name 0 now).2.read
                  ((FFSys.mount s.fs_).open name 0 now).1 buffer count).2.1
                = ((s.open name 0 now2).2.read (s.open name 0 now2).1 buffer count).2.1 := by
  have hb := (hr.inv (by omega)).basic
  have hm := hb.mount_eq
  refine ⟨hb.sb_disk, hb.ibm_disk, hb.dbm_disk, by rw [hm], by rw [hm], by rw [hm], ?_⟩
  intro name file buffer count now now2 hf
  have hf2 : (FFSys.mount s.fs_).find_file name = some file := by
    rw [hm, FFSys.find_file_with]; exact hf
  obtain ⟨a1, a2, a3⟩ := FFSys.open_then_read s name file now2 buffer count hf
  obtain ⟨b1, b2, b3⟩ := FFSys.open_then_read (FFSys.mount s.fs_) name file now buffer count hf2
  refine ⟨b1, a1, ?_, ?_⟩
  · rw [a2, b2, hm, FFSys.read_n_bytes_with]; rfl
  · rw [a3, b3, hm, FFSys.read_n_bytes_with]; rfl

set_option maxRecDepth 1000000 in
theorem C2_persistence_across_remount_witness :
    963 + 8 * 24 < 65536 ∧ FFSys.Reachable 24 scenario_written
      ∧ scenario_written.find_file name_a = some (scenario_written.read_inode 0)
      ∧ (FFSys.mount scenario_written.fs_).sb_ = scenario_written.sb_
      ∧ (((FFSys.mount scenario_written.fs_).open name_a 0 0).2.read
            ((FFSys.mount scenario_written.fs_).open name_a 0 0).1 (fun _ => 0) 30).1
          = ((scenario_written.open name_a 0 0).2.read
              (scenario_written.open name_a 0 0).1 (fun _ => 0) 30).1 :=
  ⟨by decide, scenario_written_reachable, by decide,
    (C2_persistence_across_remount 24 scenario_written (by decide)
      scenario_written_reachable).2.2.2.1,
    ((C2_persistence_across_remount 24 scenario_written (by decide)
      scenario_written_reachable).2.2.2.2.2.2 name_a (scenario_written.read_inode 0)
        (fun _ => 0) 30 0 0 (by decide)).2.2.1⟩

/-- C3 (counterexample at block size 8192): `format(8192)` succeeds and leaves
`n_inodes = 0` and `n_free_inodes = 0` (the value `8 * 8192 = 65536` does not fit the
16-bit fields), while all `65536` bits of the inode bitmap are 1. -/
theorem C3_counter_differs_at_8192 :
    (FFSys.format 8192).isSome = true
      ∧ (FFSys.formatted 8192).sb_.n_inodes = 0
      ∧ (FFSys.formatted 8192).sb_.n_free_inodes = 0
      ∧ (FFSys.formatted 8192).inode_bitmap_.popcount = 65536 := by
  refine ⟨by decide, by decide, by decide, ?_⟩
  have e : (FFSys.formatted 8192).inode_bitmap_ = Bitmap.init 8192 := rfl
  rw [e, Bitmap.popcount_init]

/-- C3 (amended to `963 + 8 * B < 65536`): in every state reachable from a format by
public calls, `n_free_inodes` is the number of 1-bits of the inode bitmap and
`n_free_data_blocks` the number of 1-bits of the data-block bitmap; hence neither exceeds
`n_inodes`, respectively `n_data_blocks`. -/
theorem C3_counter_invariant (B : Nat) (s : FFSys) (hB : 963 + 8 * B < 65536)
    (hr : FFSys.Reachable B s) :
    s.sb_.n_free_inodes = s.inode_bitmap_.popcount
      ∧ s.sb_.n_free_data_blocks = s.data_block_bitmap_.popcount
      ∧ s.sb_.n_free_inodes ≤ s.sb_.n_inodes
      ∧ s.sb_.n_free_data_blocks ≤ s.sb_.n_data_blocks := by
  have hb := (hr.inv (by omega)).basic
  have p1 := Bitmap.popcount_le s.inode_bitmap_
  have p2 := Bitmap.popcount_le s.data_block_bitmap_
  rw [hb.ibm_size] at p1
  rw [hb.dbm_size] at p2
  refine ⟨hb.free_inodes, hb.free_data, ?_, ?_⟩
  · rw [hb.free_inodes, hb.layout.n_inodes]; exact p1
  · rw [hb.free_data, hb.layout.n_data_blocks]; exact p2

theorem C3_counter_invariant_witness :
    963 + 8 * 24 < 65536 ∧ FFSys.Reachable 24 scenario_written
      ∧ scenario_written.sb_.n_free_inodes = scenario_written.inode_bitmap_.popcount
      ∧ scenario_written.sb_.n_free_data_blocks
          = scenario_written.data_block_bitmap_.popcount
      ∧ scenario_written.sb_.n_free_inodes ≤ scenario_written.sb_.n_inodes
      ∧ scenario_written.sb_.n_free_data_blocks ≤ scenario_written.sb_.n_data_blocks :=
  ⟨by decide, scenario_written_reachable,
    C3_counter_invariant 24 scenario_written (by decide) scenario_written_reachable⟩

/-- C4 (counterexample at block size 8192): in the state reached by `format(8192)`,
`open("a", CREATE)`, `open("b", CREATE)` and a write of the 240 crafted bytes through
handle 0 (which returns 240), inode 1 is in use (its bit in the inode bitmap is 0) and its
`blocks[1]` is 5, not `-1`, while bit 5 of the data-block bitmap is 1 (free). -/
theorem C4_unreserved_address_at_8192 :
    (FFSys.format 8192).isSome = true
      ∧ (scenario_wide.write 0 crafted_buffer 240).1 = 240
      ∧ scenario_overlap.inode_bitmap_.is_free 1 = false
      ∧ (scenario_overlap.read_inode 1).blocks.getD 1 0 = 5
      ∧ scenario_overlap.data_block_bitmap_.is_free 5 = true := by
  decide!

/-- C4 (amended to `963 + 8 * B < 65536`): in every state reachable from a format by
public calls, for every live inode, every entry of `blocks[0..19]` that is not `-1`, and
every entry that is not `-1` of an address block named by `blocks[15..19]`, is the index
of a data block whose bit in the data-block bitmap is 0. -/
theorem C4_reserved_addresses (B : Nat) (s : FFSys) (hB : 963 + 8 * B < 65536)
    (hr : FFSys.Reachable B s) (i : Nat) (hi : s.live i) :
    (∀ k, k < 20 → (s.read_inode i).blocks.getD k 0 ≠ -1 →
        s.reserved ((s.read_inode i).blocks.getD k 0))
      ∧ ∀ S T, 15 ≤ S → S < 20 → T < s.sb_.address_block_capacity →
          (s.read_inode i).blocks.getD S 0 ≠ -1 →
          s.address_entry ((s.read_inode i).blocks.getD S 0) T ≠ -1 →
          s.reserved (s.address_entry ((s.read_inode i).blocks.getD S 0) T) := by
  have h := hr.inv (by omega)
  constructor
  · intro k hk hne
    exact h.refs.rsv ⟨i, k, none⟩ ⟨hi, hk, trivial⟩ hne
  · intro S T hS hS2 hT hne hne2
    exact h.refs.rsv ⟨i, S, some T⟩ ⟨hi, hS2, hS, hT, hne⟩ hne2

theorem C4_reserved_addresses_witness :
    963 + 8 * 24 < 65536 ∧ FFSys.Reachable 24 scenario_written ∧ scenario_written.live 0
      ∧ (∀ k, k < 20 → (scenario_written.read_inode 0).blocks.getD k 0 ≠ -1 →
          scenario_written.reserved ((scenario_written.read_inode 0).blocks.getD k 0))
      ∧ ∀ S T, 15 ≤ S → S < 20 → T < scenario_written.sb_.address_block_capacity →
          (scenario_written.read_inode 0).blocks.getD S 0 ≠ -1 →
          scenario_written.address_entry ((scenario_written.read_inode 0).blocks.getD S 0) T
            ≠ -1 →
          scenario_written.reserved
            (scenario_written.address_entry
              ((scenario_written.read_inode 0).blocks.getD S 0) T) :=
  ⟨by decide, scenario_written_reachable, scenario_written_live,
    C4_reserved_addresses 24 scenario_written (by decide) scenario_written_reachable 0
      scenario_written_live⟩

set_option maxRecDepth 1000000 in
/-- C5 (evaluation at block size 24): `open("a", CREATE)` returns handle 0, a write of
48 bytes through it maps logical blocks 0 and 1 and leaves the handle at position 48;
`open("a", TRUNCATE)` returns handle 1, sets the size to 0 and frees block 1, and handle 0
stays at position 48; a write of one byte through handle 0 then maps logical block 2 and
sets the size to 49.  The state is reachable by public calls, inode 0 is live with size
49, so `⌈49 / 24⌉ = 3`, and logical block 1 resolves to `-1`. -/
theorem C5_hole_after_truncate_with_second_handle :
    FFSys.Reachable 24 scenario_hole
      ∧ (scenario_created.write 0 pattern_buffer 48).1 = 48
      ∧ (scenario_two_blocks.open name_a TRUNCATE 0).1 = 1
      ∧ (scenario_two_blocks_truncated.write 0 pattern_buffer 1).1 = 1
      ∧ scenario_hole.sb_.block_size = 24
      ∧ scenario_hole.sb_.n_inodes = 192
      ∧ scenario_hole.inode_bitmap_.is_free 0 = false
      ∧ (scenario_hole.read_inode 0).size = 49
      ∧ scenario_hole.get_file_block_address (scenario_hole.read_inode 0) 0 = 0
      ∧ scenario_hole.get_file_block_address (scenario_hole.read_inode 0) 1 = -1
      ∧ scenario_hole.get_file_block_address (scenario_hole.read_inode 0) 2 = 1 :=
  ⟨FFSys.Reachable.after_write _ 0 pattern_buffer 1
      (FFSys.Reachable.after_open _ name_a TRUNCATE 0
        (FFSys.Reachable.after_write _ 0 pattern_buffer 48 scenario_created_reachable
          (fun k => Nat.mod_lt k (by decide)))
        (by decide))
      (fun k => Nat.mod_lt k (by decide)),
    by decide⟩

/-- The mapped prefix where no handle is left behind by a truncation: for
`963 + 8 * B < 65536` and clients that never open a file with `TRUNCATE` while a handle on
that file stands beyond position 0, and never pass `read` a count of `2^64 - 2^32` or
more, in every state reached from a format by public calls, for every live inode, every
logical block index `L < ⌈size / B⌉` resolves through `get_file_block_address` to an
address different from `-1`. -/
theorem mapped_prefix_of_synced (B : Nat) (s : FFSys) (hB : 963 + 8 * B < 65536)
    (hr : FFSys.ReachableSynced B s) (j : Nat) (hj : s.live j) (L : Nat)
    (hL : L < ((s.read_inode j).size + B - 1) / B) :
    s.get_file_block_address (s.read_inode j) L ≠ -1 := by
  have h := hr.synced (by omega)
  apply h.mapped j hj L
  rw [h.inv.basic.layout.block_size]
  exact hL

set_option maxRecDepth 1000000 in
theorem mapped_prefix_of_synced_at_24 :
    963 + 8 * 24 < 65536 ∧ FFSys.ReachableSynced 24 scenario_written
      ∧ scenario_written.live 0
      ∧ 1 < ((scenario_written.read_inode 0).size + 24 - 1) / 24
      ∧ scenario_written.get_file_block_address (scenario_written.read_inode 0) 1 ≠ -1 :=
  ⟨by decide,
    FFSys.ReachableSynced.after_write _ 0 pattern_buffer 30
      (FFSys.ReachableSynced.after_open _ name_a CREATE 0
        (FFSys.ReachableSynced.after_format (by decide)) (by decide)
        (fun h => absurd rfl h))
      (fun k => Nat.mod_lt k (by decide)),
    scenario_written_live, by decide,
    mapped_prefix_of_synced 24 scenario_written (by decide)
      (FFSys.ReachableSynced.after_write _ 0 pattern_buffer 30
        (FFSys.ReachableSynced.after_open _ name_a CREATE 0
          (FFSys.ReachableSynced.after_format (by decide)) (by decide)
          (fun h => absurd rfl h))
        (fun k => Nat.mod_lt k (by decide)))
      0 scenario_written_live 1 (by decide)⟩

/-- C6 (counterexample): on a freshly formatted filesystem with block size 24, a file
name of 17 characters does not exist; `open(name, CREATE)` succeeds with handle 0 and
`close(0)` succeeds, but `open(name, 0)` then returns `-1` with `NO_SUCH_FILE`: the inode
stores the first 16 characters only, and the lookup compares the stored string with the
whole name. -/
theorem C6_long_name_is_not_found_again :
    (FFSys.format 24).isSome = true
      ∧ name_long.length = 17
      ∧ (FFSys.formatted 24).find_file name_long = none
      ∧ ((FFSys.formatted 24).open name_long CREATE 0).1 = 0
      ∧ (((FFSys.formatted 24).open name_long CREATE 0).2.close 0).1 = true
      ∧ ((((FFSys.formatted 24).open name_long CREATE 0).2.close 0).2.open
            name_long 0 0).1 = -1
      ∧ ((((FFSys.formatted 24).open name_long CREATE 0).2.close 0).2.open
            name_long 0 0).2.errnum = ErrorNumber.NO_SUCH_FILE := by
  decide!

/-- C6 (amended to names of at most 16 characters, none of them NUL, and to
`963 + 8 * B < 65536`): in every state reachable from a format by public calls in which
`find_file` finds no file called `name`, if `open(name, CREATE)` succeeds, then `close` of
the handle succeeds, `open(name, 0)` succeeds, and the inode index of the new handle is
the inode index of the first handle, a slot that was free before the create and is in use
after it. -/
theorem C6_lookup_after_create (B : Nat) (s : FFSys) (hB : 963 + 8 * B < 65536)
    (hr : FFSys.Reachable B s) (name : List Nat) (now now2 : Nat)
    (hlen : name.length ≤ 16) (hchr : ∀ c, c ∈ name → c ≠ 0 ∧ c < 256)
    (hnone : s.find_file name = none) (hok : (s.open name CREATE now).1 ≠ -1) :
    ((s.open name CREATE now).2.close (s.open name CREATE now).1).1 = true
      ∧ (((s.open name CREATE now).2.close (s.open name CREATE now).1).2.open
            name 0 now2).1 ≠ -1
      ∧ ∃ f1 f3 : OpenFile,
          (s.open name CREATE now).2.lookup (s.open name CREATE now).1 = some f1
          ∧ (((s.open name CREATE now).2.close (s.open name CREATE now).1).2.open
                name 0 now2).2.lookup
              (((s.open name CREATE now).2.close (s.open name CREATE now).1).2.open
                name 0 now2).1 = some f3
          ∧ f3.inode = f1.inode
          ∧ s.inode_bitmap_.is_free f1.inode = true
          ∧ (s.open name CREATE now).2.inode_bitmap_.is_free f1.inode = false :=
  (hr.inv (by omega)).lookup_after_create name now now2 hlen hchr hnone hok

set_option maxRecDepth 1000000 in
theorem C6_lookup_after_create_witness :
    963 + 8 * 24 < 65536 ∧ FFSys.Reachable 24 (FFSys.formatted 24)
      ∧ name_a.length ≤ 16 ∧ (∀ c, c ∈ name_a → c ≠ 0 ∧ c < 256)
      ∧ (FFSys.formatted 24).find_file name_a = none
      ∧ ((FFSys.formatted 24).open name_a CREATE 0).1 ≠ -1
      ∧ (((FFSys.formatted 24).open name_a CREATE 0).2.close
            ((FFSys.formatted 24).open name_a CREATE 0).1).1 = true
      ∧ ((((FFSys.formatted 24).open name_a CREATE 0).2.close
            ((FFSys.formatted 24).open name_a CREATE 0).1).2.open name_a 0 0).1 ≠ -1 :=
  ⟨by decide, FFSys.Reachable.after_format (by decide), by decide, by decide, by decide,
    by decide,
    (C6_lookup_after_create 24 (FFSys.formatted 24) (by decide)
      (FFSys.Reachable.after_format (by decide)) name_a 0 0 (by decide) (by decide)
      (by decide) (by decide)).1,
    (C6_lookup_after_create 24 (FFSys.formatted 24) (by decide)
      (FFSys.Reachable.after_format (by decide)) name_a 0 0 (by decide) (by decide)
      (by decide) (by decide)).2.1⟩

set_option maxRecDepth 1000000 in
/-- C7 (evaluation): handle 0 has written 30 bytes to "a" and stands at position 30; after
`open("a", TRUNCATE)` succeeds (handle 1) the size of the file is 0, a read of 1 byte
through handle 1 returns 0, but a read of 1 byte through handle 0 returns 18. -/
theorem C7_read_after_truncate_through_old_handle :
    (scenario_written.open name_a TRUNCATE 0).1 = 1
      ∧ (scenario_truncated.read_inode 0).size = 0
      ∧ (scenario_truncated.read 1 (fun _ => 7) 1).1 = 0
      ∧ (scenario_truncated.read 0 (fun _ => 7) 1).1 = 18 := by
  decide

set_option maxRecDepth 1000000 in
/-- C8 (evaluation): for the inode of "a" after the truncation (size 0, `blocks[0] = 0`),
`read_n_bytes_from_file(inode, buf, 1, 5)` has `pos = 5 ≥ size = 0`, yet it returns 19 and
stores 19 bytes of data block 0 (offsets 5..23 of the block) into a buffer that held 7s. -/
theorem C8_read_beyond_size_returns_bytes :
    (scenario_truncated.read_inode 0).size = 0
      ∧ (scenario_truncated.read_n_bytes_from_file (scenario_truncated.read_inode 0)
            (fun _ => 7) 1 5).1 = 19
      ∧ (List.range 21).map (scenario_truncated.read_n_bytes_from_file
            (scenario_truncated.read_inode 0) (fun _ => 7) 1 5).2
          = [5, 6, 7, 8, 9, 10, 11, 12, 13, 14, 15, 16, 17, 18, 19, 20, 21, 22, 23, 7, 7] := by
  decide

/-- The content of a read whose `pos + count` does not wrap around: for a filesystem whose
block size `B` is a nonzero 16-bit value and an inode whose first `⌈size / B⌉` logical
blocks are mapped (to blocks inside the 32-bit block arithmetic of `read_block`), for
every `pos ≤ size` and every `count` with `pos + count < 2^64`,
`read_n_bytes_from_file` returns `r = min(count, size - pos)` and, for every `k < r`,
`buf[k]` is the byte at offset `(pos + k) mod B` of the data block that logical block
`(pos + k) / B` resolves to. -/
theorem read_content_across_blocks (s : FFSys) (file : INode) (buffer : Mem)
    (count pos : Nat)
    (hB : 0 < s.sb_.block_size) (hB16 : s.sb_.block_size < 65536)
    (hmap : ∀ L, L < (file.size + s.sb_.block_size - 1) / s.sb_.block_size →
      s.mapped_block file L)
    (hidx : file.size / s.sb_.block_size + 1 < 4294967296)
    (hpos : pos ≤ file.size) (hcnt : pos + count < 18446744073709551616) :
    (s.read_n_bytes_from_file file buffer count pos).1 = min count (file.size - pos)
      ∧ ∀ k, k < min count (file.size - pos) →
          (s.read_n_bytes_from_file file buffer count pos).2 k
            = s.data_block_byte
                (s.get_file_block_address file ((pos + k) / s.sb_.block_size))
                ((pos + k) % s.sb_.block_size) := by
  have hmap2 : ∀ L, L * s.sb_.block_size < file.size → s.mapped_block file L := by
    intro L hL
    apply hmap
    have : L + 1 ≤ (file.size + s.sb_.block_size - 1) / s.sb_.block_size := by
      rw [Nat.le_div_iff_mul_le hB, Nat.add_mul]
      omega
    omega
  obtain ⟨r1, r2⟩ :=
    FFSys.read_n_bytes_spec s file buffer count pos hB hB16 hpos hcnt hmap2 hidx
  refine ⟨r1, fun k hk => ?_⟩
  rw [r2 k, if_pos hk]
  rfl

set_option maxRecDepth 1000000 in
/-- At a concrete input: the file "a" holds 30 pattern bytes in two blocks of 24 bytes;
reading 40 bytes from position 3 returns 27 bytes, and byte 22 of the result is byte 1 of
the second block. -/
theorem read_content_across_blocks_at_24 :
    (scenario_written.read_n_bytes_from_file (scenario_written.read_inode 0)
        (fun _ => 0) 40 3).1 = min 40 ((scenario_written.read_inode 0).size - 3)
      ∧ (scenario_written.read_n_bytes_from_file (scenario_written.read_inode 0)
          (fun _ => 0) 40 3).2 22 = 25 :=
  ⟨(read_content_across_blocks scenario_written (scenario_written.read_inode 0)
      (fun _ => 0) 40 3 (by decide) (by decide) (by decide) (by decide) (by decide)
      (by decide)).1,
   ((read_content_across_blocks scenario_written (scenario_written.read_inode 0)
      (fun _ => 0) 40 3 (by decide) (by decide) (by decide) (by decide) (by decide)
      (by decide)).2 22 (by decide)).trans (by decide)⟩

set_option maxRecDepth 1000000 in
/-- C9 (evaluation at block size 24): the file "a" holds 30 bytes in its two mapped logical
blocks 0 and 1, and `seek(0, 3)` puts handle 0 at position 3, inside the file.  The state
is reachable by public calls.  A read with `count = 2^64 - 1`, the largest `size_t`,
returns 45, not `min(count, size - pos) = 27`: the sum `pos + count` wraps around to 2,
which is below the size, so the count is not clamped, and the loop reads whole blocks up
to the first unmapped one.  The 18 bytes stored behind the 27 bytes of the file are the
rest of data block 1. -/
theorem C9_wrapping_count_reads_past_the_end :
    FFSys.Reachable 24 scenario_written_sought
      ∧ (scenario_written.seek 0 3).1 = true
      ∧ (scenario_written_sought.lookup 0).map (fun f => (f.inode, f.pos)) = some (0, 3)
      ∧ (scenario_written_sought.read_inode 0).size = 30
      ∧ scenario_written_sought.get_file_block_address
          (scenario_written_sought.read_inode 0) 0 = 0
      ∧ scenario_written_sought.get_file_block_address
          (scenario_written_sought.read_inode 0) 1 = 1
      ∧ scenario_written_sought.get_file_block_address
          (scenario_written_sought.read_inode 0) 2 = -1
      ∧ (3 + 18446744073709551615) % 18446744073709551616 = 2
      ∧ min 18446744073709551615 ((scenario_written_sought.read_inode 0).size - 3) = 27
      ∧ (scenario_written_sought.read_n_bytes_from_file
            (scenario_written_sought.read_inode 0) (fun _ => 7) 18446744073709551615 3).1 = 45
      ∧ (scenario_written_sought.read 0 (fun _ => 7) 18446744073709551615).1 = 45
      ∧ (List.range 47).map (scenario_written_sought.read 0 (fun _ => 7)
            18446744073709551615).2.1
          = [3, 4, 5, 6, 7, 8, 9, 10, 11, 12, 13, 14, 15, 16, 17, 18, 19, 20, 21, 22, 23, 24,
              25, 26, 27, 28, 29, 0, 0, 0, 0, 0, 0, 0, 0, 0, 0, 0, 0, 0, 0, 0, 0, 0, 0, 7, 7] :=
  ⟨FFSys.Reachable.after_seek _ 0 3 scenario_written_reachable, by decide⟩

/-- C10 (counterexample at block size 8192): after `format(8192)` and
`open("a", CREATE)`, data block 0 of the file is block 3 of the host file, which is also
the block of the inode table; `write_n_bytes_to_file` of one byte `7` at position 0
returns 1, logical block 0 resolves to data block 0 afterwards, but byte 0 of that block
is 0 (the low byte of the inode index, written back last), not 7. -/
theorem C10_written_byte_lost_at_8192 :
    (FFSys.format 8192).isSome = true
      ∧ ((FFSys.formatted 8192).open name_a CREATE 0).1 = 0
      ∧ scenario_wide_created.inode_bitmap_.is_free 0 = false
      ∧ (scenario_wide_created.write_n_bytes_to_file (scenario_wide_created.read_inode 0)
            (fun _ => 7) 1 0).1 = 1
      ∧ (scenario_wide_created.write_n_bytes_to_file (scenario_wide_created.read_inode 0)
            (fun _ => 7) 1 0).2.2.get_file_block_address
          (scenario_wide_created.write_n_bytes_to_file (scenario_wide_created.read_inode 0)
            (fun _ => 7) 1 0).2.1 0 = 0
      ∧ (scenario_wide_created.write_n_bytes_to_file (scenario_wide_created.read_inode 0)
            (fun _ => 7) 1 0).2.2.data_block_byte 0 0 = 0 := by
  decide!

/-- C10 (amended to states reachable from a format with `963 + 8 * B < 65536`, live
inodes and positions of the handle type): if `write_n_bytes_to_file` on the inode `i` at
position `pos` returns `w`, then for every `k < w` logical block `(pos + k) / B` is mapped
afterwards and byte `(pos + k) mod B` of its data block is `buffer[k]`; every block of the
file that was mapped keeps its address; and every byte of such a block at a logical
offset outside `[pos, pos + w)` is unchanged. -/
theorem C10_write_layout (B : Nat) (s : FFSys) (hB : 963 + 8 * B < 65536)
    (hr : FFSys.Reachable B s) (i : Nat) (hi : s.live i) (buffer : Mem)
    (hbuf : ∀ k, buffer k < 256) (count pos : Nat) (hpos : pos < 4294967296) :
    (∀ k, k < (s.write_n_bytes_to_file (s.read_inode i) buffer count pos).1 →
        (s.write_n_bytes_to_file (s.read_inode i) buffer count pos).2.2.get_file_block_address
            (s.write_n_bytes_to_file (s.read_inode i) buffer count pos).2.1 ((pos + k) / B)
          ≠ -1
        ∧ (s.write_n_bytes_to_file (s.read_inode i) buffer count pos).2.2.data_block_byte
            ((s.write_n_bytes_to_file (s.read_inode i) buffer count
                pos).2.2.get_file_block_address
              (s.write_n_bytes_to_file (s.read_inode i) buffer count pos).2.1 ((pos + k) / B))
            ((pos + k) % B) = buffer k)
      ∧ (∀ L, s.get_file_block_address (s.read_inode i) L ≠ -1 →
          (s.write_n_bytes_to_file (s.read_inode i) buffer count
              pos).2.2.get_file_block_address
            (s.write_n_bytes_to_file (s.read_inode i) buffer count pos).2.1 L
            = s.get_file_block_address (s.read_inode i) L)
      ∧ ∀ L o, s.get_file_block_address (s.read_inode i) L ≠ -1 → o < B →
          (L * B + o < pos
            ∨ pos + (s.write_n_bytes_to_file (s.read_inode i) buffer count pos).1
                ≤ L * B + o) →
          (s.write_n_bytes_to_file (s.read_inode i) buffer count pos).2.2.data_block_byte
              (s.get_file_block_address (s.read_inode i) L) o
            = s.data_block_byte (s.get_file_block_address (s.read_inode i) L) o :=
  (hr.inv (by omega)).write_layout i hi buffer hbuf count pos hpos

set_option maxRecDepth 1000000 in
theorem C10_write_layout_witness :
    963 + 8 * 24 < 65536 ∧ FFSys.Reachable 24 scenario_written ∧ scenario_written.live 0
      ∧ (scenario_written.write_n_bytes_to_file (scenario_written.read_inode 0)
            pattern_buffer 40 20).1 = 40
      ∧ (scenario_written.write_n_bytes_to_file (scenario_written.read_inode 0)
            pattern_buffer 40 20).2.2.data_block_byte
          ((scenario_written.write_n_bytes_to_file (scenario_written.read_inode 0)
              pattern_buffer 40 20).2.2.get_file_block_address
            (scenario_written.write_n_bytes_to_file (scenario_written.read_inode 0)
              pattern_buffer 40 20).2.1 ((20 + 39) / 24))
          ((20 + 39) % 24) = pattern_buffer 39 :=
  ⟨by decide, scenario_written_reachable, scenario_written_live, by decide,
    ((C10_write_layout 24 scenario_written (by decide) scenario_written_reachable 0
      scenario_written_live pattern_buffer (fun k => Nat.mod_lt k (by decide)) 40 20
      (by decide)).1 39 (by decide)).2⟩

end ffsys


namespace ffsys

/-! ### Shared facts about further scenarios -/

set_option maxRecDepth 1000000 in
theorem scenario_created_lookup : scenario_created.lookup 0 = some ⟨0, 0, 0⟩ := by
  decide

set_option maxRecDepth 1000000 in
/-- C11 (counterexample at block size 8192): after `format(8192)`, `open("a", CREATE)` and
`open("b", CREATE)`, the inode table starts at block 3 and so does data block 0; the
write of the 240 bytes of `crafted_index` through handle 0 returns 240 and leaves in slot
1 of the inode table a record with index 2 and size 0.  A write of one byte through
handle 1 (inode 1, position 0) then returns 1 and moves the handle to position 1, but
`write_inode` stores the inode under its index field, in slot 2: the persisted size of
inode 1 is still 0, not `max(0, 0 + 1)`. -/
theorem C11_size_not_persisted_at_8192 :
    (FFSys.format 8192).isSome = true
      ∧ (scenario_wide.write 0 crafted_index 240).1 = 240
      ∧ (scenario_index_overlap.lookup 1).map (fun f => (f.inode, f.pos)) = some (1, 0)
      ∧ (scenario_index_overlap.read_inode 1).index = 2
      ∧ (scenario_index_overlap.read_inode 1).size = 0
      ∧ (scenario_index_overlap.write 1 (fun _ => 7) 1).1 = 1
      ∧ (scenario_index_written.lookup 1).map (fun f => (f.inode, f.pos)) = some (1, 1)
      ∧ (scenario_index_written.read_inode 1).size = 0
      ∧ (scenario_index_written.read_inode 2).size = 1 := by
  decide!

/-- C11 (amended to states reachable from a format with `963 + 8 * B < 65536`): for every
write of chars through a known handle that stands at position `p`, the call returns a
count `w ≤ count`, the persisted size of the inode afterwards is `max(old size, p + w)`,
and the handle stands at position `p + w`. -/
theorem C11_write_never_shrinks (B : Nat) (s : FFSys) (hB : 963 + 8 * B < 65536)
    (hr : FFSys.Reachable B s) (fd : Int) (f : OpenFile) (hl : s.lookup fd = some f)
    (buffer : Mem) (hbuf : ∀ k, buffer k < 256) (count : Nat) :
    ∃ w : Nat, (s.write fd buffer count).1 = (w : Int) ∧ w ≤ count
      ∧ ((s.write fd buffer count).2.read_inode f.inode).size
          = max (s.read_inode f.inode).size (f.pos + w)
      ∧ (s.write fd buffer count).2.lookup fd = some { f with pos := f.pos + w } := by
  have h := hr.inv (by omega)
  have hs := h.basic.layout
  obtain ⟨hf, _⟩ := FFSys.lookup_mem hl
  have hlive := h.handles f hf
  have hpos := h.pos_lt f hf
  have hx := FFSys.InvX.of_inv h f.inode hlive
  have hidx : (s.read_inode f.inode).index = f.inode := h.index f.inode hlive
  have D := FFSys.write_n_bytes_done buffer hbuf hx count f.pos hpos
  have hbd := (FFSys.write_n_bytes_stop buffer hbuf hx count f.pos hpos).1
  have hcap := FFSys.capacity_lt hs.hB8
  unfold FFSys.write
  rw [hl]
  simp only
  generalize s.write_n_bytes_to_file (s.read_inode f.inode) buffer count f.pos = res
    at D hbd ⊢
  obtain ⟨w, y, t⟩ := res
  have hst : t.read_inode (s.read_inode f.inode).index = y := D.stored
  have hsz : y.size = max (f.pos + w) (s.read_inode f.inode).size := D.size_eq
  have hle : w ≤ count := D.le
  have hof : t.open_files_ = s.open_files_ := D.open_files
  simp only at hbd
  rw [hidx] at hst
  have hlt : f.pos + w < 4294967296 := by
    by_cases hw : 0 < w
    · have := hbd hw; omega
    · omega
  refine ⟨w, rfl, hle, ?_, ?_⟩
  · show (t.read_inode f.inode).size = _
    rw [hst, hsz, Nat.max_comm]
  · have := FFSys.lookup_set_pos t fd f (f.pos + w)
      (by rw [FFSys.lookup_of_open_files hof]; exact hl)
    rw [Nat.mod_eq_of_lt hlt] at this
    exact this

set_option maxRecDepth 1000000 in
theorem C11_write_never_shrinks_witness :
    963 + 8 * 24 < 65536 ∧ FFSys.Reachable 24 scenario_created
      ∧ scenario_created.lookup 0 = some ⟨0, 0, 0⟩
      ∧ ∃ w : Nat, (scenario_created.write 0 pattern_buffer 30).1 = (w : Int) ∧ w ≤ 30
        ∧ ((scenario_created.write 0 pattern_buffer 30).2.read_inode 0).size
            = max (scenario_created.read_inode 0).size (0 + w)
        ∧ (scenario_created.write 0 pattern_buffer 30).2.lookup 0 = some ⟨0, 0, 0 + w⟩ :=
  ⟨by decide, scenario_created_reachable, scenario_created_lookup,
    C11_write_never_shrinks 24 scenario_created (by decide) scenario_created_reachable 0
      ⟨0, 0, 0⟩ scenario_created_lookup pattern_buffer (fun k => Nat.mod_lt k (by decide)) 30⟩

set_option maxRecDepth 1000000 in
/-- C12 (evaluation at block size 32, addressing capacity `15 + 5 * 8 = 55` blocks):
handle 0 writes 960 bytes to "a" and stands at position 960; `open("a", TRUNCATE)`
returns handle 1 and frees the blocks; handle 0 then writes 800 bytes, up to position
`1760 = 55 * 32`.  No call has failed so far.  A write of one byte through handle 0 now
stops at the guard of `set_file_block_address` for logical block 55: it returns 0, less
than the count 1, the size stays 1760, and the error code is still `NO_ERROR`, not
`NO_FREE_DATA_BLOCKS`; the data block that `reserve_file_block` had reserved stays
reserved (225 free bits instead of 226). -/
theorem C12_short_write_without_error_code :
    FFSys.Reachable 32 scenario_32_stopped
      ∧ (scenario_32_created.write 0 pattern_buffer 960).1 = 960
      ∧ (scenario_32_first.open name_a TRUNCATE 0).1 = 1
      ∧ (scenario_32_truncated.write 0 pattern_buffer 800).1 = 800
      ∧ scenario_32_full.errnum = ErrorNumber.NO_ERROR
      ∧ (scenario_32_full.lookup 0).map (fun f => (f.inode, f.pos)) = some (0, 1760)
      ∧ (scenario_32_full.read_inode 0).size = 1760
      ∧ scenario_32_full.data_block_bitmap_.popcount = 226
      ∧ (scenario_32_full.write 0 pattern_buffer 1).1 = 0
      ∧ scenario_32_stopped.errnum = ErrorNumber.NO_ERROR
      ∧ (scenario_32_stopped.read_inode 0).size = 1760
      ∧ scenario_32_stopped.data_block_bitmap_.popcount = 225 :=
  ⟨FFSys.Reachable.after_write _ 0 pattern_buffer 1
      (FFSys.Reachable.after_write _ 0 pattern_buffer 800
        (FFSys.Reachable.after_open _ name_a TRUNCATE 0
          (FFSys.Reachable.after_write _ 0 pattern_buffer 960
            (FFSys.Reachable.after_open _ name_a CREATE 0
              (FFSys.Reachable.after_format (by decide)) (by decide))
            (fun k => Nat.mod_lt k (by decide)))
          (by decide))
        (fun k => Nat.mod_lt k (by decide)))
      (fun k => Nat.mod_lt k (by decide)),
    by decide!⟩

/-- The outcome of a short write, in states reachable from a format with
`963 + 8 * B < 65536`: for every write of chars
through a known handle at position `p` that returns less than `count`, the value returned
is a count `w < count`, not `-1`, the persisted size of the inode afterwards is
`max(old size, p + w)`, and the error code afterwards is `NO_FREE_DATA_BLOCKS` provided
the write stopped at a logical block index `(p + w) / B` below `15 + 5 * (B / 4)`. -/
theorem partial_write_outcome (B : Nat) (s : FFSys) (hB : 963 + 8 * B < 65536)
    (hr : FFSys.Reachable B s) (fd : Int) (f : OpenFile) (hl : s.lookup fd = some f)
    (buffer : Mem) (hbuf : ∀ k, buffer k < 256) (count : Nat)
    (hshort : (s.write fd buffer count).1 < count) :
    ∃ w : Nat, (s.write fd buffer count).1 = (w : Int) ∧ w < count
      ∧ ((s.write fd buffer count).2.read_inode f.inode).size
          = max (s.read_inode f.inode).size (f.pos + w)
      ∧ ((f.pos + w) / B < 15 + 5 * (B / 4) →
          (s.write fd buffer count).2.errnum = ErrorNumber.NO_FREE_DATA_BLOCKS) := by
  have h := hr.inv (by omega)
  obtain ⟨hf, _⟩ := FFSys.lookup_mem hl
  have hlive := h.handles f hf
  have hpos := h.pos_lt f hf
  have hx := FFSys.InvX.of_inv h f.inode hlive
  have hidx : (s.read_inode f.inode).index = f.inode := h.index f.inode hlive
  have D := FFSys.write_n_bytes_done buffer hbuf hx count f.pos hpos
  have hstop := (FFSys.write_n_bytes_stop buffer hbuf hx count f.pos hpos).2
  unfold FFSys.write at hshort ⊢
  rw [hl] at hshort ⊢
  simp only at hshort ⊢
  generalize s.write_n_bytes_to_file (s.read_inode f.inode) buffer count f.pos = res
    at D hstop hshort ⊢
  obtain ⟨w, y, t⟩ := res
  have hst : t.read_inode (s.read_inode f.inode).index = y := D.stored
  have hsz : y.size = max (f.pos + w) (s.read_inode f.inode).size := D.size_eq
  simp only at hstop hshort
  rw [hidx] at hst
  have hw : w < count := by omega
  refine ⟨w, rfl, hw, ?_, ?_⟩
  · show (t.read_inode f.inode).size = _
    rw [hst, hsz, Nat.max_comm]
  · intro hcap
    rcases hstop hw with e | e
    · exact e
    · omega

set_option maxRecDepth 1000000 in
theorem partial_write_outcome_at_24 :
    963 + 8 * 24 < 65536 ∧ FFSys.Reachable 24 scenario_created
      ∧ scenario_created.lookup 0 = some ⟨0, 0, 0⟩
      ∧ (scenario_created.write 0 pattern_buffer 1080).1 < 1080
      ∧ ∃ w : Nat, (scenario_created.write 0 pattern_buffer 1080).1 = (w : Int) ∧ w < 1080
        ∧ ((scenario_created.write 0 pattern_buffer 1080).2.read_inode 0).size
            = max (scenario_created.read_inode 0).size (0 + w)
        ∧ ((0 + w) / 24 < 15 + 5 * (24 / 4) →
            (scenario_created.write 0 pattern_buffer 1080).2.errnum
              = ErrorNumber.NO_FREE_DATA_BLOCKS) :=
  ⟨by decide, scenario_created_reachable, scenario_created_lookup, by decide,
    partial_write_outcome 24 scenario_created (by decide) scenario_created_reachable 0
      ⟨0, 0, 0⟩ scenario_created_lookup pattern_buffer (fun k => Nat.mod_lt k (by decide))
      1080 (by decide)⟩

/-- C13: for every integer `fd` that is not a key of the handle map, `read` and `write`
return `-1`, `close` and `seek` return `false`, the error code afterwards is
`NO_SUCH_FILE_DESCRIPTOR`, and nothing else changes: the caller's buffer, the backing
file, the two bitmaps, the superblock and the handle map are as before. -/
theorem C13_unknown_handle_is_rejected (s : FFSys) (fd : Int) (hfd : fd ∉ s.keys)
    (buffer : Mem) (count pos : Nat) :
    s.read fd buffer count
        = (-1, buffer, { s with errnum_ := ErrorNumber.NO_SUCH_FILE_DESCRIPTOR })
      ∧ s.write fd buffer count
          = (-1, { s with errnum_ := ErrorNumber.NO_SUCH_FILE_DESCRIPTOR })
      ∧ s.close fd = (false, { s with errnum_ := ErrorNumber.NO_SUCH_FILE_DESCRIPTOR })
      ∧ s.seek fd pos = (false, { s with errnum_ := ErrorNumber.NO_SUCH_FILE_DESCRIPTOR })
      ∧ (s.read fd buffer count).2.2.errnum = ErrorNumber.NO_SUCH_FILE_DESCRIPTOR
      ∧ (s.write fd buffer count).2.errnum = ErrorNumber.NO_SUCH_FILE_DESCRIPTOR
      ∧ (s.close fd).2.errnum = ErrorNumber.NO_SUCH_FILE_DESCRIPTOR
      ∧ (s.seek fd pos).2.errnum = ErrorNumber.NO_SUCH_FILE_DESCRIPTOR
      ∧ ∀ t, t = (s.read fd buffer count).2.2 ∨ t = (s.write fd buffer count).2
            ∨ t = (s.close fd).2 ∨ t = (s.seek fd pos).2 →
          t.fs_ = s.fs_ ∧ t.inode_bitmap_ = s.inode_bitmap_
            ∧ t.data_block_bitmap_ = s.data_block_bitmap_ ∧ t.sb_ = s.sb_
            ∧ t.open_files_ = s.open_files_ := by
  have hl := (FFSys.lookup_none_iff s fd).mpr hfd
  have e1 : s.read fd buffer count
      = (-1, buffer, { s with errnum_ := ErrorNumber.NO_SUCH_FILE_DESCRIPTOR }) := by
    unfold FFSys.read; rw [hl]
  have e2 : s.write fd buffer count
      = (-1, { s with errnum_ := ErrorNumber.NO_SUCH_FILE_DESCRIPTOR }) := by
    unfold FFSys.write; rw [hl]
  have e3 : s.close fd = (false, { s with errnum_ := ErrorNumber.NO_SUCH_FILE_DESCRIPTOR }) := by
    unfold FFSys.close; rw [hl]
  have e4 : s.seek fd pos
      = (false, { s with errnum_ := ErrorNumber.NO_SUCH_FILE_DESCRIPTOR }) := by
    unfold FFSys.seek; rw [hl]
  refine ⟨e1, e2, e3, e4, by rw [e1]; rfl, by rw [e2]; rfl, by rw [e3]; rfl, by rw [e4]; rfl,
    ?_⟩
  intro t ht
  rw [e1, e2, e3, e4] at ht
  simp only [or_self] at ht
  rw [ht]
  exact ⟨rfl, rfl, rfl, rfl, rfl⟩

set_option maxRecDepth 1000000 in
theorem C13_unknown_handle_is_rejected_witness :
    (5 : Int) ∉ scenario_created.keys
      ∧ (scenario_created.read 5 pattern_buffer 3).1 = -1
      ∧ (scenario_created.write 5 pattern_buffer 3).1 = -1
      ∧ (scenario_created.close 5).1 = false
      ∧ (scenario_created.seek 5 0).1 = false
      ∧ (scenario_created.seek 5 0).2.errnum = ErrorNumber.NO_SUCH_FILE_DESCRIPTOR :=
  ⟨by decide,
    by rw [(C13_unknown_handle_is_rejected scenario_created 5 (by decide)
      pattern_buffer 3 0).1],
    by rw [(C13_unknown_handle_is_rejected scenario_created 5 (by decide)
      pattern_buffer 3 0).2.1],
    by rw [(C13_unknown_handle_is_rejected scenario_created 5 (by decide)
      pattern_buffer 3 0).2.2.1],
    by rw [(C13_unknown_handle_is_rejected scenario_created 5 (by decide)
      pattern_buffer 3 0).2.2.2.1],
    (C13_unknown_handle_is_rejected scenario_created 5 (by decide)
      pattern_buffer 3 0).2.2.2.2.2.2.2.1⟩

/-- C14: for every name that no live inode carries and every flags value without the
`CREATE` bit, `open` returns `-1`, the error code afterwards is `NO_SUCH_FILE`, and
nothing else changes: the backing file, the two bitmaps, the superblock and the handle
map are as before. -/
theorem C14_open_missing_without_create (s : FFSys) (name : List Nat) (flags now : Nat)
    (hname : ∀ j, s.live j → (s.read_inode j).cname ≠ name)
    (hflags : flags &&& CREATE = 0) :
    s.open name flags now = (-1, { s with errnum_ := ErrorNumber.NO_SUCH_FILE })
      ∧ (s.open name flags now).1 = -1
      ∧ (s.open name flags now).2.errnum = ErrorNumber.NO_SUCH_FILE
      ∧ (s.open name flags now).2.fs_ = s.fs_
      ∧ (s.open name flags now).2.inode_bitmap_ = s.inode_bitmap_
      ∧ (s.open name flags now).2.data_block_bitmap_ = s.data_block_bitmap_
      ∧ (s.open name flags now).2.sb_ = s.sb_
      ∧ (s.open name flags now).2.open_files_ = s.open_files_ := by
  have e : s.open name flags now = (-1, { s with errnum_ := ErrorNumber.NO_SUCH_FILE }) := by
    unfold FFSys.open
    rw [FFSys.find_file_of_no_match s name hname]
    simp only
    rw [if_pos hflags]
  rw [e]
  exact ⟨rfl, rfl, rfl, rfl, rfl, rfl, rfl, rfl⟩

set_option maxRecDepth 1000000 in
theorem C14_open_missing_without_create_witness :
    (∀ j, scenario_created.live j → (scenario_created.read_inode j).cname ≠ name_b)
      ∧ (TRUNCATE ||| END) &&& CREATE = 0
      ∧ (scenario_created.open name_b (TRUNCATE ||| END) 0).1 = -1
      ∧ (scenario_created.open name_b (TRUNCATE ||| END) 0).2.errnum
          = ErrorNumber.NO_SUCH_FILE
      ∧ (scenario_created.open name_b (TRUNCATE ||| END) 0).2.open_files_
          = scenario_created.open_files_ :=
  have hname : ∀ j, scenario_created.live j → (scenario_created.read_inode j).cname ≠ name_b := by
    intro j hj
    have h1 : j < 192 := hj.1
    have h2 : scenario_created.inode_bitmap_.is_free j = false := hj.2
    have hall : ∀ i, i < 192 → scenario_created.inode_bitmap_.is_free i = false →
        (scenario_created.read_inode i).cname ≠ name_b := by decide
    exact hall j h1 h2
  ⟨hname, by decide,
    (C14_open_missing_without_create scenario_created name_b (TRUNCATE ||| END) 0 hname
      (by decide)).2.1,
    (C14_open_missing_without_create scenario_created name_b (TRUNCATE ||| END) 0 hname
      (by decide)).2.2.1,
    (C14_open_missing_without_create scenario_created name_b (TRUNCATE ||| END) 0 hname
      (by decide)).2.2.2.2.2.2.2⟩

set_option maxRecDepth 1000000 in
/-- C15 (counterexample at block size 8192): after `format(8192)`, `open("a", CREATE)` and
`open("b", CREATE)`, the write of the 240 bytes of `crafted_size` through handle 0 lands
on the inode table and leaves in slot 1 a record with size `2^32`.  Handle 1 stands on
inode 1 at position 0; `seek(1, 2^32)` returns `true`, as `2^32 ≤ size`, but the
`unsigned int` position of the handle is 0 afterwards, not `2^32`. -/
theorem C15_seek_position_wraps_at_8192 :
    (FFSys.format 8192).isSome = true
      ∧ (scenario_wide.write 0 crafted_size 240).1 = 240
      ∧ (scenario_size_overlap.lookup 1).map (fun f => (f.inode, f.pos)) = some (1, 0)
      ∧ (scenario_size_overlap.read_inode 1).size = 4294967296
      ∧ (scenario_size_overlap.seek 1 4294967296).1 = true
      ∧ ((scenario_size_overlap.seek 1 4294967296).2.lookup 1).map
          (fun f => (f.inode, f.pos)) = some (1, 0) := by
  decide!

/-- C15 (amended to states reachable from a format with `963 + 8 * B < 65536`): for every
known handle and every `pos`, `seek` returns `true` and moves the handle to `pos`, leaving
the backing file as it is, if `pos` is at most the size of the inode; and it returns
`false` and changes nothing at all if `pos` is greater than the size. -/
theorem C15_seek_bound (B : Nat) (s : FFSys) (hB : 963 + 8 * B < 65536)
    (hr : FFSys.Reachable B s) (fd : Int) (f : OpenFile) (hl : s.lookup fd = some f)
    (pos : Nat) :
    (pos ≤ (s.read_inode f.inode).size →
        (s.seek fd pos).1 = true
          ∧ (s.seek fd pos).2.lookup fd = some { f with pos := pos }
          ∧ (s.seek fd pos).2.fs_ = s.fs_)
      ∧ ((s.read_inode f.inode).size < pos → s.seek fd pos = (false, s)) := by
  have h := hr.inv (by omega)
  have hb := hr.bounded (by omega)
  obtain ⟨hf, _⟩ := FFSys.lookup_mem hl
  have hsize := hb f.inode (h.handles f hf)
  unfold FFSys.seek
  rw [hl]
  simp only
  constructor
  · intro hle
    rw [if_neg (by omega)]
    refine ⟨rfl, ?_, rfl⟩
    have := FFSys.lookup_set_pos s fd f pos hl
    rw [Nat.mod_eq_of_lt (by omega)] at this
    exact this
  · intro hlt
    rw [if_pos hlt]

set_option maxRecDepth 1000000 in
theorem C15_seek_bound_witness :
    963 + 8 * 24 < 65536 ∧ FFSys.Reachable 24 scenario_written
      ∧ (17 ≤ (scenario_written.read_inode 0).size →
          (scenario_written.seek 0 17).1 = true
            ∧ (scenario_written.seek 0 17).2.lookup 0 = some ⟨0, 0, 17⟩
            ∧ (scenario_written.seek 0 17).2.fs_ = scenario_written.fs_)
      ∧ ((scenario_written.read_inode 0).size < 17 →
          scenario_written.seek 0 17 = (false, scenario_written))
      ∧ 17 ≤ (scenario_written.read_inode 0).size :=
  ⟨by decide, scenario_written_reachable,
    (C15_seek_bound 24 scenario_written (by decide) scenario_written_reachable 0 ⟨0, 0, 30⟩
      (by decide) 17).1,
    (C15_seek_bound 24 scenario_written (by decide) scenario_written_reachable 0 ⟨0, 0, 30⟩
      (by decide) 17).2,
    by decide⟩

set_option maxRecDepth 1000000 in
/-- C16 (evaluation at block size 24): after `format(24)` and `open("a", CREATE)` no
call has failed and the error code is `NO_ERROR`; the file is empty, so `seek(0, 1)` asks
for a position past the end: it returns `false`, and the error code afterwards is still
`NO_ERROR`. -/
theorem C16_seek_past_end_leaves_no_error :
    FFSys.Reachable 24 scenario_created
      ∧ scenario_created.errnum = ErrorNumber.NO_ERROR
      ∧ (scenario_created.lookup 0).map (fun f => (f.inode, f.pos)) = some (0, 0)
      ∧ (scenario_created.read_inode 0).size = 0
      ∧ (scenario_created.seek 0 1).1 = false
      ∧ (scenario_created.seek 0 1).2.errnum = ErrorNumber.NO_ERROR :=
  ⟨scenario_created_reachable, by decide⟩

/-- The failing branch of `seek` as it is written: for every known handle and every `pos`
greater than the size of the inode, `seek` returns `false` and assigns nothing, so the
whole state, the error code included, is as it was. -/
theorem seek_past_end_keeps_state (s : FFSys) (fd : Int) (f : OpenFile)
    (hl : s.lookup fd = some f) (pos : Nat) (hpos : (s.read_inode f.inode).size < pos) :
    (s.seek fd pos).1 = false ∧ (s.seek fd pos).2 = s
      ∧ (s.seek fd pos).2.errnum = s.errnum := by
  have e : s.seek fd pos = (false, s) := by
    unfold FFSys.seek
    rw [hl]
    simp only
    rw [if_pos hpos]
  rw [e]
  exact ⟨rfl, rfl, rfl⟩

set_option maxRecDepth 1000000 in
theorem seek_past_end_keeps_state_at_24 :
    scenario_written.lookup 0 = some ⟨0, 0, 30⟩
      ∧ (scenario_written.read_inode 0).size < 31
      ∧ (scenario_written.seek 0 31).1 = false
      ∧ (scenario_written.seek 0 31).2 = scenario_written
      ∧ (scenario_written.seek 0 31).2.errnum = scenario_written.errnum :=
  ⟨by decide, by decide,
    seek_past_end_keeps_state scenario_written 0 ⟨0, 0, 30⟩ (by decide) 31 (by decide)⟩

/-- C17: in every state that public calls produce from a state with an empty handle map
(the state after `format`, or after `mount`), the keys of the handle map are distinct;
every successful `open` returns the least non-negative integer that is not a key and adds
exactly that key, so the keys stay distinct and the first `open` on an empty handle map
returns 0; and after a successful `close(h)` the next successful `open` returns a value
that is at most `h`. -/
theorem C17_handle_allocation (s0 s : FFSys) (h0 : s0.open_files_ = [])
    (hr : FFSys.ReachableFrom s0 s) :
    s.keys.Nodup
      ∧ (∀ name flags now, (s.open name flags now).1 ≠ -1 →
          0 ≤ (s.open name flags now).1
            ∧ (s.open name flags now).1 ∉ s.keys
            ∧ (∀ k : Int, 0 ≤ k → k < (s.open name flags now).1 → k ∈ s.keys)
            ∧ (s.open name flags now).2.keys = (s.open name flags now).1 :: s.keys
            ∧ (s.open name flags now).2.keys.Nodup
            ∧ (s.keys = [] → (s.open name flags now).1 = 0))
      ∧ (∀ h, (s.close h).1 = true → ∀ name flags now,
          ((s.close h).2.open name flags now).1 ≠ -1 →
          ((s.close h).2.open name flags now).1 ≤ h)
      ∧ (∀ B, (FFSys.formatted B).keys = [])
      ∧ ∀ d, (FFSys.mount d).keys = [] := by
  obtain ⟨hnd, hnn⟩ := hr.keys_ok h0
  refine ⟨hnd, ?_, ?_, fun _ => rfl, fun _ => rfl⟩
  · intro name flags now hok
    obtain ⟨e1, e2⟩ := FFSys.open_keys s name flags now hok
    obtain ⟨l1, l2, l3⟩ := FFSys.new_fd_least s.open_files_
    rw [← e1] at l1 l2 l3
    refine ⟨l1, l2, l3, e2, ?_, ?_⟩
    · rw [e2]
      exact List.nodup_cons.mpr ⟨l2, hnd⟩
    · intro hk
      by_contra hne
      have h1 : (0 : Int) ∈ s.keys := l3 0 (Int.le_refl 0) (by omega)
      rw [hk] at h1
      exact absurd h1 (List.not_mem_nil 0)
  · intro h hc name flags now hok
    have hmem : h ∈ s.keys := by
      by_contra hno
      have hl := (FFSys.lookup_none_iff s h).mpr hno
      unfold FFSys.close at hc
      rw [hl] at hc
      exact absurd hc (by simp)
    have hge := hnn h hmem
    obtain ⟨e1, _⟩ := FFSys.open_keys (s.close h).2 name flags now hok
    obtain ⟨_, _, l3⟩ := FFSys.new_fd_least (s.close h).2.open_files_
    rw [← e1] at l3
    by_contra hgt
    have hin : h ∈ (s.close h).2.keys := l3 h hge (by omega)
    rw [FFSys.close_keys] at hin
    have := (List.mem_filter.mp hin).2
    simp at this

set_option maxRecDepth 1000000 in
theorem C17_handle_allocation_witness :
    (FFSys.formatted 24).open_files_ = []
      ∧ FFSys.ReachableFrom (FFSys.formatted 24) scenario_created
      ∧ (scenario_created.open name_b CREATE 0).1 ≠ -1
      ∧ (scenario_created.close 0).1 = true
      ∧ ((scenario_created.close 0).2.open name_b CREATE 0).1 ≠ -1
      ∧ scenario_created.keys.Nodup
      ∧ (scenario_created.open name_b CREATE 0).2.keys
          = (scenario_created.open name_b CREATE 0).1 :: scenario_created.keys
      ∧ ((scenario_created.close 0).2.open name_b CREATE 0).1 ≤ 0 :=
  ⟨rfl, FFSys.ReachableFrom.after_open _ name_a CREATE 0 FFSys.ReachableFrom.start,
    by decide, by decide, by decide,
    (C17_handle_allocation (FFSys.formatted 24) scenario_created rfl
      (FFSys.ReachableFrom.after_open _ name_a CREATE 0 FFSys.ReachableFrom.start)).1,
    ((C17_handle_allocation (FFSys.formatted 24) scenario_created rfl
      (FFSys.ReachableFrom.after_open _ name_a CREATE 0 FFSys.ReachableFrom.start)).2.1
        name_b CREATE 0 (by decide)).2.2.2.1,
    (C17_handle_allocation (FFSys.formatted 24) scenario_created rfl
      (FFSys.ReachableFrom.after_open _ name_a CREATE 0 FFSys.ReachableFrom.start)).2.2.1
        0 (by decide) name_b CREATE 0 (by decide)⟩

/-- C18 (counterexample at block size 8192): `format(8192)` succeeds, but `8 * 8192` is
`2^16`, so the 16-bit fields `n_inodes`, `n_data_blocks` and the two free counters are 0,
`n_inode_blocks` is 0 and the data blocks start at block 3. -/
theorem C18_superblock_fields_wrap_at_8192 :
    (FFSys.format 8192).isSome = true
      ∧ (FFSys.formatted 8192).sb_.block_size = 8192
      ∧ (FFSys.formatted 8192).sb_.n_inodes = 0
      ∧ (FFSys.formatted 8192).sb_.n_data_blocks = 0
      ∧ (FFSys.formatted 8192).sb_.n_inode_blocks = 0
      ∧ (FFSys.formatted 8192).sb_.data_blocks_start_i = 3
      ∧ (FFSys.formatted 8192).sb_.n_free_inodes = 0
      ∧ (FFSys.formatted 8192).sb_.n_free_data_blocks = 0 := by
  decide

/-- C18 (amended to block sizes with `8 * B < 65536`, so that the 16-bit fields hold
`8 * B`): for every `B ≥ SUPERBLOCK_SIZE`, `format` succeeds with a superblock that has
`block_size = B`, `n_inodes = n_data_blocks = 8 * B`,
`n_inode_blocks = ⌈n_inodes * INODE_SIZE / B⌉`, the bitmaps in blocks 1 and 2, the inode
table from block 3, the data blocks from block `3 + n_inode_blocks`, both free counters
equal to the totals and `address_block_capacity = B / 4`; every byte of both bitmaps is
`0xFF`, so each has `8 * B` free bits. -/
theorem C18_format_superblock (B : Nat) (hB : SUPERBLOCK_SIZE ≤ B) (hB8 : 8 * B < 65536) :
    ∃ s : FFSys, FFSys.format B = some s
      ∧ s.sb_.block_size = B
      ∧ s.sb_.n_inodes = 8 * B
      ∧ s.sb_.n_data_blocks = 8 * B
      ∧ s.sb_.n_inode_blocks = (s.sb_.n_inodes * INODE_SIZE + B - 1) / B
      ∧ s.sb_.inode_bitmap_i = 1
      ∧ s.sb_.data_block_bitmap_i = 2
      ∧ s.sb_.inodes_start_i = 3
      ∧ s.sb_.data_blocks_start_i = 3 + s.sb_.n_inode_blocks
      ∧ s.sb_.n_free_inodes = s.sb_.n_inodes
      ∧ s.sb_.n_free_data_blocks = s.sb_.n_data_blocks
      ∧ s.sb_.address_block_capacity = B / 4
      ∧ s.inode_bitmap_.bm_ = List.replicate B 255
      ∧ s.data_block_bitmap_.bm_ = List.replicate B 255
      ∧ s.inode_bitmap_.popcount = 8 * B
      ∧ s.data_block_bitmap_.popcount = 8 * B := by
  unfold SUPERBLOCK_SIZE at hB
  have hsb := FFSys.format_superblock_eq B hB hB8
  have hf := FFSys.formatted_eq B hB hB8
  refine ⟨FFSys.formatted B, ?_, ?_⟩
  · unfold FFSys.format SUPERBLOCK_SIZE
    rw [if_neg (by omega)]
  · rw [hf, hsb]
    have e1 : (8 * B * INODE_SIZE + B - 1) / B = 960 := by
      unfold INODE_SIZE
      apply Nat.div_eq_of_lt_le
      · omega
      · omega
    refine ⟨rfl, rfl, rfl, e1.symm, rfl, rfl, rfl, rfl, rfl, rfl, rfl, rfl, rfl,
      Bitmap.popcount_init B, Bitmap.popcount_init B⟩

theorem C18_format_superblock_witness :
    SUPERBLOCK_SIZE ≤ 1024 ∧ 8 * 1024 < 65536
      ∧ ∃ s : FFSys, FFSys.format 1024 = some s
        ∧ s.sb_.block_size = 1024
        ∧ s.sb_.n_inodes = 8 * 1024
        ∧ s.sb_.n_data_blocks = 8 * 1024
        ∧ s.sb_.n_inode_blocks = (s.sb_.n_inodes * INODE_SIZE + 1024 - 1) / 1024
        ∧ s.sb_.inode_bitmap_i = 1
        ∧ s.sb_.data_block_bitmap_i = 2
        ∧ s.sb_.inodes_start_i = 3
        ∧ s.sb_.data_blocks_start_i = 3 + s.sb_.n_inode_blocks
        ∧ s.sb_.n_free_inodes = s.sb_.n_inodes
        ∧ s.sb_.n_free_data_blocks = s.sb_.n_data_blocks
        ∧ s.sb_.address_block_capacity = 1024 / 4
        ∧ s.inode_bitmap_.bm_ = List.replicate 1024 255
        ∧ s.data_block_bitmap_.bm_ = List.replicate 1024 255
        ∧ s.inode_bitmap_.popcount = 8 * 1024
        ∧ s.data_block_bitmap_.popcount = 8 * 1024 :=
  ⟨by decide, by decide, C18_format_superblock 1024 (by decide) (by decide)⟩

/-- C19 (counterexample at block size 8192): after `format(8192)` and `open("a", CREATE)`
inode 0 is in use and carries the name "a", but `n_inodes` is 0, so `find_file` looks at
no inode: a second `open("a", CREATE)` returns handle 1 on a new inode 1, and reserves
inode 1 and data block 1 (the free-inode counter goes from 65535 to 65534). -/
theorem C19_create_duplicates_at_8192 :
    (FFSys.format 8192).isSome = true
      ∧ scenario_wide_created.inode_bitmap_.is_free 0 = false
      ∧ (scenario_wide_created.read_inode 0).cname = name_a
      ∧ scenario_wide_created.inode_bitmap_.is_free 1 = true
      ∧ scenario_wide_created.data_block_bitmap_.is_free 1 = true
      ∧ scenario_wide_created.sb_.n_free_inodes = 65535
      ∧ (scenario_wide_created.open name_a CREATE 0).1 = 1
      ∧ (scenario_wide_twice.lookup 1).map (fun f => (f.inode, f.pos)) = some (1, 0)
      ∧ scenario_wide_twice.inode_bitmap_.is_free 1 = false
      ∧ scenario_wide_twice.data_block_bitmap_.is_free 1 = false
      ∧ scenario_wide_twice.sb_.n_free_inodes = 65534 := by
  decide!

/-- C19 (amended to states reachable from a format with `963 + 8 * B < 65536`): for every
name that a live inode carries and every flags value without the `TRUNCATE` bit (`CREATE`
among them), `open` succeeds with a handle on a live inode that carries the name, and it
changes nothing but the handle map: the backing file (so the size and the contents of
every file), both bitmaps, the superblock with its free counters, and the error code are
as before, so `FILE_ALREADY_EXISTS` is not set. -/
theorem C19_create_opens_existing (B : Nat) (s : FFSys) (hB : 963 + 8 * B < 65536)
    (hr : FFSys.Reachable B s) (name : List Nat) (j : Nat) (hj : s.live j)
    (hname : (s.read_inode j).cname = name) (flags now : Nat)
    (ht : flags &&& TRUNCATE = 0) :
    (s.open name flags now).1 ≠ -1
      ∧ (∃ f : OpenFile, (s.open name flags now).2.lookup (s.open name flags now).1 = some f
          ∧ s.live f.inode ∧ (s.read_inode f.inode).cname = name)
      ∧ (s.open name flags now).2.fs_ = s.fs_
      ∧ (s.open name flags now).2.inode_bitmap_ = s.inode_bitmap_
      ∧ (s.open name flags now).2.data_block_bitmap_ = s.data_block_bitmap_
      ∧ (s.open name flags now).2.sb_ = s.sb_
      ∧ (s.open name flags now).2.errnum = s.errnum := by
  have h := hr.inv (by omega)
  have hs := h.basic.layout
  have hB8 := hs.hB8
  obtain ⟨j0, l0, n0, i0, hfind⟩ := FFSys.find_file_of_match h name j hj hname
  have hj0 := hs.live_lt l0
  have hfd := FFSys.new_fd_loop_nonneg s.open_files_ s.open_files_.length 0 (Int.le_refl 0)
  have e : s.open name flags now
      = (FFSys.new_fd_loop s.open_files_ s.open_files_.length 0,
         { s with open_files_ :=
            { fd := FFSys.new_fd_loop s.open_files_ s.open_files_.length 0, inode := j0,
              pos := (if flags &&& END ≠ 0 then (s.read_inode j0).size else 0)
                % 4294967296 } :: s.open_files_ }) := by
    unfold FFSys.open
    rw [hfind]
    simp only
    unfold FFSys.open_file
    simp only
    rw [if_neg (by rw [ht]; simp), i0, Nat.mod_eq_of_lt (by omega : j0 < 4294967296)]
  rw [e]
  refine ⟨by simp only; omega, ⟨_, FFSys.lookup_head s _ _, l0, n0⟩, rfl, rfl, rfl, rfl, rfl⟩

set_option maxRecDepth 1000000 in
theorem C19_create_opens_existing_witness :
    963 + 8 * 24 < 65536 ∧ FFSys.Reachable 24 scenario_written ∧ scenario_written.live 0
      ∧ (scenario_written.read_inode 0).cname = name_a
      ∧ CREATE &&& TRUNCATE = 0
      ∧ (scenario_written.open name_a CREATE 0).1 ≠ -1
      ∧ (scenario_written.open name_a CREATE 0).2.inode_bitmap_
          = scenario_written.inode_bitmap_
      ∧ (scenario_written.open name_a CREATE 0).2.errnum = scenario_written.errnum :=
  ⟨by decide, scenario_written_reachable, scenario_written_live, by decide, by decide,
    (C19_create_opens_existing 24 scenario_written (by decide) scenario_written_reachable
      name_a 0 scenario_written_live (by decide) CREATE 0 (by decide)).1,
    (C19_create_opens_existing 24 scenario_written (by decide) scenario_written_reachable
      name_a 0 scenario_written_live (by decide) CREATE 0 (by decide)).2.2.2.1,
    (C19_create_opens_existing 24 scenario_written (by decide) scenario_written_reachable
      name_a 0 scenario_written_live (by decide) CREATE 0 (by decide)).2.2.2.2.2.2⟩

/-- C20: for every bitmap of `S` bytes (each a value below 256) and every `i < 8 * S`,
`is_free(i)` is bit `i mod 8`, counted from the least significant bit, of byte `i / 8`;
when that bit is 1, `reserve(i)` returns `true` and clears it, `free(i)` returns `false`
and leaves the bitmap as it is; when it is 0, `reserve(i)` returns `false` and leaves the
bitmap as it is, `free(i)` returns `true` and sets it; no other bit changes and the
length stays `S`; and `free(i)` after a successful `reserve(i)` gives the bitmap back. -/
theorem C20_bitmap_reserve_free (b : Bitmap) (i : Nat) (hi : i < 8 * b.size_)
    (hb : ∀ x, x ∈ b.bm_ → x < 256) :
    b.is_free i = (b.bm_.getD (i / 8) 0).testBit (i % 8)
      ∧ (b.is_free i = true →
          (b.reserve i).1 = true
            ∧ (b.reserve i).2.is_free i = false
            ∧ (∀ j, j ≠ i → (b.reserve i).2.is_free j = b.is_free j)
            ∧ (b.reserve i).2.size_ = b.size_
            ∧ b.free i = (false, b)
            ∧ (b.reserve i).2.free i = (true, b))
      ∧ (b.is_free i = false →
          b.reserve i = (false, b)
            ∧ (b.free i).1 = true
            ∧ (b.free i).2.is_free i = true
            ∧ (∀ j, j ≠ i → (b.free i).2.is_free j = b.is_free j)
            ∧ (b.free i).2.size_ = b.size_) := by
  refine ⟨Bitmap.is_free_eq b i, ?_, ?_⟩
  · intro h
    refine ⟨by rw [Bitmap.reserve_fst, h], ?_, ?_, Bitmap.reserve_size b i, ?_,
      Bitmap.free_reserve b i hb h⟩
    · rw [Bitmap.is_free_reserve b i i h]; simp
    · intro j hj
      rw [Bitmap.is_free_reserve b i j h]; simp [hj]
    · unfold Bitmap.free
      rw [if_pos h]
  · intro h
    refine ⟨?_, by rw [Bitmap.free_fst, h]; rfl, ?_, ?_, Bitmap.free_size b i⟩
    · unfold Bitmap.reserve
      rw [h]
      rfl
    · rw [Bitmap.is_free_free b i i h hi]; simp
    · intro j hj
      rw [Bitmap.is_free_free b i j h hi]; simp [hj]

theorem C20_bitmap_reserve_free_witness :
    10 < 8 * (Bitmap.init 2).size_ ∧ (∀ x, x ∈ (Bitmap.init 2).bm_ → x < 256)
      ∧ (Bitmap.init 2).is_free 10 = true
      ∧ ((Bitmap.init 2).reserve 10).1 = true
      ∧ ((Bitmap.init 2).reserve 10).2.bm_ = [255, 251]
      ∧ ((Bitmap.init 2).reserve 10).2.free 10 = (true, Bitmap.init 2) :=
  ⟨by decide, by decide, by decide,
    ((C20_bitmap_reserve_free (Bitmap.init 2) 10 (by decide) (by decide)).2.1
      (by decide)).1,
    by decide,
    ((C20_bitmap_reserve_free (Bitmap.init 2) 10 (by decide) (by decide)).2.1
      (by decide)).2.2.2.2.2⟩

end ffsys


namespace ffsys

namespace FFSys

/-! ### Setting and getting block addresses -/

theorem InvX.slots {s : FFSys} {B : Nat} {x : INode} (h : s.InvX B x) :
    x.Slots B ∧ ∀ S (n : Nat), 15 ≤ S → S < 20 → x.blocks.getD S 0 = (n : Int) →
      n < 8 * B ∧ s.data_block_bitmap_.is_free n = false := by
  have hs := h.basic.layout
  have hok : ∀ S, S < 20 → Ref.ok s (s.view_with x.index x.blocks) ⟨x.index, S, none⟩ :=
    fun S hS => ⟨h.live_x, hS, trivial⟩
  have hval : ∀ S, Ref.val s (s.view_with x.index x.blocks) ⟨x.index, S, none⟩
      = x.blocks.getD S 0 := by
    intro S
    unfold Ref.val; simp only; rw [view_with_same]
  have hres : ∀ S, S < 20 → x.blocks.getD S 0 ≠ -1 →
      ∃ n : Nat, x.blocks.getD S 0 = (n : Int) ∧ n < 8 * B
        ∧ s.data_block_bitmap_.is_free n = false := by
    intro S hS hne
    have := (hs.reserved_iff _).mp (h.refs.rsv _ (hok S hS) (by rw [hval]; exact hne))
    rw [hval] at this
    exact this
  refine ⟨⟨h.wf, hs.live_lt h.live_x, ?_, ?_⟩, ?_⟩
  · intro S _ hS hne
    obtain ⟨n, e, hn, _⟩ := hres S hS hne
    exact ⟨n, e, hn⟩
  · intro S S' _ hS _ hS' hne e
    have := h.refs.inj _ _ (hok S hS) (hok S' hS') (by rw [hval]; exact hne)
      (by rw [hval, hval]; exact e)
    exact congrArg Ref.slot this
  · intro S n _ hS e
    obtain ⟨m, e', hm, hf⟩ := hres S hS (by rw [e]; omega)
    have : m = n := by rw [e] at e'; omega
    rw [← this]
    exact ⟨hm, hf⟩

theorem get_congr_slots {s t : FFSys} {B : Nat} (hs : s.Layout B) (ht : t.Layout B)
    (x y : INode) (L : Nat)
    (hd : L < 15 → y.blocks.getD L 0 = x.blocks.getD L 0)
    (hi : 15 ≤ L → (L - 15) / (B / 4) + 15 < 20 →
      y.blocks.getD ((L - 15) / (B / 4) + 15) 0 = x.blocks.getD ((L - 15) / (B / 4) + 15) 0
      ∧ (x.blocks.getD ((L - 15) / (B / 4) + 15) 0 ≠ -1 →
          t.address_entry (x.blocks.getD ((L - 15) / (B / 4) + 15) 0) ((L - 15) % (B / 4))
            = s.address_entry (x.blocks.getD ((L - 15) / (B / 4) + 15) 0)
                ((L - 15) % (B / 4)))) :
    t.get_file_block_address y L = s.get_file_block_address x L := by
  rw [get_eq, get_eq, hs.address_block_capacity, ht.address_block_capacity]
  by_cases h15 : L < 15
  · rw [if_pos h15, if_pos h15]; exact hd h15
  · rw [if_neg h15, if_neg h15]
    by_cases h20 : (L - 15) / (B / 4) + 15 ≥ 20
    · rw [if_pos (Or.inl h20), if_pos (Or.inl h20)]
    · obtain ⟨e1, e2⟩ := hi (by omega) (by omega)
      by_cases hm : x.blocks.getD ((L - 15) / (B / 4) + 15) 0 = -1
      · rw [if_pos (Or.inr hm), if_pos (Or.inr (e1.trans hm))]
      · rw [if_neg (fun hc => hc.elim h20 (fun hc' => hm (e1.symm.trans hc'))),
          if_neg (fun hc => hc.elim h20 hm), e1]
        exact e2 hm

/-- Logical blocks `L ≠ L'` have different places in the addressing table. -/
theorem slot_entry_ne (c L L' : Nat) (h15 : 15 ≤ L) (h15' : 15 ≤ L') (hne : L' ≠ L)
    (hS : (L' - 15) / c + 15 = (L - 15) / c + 15) : (L' - 15) % c ≠ (L - 15) % c := by
  intro hT
  have h1 := Nat.div_add_mod (L - 15) c
  have h2 := Nat.div_add_mod (L' - 15) c
  have hq : (L' - 15) / c = (L - 15) / c := by omega
  rw [hq, hT] at h2
  omega

/-- The effect of `set_file_block_address` on a direct slot or on an entry of an existing
address block. -/
theorem set_mapped {s : FFSys} {B : Nat} (hs : s.Layout B) {x : INode} (hx : x.Slots B)
    (L : Nat) (V : Int) (h0 : -2147483648 ≤ V) (h1 : V < 2147483648)
    (hm : L < 15 ∨ (15 ≤ L ∧ (L - 15) / (B / 4) + 15 < 20
      ∧ x.blocks.getD ((L - 15) / (B / 4) + 15) 0 ≠ -1))
    (r : Bool × INode × FFSys) (hr : s.set_file_block_address x L V = r) :
    r.1 = true ∧ r.2.2.Layout B
      ∧ r.2.2.get_file_block_address r.2.1 L = V
      ∧ (∀ L', L' ≠ L → r.2.2.get_file_block_address r.2.1 L' = s.get_file_block_address x L')
      ∧ (∀ S, 15 ≤ S → r.2.1.blocks.getD S 0 = x.blocks.getD S 0)
      ∧ x.same_meta r.2.1
      ∧ r.2.2.data_block_bitmap_ = s.data_block_bitmap_
      ∧ r.2.2.inode_bitmap_ = s.inode_bitmap_
      ∧ r.2.2.sb_ = s.sb_
      ∧ r.2.2.open_files_ = s.open_files_
      ∧ (∀ off, off < 3 * B → r.2.2.fs_ off = s.fs_ off)
      ∧ (∀ off, off < 963 * B →
          (off < 3 * B + 120 * x.index ∨ 3 * B + 120 * x.index + 120 ≤ off) →
          r.2.2.fs_ off = s.fs_ off)
      ∧ (∀ n o : Nat, o < B → (∀ S, 15 ≤ S → S < 20 → x.blocks.getD S 0 ≠ (n : Int)) →
          r.2.2.fs_ (963 * B + n * B + o) = s.fs_ (963 * B + n * B + o)) := by
  have hB := hs.hB
  have hB8 := hs.hB8
  have hcap := hs.address_block_capacity
  have hcap0 : 0 < B / 4 := by omega
  subst hr
  rcases hm with h15 | ⟨h15, hS2, hslot⟩
  · rw [set_eq_direct s x L V h15]
    have ht : (s.write_inode (x.set_block L V)).Layout B := hs.of_sb rfl
    refine ⟨rfl, ht, ?_, ?_, ?_, ⟨rfl, rfl, rfl, rfl⟩, rfl, rfl, rfl, rfl, ?_, ?_, ?_⟩
    · rw [get_eq, if_pos h15]
      show (x.set_block L V).blocks.getD L 0 = V
      rw [x.set_block_getD hx.wf L V (by omega) L, if_pos rfl]
    · intro L' hne
      apply get_congr_slots hs ht
      · intro _
        show (x.set_block L V).blocks.getD L' 0 = _
        rw [x.set_block_getD hx.wf L V (by omega) L', if_neg hne]
      · intro h15' hS'
        constructor
        · show (x.set_block L V).blocks.getD _ 0 = _
          rw [x.set_block_getD hx.wf L V (by omega), if_neg (by
            have := Nat.le_add_left 15 ((L' - 15) / (B / 4)); omega)]
        · intro hne'
          obtain ⟨n, e, hn⟩ := hx.valid _ (Nat.le_add_left 15 _) hS' hne'
          rw [e]
          apply Layout.address_entry_congr hs ht n _ hn
          intro k _
          exact write_inode_fs_high hs _ (by rw [INode.set_block_index]; exact hx.index_lt) _
            (by
              have := Nat.mul_le_mul_right B (Nat.zero_le n)
              omega)
    · intro S hS
      show (x.set_block L V).blocks.getD S 0 = _
      rw [x.set_block_getD hx.wf L V (by omega) S, if_neg (by omega)]
    · intro off ho
      rw [hs.write_inode_eq _ (by rw [INode.set_block_index]; exact hx.index_lt)]
      exact fs_write_out _ _ _ _ _ (Or.inl (by omega))
    · intro off _ hout
      rw [hs.write_inode_eq _ (by rw [INode.set_block_index]; exact hx.index_lt)]
      apply fs_write_out
      rw [INode.set_block_index]
      exact hout
    · intro n o _ _
      exact write_inode_fs_high hs _ (by rw [INode.set_block_index]; exact hx.index_lt) _
        (by
          have := Nat.mul_le_mul_right B (Nat.zero_le n)
          omega)
  · have hT : (L - 15) % (B / 4) < B / 4 := Nat.mod_lt _ hcap0
    obtain ⟨b, hb, hb8⟩ := hx.valid _ (Nat.le_add_left 15 _) hS2 hslot
    have hn15 : ¬ L < 15 := by omega
    rw [set_eq_entry s x L V hn15 (by rw [hcap]; omega) (by rw [hcap]; exact hslot)]
    rw [hcap, hb, hs.write_data_eq b _ _ _ hb8]
    have ht : (s.write_at (963 * B + b * B + (L - 15) % (B / 4) * 4) (int32_bytes V) 4).Layout B :=
      hs.of_sb rfl
    refine ⟨rfl, ht, ?_, ?_, fun _ _ => rfl, ⟨rfl, rfl, rfl, rfl⟩, rfl, rfl, rfl, rfl, ?_,
      ?_, ?_⟩
    · rw [get_eq, if_neg hn15, write_at_sb, hcap, if_neg (by
        intro hc
        rcases hc with hc | hc
        · omega
        · exact hslot hc), hb]
      exact hs.address_entry_write b _ V hb8 h0 h1
    · intro L' hne
      apply get_congr_slots hs ht
      · intro _; rfl
      · intro h15' hS'
        refine ⟨rfl, fun hne' => ?_⟩
        obtain ⟨n, e, hn⟩ := hx.valid _ (Nat.le_add_left 15 _) hS' hne'
        rw [e]
        apply Layout.address_entry_congr hs ht n _ hn
        intro k hk
        apply fs_write_out
        have hT' : (L' - 15) % (B / 4) < B / 4 := Nat.mod_lt _ hcap0
        have hd4 := Nat.div_mul_le_self B 4
        by_cases hnb : n = b
        · have hSS : (L' - 15) / (B / 4) + 15 = (L - 15) / (B / 4) + 15 :=
            hx.inj _ _ (Nat.le_add_left 15 _) hS' (Nat.le_add_left 15 _) hS2 hne'
              (by rw [e, hb, hnb])
          have := slot_entry_ne (B / 4) L L' h15 h15' hne hSS
          rw [hnb]
          omega
        · have := block_disjoint B n b ((L' - 15) % (B / 4) * 4 + k)
            ((L - 15) % (B / 4) * 4) hnb (by omega)
          omega
    · intro off ho
      apply fs_write_out
      left
      have := Nat.mul_le_mul_right B (Nat.zero_le b)
      omega
    · intro off ho _
      apply fs_write_out
      left
      have := Nat.mul_le_mul_right B (Nat.zero_le b)
      omega
    · intro n o ho hn
      apply fs_write_out
      have hnb : n ≠ b := by
        intro e
        exact hn _ (Nat.le_add_left 15 _) hS2 (by rw [hb, e])
      have hd4 := Nat.div_mul_le_self B 4
      have := block_disjoint B n b o ((L - 15) % (B / 4) * 4) hnb ho
      omega

/-- The effect of `set_file_block_address` on an entry of an address block that does not
exist yet: the address block is allocated first. -/
theorem set_new {s : FFSys} {B : Nat} (hb : s.Basic B) {x : INode} (hx : x.Slots B)
    (hrs : ∀ S (n : Nat), 15 ≤ S → S < 20 → x.blocks.getD S 0 = (n : Int) →
      s.data_block_bitmap_.is_free n = false)
    (L : Nat) (V : Int) (h0 : -2147483648 ≤ V) (h1 : V < 2147483648)
    (h15 : 15 ≤ L) (hS2 : (L - 15) / (B / 4) + 15 < 20)
    (hslot : x.blocks.getD ((L - 15) / (B / 4) + 15) 0 = -1)
    (r : Bool × INode × FFSys) (hr : s.set_file_block_address x L V = r) :
    (r.1 = false ∧ (∀ j, j < B → s.data_block_bitmap_.is_free j = false) ∧ r.2.1 = x
        ∧ r.2.2 = { s with errnum_ := ErrorNumber.NO_FREE_DATA_BLOCKS })
    ∨ (r.1 = true ∧ r.2.2.Layout B ∧ ∃ a : Nat, a < B
        ∧ s.data_block_bitmap_.is_free a = true
        ∧ (∀ j, j < a → s.data_block_bitmap_.is_free j = false)
        ∧ (∀ m, r.2.2.data_block_bitmap_.is_free m
              = (decide (m ≠ a) && s.data_block_bitmap_.is_free m))
        ∧ r.2.2.sb_.n_free_data_blocks + 1 = s.sb_.n_free_data_blocks
        ∧ r.2.1.blocks.getD ((L - 15) / (B / 4) + 15) 0 = (a : Int)
        ∧ (∀ S, S ≠ (L - 15) / (B / 4) + 15 → r.2.1.blocks.getD S 0 = x.blocks.getD S 0)
        ∧ x.same_meta r.2.1
        ∧ r.2.2.read_inode x.index = r.2.1
        ∧ r.2.2.get_file_block_address r.2.1 L = V
        ∧ (∀ T, T < B / 4 → T ≠ (L - 15) % (B / 4) → r.2.2.address_entry (a : Int) T = -1)
        ∧ (∀ L', L' ≠ L →
            r.2.2.get_file_block_address r.2.1 L' = s.get_file_block_address x L')
        ∧ (∀ off, 3 * B ≤ off → off < 963 * B →
            (off < 3 * B + 120 * x.index ∨ 3 * B + 120 * x.index + 120 ≤ off) →
            r.2.2.fs_ off = s.fs_ off)
        ∧ ∀ off, 963 * B ≤ off → (off < 963 * B + a * B ∨ 963 * B + a * B + B ≤ off) →
            r.2.2.fs_ off = s.fs_ off) := by
  have hs := hb.layout
  have hB := hs.hB
  have hB8 := hs.hB8
  have hcap := hs.address_block_capacity
  have hcap0 : 0 < B / 4 := by omega
  have hd4 := Nat.div_mul_le_self B 4
  have hT : (L - 15) % (B / 4) < B / 4 := Nat.mod_lt _ hcap0
  have hn15 : ¬ L < 15 := by omega
  have hi := hx.index_lt
  subst hr
  rw [set_eq_new s x L V hn15 (by rw [hcap]; omega) (by rw [hcap]; exact hslot),
    initialize_address_block_eq]
  rcases Bitmap.reserve_first_free_spec s.data_block_bitmap_ with
    ⟨hf1, hf2, hf3⟩ | ⟨a, ha, hfree, hfirst, hr1, hr2⟩
  · left
    rw [reserve_data_block_fail hf1 hf2]
    simp only [if_true]
    have hself : x.set_block ((L - 15) / s.sb_.address_block_capacity + 15) (-1) = x :=
      x.set_block_self _ (by rw [hcap]; exact hslot) (by rw [hx.wf.blocks_len, hcap]; exact hS2)
    rw [hself, if_pos (by rw [hcap]; exact hslot)]
    rw [hb.dbm_size] at hf3
    exact ⟨rfl, hf3, rfl, rfl⟩
  · right
    rw [hb.dbm_size] at ha
    rw [reserve_data_block_eq hb a ha hfree hr1 hr2]
    obtain ⟨hb1, hfr⟩ := hb.basic_with_data_bitmap (s.data_block_bitmap_.reserve a).2 (a / 8)
      (by omega) (by rw [Bitmap.reserve_size]; exact hb.dbm_size)
      (Bitmap.reserve_bytes _ _ hb.dbm_bytes) (fun j hj => reserve_getD_ne _ _ _ hj)
    have hs1 := hb1.layout
    generalize hs1e : s.with_data_bitmap (s.data_block_bitmap_.reserve a).2 (a / 8) = s1
      at hb1 hfr hs1
    have hdbm : s1.data_block_bitmap_ = (s.data_block_bitmap_.reserve a).2 := by
      rw [← hs1e]; rfl
    have hcnt : s1.sb_.n_free_data_blocks = (s.data_block_bitmap_.reserve a).2.popcount := by
      rw [← hs1e]; rfl
    have hne : ¬ ((a : Int) = -1) := by omega
    simp only [hne, if_false]
    have hgetb : (x.set_block ((L - 15) / s.sb_.address_block_capacity + 15)
        (a : Int)).blocks.getD ((L - 15) / s.sb_.address_block_capacity + 15) 0 = (a : Int) := by
      rw [x.set_block_getD hx.wf _ _ (by rw [hcap]; exact hS2), if_pos rfl]
    rw [hgetb, if_neg (by omega)]
    rw [hs1.address_block_capacity, hcap, Int.add_comm (a : Int) _,
      hs1.write_data_eq a _ _ _ (by omega)]
    simp only [Nat.add_zero]
    have hl2 : (s1.write_at (963 * B + a * B) empty_address_block_buffer (B / 4 * 4)).Layout B :=
      hs1.of_sb rfl
    rw [hl2.write_inode_eq _ (by rw [INode.set_block_index]; exact hi)]
    have hl3 : ((s1.write_at (963 * B + a * B) empty_address_block_buffer (B / 4 * 4)).write_at
          (3 * B + 120 * (x.set_block ((L - 15) / (B / 4) + 15) (a : Int)).index)
          (x.set_block ((L - 15) / (B / 4) + 15) (a : Int)).bytes 120).Layout B :=
      hl2.of_sb rfl
    simp only [write_at_sb]
    rw [hs1.data_blocks_start_i, hl3.write_data_lit a _ _ _ (by omega)]
    rw [INode.set_block_index]
    have hwf : (x.set_block ((L - 15) / (B / 4) + 15) (a : Int)).WF :=
      x.set_block_wf hx.wf _ _ (by omega) (by omega)
    generalize hy : x.set_block ((L - 15) / (B / 4) + 15) (a : Int) = y at hwf hl3
    have hyi : y.index = x.index := by rw [← hy]; rfl
    rw [hyi] at hl3
    have hyS : y.blocks.getD ((L - 15) / (B / 4) + 15) 0 = (a : Int) := by
      rw [← hy, x.set_block_getD hx.wf _ _ hS2, if_pos rfl]
    have hyo : ∀ S, S ≠ (L - 15) / (B / 4) + 15 → y.blocks.getD S 0 = x.blocks.getD S 0 := by
      intro S hS
      rw [← hy, x.set_block_getD hx.wf _ _ hS2, if_neg hS]
    have hl4 : (((s1.write_at (963 * B + a * B) empty_address_block_buffer (B / 4 * 4)).write_at
          (3 * B + 120 * x.index) y.bytes 120).write_at
          (963 * B + a * B + (L - 15) % (B / 4) * 4) (int32_bytes V) 4).Layout B :=
      hl3.of_sb rfl
    generalize ht : ((s1.write_at (963 * B + a * B) empty_address_block_buffer
          (B / 4 * 4)).write_at (3 * B + 120 * x.index) y.bytes 120).write_at
          (963 * B + a * B + (L - 15) % (B / 4) * 4) (int32_bytes V) 4 = t at hl4
    have haB := Nat.mul_le_mul_right B (Nat.zero_le a)
    -- the bytes of the final state
    have hfs : ∀ off, 963 * B ≤ off →
        (off < 963 * B + a * B ∨ 963 * B + a * B + B ≤ off) → t.fs_ off = s.fs_ off := by
      intro off ho hout
      rw [← ht]
      simp only [write_at_fs]
      rw [fs_write_out _ _ _ _ _ (by omega), fs_write_out _ _ _ _ _ (by omega),
        fs_write_out _ _ _ _ _ (by omega)]
      exact hfr.fs_high off (by omega)
    have hent : ∀ T, T < B / 4 → T ≠ (L - 15) % (B / 4) → t.address_entry (a : Int) T = -1 := by
      intro T hT' hne'
      rw [hl4.address_entry_eq a T (by omega)]
      apply le32_all_ones
      intro j hj
      rw [← ht]
      simp only [write_at_fs]
      rw [fs_write_out _ _ _ _ _ (by omega), fs_write_out _ _ _ _ _ (by omega),
        fs_write_in _ _ _ _ _ (by omega) (by omega)]
      rfl
    have hgetL : t.get_file_block_address y L = V := by
      rw [get_eq, if_neg hn15, hl4.address_block_capacity, hyS, if_neg (by
        intro hc
        rcases hc with hc | hc
        · omega
        · omega), ← ht]
      exact hl3.address_entry_write a _ V (by omega) h0 h1
    have htab : ∀ off, 3 * B ≤ off → off < 963 * B →
        (off < 3 * B + 120 * x.index ∨ 3 * B + 120 * x.index + 120 ≤ off) →
        t.fs_ off = s.fs_ off := by
      intro off ho ho2 hout
      rw [← ht]
      simp only [write_at_fs]
      rw [fs_write_out _ _ _ _ _ (by omega), fs_write_out _ _ _ _ _ hout,
        fs_write_out _ _ _ _ _ (by omega)]
      exact hfr.fs_high off ho
    refine ⟨trivial, hl4, a, ha, hfree, hfirst, ?_, ?_, hyS, hyo, ⟨hyi, by rw [← hy]; rfl,
      by rw [← hy]; rfl, by rw [← hy]; rfl⟩, ?_, hgetL, hent, ?_, htab, hfs⟩
    · intro m
      have : t.data_block_bitmap_ = s1.data_block_bitmap_ := by rw [← ht]; rfl
      rw [this, hdbm]
      exact Bitmap.is_free_reserve _ a m hfree
    · have : t.sb_ = s1.sb_ := by rw [← ht]; rfl
      rw [this, hcnt, hb.free_data]
      exact Bitmap.popcount_reserve _ a hfree
    · have e1 : t.read_inode x.index
          = ((s1.write_at (963 * B + a * B) empty_address_block_buffer (B / 4 * 4)).write_at
              (3 * B + 120 * x.index) y.bytes 120).read_inode x.index := by
        apply Layout.read_inode_congr hl3 hl4 x.index hi
        intro k hk
        rw [← ht]
        simp only [write_at_fs]
        rw [fs_write_out _ _ _ _ _ (by omega)]
      rw [e1]
      have e2 := read_inode_write_inode hl2 y hwf (by rw [hyi]; exact hi)
      rw [hl2.write_inode_eq y (by rw [hyi]; exact hi), hyi] at e2
      exact e2
    · intro L' hne'
      by_cases hsame : 15 ≤ L' ∧ (L' - 15) / (B / 4) + 15 = (L - 15) / (B / 4) + 15
      · obtain ⟨h15', hSS⟩ := hsame
        have hn15' : ¬ L' < 15 := by omega
        have hTT := slot_entry_ne (B / 4) L L' h15 h15' hne' hSS
        rw [get_eq, get_eq, if_neg hn15', if_neg hn15', hl4.address_block_capacity, hcap, hSS,
          hyS, hslot, if_pos (Or.inr rfl), if_neg (by
            intro hc
            rcases hc with hc | hc
            · omega
            · omega)]
        exact hent _ (Nat.mod_lt _ hcap0) hTT
      · apply get_congr_slots hs hl4
        · intro h'
          exact hyo L' (by have := Nat.le_add_left 15 ((L - 15) / (B / 4)); omega)
        · intro h15' hS'
          have hSne : (L' - 15) / (B / 4) + 15 ≠ (L - 15) / (B / 4) + 15 :=
            fun e => hsame ⟨h15', e⟩
          refine ⟨hyo _ hSne, fun hm => ?_⟩
          obtain ⟨n, e, hn⟩ := hx.valid _ (Nat.le_add_left 15 _) hS' hm
          rw [e]
          have hnres := hrs _ n (Nat.le_add_left 15 _) hS' e
          have hna : n ≠ a := by
            intro e'
            rw [e', hfree] at hnres
            exact absurd hnres (by simp)
          apply Layout.address_entry_congr hs hl4 n _ hn
          intro k hk
          have hT' : (L' - 15) % (B / 4) < B / 4 := Nat.mod_lt _ hcap0
          have hnB := Nat.mul_le_mul_right B (Nat.zero_le n)
          have := block_disjoint B n a ((L' - 15) % (B / 4) * 4 + k) 0 hna (by omega)
          exact hfs _ (by omega) (by omega)

/-! ### Freeing blocks -/

/-- What `free_file_block` does to a mapped logical block. -/
theorem free_file_block_spec {s : FFSys} {B : Nat} {x : INode} (h : s.InvX B x) (L n : Nat)
    (hn : s.get_file_block_address x L = (n : Int))
    (r : Bool × INode × FFSys) (hr : s.free_file_block x L = r) :
    r.1 = true ∧ r.2.2.InvX B r.2.1
      ∧ r.2.2.get_file_block_address r.2.1 L = -1
      ∧ (∀ L', L' ≠ L → r.2.2.get_file_block_address r.2.1 L' = s.get_file_block_address x L')
      ∧ (∀ S, 15 ≤ S → r.2.1.blocks.getD S 0 = x.blocks.getD S 0)
      ∧ s.data_block_bitmap_.is_free n = false
      ∧ (∀ m, r.2.2.data_block_bitmap_.is_free m
            = (decide (m = n) || s.data_block_bitmap_.is_free m))
      ∧ r.2.2.sb_.n_free_data_blocks = s.sb_.n_free_data_blocks + 1 := by
  have hb := h.basic
  have hs := hb.layout
  have hB := hs.hB
  have hB8 := hs.hB8
  have hne : s.get_file_block_address x L ≠ -1 := by rw [hn]; omega
  have hinv := h.free_file_block L
  obtain ⟨m, hm, hm8, hmres⟩ := h.get_reserved L hne
  have hmn : m = n := by rw [hn] at hm; omega
  subst hmn
  have hmapped : L < 15 ∨ (15 ≤ L ∧ (L - 15) / (B / 4) + 15 < 20
      ∧ x.blocks.getD ((L - 15) / (B / 4) + 15) 0 ≠ -1) := by
    by_cases h15 : L < 15
    · exact Or.inl h15
    · right
      rw [get_eq, if_neg h15, hs.address_block_capacity] at hne
      by_cases hc : (L - 15) / (B / 4) + 15 ≥ 20
          ∨ x.blocks.getD ((L - 15) / (B / 4) + 15) 0 = -1
      · rw [if_pos hc] at hne
        exact absurd rfl hne
      · exact ⟨by omega, by
          have := fun h' => hc (Or.inl h')
          omega, fun h' => hc (Or.inr h')⟩
  subst hr
  rw [free_file_block_eq, if_neg hne] at hinv ⊢
  rw [hn, free_data_block_eq hb m hm8 hmres] at hinv ⊢
  obtain ⟨hb1, hfr⟩ := hb.basic_with_data_bitmap (s.data_block_bitmap_.free m).2 (m / 8)
    (by omega) (by rw [Bitmap.free_size]; exact hb.dbm_size)
    (Bitmap.free_bytes _ _ hb.dbm_bytes) (fun j hj => free_getD_ne _ _ _ hj)
  have hs1 := hb1.layout
  obtain ⟨_, _, g1, g2, g3, _, g5, _, g7, _, _⟩ :=
    set_mapped hs1 h.slots.1 L (-1) (by omega) (by omega) hmapped _ rfl
  refine ⟨rfl, hinv, g1, ?_, g3, hmres, ?_, ?_⟩
  · intro L' hne'
    rw [g2 L' hne']
    exact Layout.get_congr h hs1 (fun off ho => hfr.fs_high off (by omega)) L'
  · intro j
    simp only
    rw [g5]
    show (s.data_block_bitmap_.free m).2.is_free j = _
    exact Bitmap.is_free_free _ m j hmres (by rw [hb.dbm_size]; exact hm8)
  · simp only
    rw [g7]
    show (s.data_block_bitmap_.free m).2.popcount = _
    rw [hb.free_data]
    exact Bitmap.popcount_free _ m hmres (by rw [hb.dbm_size]; exact hm8)

/-- What the first loop of `free_unused_file_blocks` does: it frees the logical blocks
from `i` up to the first unmapped one, `k`. -/
theorem free_unused_loop_spec {B : Nat} (limit : Nat) :
    ∀ (fuel : Nat) (s : FFSys) (x : INode) (i : Nat), s.InvX B x →
      ∀ r : INode × FFSys, free_unused_loop limit fuel s x i = r →
      ∃ k, i ≤ k ∧ k ≤ i + fuel ∧ (k = i ∨ k ≤ limit)
        ∧ (∀ L, i ≤ L → L < k → s.get_file_block_address x L ≠ -1)
        ∧ (k < i + fuel → k < limit → s.get_file_block_address x k = -1)
        ∧ r.2.InvX B r.1
        ∧ (∀ L, i ≤ L → L < k → r.2.get_file_block_address r.1 L = -1)
        ∧ (∀ L, (L < i ∨ k ≤ L) →
            r.2.get_file_block_address r.1 L = s.get_file_block_address x L)
        ∧ (∀ S, 15 ≤ S → r.1.blocks.getD S 0 = x.blocks.getD S 0)
        ∧ (∀ m, s.data_block_bitmap_.is_free m = true → r.2.data_block_bitmap_.is_free m = true)
        ∧ (∀ L (n : Nat), i ≤ L → L < k → s.get_file_block_address x L = (n : Int) →
            r.2.data_block_bitmap_.is_free n = true)
        ∧ r.2.sb_.n_free_data_blocks = s.sb_.n_free_data_blocks + (k - i) := by
  intro fuel
  induction fuel with
  | zero =>
    intro s x i h r hr
    subst hr
    exact ⟨i, le_refl _, le_refl _, Or.inl rfl, fun L h1 h2 => by omega, fun h1 => by omega, h,
      fun L h1 h2 => by omega, fun _ _ => rfl, fun _ _ => rfl, fun _ hm => hm,
      fun L n h1 h2 => by omega, by simp [free_unused_loop]⟩
  | succ fuel ih =>
    intro s x i h r hr
    subst hr
    unfold free_unused_loop
    by_cases hlim : i < limit
    · rw [if_neg (not_not.mpr hlim)]
      by_cases hget : s.get_file_block_address x i = -1
      · rw [if_pos hget]
        exact ⟨i, le_refl _, by omega, Or.inl rfl, fun L h1 h2 => by omega, fun _ _ => hget, h,
          fun L h1 h2 => by omega, fun _ _ => rfl, fun _ _ => rfl, fun _ hm => hm,
          fun L n h1 h2 => by omega, by simp⟩
      · rw [if_neg hget]
        simp only
        obtain ⟨n, hn, _, _⟩ := h.get_reserved i hget
        obtain ⟨_, f1, f2, f3, f4, f5, f6, f7⟩ := free_file_block_spec h i n hn _ rfl
        obtain ⟨k, k1, k2, k3, k4, k5, k6, k7, k8, k9, k10, k11, k12⟩ :=
          ih (s.free_file_block x i).2.2 (s.free_file_block x i).2.1 (i + 1) f1 _ rfl
        refine ⟨k, by omega, by omega, Or.inr (by omega), ?_, ?_, k6, ?_, ?_, ?_, ?_, ?_, ?_⟩
        · intro L h1 h2
          by_cases hL : L = i
          · rw [hL]; exact hget
          · rw [← f3 L hL]
            exact k4 L (by omega) h2
        · intro h1 h2
          rw [← f3 k (by omega)]
          exact k5 (by omega) h2
        · intro L h1 h2
          by_cases hL : L = i
          · rw [k8 L (Or.inl (by omega)), hL]
            exact f2
          · exact k7 L (by omega) h2
        · intro L hL
          rw [k8 L (by omega)]
          exact f3 L (by omega)
        · intro S hS
          rw [k9 S hS]
          exact f4 S hS
        · intro m hm
          apply k10
          rw [f6, hm]
          simp
        · intro L n' h1 h2 hn'
          by_cases hL : L = i
          · apply k10
            rw [f6]
            have : n' = n := by rw [hL, hn] at hn'; omega
            rw [this]
            simp
          · apply k11 L n' (by omega) h2
            rw [f3 L hL]
            exact hn'
        · rw [k12, f7]
          omega
    · rw [if_pos hlim]
      exact ⟨i, le_refl _, by omega, Or.inl rfl, fun L h1 h2 => by omega, fun _ h2 => by omega, h,
        fun L h1 h2 => by omega, fun _ _ => rfl, fun _ _ => rfl, fun _ hm => hm,
        fun L n h1 h2 => by omega, by simp⟩

/-- One iteration of the second loop of `free_unused_file_blocks`. -/
theorem free_address_block_step_spec {B : Nat} (lb : Nat) (p : INode × FFSys) (i : Nat)
    (hi : i < 5) (h : p.2.InvX B p.1)
    (r : INode × FFSys) (hr : free_address_block_step lb p i = r) :
    r.2.InvX B r.1
      ∧ (∀ off, 3 * B ≤ off → r.2.fs_ off = p.2.fs_ off)
      ∧ (∀ m, p.2.data_block_bitmap_.is_free m = true → r.2.data_block_bitmap_.is_free m = true)
      ∧ ((p.1.blocks.getD (15 + i) 0 ≠ -1 ∧ lb < 15 + i * (B / 4)) →
          (∀ S, r.1.blocks.getD S 0 = if S = 15 + i then -1 else p.1.blocks.getD S 0)
          ∧ (∀ n : Nat, p.1.blocks.getD (15 + i) 0 = (n : Int) →
              r.2.data_block_bitmap_.is_free n = true)
          ∧ r.2.sb_.n_free_data_blocks = p.2.sb_.n_free_data_blocks + 1)
      ∧ (¬ (p.1.blocks.getD (15 + i) 0 ≠ -1 ∧ lb < 15 + i * (B / 4)) → r = p) := by
  have hinv := InvX.free_address_block_step lb p i hi h
  have hb := h.basic
  have hs := hb.layout
  have hB := hs.hB
  have hB8 := hs.hB8
  have hmod : (15 + i * p.2.sb_.address_block_capacity) % 4294967296 = 15 + i * (B / 4) := by
    rw [hs.address_block_capacity]
    apply Nat.mod_eq_of_lt
    have : i * (B / 4) ≤ 4 * (B / 4) := Nat.mul_le_mul_right _ (by omega)
    omega
  subst hr
  unfold FFSys.free_address_block_step N_STATIC_FILE_BLOCKS at hinv ⊢
  simp only at hinv ⊢
  rw [hmod] at hinv ⊢
  by_cases hc : p.1.blocks.getD (15 + i) 0 ≠ -1 ∧ lb < 15 + i * (B / 4)
  · rw [if_pos hc] at hinv ⊢
    obtain ⟨n, hn8, hnres⟩ : ∃ n : Nat, p.1.blocks.getD (15 + i) 0 = (n : Int)
        ∧ p.2.data_block_bitmap_.is_free n = false := by
      obtain ⟨n, e, _⟩ := h.slots.1.valid (15 + i) (by omega) (by omega) hc.1
      exact ⟨n, e, (h.slots.2 (15 + i) n (by omega) (by omega) e).2⟩
    have hn := (h.slots.2 (15 + i) n (by omega) (by omega) hn8).1
    rw [hn8, free_data_block_eq hb n hn hnres] at hinv ⊢
    obtain ⟨hb1, hfr⟩ := hb.basic_with_data_bitmap (p.2.data_block_bitmap_.free n).2 (n / 8)
      (by omega) (by rw [Bitmap.free_size]; exact hb.dbm_size)
      (Bitmap.free_bytes _ _ hb.dbm_bytes) (fun j hj => free_getD_ne _ _ _ hj)
    have hfree : ∀ m, (p.2.data_block_bitmap_.free n).2.is_free m
        = (decide (m = n) || p.2.data_block_bitmap_.is_free m) :=
      fun m => Bitmap.is_free_free _ n m hnres (by rw [hb.dbm_size]; exact hn)
    refine ⟨hinv, fun off ho => hfr.fs_high off ho, ?_, fun _ => ⟨?_, ?_, ?_⟩,
      fun hc' => absurd ⟨by omega, hc.2⟩ hc'⟩
    · intro m hm
      show (p.2.data_block_bitmap_.free n).2.is_free m = true
      rw [hfree, hm]; simp
    · intro S
      show (p.1.blocks.set (15 + i) (-1)).getD S 0 = _
      rw [getD_set_eq, h.wf.blocks_len]
      by_cases hS : S = 15 + i
      · rw [if_pos ⟨hS.symm, by omega⟩, if_pos hS]
      · rw [if_neg (fun hc' => hS hc'.1.symm), if_neg hS]
    · intro n' hn'
      have : n' = n := by omega
      show (p.2.data_block_bitmap_.free n).2.is_free n' = true
      rw [hfree, this]; simp
    · show (p.2.data_block_bitmap_.free n).2.popcount = _
      rw [hb.free_data]
      exact Bitmap.popcount_free _ n hnres (by rw [hb.dbm_size]; exact hn)
  · rw [if_neg hc] at hinv ⊢
    exact ⟨h, fun _ _ => rfl, fun _ hm => hm, fun hc' => absurd hc' hc, fun _ => rfl⟩

/-- The second loop of `free_unused_file_blocks`, over the slots `l`. -/
theorem foldl_step_spec {B : Nat} (lb : Nat) :
    ∀ (l : List Nat) (p : INode × FFSys), l.Nodup → (∀ i, i ∈ l → i < 5) → p.2.InvX B p.1 →
      ∀ r : INode × FFSys, l.foldl (free_address_block_step lb) p = r →
      r.2.InvX B r.1
        ∧ (∀ off, 3 * B ≤ off → r.2.fs_ off = p.2.fs_ off)
        ∧ (∀ m, p.2.data_block_bitmap_.is_free m = true →
            r.2.data_block_bitmap_.is_free m = true)
        ∧ (∀ S, r.1.blocks.getD S 0
            = if 15 ≤ S ∧ S - 15 ∈ l ∧ p.1.blocks.getD S 0 ≠ -1 ∧ lb < 15 + (S - 15) * (B / 4)
              then -1 else p.1.blocks.getD S 0)
        ∧ (∀ i (n : Nat), i ∈ l → p.1.blocks.getD (15 + i) 0 = (n : Int) →
            lb < 15 + i * (B / 4) → r.2.data_block_bitmap_.is_free n = true)
        ∧ r.2.sb_.n_free_data_blocks = p.2.sb_.n_free_data_blocks
            + l.countP (fun i => decide (p.1.blocks.getD (15 + i) 0 ≠ -1 ∧ lb < 15 + i * (B / 4))) := by
  intro l
  induction l with
  | nil =>
    intro p _ _ h r hr
    rw [List.foldl_nil] at hr
    subst hr
    refine ⟨h, fun _ _ => rfl, fun _ hm => hm, fun S => ?_, fun i n hi => ?_, by simp⟩
    · rw [if_neg (fun hc => by simp at hc)]
    · simp at hi
  | cons a l ih =>
    intro p hnd hl h r hr
    rw [List.foldl_cons] at hr
    have ha5 := hl a (List.mem_cons_self _ _)
    obtain ⟨hanl, hnd'⟩ := List.nodup_cons.mp hnd
    obtain ⟨s1, s2, s3, s4, s5⟩ := free_address_block_step_spec lb p a ha5 h _ rfl
    obtain ⟨r1, r2, r3, r4, r5, r6⟩ := ih (free_address_block_step lb p a) hnd'
      (fun i hi => hl i (List.mem_cons_of_mem _ hi)) s1 r hr
    -- the slots of the list `l` are not touched by step `a`
    have hkeep : ∀ S, S ≠ 15 + a →
        (free_address_block_step lb p a).1.blocks.getD S 0 = p.1.blocks.getD S 0 := by
      intro S hS
      by_cases hc : p.1.blocks.getD (15 + a) 0 ≠ -1 ∧ lb < 15 + a * (B / 4)
      · rw [(s4 hc).1 S, if_neg hS]
      · rw [s5 hc]
    refine ⟨r1, fun off ho => (r2 off ho).trans (s2 off ho), fun m hm => r3 m (s3 m hm),
      ?_, ?_, ?_⟩
    · intro S
      rw [r4 S]
      by_cases hSa : S = 15 + a
      · have hnl : ¬ (S - 15 ∈ l) := by
          rw [hSa, Nat.add_sub_cancel_left]; exact hanl
        rw [if_neg (fun hc => hnl hc.2.1)]
        by_cases hc : p.1.blocks.getD (15 + a) 0 ≠ -1 ∧ lb < 15 + a * (B / 4)
        · rw [(s4 hc).1 S, if_pos hSa, if_pos]
          refine ⟨by omega, ?_, ?_, ?_⟩
          · rw [hSa, Nat.add_sub_cancel_left]; exact List.mem_cons_self _ _
          · rw [hSa]; exact hc.1
          · rw [hSa, Nat.add_sub_cancel_left]; exact hc.2
        · rw [s5 hc, if_neg]
          intro hc'
          apply hc
          rw [hSa, Nat.add_sub_cancel_left] at hc'
          exact ⟨hc'.2.2.1, hc'.2.2.2⟩
      · rw [hkeep S hSa]
        by_cases hc : 15 ≤ S ∧ S - 15 ∈ l ∧ p.1.blocks.getD S 0 ≠ -1
            ∧ lb < 15 + (S - 15) * (B / 4)
        · rw [if_pos hc, if_pos ⟨hc.1, List.mem_cons_of_mem _ hc.2.1, hc.2.2⟩]
        · rw [if_neg hc, if_neg]
          intro hc'
          apply hc
          refine ⟨hc'.1, ?_, hc'.2.2⟩
          rcases List.mem_cons.mp hc'.2.1 with e | e
          · exact absurd (by omega) hSa
          · exact e
    · intro i n hi hn hlt
      rcases List.mem_cons.mp hi with e | e
      · apply r3
        rw [e] at hn hlt
        exact (s4 ⟨by rw [hn]; omega, hlt⟩).2.1 n hn
      · have hia : i ≠ a := fun e' => hanl (e' ▸ e)
        exact r5 i n e (by rw [hkeep (15 + i) (by omega)]; exact hn) hlt
    · rw [r6, List.countP_cons]
      have hcnt : l.countP (fun i => decide ((free_address_block_step lb p a).1.blocks.getD
            (15 + i) 0 ≠ -1 ∧ lb < 15 + i * (B / 4)))
          = l.countP (fun i => decide (p.1.blocks.getD (15 + i) 0 ≠ -1
              ∧ lb < 15 + i * (B / 4))) := by
        apply List.countP_congr
        intro i hi
        have hia : i ≠ a := fun e' => hanl (e' ▸ hi)
        rw [hkeep (15 + i) (by omega)]
      rw [hcnt]
      by_cases hc : p.1.blocks.getD (15 + a) 0 ≠ -1 ∧ lb < 15 + a * (B / 4)
      · rw [(s4 hc).2.2, if_pos (by simpa using hc)]
        omega
      · rw [s5 hc, if_neg (by simpa using hc)]
        omega

theorem keep_blocks_eq {s : FFSys} {B : Nat} (hs : s.Layout B) (size : Nat)
    (hsize : size < 4294967296) : s.keep_blocks size = max 1 ((size + B - 1) / B) := by
  have hB := hs.hB
  have hB8 := hs.hB8
  unfold keep_blocks
  rw [hs.block_size, Nat.mod_eq_of_lt (show size + B - 1 < 18446744073709551616 by omega)]
  have hq : (size + B - 1) / B < 4294967296 :=
    Nat.div_lt_of_lt_mul (by omega)
  rw [Nat.mod_eq_of_lt hq]
  generalize (size + B - 1) / B = q
  by_cases h0 : q = 0
  · rw [if_pos h0, h0]; rfl
  · rw [if_neg h0]
    omega

/-- What `free_unused_file_blocks` does: with `lb = keep_blocks size` the first logical
block it looks at, and `k` the first unmapped logical block from `lb` on, it unmaps and
frees the logical blocks `lb ≤ L < k`, and it empties and frees every indirect slot whose
first logical block lies beyond `lb`. -/
theorem free_unused_file_blocks_spec {s : FFSys} {B : Nat} {x : INode} (h : s.InvX B x)
    (r : INode × FFSys) (hr : s.free_unused_file_blocks x = r) :
    ∃ k, s.keep_blocks x.size ≤ k
      ∧ (k = s.keep_blocks x.size ∨ k ≤ 15 + 5 * (B / 4))
      ∧ (∀ L, s.keep_blocks x.size ≤ L → L < k → s.get_file_block_address x L ≠ -1)
      ∧ (k < 15 + 5 * (B / 4) → s.get_file_block_address x k = -1)
      ∧ (∀ L, r.2.get_file_block_address r.1 L
          = if (s.keep_blocks x.size ≤ L ∧ L < k)
              ∨ (15 ≤ L ∧ (L - 15) / (B / 4) + 15 < 20
                  ∧ x.blocks.getD ((L - 15) / (B / 4) + 15) 0 ≠ -1
                  ∧ s.keep_blocks x.size < 15 + (L - 15) / (B / 4) * (B / 4))
            then -1 else s.get_file_block_address x L)
      ∧ (∀ S, 15 ≤ S → S < 20 → r.1.blocks.getD S 0
          = if x.blocks.getD S 0 ≠ -1 ∧ s.keep_blocks x.size < 15 + (S - 15) * (B / 4)
            then -1 else x.blocks.getD S 0)
      ∧ (∀ m, s.data_block_bitmap_.is_free m = true → r.2.data_block_bitmap_.is_free m = true)
      ∧ (∀ L (n : Nat), s.keep_blocks x.size ≤ L → L < k →
          s.get_file_block_address x L = (n : Int) → r.2.data_block_bitmap_.is_free n = true)
      ∧ (∀ S (n : Nat), 15 ≤ S → S < 20 → x.blocks.getD S 0 = (n : Int) →
          s.keep_blocks x.size < 15 + (S - 15) * (B / 4) →
          r.2.data_block_bitmap_.is_free n = true)
      ∧ r.2.sb_.n_free_data_blocks
          = s.sb_.n_free_data_blocks + (k - s.keep_blocks x.size)
              + slots_beyond x B (s.keep_blocks x.size)
      ∧ r.2.read_inode x.index = r.1
      ∧ r.2.Inv B ∧ x.same_meta r.1 := by
  have hs := h.basic.layout
  have hB := hs.hB
  have hB8 := hs.hB8
  have hcap0 : 0 < B / 4 := by omega
  subst hr
  have hlim : (N_STATIC_FILE_BLOCKS + N_DYNAMIC_FILE_BLOCKS * s.sb_.address_block_capacity)
      % 4294967296 = 15 + 5 * (B / 4) := by
    rw [hs.address_block_capacity]
    show (15 + 5 * (B / 4)) % 4294967296 = _
    apply Nat.mod_eq_of_lt
    omega
  unfold FFSys.free_unused_file_blocks keep_blocks
  simp only
  rw [hlim]
  generalize hlb : (if (x.size + s.sb_.block_size - 1) % 18446744073709551616
      / s.sb_.block_size % 4294967296 = 0 then 1
    else (x.size + s.sb_.block_size - 1) % 18446744073709551616 / s.sb_.block_size
      % 4294967296) = lb
  show ∃ k, lb ≤ k ∧ _
  have hr5 : List.range N_DYNAMIC_FILE_BLOCKS = List.range 5 := rfl
  rw [hr5]
  obtain ⟨k, k1, k2, k3, k4, k5, k6, k7, k8, k9, k10, k11, k12⟩ :=
    free_unused_loop_spec (15 + 5 * (B / 4)) (15 + 5 * (B / 4) - lb) s x lb h _ rfl
  have m1 := free_unused_loop_meta (15 + 5 * (B / 4)) (15 + 5 * (B / 4) - lb) s x lb
  generalize free_unused_loop (15 + 5 * (B / 4)) (15 + 5 * (B / 4) - lb) s x lb = p1
    at k6 k7 k8 k9 k10 k11 k12 m1
  obtain ⟨q1, q2, q3, q4, q5, q6⟩ := foldl_step_spec lb (List.range 5) p1
    (List.nodup_range 5) (fun i hi => List.mem_range.mp hi) k6 _ rfl
  have m2 := foldl_step_meta lb (List.range 5) p1
  generalize (List.range 5).foldl (free_address_block_step lb) p1 = p2 at q1 q2 q3 q4 q5 q6 m2
  rw [q1.basic.write_bitmap_noop, q1.basic.write_superblock_noop]
  have hm : x.same_meta p2.1 := INode.same_meta.trans m1 m2
  have hidx : p2.1.index = x.index := hm.1
  have hi8 : x.index < 8 * B := hs.live_lt h.live_x
  have hs1 := k6.basic.layout
  have hs2 := q1.basic.layout
  have hsf : (p2.2.write_inode p2.1).Layout B := hs2.of_sb rfl
  have hslot : ∀ S, 15 ≤ S → S < 20 → p2.1.blocks.getD S 0
      = if x.blocks.getD S 0 ≠ -1 ∧ lb < 15 + (S - 15) * (B / 4)
        then -1 else x.blocks.getD S 0 := by
    intro S hS hS2
    rw [q4 S, k9 S hS]
    by_cases hc : x.blocks.getD S 0 ≠ -1 ∧ lb < 15 + (S - 15) * (B / 4)
    · rw [if_pos hc, if_pos ⟨hS, List.mem_range.mpr (by omega), hc⟩]
    · rw [if_neg hc, if_neg (fun hc' => hc hc'.2.2)]
  refine ⟨k, k1, by omega, k4, fun hk => k5 (by omega) hk, ?_, hslot,
    fun m hm' => q3 m (k10 m hm'), fun L n h1 h2 hn => q3 n (k11 L n h1 h2 hn), ?_, ?_, ?_,
    q1.write_back, hm⟩
  · intro L
    by_cases hc2 : 15 ≤ L ∧ (L - 15) / (B / 4) + 15 < 20
        ∧ x.blocks.getD ((L - 15) / (B / 4) + 15) 0 ≠ -1
        ∧ lb < 15 + (L - 15) / (B / 4) * (B / 4)
    · rw [if_pos (Or.inr hc2)]
      have hz : p2.1.blocks.getD ((L - 15) / (B / 4) + 15) 0 = -1 := by
        rw [hslot _ (Nat.le_add_left 15 _) hc2.2.1, if_pos ⟨hc2.2.2.1, by
          rw [Nat.add_sub_cancel]; exact hc2.2.2.2⟩]
      rw [get_eq, if_neg (by omega), hsf.address_block_capacity, if_pos (Or.inr hz)]
    · have e1 : (p2.2.write_inode p2.1).get_file_block_address p2.1 L
          = p1.2.get_file_block_address p1.1 L := by
        apply get_congr_slots hs1 hsf
        · intro h15
          rw [q4 L, if_neg (by omega)]
        · intro h15 hS2
          have hsame : p2.1.blocks.getD ((L - 15) / (B / 4) + 15) 0
              = p1.1.blocks.getD ((L - 15) / (B / 4) + 15) 0 := by
            rw [hslot _ (Nat.le_add_left 15 _) hS2, k9 _ (Nat.le_add_left 15 _), if_neg]
            intro hc
            rw [Nat.add_sub_cancel] at hc
            exact hc2 ⟨h15, hS2, hc.1, hc.2⟩
          refine ⟨hsame, fun hne => ?_⟩
          obtain ⟨n, e, hn⟩ := k6.slots.1.valid _ (Nat.le_add_left 15 _) hS2 hne
          rw [e]
          apply Layout.address_entry_congr hs1 hsf n _ hn
          intro j hj
          have hnB := Nat.mul_le_mul_right B (Nat.zero_le n)
          rw [write_inode_fs_high hs2 p2.1 (by rw [hidx]; exact hi8) _ (by omega)]
          exact q2 _ (by omega)
      rw [e1]
      by_cases hc1 : lb ≤ L ∧ L < k
      · rw [if_pos (Or.inl hc1)]
        exact k7 L hc1.1 hc1.2
      · rw [if_neg (fun hc => hc.elim hc1 hc2)]
        exact k8 L (by omega)
  · intro S n hS hS2 hn hlt
    show p2.2.data_block_bitmap_.is_free n = true
    have := q5 (S - 15) n (List.mem_range.mpr (by omega))
      (by rw [show 15 + (S - 15) = S by omega, k9 S hS]; exact hn) hlt
    exact this
  · show p2.2.sb_.n_free_data_blocks = _
    rw [q6, k12]
    have : (List.range 5).countP (fun i => decide (p1.1.blocks.getD (15 + i) 0 ≠ -1
          ∧ lb < 15 + i * (B / 4))) = slots_beyond x B lb := by
      unfold slots_beyond
      apply List.countP_congr
      intro i _
      rw [k9 (15 + i) (by omega)]
    rw [this]
  · have := read_inode_write_inode hs2 p2.1 q1.wf (by rw [hidx]; exact hi8)
    rw [hidx] at this
    exact this

/-- The specification of `free_unused_file_blocks` for the record of a live inode whose
size field has been set to `sz`, as `open` calls it. -/
theorem truncate_spec {s : FFSys} {B : Nat} (h : s.Inv B) (i : Nat) (hi : s.live i)
    (sz : Nat) (hsz : sz < 4294967296)
    (r : INode × FFSys)
    (hr : s.free_unused_file_blocks { s.read_inode i with size := sz } = r) :
    ∃ k, max 1 ((sz + B - 1) / B) ≤ k
      ∧ (k = max 1 ((sz + B - 1) / B) ∨ k ≤ 15 + 5 * (B / 4))
      ∧ (∀ L, max 1 ((sz + B - 1) / B) ≤ L → L < k →
          s.get_file_block_address (s.read_inode i) L ≠ -1)
      ∧ (k < 15 + 5 * (B / 4) → s.get_file_block_address (s.read_inode i) k = -1)
      ∧ (∀ L, r.2.get_file_block_address r.1 L
          = if (max 1 ((sz + B - 1) / B) ≤ L ∧ L < k)
              ∨ (15 ≤ L ∧ (L - 15) / (B / 4) + 15 < 20
                  ∧ (s.read_inode i).blocks.getD ((L - 15) / (B / 4) + 15) 0 ≠ -1
                  ∧ max 1 ((sz + B - 1) / B) < 15 + (L - 15) / (B / 4) * (B / 4))
            then -1 else s.get_file_block_address (s.read_inode i) L)
      ∧ (∀ S, 15 ≤ S → S < 20 → r.1.blocks.getD S 0
          = if (s.read_inode i).blocks.getD S 0 ≠ -1
                ∧ max 1 ((sz + B - 1) / B) < 15 + (S - 15) * (B / 4)
            then -1 else (s.read_inode i).blocks.getD S 0)
      ∧ (∀ m, s.data_block_bitmap_.is_free m = true → r.2.data_block_bitmap_.is_free m = true)
      ∧ (∀ L (n : Nat), max 1 ((sz + B - 1) / B) ≤ L → L < k →
          s.get_file_block_address (s.read_inode i) L = (n : Int) →
          r.2.data_block_bitmap_.is_free n = true)
      ∧ (∀ S (n : Nat), 15 ≤ S → S < 20 → (s.read_inode i).blocks.getD S 0 = (n : Int) →
          max 1 ((sz + B - 1) / B) < 15 + (S - 15) * (B / 4) →
          r.2.data_block_bitmap_.is_free n = true)
      ∧ r.2.sb_.n_free_data_blocks
          = s.sb_.n_free_data_blocks + (k - max 1 ((sz + B - 1) / B))
              + slots_beyond (s.read_inode i) B (max 1 ((sz + B - 1) / B))
      ∧ r.2.read_inode i = r.1
      ∧ r.2.Inv B ∧ r.1.size = sz ∧ r.1.index = i := by
  have hx := InvX.of_inv h i hi
  have hs := h.basic.layout
  have hwf := hx.wf
  have hwf0 : ({ s.read_inode i with size := sz } : INode).WF :=
    ⟨hwf.index_lt, hwf.name_len, hwf.name_lt, by show sz < _; omega,
      hwf.blocks_len, hwf.blocks_range, hwf.created_lt⟩
  have hx0 : s.InvX B { s.read_inode i with size := sz } := hx.of_fields rfl rfl hwf0
  have hidx : (s.read_inode i).index = i := h.index i hi
  obtain ⟨k, k1, k2, k3, k4, k5, k6, k7, k8, k9, k10, k11, k12, k13⟩ :=
    free_unused_file_blocks_spec hx0 r hr
  have hlb : s.keep_blocks ({ s.read_inode i with size := sz } : INode).size
      = max 1 ((sz + B - 1) / B) := keep_blocks_eq hs sz hsz
  rw [hlb] at k1 k2 k3 k5 k6 k8 k9 k10
  exact ⟨k, k1, k2, k3, k4, k5, k6, k7, k8, k9, k10, by
    have := k11
    rw [show ({ s.read_inode i with size := sz } : INode).index = i from hidx] at this
    exact this, k12, k13.2.2.1, k13.1.trans hidx⟩

/-! ### Isolation of files -/

theorem data_ref_ino (s : FFSys) (i L : Nat) : (s.data_ref i L).ino = i := by
  unfold data_ref
  split_ifs <;> rfl

/-- No data block is addressed twice, and no address block is a file data block. -/
theorem Inv.blocks_distinct {s : FFSys} {B : Nat} (h : s.Inv B) (i j : Nat) (hi : s.live i)
    (hj : s.live j) :
    (∀ L L', s.get_file_block_address (s.read_inode i) L ≠ -1 →
        s.get_file_block_address (s.read_inode i) L
          = s.get_file_block_address (s.read_inode j) L' → i = j ∧ L = L')
      ∧ ∀ L S, 15 ≤ S → S < 20 → s.get_file_block_address (s.read_inode i) L ≠ -1 →
          (s.read_inode j).blocks.getD S 0 ≠ s.get_file_block_address (s.read_inode i) L := by
  have hs := h.basic.layout
  have hxi := InvX.of_inv h i hi
  have hidx : ∀ k, s.live k → (s.read_inode k).index = k := h.index
  have href : ∀ k L, s.live k → s.get_file_block_address (s.read_inode k) L ≠ -1 →
      (s.data_ref k L).ok s s.view
        ∧ (s.data_ref k L).val s s.view = s.get_file_block_address (s.read_inode k) L := by
    intro k L hk hL
    have := get_is_ref hs (s.read_inode k) L (by rw [hidx k hk]; exact hk) hL
    rw [hidx k hk, view_with_self] at this
    exact this
  constructor
  · intro L L' hL e
    obtain ⟨a1, a2⟩ := href i L hi hL
    obtain ⟨b1, b2⟩ := href j L' hj (by rw [← e]; exact hL)
    have hr := h.refs.inj _ _ a1 b1 (by rw [a2]; exact hL) (by rw [a2, b2]; exact e)
    have hij : i = j := by
      have := congrArg Ref.ino hr
      rw [data_ref_ino, data_ref_ino] at this
      exact this
    subst hij
    exact ⟨rfl, data_ref_inj hs _ _ _ hr⟩
  · intro L S hS hS2 hL
    have := hxi.get_not_address_block L hL j S hj hS hS2
    rw [hidx i hi, view_with_self] at this
    exact this

/-- A write to the file of inode `i` leaves the record of every other live inode `j`, the
addresses of its mapped blocks and the bytes of these blocks as they are. -/
theorem Inv.write_other_file {s : FFSys} {B : Nat} (h : s.Inv B) (i j : Nat) (hi : s.live i)
    (hj : s.live j) (hne : j ≠ i) (buffer : Mem) (hbuf : ∀ k, buffer k < 256)
    (count pos : Nat) (hpos : pos < 4294967296)
    (t : FFSys) (ht : (s.write_n_bytes_to_file (s.read_inode i) buffer count pos).2.2 = t) :
    t.Inv B ∧ t.live j ∧ t.read_inode j = s.read_inode j
      ∧ (∀ L, s.get_file_block_address (s.read_inode j) L ≠ -1 →
          t.get_file_block_address (s.read_inode j) L
            = s.get_file_block_address (s.read_inode j) L)
      ∧ ∀ L (n : Nat), s.get_file_block_address (s.read_inode j) L = (n : Int) →
          ∀ o, o < B → t.fs_ (963 * B + n * B + o) = s.fs_ (963 * B + n * B + o) := by
  have hs := h.basic.layout
  have hx := InvX.of_inv h i hi
  have hidx : (s.read_inode i).index = i := h.index i hi
  have hjdx : (s.read_inode j).index = j := h.index j hj
  have D := write_n_bytes_done buffer hbuf hx count pos hpos
  generalize s.write_n_bytes_to_file (s.read_inode i) buffer count pos = res at D ht
  subst ht
  have hj8 := hs.live_lt hj
  have hl : res.2.2.Layout B := D.inv.basic.layout
  have hrd : res.2.2.read_inode j = s.read_inode j :=
    D.others j hj8 (by rw [hidx]; exact hne)
  have hlj : res.2.2.live j := (hs.live_congr hl D.ibm j).mpr hj
  have href : ∀ L, s.get_file_block_address (s.read_inode j) L ≠ -1 →
      (s.data_ref j L).ok s (s.view_with (s.read_inode i).index (s.read_inode i).blocks)
        ∧ (s.data_ref j L).val s (s.view_with (s.read_inode i).index (s.read_inode i).blocks)
            = s.get_file_block_address (s.read_inode j) L := by
    intro L hL
    have := get_is_ref hs (s.read_inode j) L (by rw [hjdx]; exact hj) hL
    rw [hjdx, view_with_self] at this
    have hv := view_with_self s i
    rw [← hidx] at hv
    rw [hidx] at hv ⊢
    rw [hv]
    exact this
  refine ⟨D.inv, hlj, hrd, ?_, ?_⟩
  · intro L hL
    obtain ⟨a1, a2⟩ := href L hL
    obtain ⟨b1, b2⟩ := D.refs _ a1 (by rw [a2]; exact hL)
    have c1 : (res.2.2.data_ref (s.read_inode j).index L).ok res.2.2
        (res.2.2.view_with (s.read_inode j).index (s.read_inode j).blocks) := by
      rw [hjdx, data_ref_congr hs hl]
      have := view_with_self res.2.2 j
      rw [hrd] at this
      rw [this]
      exact b1
    rw [get_of_ref (s.read_inode j) L c1, hjdx, data_ref_congr hs hl]
    have := view_with_self res.2.2 j
    rw [hrd] at this
    rw [this, b2, a2]
  · intro L n hn o ho
    have hL : s.get_file_block_address (s.read_inode j) L ≠ -1 := by rw [hn]; omega
    obtain ⟨a1, a2⟩ := href L hL
    apply D.frame _ n o a1 (data_ref_is_data _ _ _) (by rw [a2, hn]) ho
    intro L' hL'
    have := congrArg Ref.ino hL'
    rw [data_ref_ino, data_ref_ino, hidx] at this
    exact absurd this hne

/-- A write to the file of inode `i` does not change what a read of another file returns,
if that read starts inside the file and the blocks of the file are mapped. -/
theorem Inv.read_other_file {s : FFSys} {B : Nat} (h : s.Inv B) (hbd : s.Bounded) (i j : Nat)
    (hi : s.live i) (hj : s.live j) (hne : j ≠ i) (buffer : Mem) (hbuf : ∀ k, buffer k < 256)
    (count pos : Nat) (hpos : pos < 4294967296)
    (t : FFSys) (ht : (s.write_n_bytes_to_file (s.read_inode i) buffer count pos).2.2 = t)
    (hmp : s.mapped_prefix j) (out : Mem) (c p : Nat) (hp : p ≤ (s.read_inode j).size)
    (hc : p + c < 18446744073709551616) :
    t.mapped_prefix j
      ∧ t.read_n_bytes_from_file (t.read_inode j) out c p
          = s.read_n_bytes_from_file (s.read_inode j) out c p := by
  have hs := h.basic.layout
  have hB := hs.hB
  have hB8 := hs.hB8
  obtain ⟨hti, hlj, hrd, hget, hbytes⟩ :=
    h.write_other_file i j hi hj hne buffer hbuf count pos hpos t ht
  have hl := hti.basic.layout
  have hxj := InvX.of_inv h j hj
  have hsz : (s.read_inode j).size < 4294967296 := hbd j hj
  have hmp' : t.mapped_prefix j := by
    intro L hL
    rw [hrd, hl.block_size] at hL
    rw [hrd, hget L (hmp L (by rw [hs.block_size]; exact hL))]
    exact hmp L (by rw [hs.block_size]; exact hL)
  refine ⟨hmp', ?_⟩
  rw [hrd]
  have hmapped : ∀ L, L * B < (s.read_inode j).size →
      s.get_file_block_address (s.read_inode j) L ≠ -1 := by
    intro L hL
    apply hmp L
    rw [hs.block_size]
    exact (Nat.le_div_iff_mul_le (by omega)).mpr (by
      rw [Nat.succ_mul]; omega)
  have hmb_s : ∀ L, L * s.sb_.block_size < (s.read_inode j).size →
      s.mapped_block (s.read_inode j) L := by
    intro L hL
    rw [hs.block_size] at hL
    obtain ⟨n, hn, hn8, _⟩ := hxj.get_reserved L (hmapped L hL)
    have := hs.block_lt n hn8
    refine ⟨hmapped L hL, ?_, ?_⟩
    · rw [hn, hs.data_blocks_start_i]; omega
    · rw [hn, hs.data_blocks_start_i, hs.block_size]
      have e : ((963 : Nat) : Int) + (n : Int) = ((963 + n : Nat) : Int) := by push_cast; rfl
      rw [e]
      exact_mod_cast this
  have hmb_t : ∀ L, L * t.sb_.block_size < (s.read_inode j).size →
      t.mapped_block (s.read_inode j) L := by
    intro L hL
    rw [hl.block_size] at hL
    obtain ⟨n, hn, hn8, _⟩ := hxj.get_reserved L (hmapped L hL)
    have := hs.block_lt n hn8
    refine ⟨by rw [hget L (hmapped L hL)]; exact hmapped L hL, ?_, ?_⟩
    · rw [hget L (hmapped L hL), hn, hl.data_blocks_start_i]; omega
    · rw [hget L (hmapped L hL), hn, hl.data_blocks_start_i, hl.block_size]
      have e : ((963 : Nat) : Int) + (n : Int) = ((963 + n : Nat) : Int) := by push_cast; rfl
      rw [e]
      exact_mod_cast this
  have hidx_s : (s.read_inode j).size / s.sb_.block_size + 1 < 4294967296 := by
    rw [hs.block_size]
    have := Nat.div_le_div_left (a := (s.read_inode j).size) (show 2 ≤ B by omega) (by omega)
    omega
  have hidx_t : (s.read_inode j).size / t.sb_.block_size + 1 < 4294967296 := by
    rw [hl.block_size]
    have := Nat.div_le_div_left (a := (s.read_inode j).size) (show 2 ≤ B by omega) (by omega)
    omega
  obtain ⟨s1, s2⟩ := read_n_bytes_spec s (s.read_inode j) out c p
    (by rw [hs.block_size]; omega) (by rw [hs.block_size]; omega) hp hc hmb_s hidx_s
  obtain ⟨t1, t2⟩ := read_n_bytes_spec t (s.read_inode j) out c p
    (by rw [hl.block_size]; omega) (by rw [hl.block_size]; omega) hp hc hmb_t hidx_t
  apply Prod.ext
  · rw [s1, t1]
  · funext k
    rw [s2 k, t2 k]
    split_ifs with hk
    · unfold file_byte
      rw [hs.block_size, hl.block_size]
      have hq : (p + k) / B * B < (s.read_inode j).size := by
        have := Nat.div_mul_le_self (p + k) B
        omega
      obtain ⟨n, hn, hn8, _⟩ := hxj.get_reserved _ (hmapped _ hq)
      rw [hget _ (hmapped _ hq), hn, hl.data_block_byte_eq n _ hn8,
        hs.data_block_byte_eq n _ hn8]
      exact hbytes _ n hn _ (Nat.mod_lt _ (by omega))
    · rfl

theorem find_map_pos_ne (fd fd' : Int) (p : Nat) (hne : fd' ≠ fd) :
    ∀ (l : List OpenFile) (f : OpenFile), l.find? (fun g => g.fd == fd') = some f →
      (l.map (fun g => if g.fd == fd then { g with pos := p } else g)).find?
        (fun g => g.fd == fd') = some f := by
  intro l
  induction l with
  | nil => intro f hl; simp at hl
  | cons g l ih =>
    intro f hl
    rw [List.map_cons]
    by_cases hg : g.fd = fd'
    · have hgf : (g.fd == fd) = false := by
        rw [hg]
        exact beq_false_of_ne hne
      have hgt : (g.fd == fd') = true := by rw [hg]; exact beq_self_eq_true _
      rw [List.find?_cons] at hl ⊢
      simp only [hgt] at hl
      simp only [hgf, Bool.false_eq_true, if_false, hgt]
      exact hl
    · have hgt : (g.fd == fd') = false := beq_false_of_ne hg
      rw [List.find?_cons] at hl ⊢
      simp only [hgt] at hl
      have hgt' : ((if g.fd == fd then { g with pos := p } else g).fd == fd') = false := by
        by_cases hgf : (g.fd == fd) = true
        · rw [if_pos hgf]
          exact hgt
        · rw [if_neg hgf]
          exact hgt
      simp only [hgt']
      exact ih f hl

theorem lookup_set_pos_ne (s : FFSys) (fd fd' : Int) (p : Nat) (f : OpenFile)
    (hl : s.lookup fd' = some f) (hne : fd' ≠ fd) : (s.set_pos fd p).lookup fd' = some f :=
  find_map_pos_ne fd fd' (p % 4294967296) hne s.open_files_ f hl

/-! ### What a write leaves alone -/

theorem free_of_mono {s t : FFSys}
    (hm : ∀ n, s.data_block_bitmap_.is_free n = false → t.data_block_bitmap_.is_free n = false)
    (n : Nat) (h : t.data_block_bitmap_.is_free n = true) :
    s.data_block_bitmap_.is_free n = true := by
  by_contra hc
  have := hm n (by simpa using hc)
  rw [this] at h
  exact absurd h (by simp)

theorem Foreign.foreign_refl (s : FFSys) (x : INode) (B : Nat) : s.Foreign s x x B :=
  ⟨fun _ _ _ _ => rfl, fun _ _ _ _ _ _ _ => rfl, fun _ h => h, fun _ _ _ _ h => Or.inl h,
    fun _ _ h => Or.inl h, rfl⟩

theorem Foreign.foreign_trans {s s1 t : FFSys} {x x1 y : INode} {B : Nat}
    (h1 : s.Foreign s1 x x1 B) (h2 : s1.Foreign t x1 y B) : s.Foreign t x y B := by
  refine ⟨?_, ?_, fun n hn => h2.mono n (h1.mono n hn), ?_, ?_, h2.index.trans h1.index⟩
  · intro off a b c
    rw [h2.table off a b (by rw [h1.index]; exact c), h1.table off a b c]
  · intro n o hn ho hres hsl hget
    rw [h2.blocks n o hn ho (h1.mono n hres) ?_ ?_, h1.blocks n o hn ho hres hsl hget]
    · intro S hS hS2 e
      rcases h1.slots S n hS hS2 e with e' | e'
      · exact hsl S hS hS2 e'
      · rw [hres] at e'
        exact absurd e' (by simp)
    · intro L e
      rcases h1.gets L n e with e' | e'
      · exact hget L e'
      · rw [hres] at e'
        exact absurd e' (by simp)
  · intro S n hS hS2 e
    rcases h2.slots S n hS hS2 e with e' | e'
    · exact h1.slots S n hS hS2 e'
    · exact Or.inr (free_of_mono h1.mono n e')
  · intro L n e
    rcases h2.gets L n e with e' | e'
    · exact h1.gets L n e'
    · exact Or.inr (free_of_mono h1.mono n e')

theorem get_of_blocks (s : FFSys) (x y : INode) (h : y.blocks = x.blocks) (L : Nat) :
    s.get_file_block_address y L = s.get_file_block_address x L := by
  rw [get_eq, get_eq, h]

/-- A change of the state that touches no data block and, in the inode table, at most the
record of `x`, and that leaves the addressing table of the inode as it is. -/
theorem Foreign.foreign_of_high {s t : FFSys} {B : Nat} {x y : INode} (h : s.InvX B x)
    (ht : t.Layout B) (hidx : y.index = x.index) (hbl : y.blocks = x.blocks)
    (htab : ∀ off, 3 * B ≤ off → off < 963 * B →
      (off < 3 * B + 120 * x.index ∨ 3 * B + 120 * x.index + 120 ≤ off) →
      t.fs_ off = s.fs_ off)
    (hfs : ∀ off, 963 * B ≤ off → t.fs_ off = s.fs_ off)
    (hmono : ∀ n, s.data_block_bitmap_.is_free n = false →
      t.data_block_bitmap_.is_free n = false) :
    s.Foreign t x y B := by
  refine ⟨htab, ?_, hmono, ?_, ?_, hidx⟩
  · intro n o _ _ _ _ _
    exact hfs _ (by
      have := Nat.mul_le_mul_right B (Nat.zero_le n)
      omega)
  · intro S n _ _ e
    rw [hbl] at e
    exact Or.inl e
  · intro L n e
    rw [get_of_blocks t x y hbl, Layout.get_congr h ht hfs L] at e
    exact Or.inl e

theorem reserve_data_block_mono {s : FFSys} {B : Nat} (hb : s.Basic B) :
    ∀ n, s.data_block_bitmap_.is_free n = false →
      s.reserve_data_block.2.data_block_bitmap_.is_free n = false := by
  intro n hn
  rcases Bitmap.reserve_first_free_spec s.data_block_bitmap_ with
    ⟨hf1, hf2, _⟩ | ⟨a, ha, hfree, _, hr1, hr2⟩
  · rw [reserve_data_block_fail hf1 hf2]
    exact hn
  · rw [hb.dbm_size] at ha
    rw [reserve_data_block_eq hb a ha hfree hr1 hr2]
    show (s.data_block_bitmap_.reserve a).2.is_free n = false
    rw [Bitmap.is_free_reserve _ a n hfree, hn]
    simp

/-- What `set_file_block_address` leaves alone, and which addresses the inode holds
afterwards. -/
theorem set_foreign {s : FFSys} {B : Nat} (hb : s.Basic B) {x : INode} (hx : x.Slots B)
    (hrs : ∀ S (n : Nat), 15 ≤ S → S < 20 → x.blocks.getD S 0 = (n : Int) →
      s.data_block_bitmap_.is_free n = false)
    (L : Nat) (V : Int) (h0 : -2147483648 ≤ V) (h1 : V < 2147483648)
    (r : Bool × INode × FFSys) (hr : s.set_file_block_address x L V = r) :
    (∀ off, 3 * B ≤ off → off < 963 * B →
        (off < 3 * B + 120 * x.index ∨ 3 * B + 120 * x.index + 120 ≤ off) →
        r.2.2.fs_ off = s.fs_ off)
      ∧ (∀ n o : Nat, n < 8 * B → o < B → s.data_block_bitmap_.is_free n = false →
          (∀ S, 15 ≤ S → S < 20 → x.blocks.getD S 0 ≠ (n : Int)) →
          r.2.2.fs_ (963 * B + n * B + o) = s.fs_ (963 * B + n * B + o))
      ∧ (∀ n, s.data_block_bitmap_.is_free n = false →
          r.2.2.data_block_bitmap_.is_free n = false)
      ∧ (∀ S (n : Nat), 15 ≤ S → S < 20 → r.2.1.blocks.getD S 0 = (n : Int) →
          x.blocks.getD S 0 = (n : Int) ∨ s.data_block_bitmap_.is_free n = true)
      ∧ (∀ L' (n : Nat), r.2.2.get_file_block_address r.2.1 L' = (n : Int) →
          (L' = L ∧ (n : Int) = V) ∨ s.get_file_block_address x L' = (n : Int))
      ∧ r.2.1.index = x.index := by
  have hs := hb.layout
  have hB := hs.hB
  have hB8 := hs.hB8
  have hcap := hs.address_block_capacity
  by_cases hm : L < 15 ∨ (15 ≤ L ∧ (L - 15) / (B / 4) + 15 < 20
      ∧ x.blocks.getD ((L - 15) / (B / 4) + 15) 0 ≠ -1)
  · obtain ⟨_, _, g1, g2, g3, g4, g5, _, _, _, _, g11, g12⟩ :=
      set_mapped hs hx L V h0 h1 hm r hr
    refine ⟨fun off _ ho2 hout => g11 off ho2 hout, fun n o _ ho _ hsl => g12 n o ho hsl,
      fun n hn => by rw [g5]; exact hn, fun S n hS _ e => Or.inl (by rw [← g3 S hS]; exact e),
      ?_, g4.1⟩
    intro L' n e
    by_cases hL : L' = L
    · left
      rw [hL, g1] at e
      exact ⟨hL, e.symm⟩
    · right
      rw [← g2 L' hL]
      exact e
  · have h15 : 15 ≤ L := by
      by_contra hc
      exact hm (Or.inl (by omega))
    by_cases hS2 : (L - 15) / (B / 4) + 15 < 20
    · have hslot : x.blocks.getD ((L - 15) / (B / 4) + 15) 0 = -1 := by
        by_contra hc
        exact hm (Or.inr ⟨h15, hS2, hc⟩)
      rcases set_new hb hx hrs L V h0 h1 h15 hS2 hslot r hr with
        ⟨_, _, e3, e4⟩ | ⟨_, _, a, ha, a2, _, a4, _, a6, a7, a8, _, a10, _, a12, a13, a14⟩
      · rw [e3, e4]
        exact ⟨fun _ _ _ _ => rfl, fun _ _ _ _ _ _ => rfl, fun _ hn => hn,
          fun _ _ _ _ e => Or.inl e, fun _ _ e => Or.inr e, rfl⟩
      · refine ⟨a13, ?_, ?_, ?_, ?_, a8.1⟩
        · intro n o hn ho hres _
          have hna : n ≠ a := by
            intro e
            rw [e, a2] at hres
            exact absurd hres (by simp)
          have := block_disjoint B n a o 0 hna ho
          exact a14 _ (by
            have := Nat.mul_le_mul_right B (Nat.zero_le n)
            omega) (by omega)
        · intro n hn
          rw [a4 n, hn]
          simp
        · intro S n hS hS2' e
          by_cases hSS : S = (L - 15) / (B / 4) + 15
          · right
            rw [hSS, a6] at e
            have : n = a := by omega
            rw [this]
            exact a2
          · left
            rw [← a7 S hSS]
            exact e
        · intro L' n e
          by_cases hL : L' = L
          · left
            rw [hL, a10] at e
            exact ⟨hL, e.symm⟩
          · right
            rw [← a12 L' hL]
            exact e
    · subst hr
      rw [set_eq_range s x L V (by omega) (by rw [hcap]; omega)]
      exact ⟨fun _ _ _ _ => rfl, fun _ _ _ _ _ _ => rfl, fun _ hn => hn,
        fun _ _ _ _ e => Or.inl e, fun _ _ e => Or.inr e, rfl⟩

/-- What `reserve_file_block` leaves alone. -/
theorem reserve_file_block_foreign {s : FFSys} {B : Nat} {x : INode} (h : s.InvX B x)
    (L : Nat) (r : Int × INode × FFSys) (hr : s.reserve_file_block x L = r) :
    s.Foreign r.2.2 x r.2.1 B := by
  have hs := h.basic.layout
  have hB := hs.hB
  have hB8 := hs.hB8
  subst hr
  obtain ⟨hx1, hfr, _, hcase⟩ := h.reserve_data_block
  have hs1 := hx1.basic.layout
  have hmono := reserve_data_block_mono h.basic
  have F1 : s.Foreign s.reserve_data_block.2 x x B :=
    Foreign.foreign_of_high h hs1 rfl rfl (fun off ho _ _ => hfr.fs_high off ho)
      (fun off ho => hfr.fs_high off (by omega)) hmono
  rw [reserve_file_block_eq]
  rcases hcase with hfail | ⟨a, ha1, ha2, ha3, _, _, _⟩
  · rw [if_pos hfail]
    exact F1
  · have hne : ¬ s.reserve_data_block.1 = -1 := by rw [ha1]; omega
    rw [if_neg hne]
    have hraw := set_foreign hx1.basic h.slots.1 (fun S n a b c => (hx1.slots.2 S n a b c).2)
      L s.reserve_data_block.1 (by rw [ha1]; omega) (by rw [ha1]; omega) _ rfl
    have key : s.Foreign
        (s.reserve_data_block.2.set_file_block_address x L s.reserve_data_block.1).2.2 x
        (s.reserve_data_block.2.set_file_block_address x L s.reserve_data_block.1).2.1 B := by
      obtain ⟨r1, r2, r3, r4, r5, r6⟩ := hraw
      refine ⟨?_, ?_, fun n hn => r3 n (hmono n hn), ?_, ?_, r6⟩
      · intro off ho ho2 hout
        rw [r1 off ho ho2 hout]
        exact hfr.fs_high off ho
      · intro n o hn ho hres hsl _
        rw [r2 n o hn ho (hmono n hres) hsl]
        exact hfr.fs_high _ (by
          have := Nat.mul_le_mul_right B (Nat.zero_le n)
          omega)
      · intro S n hS hS2 e
        rcases r4 S n hS hS2 e with e' | e'
        · exact Or.inl e'
        · exact Or.inr (free_of_mono hmono n e')
      · intro L' n e
        rcases r5 L' n e with ⟨_, e'⟩ | e'
        · right
          have : n = a := by rw [ha1] at e'; omega
          rw [this]
          exact ha3
        · left
          rw [← Layout.get_congr h hs1 (fun off ho => hfr.fs_high off (by omega)) L']
          exact e'
    split_ifs
    · exact key
    · exact key

/-- What the write of a chunk into a data block of the file leaves alone. -/
theorem write_chunk_foreign {s : FFSys} {B : Nat} {x : INode} (h : s.InvX B x)
    (L a off tw : Nat) (src : Mem) (ha : s.get_file_block_address x L = (a : Int))
    (hoc : off + tw ≤ B) :
    s.Foreign (s.write_at (963 * B + a * B + off) src tw) x x B := by
  have hs := h.basic.layout
  have hB := hs.hB
  have hne : s.get_file_block_address x L ≠ -1 := by rw [ha]; omega
  obtain ⟨m, hm1, hm8, _⟩ := h.get_reserved L hne
  have hma : m = a := by rw [ha] at hm1; omega
  subst hma
  have ht : (s.write_at (963 * B + m * B + off) src tw).Layout B := hs.of_sb rfl
  have hmB := Nat.mul_le_mul_right B (Nat.zero_le m)
  refine ⟨?_, ?_, fun _ hn => hn, fun _ _ _ _ e => Or.inl e, ?_, rfl⟩
  · intro o _ ho2 _
    exact fs_write_out _ _ _ _ _ (Or.inl (by omega))
  · intro n o _ ho _ _ hget
    apply fs_write_out
    have hnm : n ≠ m := by
      intro e
      exact hget L (by rw [ha, e])
    have := block_disjoint B n m o off hnm ho
    omega
  · intro L' n e
    left
    rw [← e]
    symm
    apply get_congr_slots hs ht
    · intro _; rfl
    · intro h15 hS2
      refine ⟨rfl, fun hne' => ?_⟩
      obtain ⟨b, e', hb8⟩ := h.slots.1.valid _ (Nat.le_add_left 15 _) hS2 hne'
      rw [e']
      apply Layout.address_entry_congr hs ht b _ hb8
      intro k hk
      apply fs_write_out
      have hbm : b ≠ m := by
        intro e2
        have := h.get_not_address_block L hne x.index _ h.live_x (Nat.le_add_left 15 _) hS2
        rw [view_with_same, e', ha, e2] at this
        exact this rfl
      have hT : (L' - 15) % (B / 4) < B / 4 := Nat.mod_lt _ (by omega)
      have hd4 := Nat.div_mul_le_self B 4
      have := block_disjoint B b m ((L' - 15) % (B / 4) * 4 + k) off hbm (by omega)
      omega

/-- What the write loop leaves alone. -/
theorem write_loop_foreign (buffer : Mem) (hbuf : ∀ k, buffer k < 256) {B : Nat} :
    ∀ (fuel : Nat) (s : FFSys) (x : INode) (left written pos cur : Nat), s.InvX B x →
      s.Foreign (write_loop buffer fuel s x left written pos cur).2.2.2 x
        (write_loop buffer fuel s x left written pos cur).2.2.1 B := by
  intro fuel
  induction fuel with
  | zero =>
    intro s x left written pos cur h
    rw [write_loop]
    exact Foreign.foreign_refl s x B
  | succ fuel ih =>
    intro s x left written pos cur h
    by_cases hleft : 0 < left
    · have hs := h.basic.layout
      have hB := hs.hB
      have key : ∀ (r : Int × INode × FFSys), r.2.2.InvX B r.2.1 → s.Foreign r.2.2 x r.2.1 B →
          (r.1 ≠ -1 → r.2.2.get_file_block_address r.2.1 cur = r.1) →
          s.Foreign
            (if r.1 = -1 then (written, pos, r.2.1, r.2.2)
              else write_loop buffer fuel
                (r.2.2.write_block (u32 (r.2.2.sb_.data_blocks_start_i + r.1))
                  (buffer.shift written)
                  (min (r.2.2.sb_.block_size - pos % r.2.2.sb_.block_size) left)
                  (pos % r.2.2.sb_.block_size))
                r.2.1 (left - min (r.2.2.sb_.block_size - pos % r.2.2.sb_.block_size) left)
                (written + min (r.2.2.sb_.block_size - pos % r.2.2.sb_.block_size) left)
                (pos + min (r.2.2.sb_.block_size - pos % r.2.2.sb_.block_size) left)
                ((cur + 1) % 4294967296)).2.2.2 x
            (if r.1 = -1 then (written, pos, r.2.1, r.2.2)
              else write_loop buffer fuel
                (r.2.2.write_block (u32 (r.2.2.sb_.data_blocks_start_i + r.1))
                  (buffer.shift written)
                  (min (r.2.2.sb_.block_size - pos % r.2.2.sb_.block_size) left)
                  (pos % r.2.2.sb_.block_size))
                r.2.1 (left - min (r.2.2.sb_.block_size - pos % r.2.2.sb_.block_size) left)
                (written + min (r.2.2.sb_.block_size - pos % r.2.2.sb_.block_size) left)
                (pos + min (r.2.2.sb_.block_size - pos % r.2.2.sb_.block_size) left)
                ((cur + 1) % 4294967296)).2.2.1 B := by
        intro r h1 hF hget
        by_cases hr : r.1 = -1
        · rw [if_pos hr]
          exact hF
        · rw [if_neg hr]
          have hs1 := h1.basic.layout
          have hg := hget hr
          obtain ⟨a, ha1, _, _⟩ := h1.get_reserved cur (by rw [hg]; exact hr)
          rw [hg] at ha1
          rw [hs1.block_size, ha1]
          rw [ha1] at hg
          have hoff := Nat.mod_lt pos (by omega : 0 < B)
          obtain ⟨e1, hx2, _, _, _⟩ := h1.write_chunk cur a (pos % B)
            (min (B - pos % B) left) (buffer.shift written) hg (by omega) (fun k _ => hbuf _)
          rw [e1]
          have F2 := write_chunk_foreign h1 cur a (pos % B) (min (B - pos % B) left)
            (buffer.shift written) hg (by omega)
          exact (hF.foreign_trans F2).foreign_trans (ih _ _ _ _ _ _ hx2)
      rw [write_loop_succ buffer fuel s x left written pos cur hleft _ rfl]
      by_cases hg : s.get_file_block_address x cur = -1
      · rw [if_pos hg]
        exact key _ (h.reserve_file_block cur).1 (reserve_file_block_foreign h cur _ rfl)
          (h.reserve_file_block cur).2
      · rw [if_neg hg]
        exact key (s.get_file_block_address x cur, x, s) h (Foreign.foreign_refl s x B)
          (fun _ => rfl)
    · have h0 : left = 0 := by omega
      subst h0
      rw [write_loop]
      simp only [gt_iff_lt, Nat.lt_irrefl, not_false_eq_true, if_true]
      exact Foreign.foreign_refl s x B

/-- What `write_n_bytes_to_file` leaves alone. -/
theorem write_n_bytes_foreign (buffer : Mem) (hbuf : ∀ k, buffer k < 256) {s : FFSys} {B : Nat}
    {x : INode} (h : s.InvX B x) (count pos : Nat) (hpos : pos < 4294967296) :
    s.Foreign (s.write_n_bytes_to_file x buffer count pos).2.2 x
      (s.write_n_bytes_to_file x buffer count pos).2.1 B := by
  have hs := h.basic.layout
  have hB := hs.hB
  have hdiv : pos / B < 4294967296 := lt_of_le_of_lt (Nat.div_le_self _ _) hpos
  unfold write_n_bytes_to_file
  simp only
  rw [hs.block_size, Nat.mod_eq_of_lt hdiv]
  have W := write_loop_spec buffer hbuf count s x count 0 pos (pos / B) h (Nat.le_refl _)
    (fun _ => rfl)
  have F := write_loop_foreign buffer hbuf count s x count 0 pos (pos / B) h
  generalize write_loop buffer count s x count 0 pos (pos / B) = r at W F ⊢
  obtain ⟨w, p, y, t⟩ := r
  simp only at F ⊢
  have hy : t.InvX B y := W.inv
  have ht := hy.basic.layout
  have hi : y.index < 8 * B := ht.live_lt hy.live_x
  refine F.foreign_trans (Foreign.foreign_of_high hy (ht.of_sb rfl) rfl rfl ?_ ?_ (fun _ hn => hn))
  · intro off _ _ hout
    rw [ht.write_inode_eq _ (show ({ y with size := max p y.size } : INode).index < 8 * B from hi)]
    rcases hout with hout | hout
    · exact fs_write_out _ _ _ _ _ (Or.inl hout)
    · exact fs_write_out _ _ _ _ _ (Or.inr hout)
  · intro off ho
    exact write_inode_fs_high ht { y with size := max p y.size } hi off ho

/-- A write to the file of inode `i` leaves every entry of the addressing of another live
inode `j` as it is, mapped or not, and the last block of the inode table as well. -/
theorem Inv.write_foreign_file {s : FFSys} {B : Nat} (h : s.Inv B) (i j : Nat) (hi : s.live i)
    (hj : s.live j) (hne : j ≠ i) (hiB : i < B) (buffer : Mem) (hbuf : ∀ k, buffer k < 256)
    (count pos : Nat) (hpos : pos < 4294967296)
    (t : FFSys) (ht : (s.write_n_bytes_to_file (s.read_inode i) buffer count pos).2.2 = t) :
    (∀ L, t.get_file_block_address (s.read_inode j) L
        = s.get_file_block_address (s.read_inode j) L)
      ∧ ∀ off, 962 * B ≤ off → off < 963 * B → t.fs_ off = s.fs_ off := by
  have hs := h.basic.layout
  have hB := hs.hB
  have hx := InvX.of_inv h i hi
  have hxj := InvX.of_inv h j hj
  have hidx : (s.read_inode i).index = i := h.index i hi
  have D := write_n_bytes_done buffer hbuf hx count pos hpos
  have F := write_n_bytes_foreign buffer hbuf hx count pos hpos
  generalize s.write_n_bytes_to_file (s.read_inode i) buffer count pos = res at D F ht
  subst ht
  have hl : res.2.2.Layout B := D.inv.basic.layout
  refine ⟨fun L => ?_, fun off ho ho2 => ?_⟩
  · apply get_congr_slots hs hl
    · intro _; rfl
    · intro h15 hS2
      refine ⟨rfl, fun hne' => ?_⟩
      obtain ⟨b, e', hb8⟩ := hxj.slots.1.valid _ (Nat.le_add_left 15 _) hS2 hne'
      have hres := (hxj.slots.2 _ b (Nat.le_add_left 15 _) hS2 e').2
      rw [e']
      apply Layout.address_entry_congr hs hl b _ hb8
      intro k hk
      have hT : (L - 15) % (B / 4) < B / 4 :=
        Nat.mod_lt _ (Nat.div_pos (by omega) (by omega))
      have hd4 := Nat.div_mul_le_self B 4
      rw [Nat.add_assoc]
      apply F.blocks b _ hb8 (by omega) hres
      · intro S hS hS3 e
        have hok1 : Ref.ok s (s.view_with (s.read_inode i).index (s.read_inode i).blocks)
            ⟨i, S, none⟩ := ⟨hi, hS3, trivial⟩
        have hok2 : Ref.ok s (s.view_with (s.read_inode i).index (s.read_inode i).blocks)
            ⟨j, (L - 15) / (B / 4) + 15, none⟩ := ⟨hj, hS2, trivial⟩
        have hv1 : Ref.val s (s.view_with (s.read_inode i).index (s.read_inode i).blocks)
            ⟨i, S, none⟩ = (b : Int) := by
          show (s.view_with (s.read_inode i).index (s.read_inode i).blocks i).getD S 0 = _
          rw [hidx, view_with_same]
          exact e
        have hv2 : Ref.val s (s.view_with (s.read_inode i).index (s.read_inode i).blocks)
            ⟨j, (L - 15) / (B / 4) + 15, none⟩ = (b : Int) := by
          show (s.view_with (s.read_inode i).index (s.read_inode i).blocks j).getD _ 0 = _
          rw [hidx, view_with_ne _ _ _ _ hne]
          exact e'
        have := hx.refs.inj _ _ hok1 hok2 (by rw [hv1]; omega) (by rw [hv1, hv2])
        exact hne (congrArg Ref.ino this).symm
      · intro L' e
        exact (h.blocks_distinct i j hi hj).2 L' _ (Nat.le_add_left 15 _) hS2
          (by rw [e]; omega) (by rw [e, e'])
  · exact F.table off (by omega) ho2 (Or.inr (by rw [hidx]; omega))

theorem read_into_congr (d e : Disk) (pos : Nat) (buffer : Mem) (start n : Nat)
    (h : ∀ k, k < n → e (pos + k) = d (pos + k)) :
    read_into e pos buffer start n = read_into d pos buffer start n := by
  funext k
  unfold read_into
  split_ifs with hk
  · exact h _ (by omega)
  · rfl

/-- The read loop returns the same in two states that agree on the addressing of the
inode and on the bytes of its mapped blocks. -/
theorem read_loop_congr {s t : FFSys} {B : Nat} (hs : s.Layout B) (ht : t.Layout B) (x : INode)
    (hres : ∀ L, s.get_file_block_address x L ≠ -1 →
      ∃ n : Nat, s.get_file_block_address x L = (n : Int) ∧ n < 8 * B)
    (hg : ∀ L, t.get_file_block_address x L = s.get_file_block_address x L)
    (hb : ∀ L (n : Nat), s.get_file_block_address x L = (n : Int) → ∀ o, o < B →
      t.fs_ (963 * B + n * B + o) = s.fs_ (963 * B + n * B + o)) (c : Nat) :
    ∀ (fuel : Nat) (buf : Mem) (rc bi : Nat),
      t.read_loop x c fuel buf rc bi = s.read_loop x c fuel buf rc bi := by
  intro fuel
  induction fuel with
  | zero => intro buf rc bi; rfl
  | succ fuel ih =>
    intro buf rc bi
    rw [read_loop, read_loop]
    by_cases hlt : rc < c
    · rw [if_neg (not_not.mpr hlt), if_neg (not_not.mpr hlt)]
      simp only [hg]
      by_cases hne : s.get_file_block_address x bi = -1
      · simp only [hne, if_true]
      · simp only [hne, if_false]
        obtain ⟨n, hn, hn8⟩ := hres bi hne
        rw [hn, ht.data_pos n 0 hn8, hs.data_pos n 0 hn8, ht.block_size, hs.block_size, ih]
        have e := read_into_congr s.fs_ t.fs_ (963 * B + n * B + 0) buf rc (min B (c - rc))
          (fun k hk => by
            rw [Nat.add_zero]
            exact hb bi n hn k (lt_of_lt_of_le hk (Nat.min_le_left _ _)))
        rw [e]
    · rw [if_pos hlt, if_pos hlt]

/-- The read path returns the same in two states that agree on the addressing of the
inode, on the bytes of its mapped blocks and on the block before the first data block. -/
theorem read_n_bytes_congr {s t : FFSys} {B : Nat} (hs : s.Layout B) (ht : t.Layout B)
    (x : INode)
    (hres : ∀ L, s.get_file_block_address x L ≠ -1 →
      ∃ n : Nat, s.get_file_block_address x L = (n : Int) ∧ n < 8 * B)
    (hg : ∀ L, t.get_file_block_address x L = s.get_file_block_address x L)
    (hb : ∀ L (n : Nat), s.get_file_block_address x L = (n : Int) → ∀ o, o < B →
      t.fs_ (963 * B + n * B + o) = s.fs_ (963 * B + n * B + o))
    (htab : ∀ off, 962 * B ≤ off → off < 963 * B → t.fs_ off = s.fs_ off)
    (out : Mem) (c p : Nat) :
    t.read_n_bytes_from_file x out c p = s.read_n_bytes_from_file x out c p := by
  have hB := hs.hB
  have hB8 := hs.hB8
  unfold read_n_bytes_from_file
  simp only [hg, ht.block_size, hs.block_size, read_loop_congr hs ht x hres hg hb,
    ht.data_blocks_start_i, hs.data_blocks_start_i]
  by_cases hl : p % B = 0
  · rw [if_neg (not_not.mpr hl), if_neg (not_not.mpr hl)]
  · rw [if_pos hl, if_pos hl]
    generalize (if (p + c) % 18446744073709551616 ≥ x.size then u64 ((x.size : Int) - p)
      else c) = c1
    have hml := Nat.mod_lt p (by omega : 0 < B)
    have hmin := Nat.min_le_left (B - p % B) c1
    have e : read_into t.fs_
        (u64 ((((963 : Nat) : Int) + s.get_file_block_address x (p / B % 4294967296))
          * (B : Int) + ((p % B : Nat) : Int))) out 0 (min (B - p % B) c1)
        = read_into s.fs_
          (u64 ((((963 : Nat) : Int) + s.get_file_block_address x (p / B % 4294967296))
            * (B : Int) + ((p % B : Nat) : Int))) out 0 (min (B - p % B) c1) := by
      apply read_into_congr
      intro k hk
      by_cases hne : s.get_file_block_address x (p / B % 4294967296) = -1
      · rw [hne]
        have hz := u64_of_nonneg_lt ((((963 : Nat) : Int) + -1) * (B : Int)
          + ((p % B : Nat) : Int)) (by omega) (by omega)
        have hz2 : u64 ((((963 : Nat) : Int) + -1) * (B : Int) + ((p % B : Nat) : Int))
            = 962 * B + p % B := by omega
        rw [hz2]
        exact htab _ (by omega) (by omega)
      · obtain ⟨n, hn, hn8⟩ := hres _ hne
        rw [hn]
        have hlt := hs.block_lt n hn8
        have hc : (((963 : Nat) : Int) + (n : Int)) * (B : Int) + ((p % B : Nat) : Int)
            = (((963 + n) * B + p % B : Nat) : Int) := by push_cast; rfl
        have hz := u64_of_nonneg_lt ((((963 + n) * B + p % B : Nat) : Int)) (by omega)
          (by omega)
        have hz2 : u64 ((((963 + n) * B + p % B : Nat) : Int)) = (963 + n) * B + p % B := by
          omega
        rw [hc, hz2, Nat.add_mul, Nat.add_assoc]
        exact hb _ n hn _ (by omega)
    rw [e]

/-- A write to the file of inode `i` does not change what any read of another live inode
`j` returns, when `i` lies below the block size: whatever the position and the count. -/
theorem Inv.read_unchanged {s : FFSys} {B : Nat} (h : s.Inv B) (i j : Nat) (hi : s.live i)
    (hj : s.live j) (hne : j ≠ i) (hiB : i < B) (buffer : Mem) (hbuf : ∀ k, buffer k < 256)
    (count pos : Nat) (hpos : pos < 4294967296)
    (t : FFSys) (ht : (s.write_n_bytes_to_file (s.read_inode i) buffer count pos).2.2 = t)
    (out : Mem) (c p : Nat) :
    t.read_n_bytes_from_file (t.read_inode j) out c p
      = s.read_n_bytes_from_file (s.read_inode j) out c p := by
  obtain ⟨hti, _, hrd, _, hbytes⟩ :=
    h.write_other_file i j hi hj hne buffer hbuf count pos hpos t ht
  obtain ⟨hg, htab⟩ := h.write_foreign_file i j hi hj hne hiB buffer hbuf count pos hpos t ht
  have hxj := InvX.of_inv h j hj
  rw [hrd]
  refine read_n_bytes_congr h.basic.layout hti.basic.layout _ (fun L hL => ?_) hg hbytes htab
    out c p
  obtain ⟨n, hn, hn8, _⟩ := hxj.get_reserved L hL
  exact ⟨n, hn, hn8⟩

/-! ### Live inodes have a low index -/

theorem LowLive.low_of_layout {s t : FFSys} {B : Nat} (h : s.LowLive B) (hs : s.Layout B)
    (ht : t.Layout B) (hib : t.inode_bitmap_ = s.inode_bitmap_) : t.LowLive B :=
  fun j hj => h j ((hs.live_congr ht hib j).mp hj)

theorem LowLive.low_open_file {s : FFSys} {B : Nat} (h : s.Inv B) (hb : s.LowLive B) (j : Nat)
    (hj : s.live j) (flags : Nat) : (s.open_file (s.read_inode j) flags).2.LowLive B := by
  have hs := h.basic.layout
  unfold FFSys.open_file
  simp only
  by_cases ht : flags &&& TRUNCATE ≠ 0
  · rw [if_pos ht]
    obtain ⟨h1, _, _, _, _, h6⟩ := truncate_facts h j hj
    generalize s.free_unused_file_blocks { s.read_inode j with size := 0 } = p at *
    exact hb.low_of_layout hs (h1.basic.layout.of_sb rfl) h6
  · rw [if_neg ht]
    exact hb.low_of_layout hs (hs.of_sb rfl) rfl

theorem LowLive.low_create_file {s : FFSys} {B : Nat} (h : s.Inv B) (hb : s.LowLive B)
    (name : List Nat) (hname : ∀ c, c ∈ name → c < 256) (now : Nat) :
    (s.create_file name now).2.LowLive B := by
  have hs := h.basic.layout
  have hd := h.create_file name hname now
  generalize s.create_file name now = r at hd ⊢
  obtain ⟨o, t⟩ := r
  have ht := hd.inv.basic.layout
  rcases hd.outcome with ⟨_, e2, _⟩ | ⟨a, file, ha, _, _, _, _, _, _, _, e5, _⟩
  · simp only at e2
    exact hb.low_of_layout hs ht e2
  · simp only at e5
    intro i hi
    by_cases e : i = a
    · rw [e]; exact ha
    · apply hb i
      have hi2 : t.live i := hi
      rw [ht.live_iff] at hi2
      rw [hs.live_iff]
      refine ⟨hi2.1, ?_⟩
      have := hi2.2
      rw [e5 i] at this
      simpa [e] using this

theorem LowLive.low_open {s : FFSys} {B : Nat} (h : s.Inv B) (hb : s.LowLive B)
    (name : List Nat) (hname : ∀ c, c ∈ name → c < 256) (flags now : Nat) :
    (s.open name flags now).2.LowLive B := by
  unfold FFSys.open
  cases hf : s.find_file name with
  | some file =>
    obtain ⟨j, hj, e1, _, _⟩ := find_file_some h name file hf
    simp only
    rw [e1]
    exact LowLive.low_open_file h hb j hj flags
  | none =>
    simp only
    split_ifs with hc
    · exact hb.low_of_layout h.basic.layout (h.basic.layout.of_sb rfl) rfl
    · have h1 := LowLive.low_create_file h hb name hname now
      have hd := h.create_file name hname now
      generalize s.create_file name now = r at h1 hd
      obtain ⟨o, s1⟩ := r
      cases o with
      | none => exact h1
      | some file =>
        simp only
        rcases hd.outcome with ⟨e, _⟩ | ⟨a, file2, ha, _, _, e1, e2, _, _, e4, e5, _⟩
        · exact absurd e (by simp)
        · simp only at e1 e4 e5 h1
          have : file = file2 := by simpa using e1
          subst this
          have hl : s1.live a := by
            rw [hd.inv.basic.layout.live_iff]
            have := h.basic.layout.hB
            refine ⟨by omega, ?_⟩
            rw [e5 a]; simp
          rw [← e4]
          exact LowLive.low_open_file hd.inv h1 a hl flags

/-- In a state reached from a format, every live inode has an index below the block size:
the scan for a free inode stops at the byte count of the bitmap. -/
theorem Reachable.low_live {B : Nat} {s : FFSys} (h : Reachable B s) (hB8 : 8 * B < 65536) :
    s.LowLive B := by
  induction h with
  | after_format hB =>
    have hi := formatted_inv B hB hB8
    have hibm : (formatted B).inode_bitmap_ = Bitmap.init B := by
      rw [formatted_eq B hB hB8]
    intro j hj
    rw [hi.basic.layout.live_iff, hibm, Bitmap.is_free_init] at hj
    have h2 := hj.2
    simp only [decide_eq_false_iff_not] at h2
    exact absurd hj.1 h2
  | after_open s name flags now hr hname ih =>
    exact LowLive.low_open (hr.inv hB8) ih name hname flags now
  | after_read s fd buffer count hr ih =>
    have hs := (hr.inv hB8).basic.layout
    unfold FFSys.read
    cases s.lookup fd with
    | none => exact ih.low_of_layout hs (hs.of_sb rfl) rfl
    | some f => exact ih.low_of_layout hs (hs.of_sb rfl) rfl
  | after_write s fd buffer count hr hbuf ih =>
    have hs := (hr.inv hB8).basic.layout
    unfold FFSys.write
    cases hl : s.lookup fd with
    | none => exact ih.low_of_layout hs (hs.of_sb rfl) rfl
    | some f =>
      obtain ⟨hf, _⟩ := lookup_mem hl
      have hi := hr.inv hB8
      have D := write_n_bytes_done buffer hbuf (InvX.of_inv hi f.inode (hi.handles f hf)) count
        f.pos (hi.pos_lt f hf)
      exact ih.low_of_layout hs (D.inv.basic.layout.of_sb rfl) D.ibm
  | after_close s fd hr ih =>
    have hs := (hr.inv hB8).basic.layout
    unfold FFSys.close
    cases s.lookup fd with
    | none => exact ih.low_of_layout hs (hs.of_sb rfl) rfl
    | some f => exact ih.low_of_layout hs (hs.of_sb rfl) rfl
  | after_seek s fd pos hr ih =>
    have hs := (hr.inv hB8).basic.layout
    unfold FFSys.seek
    cases s.lookup fd with
    | none => exact ih.low_of_layout hs (hs.of_sb rfl) rfl
    | some f =>
      simp only
      split_ifs <;> exact ih.low_of_layout hs (hs.of_sb rfl) rfl

/-! ### Address resolution with the `int` variables of the source -/

end FFSys
end ffsys


namespace ffsys

/-! ## Further claims: allocation, addressing, truncation, format and isolation -/

/-! ### Shared facts about further scenarios -/

theorem scenario_64_created_reachable : FFSys.Reachable 64 scenario_64_created :=
  FFSys.Reachable.after_open _ name_a CREATE 0 (FFSys.Reachable.after_format (by decide))
    (by decide)

theorem scenario_64_written_reachable : FFSys.Reachable 64 scenario_64_written :=
  FFSys.Reachable.after_write _ 0 pattern_buffer 961 scenario_64_created_reachable
    (fun k => Nat.mod_lt k (by decide))

theorem scenario_64_fifteen_reachable : FFSys.Reachable 64 scenario_64_fifteen :=
  FFSys.Reachable.after_write _ 0 pattern_buffer 960 scenario_64_created_reachable
    (fun k => Nat.mod_lt k (by decide))

set_option maxRecDepth 1000000 in
theorem scenario_64_fifteen_live : scenario_64_fifteen.live 0 := by
  unfold FFSys.live
  decide

theorem scenario_pair_written_reachable : FFSys.Reachable 24 scenario_pair_written :=
  FFSys.Reachable.after_write _ 1 pattern_buffer 504
    (FFSys.Reachable.after_open _ name_a CREATE 0
      (FFSys.Reachable.after_open _ name_b CREATE 0
        (FFSys.Reachable.after_format (by decide)) (by decide))
      (by decide))
    (fun k => Nat.mod_lt k (by decide))

set_option maxRecDepth 1000000 in
theorem scenario_pair_written_live : scenario_pair_written.live 1 := by
  unfold FFSys.live
  decide

set_option maxRecDepth 1000000 in
theorem scenario_pair_written_lookup : scenario_pair_written.lookup 0 = some ⟨0, 0, 0⟩ := by
  decide

theorem scenario_ten_reachable : FFSys.Reachable 24 scenario_ten :=
  FFSys.Reachable.after_write _ 0 pattern_buffer 240 scenario_created_reachable
    (fun k => Nat.mod_lt k (by decide))

set_option maxRecDepth 1000000 in
theorem scenario_ten_live : scenario_ten.live 0 := by
  unfold FFSys.live
  decide

theorem scenario_sixteen_reachable : FFSys.Reachable 24 scenario_sixteen :=
  FFSys.Reachable.after_write _ 0 pattern_buffer 384 scenario_created_reachable
    (fun k => Nat.mod_lt k (by decide))

/-- C21 (the scan covers `size_` bit indices, not `8 * size_`): for every bitmap,
`reserve_first_free` either returns `-1` and changes nothing, and then the bits
`0 .. size_ - 1` are reserved, or it returns and reserves the smallest free index among
`0 .. size_ - 1`.  For the bitmap of one byte whose bit 0 is reserved (the byte is `254`),
it returns `-1` and changes nothing although the bits 1 to 7 are free; for the bitmap of
two bytes whose bits 0 and 1 are reserved, it returns `-1` although bit 2 is free. -/
theorem C21_first_free_scan_stops_at_byte_count :
    (∀ b : Bitmap,
      (b.reserve_first_free.1 = -1 ∧ b.reserve_first_free.2 = b
          ∧ ∀ j, j < b.size_ → b.is_free j = false)
      ∨ ∃ a : Nat, a < b.size_ ∧ b.is_free a = true ∧ (∀ j, j < a → b.is_free j = false)
          ∧ b.reserve_first_free.1 = (a : Int)
          ∧ b.reserve_first_free.2 = (b.reserve a).2)
      ∧ ((Bitmap.init 1).reserve 0).2.bm_ = [254]
      ∧ ((Bitmap.init 1).reserve 0).2.size_ = 1
      ∧ (∀ i, i < 8 → (((Bitmap.init 1).reserve 0).2.is_free i = true ↔ 1 ≤ i))
      ∧ ((Bitmap.init 1).reserve 0).2.reserve_first_free
          = (-1, ((Bitmap.init 1).reserve 0).2)
      ∧ (((Bitmap.init 2).reserve 0).2.reserve 1).2.is_free 2 = true
      ∧ (((Bitmap.init 2).reserve 0).2.reserve 1).2.reserve_first_free.1 = -1 :=
  ⟨Bitmap.reserve_first_free_spec, by decide, by decide, by decide, by decide, by decide,
    by decide⟩

set_option maxRecDepth 1000000 in
/-- C22 (evaluation at block size 24): after `format(24)` and `open("a", CREATE)`,
`reserve_data_block` returns the lowest free index 1 and the counter goes from 191 to 190,
and `free_data_block(1)` restores bitmap and counter.  After a write of 528 bytes, which
succeeds, `n_free_data_blocks` is 168 and 168 bits of the bitmap are free (bit 24 is one
of them), yet `reserve_data_block` returns `-1` with `NO_FREE_DATA_BLOCKS` and leaves
bitmap and counter as they are; the next write of one byte returns 0.  The scan of
`Bitmap::reserve_first_free` ends at index `size_ = 24`. -/
theorem C22_allocator_exhausted_with_nonzero_counter :
    scenario_created.sb_.n_free_data_blocks = 191
      ∧ scenario_created.reserve_data_block.1 = 1
      ∧ scenario_created.data_block_bitmap_.is_free 0 = false
      ∧ scenario_created.reserve_data_block.2.sb_.n_free_data_blocks = 190
      ∧ scenario_created.reserve_data_block.2.data_block_bitmap_.is_free 1 = false
      ∧ (scenario_created.reserve_data_block.2.free_data_block 1).1 = true
      ∧ (scenario_created.reserve_data_block.2.free_data_block 1).2.data_block_bitmap_
          = scenario_created.data_block_bitmap_
      ∧ (scenario_created.reserve_data_block.2.free_data_block 1).2.sb_
          = scenario_created.sb_
      ∧ (scenario_created.write 0 pattern_buffer 528).1 = 528
      ∧ scenario_exhausted.errnum = ErrorNumber.NO_ERROR
      ∧ scenario_exhausted.sb_.n_free_data_blocks = 168
      ∧ scenario_exhausted.data_block_bitmap_.popcount = 168
      ∧ scenario_exhausted.data_block_bitmap_.is_free 24 = true
      ∧ scenario_exhausted.reserve_data_block.1 = -1
      ∧ scenario_exhausted.reserve_data_block.2.errnum = ErrorNumber.NO_FREE_DATA_BLOCKS
      ∧ scenario_exhausted.reserve_data_block.2.data_block_bitmap_
          = scenario_exhausted.data_block_bitmap_
      ∧ scenario_exhausted.reserve_data_block.2.sb_ = scenario_exhausted.sb_
      ∧ (scenario_exhausted.write 0 pattern_buffer 1).1 = 0
      ∧ (scenario_exhausted.write 0 pattern_buffer 1).2.errnum
          = ErrorNumber.NO_FREE_DATA_BLOCKS := by
  decide

/-- C24 (counterexample at block size 8192): after `format(8192)`, `open("a", CREATE)`
and `open("b", CREATE)`, data block 0 of "a" is block 3 of the host file, which is also
the block of the inode table.  The write of 240 crafted bytes through handle 0 returns 240
and leaves, as the record of inode 1 ("b"), size 262144, `blocks[15] = 0` and
`blocks[16] = 0`: two indirect slots name the same address block.  Logical blocks 24 and
2072 are both unmapped.  After `seek(1, 196608)`, a write of one byte through handle 1
reserves data block 2 and calls `set_file_block_address(inode, 24, 2)`, which returns
`true`; logical block 24 then resolves to 2, and so does logical block 2072, which was
`-1` before the call. -/
theorem C24_shared_address_block_at_8192 :
    (FFSys.format 8192).isSome = true
      ∧ (scenario_wide.write 0 crafted_shared 240).1 = 240
      ∧ (scenario_shared.read_inode 1).size = 262144
      ∧ (scenario_shared.read_inode 1).index = 1
      ∧ (scenario_shared.read_inode 1).blocks.getD 15 0 = 0
      ∧ (scenario_shared.read_inode 1).blocks.getD 16 0 = 0
      ∧ scenario_shared.sb_.address_block_capacity = 2048
      ∧ scenario_shared.get_file_block_address (scenario_shared.read_inode 1) 24 = -1
      ∧ scenario_shared.get_file_block_address (scenario_shared.read_inode 1) 2072 = -1
      ∧ (scenario_shared.seek 1 196608).1 = true
      ∧ scenario_shared_sought.reserve_data_block.1 = 2
      ∧ scenario_shared_sought.reserve_data_block.2.get_file_block_address
          (scenario_shared_sought.read_inode 1) 2072 = -1
      ∧ (scenario_shared_sought.reserve_data_block.2.set_file_block_address
          (scenario_shared_sought.read_inode 1) 24 2).1 = true
      ∧ (scenario_shared_sought.reserve_data_block.2.set_file_block_address
          (scenario_shared_sought.read_inode 1) 24 2).2.2.get_file_block_address
            (scenario_shared_sought.reserve_data_block.2.set_file_block_address
              (scenario_shared_sought.read_inode 1) 24 2).2.1 24 = 2
      ∧ (scenario_shared_sought.reserve_data_block.2.set_file_block_address
          (scenario_shared_sought.read_inode 1) 24 2).2.2.get_file_block_address
            (scenario_shared_sought.reserve_data_block.2.set_file_block_address
              (scenario_shared_sought.read_inode 1) 24 2).2.1 2072 = 2
      ∧ (scenario_shared_sought.write 1 (fun _ => 7) 1).1 = 1
      ∧ scenario_shared_written.get_file_block_address
          (scenario_shared_written.read_inode 1) 2072 = 2 := by
  decide!

/-- C24 (amended to states reachable from a format with `963 + 8 * B < 65536` and to the
records of live inodes): for every logical index `L < 15 + 5 * (B / 4)` and every value
`V` of type `int32_t`, if `set_file_block_address(inode, L, V)` returns `true`, then
afterwards logical block `L` resolves to `V` and every other logical block resolves to
what it resolved to before.  If `L` is a direct block or its indirect slot named an
address block, bitmap and superblock are unchanged.  If `L ≥ 15` and its slot
`S = (L - 15) / (B / 4) + 15` was `-1`, exactly one data block `a` is reserved (the bit of
`a` and no other bit changes, the free counter drops by 1), `blocks[S] = a` in the inode,
which is the record then on disk, and every entry of the new address block other than
entry `(L - 15) mod (B / 4)` reads `-1`. -/
theorem C24_set_then_get (B : Nat) (s : FFSys) (hbound : 963 + 8 * B < 65536)
    (hr : FFSys.Reachable B s) (i : Nat) (hi : s.live i) (L : Nat) (V : Int)
    (hL : L < 15 + 5 * (B / 4)) (h0 : -2147483648 ≤ V) (h1 : V < 2147483648)
    (hok : (s.set_file_block_address (s.read_inode i) L V).1 = true) :
    (s.set_file_block_address (s.read_inode i) L V).2.2.get_file_block_address
        (s.set_file_block_address (s.read_inode i) L V).2.1 L = V
      ∧ (∀ L', L' ≠ L →
          (s.set_file_block_address (s.read_inode i) L V).2.2.get_file_block_address
              (s.set_file_block_address (s.read_inode i) L V).2.1 L'
            = s.get_file_block_address (s.read_inode i) L')
      ∧ ((L < 15 ∨ (s.read_inode i).blocks.getD ((L - 15) / (B / 4) + 15) 0 ≠ -1) →
          (s.set_file_block_address (s.read_inode i) L V).2.2.data_block_bitmap_
              = s.data_block_bitmap_
            ∧ (s.set_file_block_address (s.read_inode i) L V).2.2.sb_ = s.sb_)
      ∧ (15 ≤ L → (s.read_inode i).blocks.getD ((L - 15) / (B / 4) + 15) 0 = -1 →
          ∃ a : Nat, s.data_block_bitmap_.is_free a = true
            ∧ (∀ m, (s.set_file_block_address (s.read_inode i) L
                    V).2.2.data_block_bitmap_.is_free m
                  = (decide (m ≠ a) && s.data_block_bitmap_.is_free m))
            ∧ (s.set_file_block_address (s.read_inode i) L V).2.2.sb_.n_free_data_blocks + 1
                = s.sb_.n_free_data_blocks
            ∧ (s.set_file_block_address (s.read_inode i) L V).2.1.blocks.getD
                ((L - 15) / (B / 4) + 15) 0 = (a : Int)
            ∧ (s.set_file_block_address (s.read_inode i) L V).2.2.read_inode i
                = (s.set_file_block_address (s.read_inode i) L V).2.1
            ∧ ∀ T, T < B / 4 → T ≠ (L - 15) % (B / 4) →
                (s.set_file_block_address (s.read_inode i) L V).2.2.address_entry
                  (a : Int) T = -1) := by
  have hinv := hr.inv (by omega)
  have hx := FFSys.InvX.of_inv hinv i hi
  have hs := hinv.basic.layout
  have hB := hs.hB
  have hidx : (s.read_inode i).index = i := hinv.index i hi
  obtain ⟨hsl, hrs⟩ := hx.slots
  have hS2 : 15 ≤ L → (L - 15) / (B / 4) + 15 < 20 := by
    intro h15
    have : (L - 15) / (B / 4) < 5 := Nat.div_lt_of_lt_mul (by
      rw [Nat.mul_comm]; omega)
    omega
  by_cases hm : L < 15 ∨ (15 ≤ L ∧ (L - 15) / (B / 4) + 15 < 20
      ∧ (s.read_inode i).blocks.getD ((L - 15) / (B / 4) + 15) 0 ≠ -1)
  · obtain ⟨_, _, g1, g2, _, _, g5, _, g7, _, _⟩ :=
      FFSys.set_mapped hs hsl L V h0 h1 hm _ rfl
    refine ⟨g1, g2, fun _ => ⟨g5, g7⟩, fun h15 hslot => ?_⟩
    rcases hm with hm | hm
    · omega
    · exact absurd hslot hm.2.2
  · have h15 : 15 ≤ L := by
      by_contra hc
      exact hm (Or.inl (by omega))
    have hslot : (s.read_inode i).blocks.getD ((L - 15) / (B / 4) + 15) 0 = -1 := by
      by_contra hc
      exact hm (Or.inr ⟨h15, hS2 h15, hc⟩)
    rcases FFSys.set_new hinv.basic hsl (fun S n a b c => (hrs S n a b c).2) L V h0 h1 h15
      (hS2 h15) hslot _ rfl with
      ⟨hf, _⟩ | ⟨_, _, a, _, a2, _, a4, a5, a6, _, _, a9, a10, a11, a12, _⟩
    · rw [hf] at hok
      exact absurd hok (by simp)
    · refine ⟨a10, a12, fun hc => ?_, fun _ _ => ⟨a, a2, a4, a5, a6, ?_, a11⟩⟩
      · rcases hc with hc | hc
        · omega
        · exact absurd hslot hc
      · rw [hidx] at a9
        exact a9

set_option maxRecDepth 1000000 in
/-- C24 at a concrete input, block size 64 (`address_block_capacity = 16`): after a write
of 960 bytes the 15 direct slots are full and `blocks[15] = -1`;
`set_file_block_address(inode, 15, 16)` returns `true`, reserves data block 15 as the
address block and makes logical block 15 resolve to 16, while logical block 14 still
resolves to 14.  In the filesystem itself, the write of 961 bytes reserves the 16th data
block (index 15) for the file first and then block 16 for the address block:
`blocks[15] = 16`, and entry 0 of that address block is 15. -/
theorem C24_set_then_get_witness :
    (scenario_64_fifteen.read_inode 0).blocks.getD 15 0 = -1
      ∧ (scenario_64_fifteen.set_file_block_address (scenario_64_fifteen.read_inode 0)
            15 16).2.2.get_file_block_address
          (scenario_64_fifteen.set_file_block_address (scenario_64_fifteen.read_inode 0)
            15 16).2.1 15 = 16
      ∧ (scenario_64_fifteen.set_file_block_address (scenario_64_fifteen.read_inode 0)
            15 16).2.2.get_file_block_address
          (scenario_64_fifteen.set_file_block_address (scenario_64_fifteen.read_inode 0)
            15 16).2.1 14 = 14
      ∧ (scenario_64_fifteen.set_file_block_address (scenario_64_fifteen.read_inode 0)
            15 16).2.1.blocks.getD 15 0 = 15
      ∧ (scenario_64_created.write 0 pattern_buffer 961).1 = 961
      ∧ (scenario_64_written.read_inode 0).blocks.getD 15 0 = 16
      ∧ scenario_64_written.address_entry 16 0 = 15
      ∧ scenario_64_written.address_entry 16 1 = -1
      ∧ scenario_64_written.address_entry 16 15 = -1 :=
  ⟨by decide,
    (C24_set_then_get 64 scenario_64_fifteen (by decide) scenario_64_fifteen_reachable 0
      scenario_64_fifteen_live 15 16 (by decide) (by decide) (by decide) (by decide)).1,
    ((C24_set_then_get 64 scenario_64_fifteen (by decide) scenario_64_fifteen_reachable 0
      scenario_64_fifteen_live 15 16 (by decide) (by decide) (by decide)
      (by decide)).2.1 14 (by decide)).trans (by decide),
    by decide, by decide, by decide, by decide, by decide, by decide⟩

set_option maxRecDepth 1000000 in
/-- C25 (evaluation at block sizes 32 and 24): `reserve_file_block` returns `-1` and yet
leaves a data block reserved that no inode addresses.  At block size 32, for the file of
full addressing capacity (55 blocks), `reserve_file_block(inode, 55)` returns `-1` at the
capacity guard of `set_file_block_address`: the addressing table is unchanged, but bit 30
of the bitmap has gone from free to reserved and `n_free_data_blocks` from 226 to 225; the
error code stays `NO_ERROR`.  At block size 24, with the files "b" and "a" and 504 bytes
(21 blocks) written to "a", `reserve_file_block(inode, 21)` reserves data block 23, finds
no block for the address block of slot 16 and returns `-1`: the addressing table is
unchanged and logical block 21 is unmapped, but bit 23 has gone from free to reserved and
the counter from 169 to 168.  Through the public interface: the write of 528 bytes returns
504 and leaves the same state. -/
theorem C25_failed_reservation_leaks_block :
    (scenario_32_full.reserve_file_block (scenario_32_full.read_inode 0) 55).1 = -1
      ∧ (scenario_32_full.reserve_file_block (scenario_32_full.read_inode 0) 55).2.1.blocks
          = (scenario_32_full.read_inode 0).blocks
      ∧ scenario_32_full.data_block_bitmap_.is_free 30 = true
      ∧ (scenario_32_full.reserve_file_block (scenario_32_full.read_inode 0)
            55).2.2.data_block_bitmap_.is_free 30 = false
      ∧ scenario_32_full.sb_.n_free_data_blocks = 226
      ∧ (scenario_32_full.reserve_file_block (scenario_32_full.read_inode 0)
            55).2.2.sb_.n_free_data_blocks = 225
      ∧ (scenario_32_full.reserve_file_block (scenario_32_full.read_inode 0)
            55).2.2.errnum = ErrorNumber.NO_ERROR
      ∧ (scenario_pair.write 1 pattern_buffer 504).1 = 504
      ∧ (scenario_pair_written.lookup 1).map (fun f => (f.inode, f.pos)) = some (1, 504)
      ∧ (scenario_pair_written.reserve_file_block (scenario_pair_written.read_inode 1) 21).1
          = -1
      ∧ (scenario_pair_written.reserve_file_block (scenario_pair_written.read_inode 1)
            21).2.1.blocks = (scenario_pair_written.read_inode 1).blocks
      ∧ (scenario_pair_written.reserve_file_block (scenario_pair_written.read_inode 1)
            21).2.2.get_file_block_address
          (scenario_pair_written.reserve_file_block (scenario_pair_written.read_inode 1)
            21).2.1 21 = -1
      ∧ scenario_pair_written.data_block_bitmap_.is_free 23 = true
      ∧ (scenario_pair_written.reserve_file_block (scenario_pair_written.read_inode 1)
            21).2.2.data_block_bitmap_.is_free 23 = false
      ∧ scenario_pair_written.sb_.n_free_data_blocks = 169
      ∧ (scenario_pair_written.reserve_file_block (scenario_pair_written.read_inode 1)
            21).2.2.sb_.n_free_data_blocks = 168
      ∧ (scenario_pair.write 1 pattern_buffer 528).1 = 504
      ∧ (scenario_pair.write 1 pattern_buffer 528).2.data_block_bitmap_.is_free 23 = false
      ∧ ((scenario_pair.write 1 pattern_buffer 528).2.read_inode 1).blocks.getD 16 0 = -1
      ∧ (scenario_pair.write 1 pattern_buffer 528).2.sb_.n_free_data_blocks = 168 := by
  decide

set_option maxRecDepth 1000000 in
/-- C26 (evaluation at block size 24): handle 0 writes 48 bytes (two blocks) to "a";
`open("a", TRUNCATE)` frees logical block 1; handle 0, still at position 48, writes one
byte, which maps logical block 2 to data block 1 and leaves logical block 1 unmapped.  A
further `open("a", TRUNCATE)` returns handle 2 and sets the size to 0, but its first loop
stops at the unmapped logical block 1: logical block 2 still resolves to data block 1,
which is still reserved, and `n_free_data_blocks` has not changed. -/
theorem C26_block_beyond_hole_is_kept :
    scenario_hole.get_file_block_address (scenario_hole.read_inode 0) 1 = -1
      ∧ scenario_hole.get_file_block_address (scenario_hole.read_inode 0) 2 = 1
      ∧ (scenario_hole.read_inode 0).size = 49
      ∧ (scenario_hole.open name_a TRUNCATE 0).1 = 2
      ∧ (scenario_hole_truncated.read_inode 0).size = 0
      ∧ scenario_hole_truncated.get_file_block_address
          (scenario_hole_truncated.read_inode 0) 2 = 1
      ∧ scenario_hole_truncated.data_block_bitmap_.is_free 1 = false
      ∧ scenario_hole_truncated.sb_.n_free_data_blocks
          = scenario_hole.sb_.n_free_data_blocks := by
  decide

set_option maxRecDepth 1000000 in
/-- A block behind a hole in an address block (block size 24): after 16 blocks written
through handle 0 and `open("a", TRUNCATE)`, a write of one byte through handle 0, still
at position 384, maps logical block 16 to data block 1 through a new address block in
data block 2, and leaves logical block 15, entry 0 of that address block, unmapped.  A
second `open("a", TRUNCATE)` stops its first loop at the unmapped logical block 1 and
frees the address block in its second loop: no logical block resolves to data block 1 any
more, yet data block 1 stays reserved, and the counter is 190 where a file of one block
leaves 191. -/
theorem truncate_orphans_block_behind_hole :
    FFSys.Reachable 24 scenario_orphan
      ∧ (scenario_sixteen.open name_a TRUNCATE 0).1 = 1
      ∧ scenario_sixteen_truncated.sb_.n_free_data_blocks = 191
      ∧ (scenario_sixteen_truncated.write 0 pattern_buffer 1).1 = 1
      ∧ (scenario_sixteen_hole.read_inode 0).blocks.getD 15 0 = 2
      ∧ scenario_sixteen_hole.get_file_block_address (scenario_sixteen_hole.read_inode 0) 15
          = -1
      ∧ scenario_sixteen_hole.get_file_block_address (scenario_sixteen_hole.read_inode 0) 16
          = 1
      ∧ (scenario_sixteen_hole.open name_a TRUNCATE 0).1 = 2
      ∧ (scenario_orphan.read_inode 0).size = 0
      ∧ (List.range 45).map (fun L =>
            scenario_orphan.get_file_block_address (scenario_orphan.read_inode 0) L)
          = 0 :: List.replicate 44 (-1)
      ∧ scenario_orphan.data_block_bitmap_.is_free 1 = false
      ∧ scenario_orphan.data_block_bitmap_.is_free 2 = true
      ∧ scenario_orphan.sb_.n_free_data_blocks = 190 :=
  ⟨FFSys.Reachable.after_open _ name_a TRUNCATE 0
      (FFSys.Reachable.after_write _ 0 pattern_buffer 1
        (FFSys.Reachable.after_open _ name_a TRUNCATE 0 scenario_sixteen_reachable
          (by decide))
        (fun k => Nat.mod_lt k (by decide)))
      (by decide),
    by decide⟩

/-- The truncation of a file without holes: if the mapped logical blocks from
`lb = max(1, ⌈size / B⌉)` on are exactly those below some `k`, in states reachable from a
format with `963 + 8 * B < 65536`, then after `free_unused_file_blocks` on the record of a live
inode whose size field is `sz`, every logical block `L ≥ lb` resolves to `-1`, every data
block that such an `L` addressed is free in the bitmap, every logical block below `lb`
keeps its address, `n_free_data_blocks` has risen by `k - lb` plus the number of address
blocks whose first logical block lies beyond `lb`, and the inode returned is the record on
disk.  For `open(name, flags)` with `TRUNCATE` on a file found by name, whose `k` data
blocks are the logical blocks below `k`, the counter rises by `k - 1` plus the number of
its address blocks, and the size on disk is 0. -/
theorem truncate_frees_contiguous_blocks (B : Nat) (s : FFSys) (hbound : 963 + 8 * B < 65536)
    (hr : FFSys.Reachable B s) (i : Nat) (hi : s.live i) (sz : Nat) (hsz : sz < 4294967296)
    (k : Nat) (hk1 : max 1 ((sz + B - 1) / B) ≤ k) (hk2 : k ≤ 15 + 5 * (B / 4))
    (hmap : ∀ L, L < 15 + 5 * (B / 4) → max 1 ((sz + B - 1) / B) ≤ L →
      (s.get_file_block_address (s.read_inode i) L ≠ -1 ↔ L < k)) :
    (∀ L, max 1 ((sz + B - 1) / B) ≤ L →
        (s.free_unused_file_blocks { s.read_inode i with size := sz }).2.get_file_block_address
          (s.free_unused_file_blocks { s.read_inode i with size := sz }).1 L = -1)
      ∧ (∀ L (n : Nat), max 1 ((sz + B - 1) / B) ≤ L →
          s.get_file_block_address (s.read_inode i) L = (n : Int) →
          (s.free_unused_file_blocks
            { s.read_inode i with size := sz }).2.data_block_bitmap_.is_free n = true)
      ∧ (∀ L, L < max 1 ((sz + B - 1) / B) →
          (s.free_unused_file_blocks
              { s.read_inode i with size := sz }).2.get_file_block_address
            (s.free_unused_file_blocks { s.read_inode i with size := sz }).1 L
            = s.get_file_block_address (s.read_inode i) L)
      ∧ (s.free_unused_file_blocks { s.read_inode i with size := sz }).2.sb_.n_free_data_blocks
          = s.sb_.n_free_data_blocks + (k - max 1 ((sz + B - 1) / B))
              + FFSys.slots_beyond (s.read_inode i) B (max 1 ((sz + B - 1) / B))
      ∧ (s.free_unused_file_blocks { s.read_inode i with size := sz }).2.read_inode i
          = (s.free_unused_file_blocks { s.read_inode i with size := sz }).1
      ∧ (∀ (name : List Nat) (flags now : Nat), sz = 0 →
          s.find_file name = some (s.read_inode i) → flags &&& TRUNCATE ≠ 0 →
          (s.open name flags now).2.sb_.n_free_data_blocks
              = s.sb_.n_free_data_blocks + (k - 1)
                + (List.range 5).countP
                    (fun j => decide ((s.read_inode i).blocks.getD (15 + j) 0 ≠ -1))
            ∧ ((s.open name flags now).2.read_inode i).size = 0) := by
  have hinv := hr.inv (by omega)
  have hs := hinv.basic.layout
  have hB := hs.hB
  have hcap0 : 0 < B / 4 := by omega
  obtain ⟨k', k1, k2, k3, k4, k5, k6, k7, k8, k9, k10, k11, k12, k13, k14⟩ :=
    FFSys.truncate_spec hinv i hi sz hsz _ rfl
  generalize hlb : max 1 ((sz + B - 1) / B) = lb at *
  -- the loop stops at `k`
  have hkk : k' = k := by
    apply le_antisymm
    · by_contra hc
      have hlt : k < k' := by omega
      have hm := k3 k hk1 hlt
      have := (hmap k (by omega) hk1).mp hm
      omega
    · by_contra hc
      have hlt : k' < k := by omega
      have hm := k4 (by omega)
      exact ((hmap k' (by omega) k1).mpr hlt) hm
  subst hkk
  -- beyond `k'` nothing is mapped
  have hbeyond : ∀ L, k' ≤ L → s.get_file_block_address (s.read_inode i) L = -1 := by
    intro L hL
    by_cases hlim : L < 15 + 5 * (B / 4)
    · by_contra hc
      have := (hmap L hlim (by omega)).mp hc
      omega
    · rw [FFSys.get_eq, if_neg (by omega), hs.address_block_capacity, if_pos]
      left
      have : 5 ≤ (L - 15) / (B / 4) := (Nat.le_div_iff_mul_le hcap0).mpr (by omega)
      omega
  have hgone : ∀ L, lb ≤ L →
      (s.free_unused_file_blocks { s.read_inode i with size := sz }).2.get_file_block_address
        (s.free_unused_file_blocks { s.read_inode i with size := sz }).1 L = -1 := by
    intro L hL
    rw [k5 L]
    split_ifs with hc
    · rfl
    · exact hbeyond L (by
        by_contra hc'
        exact hc (Or.inl ⟨hL, by omega⟩))
  have hcnt := k10
  refine ⟨hgone, ?_, ?_, hcnt, k11, ?_⟩
  · intro L n hL hn
    have hLk : L < k' := by
      by_contra hc
      rw [hbeyond L (by omega)] at hn
      omega
    exact k8 L n hL hLk hn
  · intro L hL
    rw [k5 L, if_neg]
    intro hc
    rcases hc with hc | hc
    · omega
    · have := Nat.div_mul_le_self (L - 15) (B / 4)
      omega
  · intro name flags now hz hfind hflag
    have hsb : (s.open name flags now).2.sb_
        = (s.free_unused_file_blocks { s.read_inode i with size := 0 }).2.sb_ := by
      unfold FFSys.open
      rw [hfind]
      unfold FFSys.open_file
      simp only [hflag, ne_eq, not_false_eq_true, if_true]
    have hrd : (s.open name flags now).2.read_inode i
        = (s.free_unused_file_blocks { s.read_inode i with size := 0 }).2.read_inode i := by
      unfold FFSys.open
      rw [hfind]
      unfold FFSys.open_file
      simp only [hflag, ne_eq, not_false_eq_true, if_true]
      generalize s.free_unused_file_blocks { s.read_inode i with size := 0 } = p
      rfl
    subst hz
    have hlb1 : lb = 1 := by
      rw [← hlb]
      have : (0 + B - 1) / B = 0 := Nat.div_eq_of_lt (by omega)
      rw [this]
      rfl
    have hsl : FFSys.slots_beyond (s.read_inode i) B 1
        = (List.range 5).countP
            (fun j => decide ((s.read_inode i).blocks.getD (15 + j) 0 ≠ -1)) := by
      unfold FFSys.slots_beyond
      apply List.countP_congr
      intro j _
      have : 1 < 15 + j * (B / 4) := by omega
      simp [this]
    constructor
    · rw [hsb, hcnt, hlb1, hsl]
    · rw [hrd, k11]
      exact k13

set_option maxRecDepth 1000000 in
/-- At a concrete input, block size 24: the file "a" holds 240 bytes in the 10 logical
blocks below 10 and has no address block; after `free_unused_file_blocks` with size 0
logical block 1 resolves to `-1`, logical block 0 still resolves to data block 0, and the
counter has gone from 182 to 191; `open("a", TRUNCATE)` recovers the same 9 blocks. -/
theorem truncate_frees_contiguous_blocks_at_24 :
    scenario_ten.sb_.n_free_data_blocks = 182
      ∧ (scenario_ten.free_unused_file_blocks
            { scenario_ten.read_inode 0 with size := 0 }).2.get_file_block_address
          (scenario_ten.free_unused_file_blocks
            { scenario_ten.read_inode 0 with size := 0 }).1 1 = -1
      ∧ (scenario_ten.free_unused_file_blocks
            { scenario_ten.read_inode 0 with size := 0 }).2.get_file_block_address
          (scenario_ten.free_unused_file_blocks
            { scenario_ten.read_inode 0 with size := 0 }).1 0 = 0
      ∧ (scenario_ten.free_unused_file_blocks
            { scenario_ten.read_inode 0 with size := 0 }).2.sb_.n_free_data_blocks = 191
      ∧ (scenario_ten.open name_a TRUNCATE 0).2.sb_.n_free_data_blocks = 191 :=
  ⟨by decide,
    (truncate_frees_contiguous_blocks 24 scenario_ten (by decide) scenario_ten_reachable 0
      scenario_ten_live 0 (by decide) 10 (by decide) (by decide) (by decide)).1 1
      (by decide),
    ((truncate_frees_contiguous_blocks 24 scenario_ten (by decide) scenario_ten_reachable 0
      scenario_ten_live 0 (by decide) 10 (by decide) (by decide) (by decide)).2.2.1 0
      (by decide)).trans (by decide),
    ((truncate_frees_contiguous_blocks 24 scenario_ten (by decide) scenario_ten_reachable 0
      scenario_ten_live 0 (by decide) 10 (by decide) (by decide)
      (by decide)).2.2.2.1).trans (by decide),
    (((truncate_frees_contiguous_blocks 24 scenario_ten (by decide) scenario_ten_reachable 0
      scenario_ten_live 0 (by decide) 10 (by decide) (by decide)
      (by decide)).2.2.2.2.2 name_a TRUNCATE 0 rfl (by decide) (by decide)).1).trans
      (by decide)⟩

set_option maxRecDepth 1000000 in
/-- A direct call that no public call makes (block size 24): the file "a" holds 384 bytes
in 16 logical blocks; logical block 15 is entry 0 of the address block in data block 16,
named by slot 15, which covers the logical blocks 15 to 20.  `free_unused_file_blocks` on
this inode with size `360 = 15 * 24` keeps the 15 logical blocks below 15, so the range of
slot 15 lies entirely at or beyond the first unused block; the call frees logical block 15
(data block 15), but leaves `blocks[15] = 16` and data block 16 reserved.  The test of the
second loop is `last_block < 15 + i * address_block_capacity`, which is false for
`last_block = 15` and `i = 0`. -/
theorem slot_at_boundary_kept_by_direct_call :
    (scenario_created.write 0 pattern_buffer 384).1 = 384
      ∧ (scenario_sixteen.read_inode 0).blocks.getD 15 0 = 16
      ∧ scenario_sixteen.sb_.address_block_capacity = 6
      ∧ scenario_sixteen.get_file_block_address (scenario_sixteen.read_inode 0) 15 = 15
      ∧ scenario_sixteen.get_file_block_address (scenario_sixteen.read_inode 0) 16 = -1
      ∧ scenario_sixteen.keep_blocks 360 = 15
      ∧ (scenario_sixteen.free_unused_file_blocks
            { scenario_sixteen.read_inode 0 with size := 360 }).2.get_file_block_address
          (scenario_sixteen.free_unused_file_blocks
            { scenario_sixteen.read_inode 0 with size := 360 }).1 15 = -1
      ∧ (scenario_sixteen.free_unused_file_blocks
            { scenario_sixteen.read_inode 0 with size := 360 }).2.data_block_bitmap_.is_free
          15 = true
      ∧ (scenario_sixteen.free_unused_file_blocks
            { scenario_sixteen.read_inode 0 with size := 360 }).1.blocks.getD 15 0 = 16
      ∧ (scenario_sixteen.free_unused_file_blocks
            { scenario_sixteen.read_inode 0 with size := 360 }).2.data_block_bitmap_.is_free
          16 = false := by
  decide

set_option maxRecDepth 1000000 in
/-- C28 (counterexample): the name of three characters `a`, NUL, `b` has at most 16
characters; `create_file` stores the three characters and a NUL behind them, so the C
string stored in the inode is "a", not the name.  `open(name, CREATE)` succeeds, and the
name of the inode on disk, read as a C string, is "a". -/
theorem C28_embedded_nul_shortens_stored_name :
    name_nul.length = 3
      ∧ (((FFSys.formatted 24).create_file name_nul 0).1.map (fun x => x.name.take 4))
          = some [97, 0, 98, 0]
      ∧ (((FFSys.formatted 24).create_file name_nul 0).1.map (fun x => x.cname))
          = some [97]
      ∧ ((FFSys.formatted 24).open name_nul CREATE 0).1 = 0
      ∧ (((FFSys.formatted 24).open name_nul CREATE 0).2.read_inode 0).cname = [97]
      ∧ (((FFSys.formatted 24).open name_nul CREATE 0).2.read_inode 0).cname ≠ name_nul := by
  decide

/-- The record that a create leaves on disk, in states reachable from a format with
`963 + 8 * B < 65536`: if `create_file` succeeds, the name field of the inode, which is
the record then on disk, holds the first `min(16, length)` characters of the name and a
NUL right behind them (at index 16 when the name has more than 16 characters), for every
name; if no character of the name is NUL, the stored C string is the 16-character prefix
of the name, and the name itself when it has at most 16 characters. -/
theorem create_stores_record (B : Nat) (s : FFSys) (hbound : 963 + 8 * B < 65536)
    (hr : FFSys.Reachable B s) (name : List Nat) (hname : ∀ c, c ∈ name → c < 256)
    (now : Nat) (file : INode) (hc : (s.create_file name now).1 = some file) :
    file.name.take (min 16 name.length) = name.take 16
      ∧ file.name.getD (min 16 name.length) 1 = 0
      ∧ (s.create_file name now).2.read_inode file.index = file
      ∧ ((∀ c, c ∈ name → c ≠ 0) →
          file.cname = name.take 16 ∧ (name.length ≤ 16 → file.cname = name)) := by
  have hinv := hr.inv (by omega)
  have hd := hinv.create_file name hname now
  rcases hd.outcome with ⟨hnone, _⟩ | ⟨a, f, _, _, _, hsome, hidx, hnm, _, hrd, _⟩
  · rw [hnone] at hc
    exact absurd hc (by simp)
  · rw [hsome] at hc
    have hf : f = file := Option.some.inj hc
    subst hf
    have hlen : (name.take 16).length = min 16 name.length := List.length_take _ _
    have hst : FFSys.stored_name name = FFSys.stored_name (name.take 16) := by
      unfold FFSys.stored_name
      rw [List.take_take, hlen]
      simp
    refine ⟨?_, ?_, by rw [hidx]; exact hrd, fun hnul => ?_⟩
    · rw [hnm]
      unfold FFSys.stored_name
      rw [← hlen, List.take_left]
    · rw [hnm]
      unfold FFSys.stored_name
      rw [← hlen, List.getD_append_right _ _ _ _ (le_refl _), Nat.sub_self, hlen]
      have : 17 - min 16 name.length = (16 - min 16 name.length) + 1 := by omega
      rw [this, List.replicate_succ]
      rfl
    · have hcn : f.cname = name.take 16 := by
        unfold INode.cname
        rw [hnm, hst]
        exact FFSys.stored_name_cname (name.take 16) (by rw [hlen]; omega)
          (fun c hc' => hnul c (List.mem_of_mem_take hc'))
      refine ⟨hcn, fun hle => ?_⟩
      rw [hcn, List.take_of_length_le hle]

set_option maxRecDepth 1000000 in
/-- At a concrete input: on a freshly formatted filesystem with block size 24, the name
of 17 characters `name_long` is stored as its first 16 characters. -/
theorem create_stores_record_at_24 :
    name_long.length = 17
      ∧ (((FFSys.formatted 24).create_file name_long 0).1.map (fun x => x.cname))
          = some (name_long.take 16)
      ∧ ∀ file, ((FFSys.formatted 24).create_file name_long 0).1 = some file →
          file.cname = name_long.take 16 :=
  ⟨by decide, by decide, fun file hc =>
    ((create_stores_record 24 (FFSys.formatted 24) (by decide)
      (FFSys.Reachable.after_format (by decide)) name_long (by decide) 0 file hc).2.2.2
      (by decide)).1⟩

/-- C28 (amended to names without a NUL character): in every state and for every name,
if `create_file` succeeds, the name field of the inode holds the first `min(16, length)`
characters of the name and a NUL right behind them (at index 16 when the name has more
than 16 characters); if no character of the name is NUL, the stored C string is the
16-character prefix of the name, and the name itself when it has at most 16
characters. -/
theorem C28_create_stores_first_characters (s : FFSys) (name : List Nat) (now : Nat)
    (file : INode) (hc : (s.create_file name now).1 = some file) :
    file.name.take (min 16 name.length) = name.take 16
      ∧ file.name.getD (min 16 name.length) 1 = 0
      ∧ ((∀ c, c ∈ name → c ≠ 0) →
          file.cname = name.take 16 ∧ (name.length ≤ 16 → file.cname = name)) := by
  have hnm : file.name = FFSys.stored_name name := by
    rw [FFSys.create_file_eq] at hc
    split_ifs at hc <;> exact (congrArg INode.name (Option.some.inj hc)).symm
  have hlen : (name.take 16).length = min 16 name.length := List.length_take _ _
  have hst : FFSys.stored_name name = FFSys.stored_name (name.take 16) := by
    unfold FFSys.stored_name
    rw [List.take_take, hlen]
    simp
  refine ⟨?_, ?_, fun hnul => ?_⟩
  · rw [hnm]
    unfold FFSys.stored_name
    rw [← hlen, List.take_left]
  · rw [hnm]
    unfold FFSys.stored_name
    rw [← hlen, List.getD_append_right _ _ _ _ (le_refl _), Nat.sub_self, hlen]
    have : 17 - min 16 name.length = (16 - min 16 name.length) + 1 := by omega
    rw [this, List.replicate_succ]
    rfl
  · have hcn : file.cname = name.take 16 := by
      unfold INode.cname
      rw [hnm, hst]
      exact FFSys.stored_name_cname (name.take 16) (by rw [hlen]; omega)
        (fun c hc' => hnul c (List.mem_of_mem_take hc'))
    refine ⟨hcn, fun hle => ?_⟩
    rw [hcn, List.take_of_length_le hle]

set_option maxRecDepth 1000000 in
/-- C28 at a concrete input: on a freshly formatted filesystem with block size 24, the name
of 17 characters `name_long` is stored as its first 16 characters. -/
theorem C28_create_stores_first_characters_witness :
    name_long.length = 17
      ∧ (((FFSys.formatted 24).create_file name_long 0).1.map (fun x => x.cname))
          = some (name_long.take 16)
      ∧ ∀ file, ((FFSys.formatted 24).create_file name_long 0).1 = some file →
          file.cname = name_long.take 16 :=
  ⟨by decide, by decide, fun file hc =>
    ((C28_create_stores_first_characters (FFSys.formatted 24) name_long 0 file hc).2.2
      (by decide)).1⟩

/-- C29 (counterexample at block size 8072): the superblock has `n_inode_blocks = 960` and
`n_data_blocks = 64576`, but `total_n_blocks()` is a `uint16_t` and returns
`65539 mod 65536 = 3`: `format` writes `3 * 8072 = 24216` zero bytes, not
`(3 + 960 + 64576) * 8072`.  Inode slot 0 starts at byte 24216, the end of the file, and
data block 0 starts at byte `963 * 8072`. -/
theorem C29_format_length_wraps_at_8072 :
    (FFSys.format 8072).isSome = true
      ∧ (FFSys.format_superblock 8072).n_inode_blocks = 960
      ∧ (FFSys.format_superblock 8072).n_data_blocks = 64576
      ∧ (FFSys.format_superblock 8072).n_inodes = 64576
      ∧ (FFSys.format_superblock 8072).inodes_start_i = 3
      ∧ (FFSys.format_superblock 8072).data_blocks_start_i = 963
      ∧ (FFSys.format_superblock 8072).total_n_blocks = 3
      ∧ FFSys.format_length 8072 = 24216
      ∧ FFSys.format_length 8072 ≠ (3 + 960 + 64576) * 8072
      ∧ (FFSys.formatted 8072).inode_start 0 = 24216
      ∧ (FFSys.formatted 8072).block_pos
          (u32 ((FFSys.formatted 8072).sb_.data_blocks_start_i + 0)) 0 = 963 * 8072 := by
  decide!

/-- C29 (amended to block sizes with `963 + 8 * B < 65536`): `format` writes
`(3 + n_inode_blocks + n_data_blocks) * B = (963 + 8 * B) * B` zero bytes, less than
`2^31`; every inode slot `i < n_inodes` occupies `INODE_SIZE` bytes from byte
`3 * B + 120 * i` on, inside the blocks `inodes_start_i .. data_blocks_start_i - 1`; and
every data block `d < n_data_blocks` is the block `963 + d` of the host file, which lies
behind the inode table and inside the file. -/
theorem C29_format_length (B : Nat) (hB : SUPERBLOCK_SIZE ≤ B)
    (hbound : 963 + 8 * B < 65536) :
    FFSys.format_length B
        = (3 + (FFSys.format_superblock B).n_inode_blocks
            + (FFSys.format_superblock B).n_data_blocks) * B
      ∧ FFSys.format_length B = (963 + 8 * B) * B
      ∧ FFSys.format_length B < 2147483648
      ∧ (∀ i, i < (FFSys.formatted B).sb_.n_inodes →
          (FFSys.formatted B).inode_start i = 3 * B + INODE_SIZE * i
            ∧ (FFSys.formatted B).sb_.inodes_start_i * B ≤ (FFSys.formatted B).inode_start i
            ∧ (FFSys.formatted B).inode_start i + INODE_SIZE
                ≤ (FFSys.formatted B).sb_.data_blocks_start_i * B)
      ∧ (∀ d, d < (FFSys.formatted B).sb_.n_data_blocks →
          (FFSys.formatted B).block_pos
              (u32 ((FFSys.formatted B).sb_.data_blocks_start_i + (d : Int))) 0
            = (963 + d) * B
            ∧ (FFSys.formatted B).sb_.data_blocks_start_i * B ≤ (963 + d) * B
            ∧ (963 + d) * B + B ≤ FFSys.format_length B) := by
  have hB24 : 24 ≤ B := hB
  have hB8 : 8 * B < 65536 := by omega
  have hsb := FFSys.format_superblock_eq B hB24 hB8
  have hs := (FFSys.formatted_inv B hB24 hB8).basic.layout
  have hlen : FFSys.format_length B = (963 + 8 * B) * B := by
    unfold FFSys.format_length Superblock.total_n_blocks
    rw [hsb]
    show (3 + 960 + 8 * B) % 65536 * B = _
    rw [Nat.mod_eq_of_lt (by omega)]
  refine ⟨?_, hlen, ?_, ?_, ?_⟩
  · rw [hlen, hsb]
    show (963 + 8 * B) * B = (3 + 960 + 8 * B) * B
    rfl
  · rw [hlen]
    calc (963 + 8 * B) * B ≤ 65536 * 8191 := Nat.mul_le_mul (by omega) (by omega)
      _ < 2147483648 := by decide
  · intro i hi
    rw [hs.n_inodes] at hi
    rw [hs.inode_start_eq i hi, hs.inodes_start_i, hs.data_blocks_start_i]
    refine ⟨rfl, by omega, ?_⟩
    show 3 * B + 120 * i + 120 ≤ 963 * B
    omega
  · intro d hd
    rw [hs.n_data_blocks] at hd
    rw [hs.data_pos d 0 hd, hs.data_blocks_start_i, hlen]
    refine ⟨by rw [Nat.add_mul]; omega, Nat.mul_le_mul_right B (by omega), ?_⟩
    have h1 : (963 + d) * B + B = (963 + d + 1) * B := by
      rw [Nat.add_mul (963 + d) 1 B, Nat.one_mul]
    rw [h1]
    exact Nat.mul_le_mul_right B (by omega)

/-- C29 at a concrete input: `format(24)` writes `1155 * 24 = 27720` zero bytes; the last
inode slot, 191, ends at byte `72 + 120 * 192 = 23112 = 963 * 24`, and the last data block,
191, ends at the end of the file. -/
theorem C29_format_length_witness :
    FFSys.format_length 24 = 27720
      ∧ (FFSys.formatted 24).inode_start 191 + INODE_SIZE = 963 * 24
      ∧ (963 + 191) * 24 + 24 = FFSys.format_length 24 :=
  ⟨(C29_format_length 24 (by decide) (by decide)).2.1,
    by rw [((C29_format_length 24 (by decide) (by decide)).2.2.2.1 191 (by decide)).1]; rfl,
    by rw [(C29_format_length 24 (by decide) (by decide)).2.1]⟩


/-- C30 (counterexample at block size 8192): after `format(8192)`, `open("a", CREATE)` and
`open("b", CREATE)`, data block 0 of "a" is block 3 of the host file, which holds the
inode table.  The write of 240 crafted bytes through handle 0 returns 240 and leaves
`blocks[0] = 0` in the record of inode 1 ("b"): the live inodes 0 and 1 both address data
block 0.  A read of one byte of "a" at position 0 returns the byte 0; after a write of the
byte 7 through the handle of "b" the same read returns 7, while the size of "a" is still
240. -/
theorem C30_shared_data_block_at_8192 :
    (FFSys.format 8192).isSome = true
      ∧ (scenario_wide.write 0 crafted_alias 240).1 = 240
      ∧ scenario_alias.inode_bitmap_.is_free 0 = false
      ∧ scenario_alias.inode_bitmap_.is_free 1 = false
      ∧ (scenario_alias.lookup 1).map (fun f => (f.inode, f.pos)) = some (1, 0)
      ∧ (scenario_alias.read_inode 0).size = 240
      ∧ scenario_alias.get_file_block_address (scenario_alias.read_inode 0) 0 = 0
      ∧ scenario_alias.get_file_block_address (scenario_alias.read_inode 1) 0 = 0
      ∧ (scenario_alias.read_n_bytes_from_file (scenario_alias.read_inode 0)
            (fun _ => 0) 1 0).1 = 1
      ∧ (scenario_alias.read_n_bytes_from_file (scenario_alias.read_inode 0)
            (fun _ => 0) 1 0).2 0 = 0
      ∧ (scenario_alias.write 1 (fun _ => 7) 1).1 = 1
      ∧ (scenario_alias_written.read_inode 0).size = 240
      ∧ (scenario_alias_written.read_n_bytes_from_file (scenario_alias_written.read_inode 0)
            (fun _ => 0) 1 0).1 = 1
      ∧ (scenario_alias_written.read_n_bytes_from_file (scenario_alias_written.read_inode 0)
            (fun _ => 0) 1 0).2 0 = 7 := by
  decide!

/-- C30 (amended to states reachable from a format with `963 + 8 * B < 65536`): no data
block is addressed by two different live inodes or by two logical blocks of one inode, and
no address block named by a live inode is addressed as a file data block.  A write of
chars through a handle leaves the record of every other live inode `j` on disk as it is,
hence its size; every mapped logical block of `j` keeps its address and its bytes; and a
read of `j`, at any position and for any count, returns the same count and the same bytes
before and after the write, also when it is made through a handle on `j`. -/
theorem C30_file_isolation (B : Nat) (s : FFSys) (hbound : 963 + 8 * B < 65536)
    (hr : FFSys.Reachable B s) (fd : Int) (f : OpenFile) (hl : s.lookup fd = some f)
    (j : Nat) (hj : s.live j) (hne : j ≠ f.inode)
    (buffer : Mem) (hbuf : ∀ k, buffer k < 256) (count : Nat) :
    (∀ i1 i2 L L', s.live i1 → s.live i2 →
        s.get_file_block_address (s.read_inode i1) L ≠ -1 →
        s.get_file_block_address (s.read_inode i1) L
          = s.get_file_block_address (s.read_inode i2) L' → i1 = i2 ∧ L = L')
      ∧ (∀ i1 i2 L S, s.live i1 → s.live i2 → 15 ≤ S → S < 20 →
          s.get_file_block_address (s.read_inode i1) L ≠ -1 →
          (s.read_inode i2).blocks.getD S 0 ≠ s.get_file_block_address (s.read_inode i1) L)
      ∧ (s.write fd buffer count).2.read_inode j = s.read_inode j
      ∧ (∀ L, s.get_file_block_address (s.read_inode j) L ≠ -1 →
          (s.write fd buffer count).2.get_file_block_address
              ((s.write fd buffer count).2.read_inode j) L
            = s.get_file_block_address (s.read_inode j) L
          ∧ ∀ o, o < B →
              (s.write fd buffer count).2.data_block_byte
                  (s.get_file_block_address (s.read_inode j) L) o
                = s.data_block_byte (s.get_file_block_address (s.read_inode j) L) o)
      ∧ (∀ (out : Mem) (c p : Nat),
          (s.write fd buffer count).2.read_n_bytes_from_file
              ((s.write fd buffer count).2.read_inode j) out c p
            = s.read_n_bytes_from_file (s.read_inode j) out c p)
      ∧ (∀ (fd' : Int) (f' : OpenFile) (out : Mem) (c : Nat), s.lookup fd' = some f' →
          f'.inode = j →
          ((s.write fd buffer count).2.read fd' out c).1 = (s.read fd' out c).1
            ∧ ((s.write fd buffer count).2.read fd' out c).2.1 = (s.read fd' out c).2.1) := by
  have h := hr.inv (by omega)
  have hlow := hr.low_live (by omega)
  have hs := h.basic.layout
  obtain ⟨hf, hfd⟩ := FFSys.lookup_mem hl
  have hlive := h.handles f hf
  have hpos := h.pos_lt f hf
  have hx := FFSys.InvX.of_inv h f.inode hlive
  have D := FFSys.write_n_bytes_done buffer hbuf hx count f.pos hpos
  obtain ⟨w1, w2, w3, w4, w5⟩ := h.write_other_file f.inode j hlive hj hne buffer hbuf count
    f.pos hpos _ rfl
  have R := fun out c p => h.read_unchanged f.inode j hlive hj hne (hlow f.inode hlive) buffer
    hbuf count f.pos hpos _ rfl out c p
  have hwr : (s.write fd buffer count).2
      = (s.write_n_bytes_to_file (s.read_inode f.inode) buffer count f.pos).2.2.set_pos fd
          (f.pos + (s.write_n_bytes_to_file (s.read_inode f.inode) buffer count f.pos).1) := by
    unfold FFSys.write
    rw [hl]
  rw [hwr]
  generalize s.write_n_bytes_to_file (s.read_inode f.inode) buffer count f.pos = res
    at D w1 w2 w3 w4 w5 R
  obtain ⟨w, y, t⟩ := res
  simp only at w1 w2 w3 w4 w5 R ⊢
  have hof : t.open_files_ = s.open_files_ := D.open_files
  have ht := w1.basic.layout
  have e1 : ∀ q k, (t.set_pos fd q).read_inode k = t.read_inode k := fun _ _ => rfl
  have e2 : ∀ q x L, (t.set_pos fd q).get_file_block_address x L
      = t.get_file_block_address x L := fun _ _ _ => rfl
  have e3 : ∀ q a o, (t.set_pos fd q).data_block_byte a o = t.data_block_byte a o :=
    fun _ _ _ => rfl
  have e4 : ∀ q x out c p, (t.set_pos fd q).read_n_bytes_from_file x out c p
      = t.read_n_bytes_from_file x out c p := by
    intro q x out c p
    exact FFSys.read_n_bytes_with t t.errnum_ _ x out c p
  refine ⟨fun i1 i2 L L' h1 h2 => (h.blocks_distinct i1 i2 h1 h2).1 L L',
    fun i1 i2 L S h1 h2 => (h.blocks_distinct i1 i2 h1 h2).2 L S, ?_, ?_, ?_, ?_⟩
  · rw [e1]; exact w3
  · intro L hL
    rw [e1, e2, w3]
    refine ⟨w4 L hL, fun o ho => ?_⟩
    rw [e3]
    obtain ⟨n, hn, hn8, _⟩ := (FFSys.InvX.of_inv h j hj).get_reserved L hL
    rw [hn, ht.data_block_byte_eq n o hn8, hs.data_block_byte_eq n o hn8]
    exact w5 L n hn o ho
  · intro out c p
    rw [e1, e4]
    exact R out c p
  · intro fd' f' out c hl' hfj
    have hfdne : fd' ≠ fd := by
      intro e
      rw [e, hl] at hl'
      have : f = f' := Option.some.inj hl'
      rw [← this] at hfj
      exact hne hfj.symm
    have hl2 : (t.set_pos fd (f.pos + w)).lookup fd' = some f' :=
      FFSys.lookup_set_pos_ne t fd fd' _ f'
        (by rw [FFSys.lookup_of_open_files hof]; exact hl') hfdne
    unfold FFSys.read
    rw [hl2, hl']
    simp only
    rw [e1, e4, hfj, R out c f'.pos]
    exact ⟨rfl, rfl⟩


set_option maxRecDepth 1000000 in
/-- C30 at a concrete input, block size 24: the file "a" (inode 1) holds 504 bytes, the
file "b" (inode 0) is empty and handle 0 stands on it.  A write of 30 bytes through
handle 0 leaves the record of inode 1 as it is, and a read of 40 bytes of "a" from
position 3 returns the same 40 bytes as before. -/
theorem C30_file_isolation_witness :
    (scenario_pair_written.read_inode 1).size = 504
      ∧ (scenario_pair_written.write 0 pattern_buffer 30).1 = 30
      ∧ (scenario_pair_written.write 0 pattern_buffer 30).2.read_inode 1
          = scenario_pair_written.read_inode 1
      ∧ (scenario_pair_written.write 0 pattern_buffer 30).2.read_n_bytes_from_file
            ((scenario_pair_written.write 0 pattern_buffer 30).2.read_inode 1)
            (fun _ => 0) 40 3
          = scenario_pair_written.read_n_bytes_from_file (scenario_pair_written.read_inode 1)
              (fun _ => 0) 40 3
      ∧ (scenario_pair_written.read_n_bytes_from_file (scenario_pair_written.read_inode 1)
            (fun _ => 0) 40 3).1 = 40 :=
  ⟨by decide, by decide,
    (C30_file_isolation 24 scenario_pair_written (by decide)
      scenario_pair_written_reachable 0 ⟨0, 0, 0⟩ scenario_pair_written_lookup 1
      scenario_pair_written_live (by decide) pattern_buffer
      (fun k => Nat.mod_lt k (by decide)) 30).2.2.1,
    (C30_file_isolation 24 scenario_pair_written (by decide)
      scenario_pair_written_reachable 0 ⟨0, 0, 0⟩ scenario_pair_written_lookup 1
      scenario_pair_written_live (by decide) pattern_buffer
      (fun k => Nat.mod_lt k (by decide)) 30).2.2.2.2.1 (fun _ => 0) 40 3,
    by decide⟩


end ffsys


namespace ffsys

namespace FFSys
/-! ### Unique file names -/

theorem ReachableNamed.reachable {B : Nat} {s : FFSys} (h : ReachableNamed B s) :
    Reachable B s := by
  induction h with
  | after_format hB => exact Reachable.after_format hB
  | after_open s name flags now _ hv ih =>
    exact Reachable.after_open s name flags now ih (fun c hc => (hv.2 c hc).2)
  | after_read s fd buffer count _ ih => exact Reachable.after_read s fd buffer count ih
  | after_write s fd buffer count _ hbuf ih =>
    exact Reachable.after_write s fd buffer count ih hbuf
  | after_close s fd _ ih => exact Reachable.after_close s fd ih
  | after_seek s fd pos _ ih => exact Reachable.after_seek s fd pos ih

/-- A step that keeps the inode bitmap and the name of every inode in use keeps the names
unique. -/
theorem UniqueNames.unique_of_names {s t : FFSys} {B : Nat} (h : s.UniqueNames)
    (hs : s.Layout B) (ht : t.Layout B) (hib : t.inode_bitmap_ = s.inode_bitmap_)
    (hn : ∀ j, s.live j → (t.read_inode j).name = (s.read_inode j).name) : t.UniqueNames := by
  intro i j hi hj e
  have hi2 := (hs.live_congr ht hib i).mp hi
  have hj2 := (hs.live_congr ht hib j).mp hj
  apply h i j hi2 hj2
  unfold INode.cname at e ⊢
  rw [hn i hi2, hn j hj2] at e
  exact e

/-- What `open_file` on the inode of slot `j` keeps: the invariant, the inode bitmap and
every name. -/
theorem open_file_names {s : FFSys} {B : Nat} (h : s.Inv B) (j : Nat) (hj : s.live j)
    (flags : Nat) :
    (s.open_file (s.read_inode j) flags).2.Inv B
      ∧ (s.open_file (s.read_inode j) flags).2.inode_bitmap_ = s.inode_bitmap_
      ∧ ∀ i, s.live i →
          ((s.open_file (s.read_inode j) flags).2.read_inode i).name = (s.read_inode i).name := by
  have hs := h.basic.layout
  have hidx := h.index j hj
  refine ⟨h.open_file j hj hidx flags, ?_⟩
  unfold FFSys.open_file
  simp only
  by_cases ht : flags &&& TRUNCATE ≠ 0
  · rw [if_pos ht]
    have hx := InvX.of_inv h j hj
    have hwf := hx.wf
    have hwf0 : ({ s.read_inode j with size := 0 } : INode).WF :=
      ⟨hwf.index_lt, hwf.name_len, hwf.name_lt, by show (0 : Nat) < _; omega,
        hwf.blocks_len, hwf.blocks_range, hwf.created_lt⟩
    have hx0 : s.InvX B { s.read_inode j with size := 0 } := hx.of_fields rfl rfl hwf0
    obtain ⟨_, m, _, _⟩ := hx0.free_unused_file_blocks
    obtain ⟨_, _, _, h4, h5, h6⟩ := truncate_facts h j hj
    generalize s.free_unused_file_blocks { s.read_inode j with size := 0 } = p at *
    refine ⟨h6, fun i hi => ?_⟩
    show (p.2.read_inode i).name = _
    by_cases e : i = j
    · rw [e, h4, m.2.1]
    · rw [h5 i (hs.live_lt hi) e]
  · rw [if_neg ht]
    exact ⟨rfl, fun _ _ => rfl⟩

theorem UniqueNames.unique_open_file {s : FFSys} {B : Nat} (h : s.Inv B) (hu : s.UniqueNames)
    (j : Nat) (hj : s.live j) (flags : Nat) :
    (s.open_file (s.read_inode j) flags).2.UniqueNames := by
  obtain ⟨h1, h2, h3⟩ := open_file_names h j hj flags
  exact hu.unique_of_names h.basic.layout h1.basic.layout h2 h3

theorem cname_stored_name (x : INode) (name : List Nat) (hv : valid_name name)
    (hx : x.name = stored_name name) : x.cname = name := by
  unfold INode.cname
  rw [hx]
  exact stored_name_cname name hv.1 (fun c hc => (hv.2 c hc).1)

/-- A create of a valid name that no inode in use carries keeps the names unique. -/
theorem UniqueNames.unique_create_file {s : FFSys} {B : Nat} (h : s.Inv B) (hu : s.UniqueNames)
    (name : List Nat) (hv : valid_name name) (hnone : s.find_file name = none) (now : Nat) :
    (s.create_file name now).2.UniqueNames := by
  have hs := h.basic.layout
  have hd := h.create_file name (fun c hc => (hv.2 c hc).2) now
  have hnm := find_file_none h.basic name hnone
  generalize s.create_file name now = r at hd ⊢
  obtain ⟨o, t⟩ := r
  have ht := hd.inv.basic.layout
  rcases hd.outcome with ⟨_, e2, e3⟩ | ⟨a, file, _, _, _, _, _, e2, _, e4, e5, e6⟩
  · simp only at e2 e3
    exact hu.unique_of_names hs ht e2 (fun j hj => by
      show (t.read_inode j).name = _
      rw [e3 j (hs.live_lt hj)])
  · simp only at e4 e5 e6
    have hold : ∀ i, t.live i → i ≠ a → s.live i ∧ t.read_inode i = s.read_inode i := by
      intro i hi e
      rw [ht.live_iff] at hi
      have his : s.live i := by
        rw [hs.live_iff]
        refine ⟨hi.1, ?_⟩
        have := hi.2
        rw [e5 i] at this
        simpa [e] using this
      exact ⟨his, e6 i hi.1 e⟩
    have hnew : (t.read_inode a).cname = name := by
      rw [e4]
      exact cname_stored_name file name hv e2
    intro i j hi hj e
    have e : (t.read_inode i).cname = (t.read_inode j).cname := e
    by_cases hia : i = a
    · by_cases hja : j = a
      · rw [hia, hja]
      · obtain ⟨l, r⟩ := hold j hj hja
        rw [hia, hnew, r] at e
        exact absurd e.symm (hnm j (hs.live_lt l) ((hs.live_iff j).mp l).2)
    · obtain ⟨l, r⟩ := hold i hi hia
      by_cases hja : j = a
      · rw [hja, hnew, r] at e
        exact absurd e (hnm i (hs.live_lt l) ((hs.live_iff i).mp l).2)
      · obtain ⟨l2, r2⟩ := hold j hj hja
        rw [r, r2] at e
        exact hu i j l l2 e

theorem UniqueNames.unique_open {s : FFSys} {B : Nat} (h : s.Inv B) (hu : s.UniqueNames)
    (name : List Nat) (hv : valid_name name) (flags now : Nat) :
    (s.open name flags now).2.UniqueNames := by
  have hs := h.basic.layout
  unfold FFSys.open
  cases hf : s.find_file name with
  | some file =>
    obtain ⟨j, hj, e1, _, _⟩ := find_file_some h name file hf
    simp only
    rw [e1]
    exact UniqueNames.unique_open_file h hu j hj flags
  | none =>
    simp only
    split_ifs with hc
    · exact hu.unique_of_names hs (hs.of_sb rfl) rfl (fun _ _ => rfl)
    · have h1 := UniqueNames.unique_create_file h hu name hv hf now
      have hd := h.create_file name (fun c hc => (hv.2 c hc).2) now
      generalize s.create_file name now = r at h1 hd
      obtain ⟨o, s1⟩ := r
      cases o with
      | none => exact h1
      | some file =>
        simp only
        rcases hd.outcome with ⟨e, _⟩ | ⟨a, file2, ha, _, _, e1, e2, _, _, e4, e5, _⟩
        · exact absurd e (by simp)
        · simp only at e1 e4 e5 h1
          have : file = file2 := by simpa using e1
          subst this
          have hl : s1.live a := by
            rw [hd.inv.basic.layout.live_iff]
            have := h.basic.layout.hB
            refine ⟨by omega, ?_⟩
            rw [e5 a]; simp
          rw [← e4]
          exact UniqueNames.unique_open_file hd.inv h1 a hl flags

theorem UniqueNames.unique_write_n_bytes {s : FFSys} {B : Nat} (h : s.Inv B)
    (hu : s.UniqueNames) (i : Nat) (hi : s.live i) (buffer : Mem) (hbuf : ∀ k, buffer k < 256)
    (count pos : Nat) (hpos : pos < 4294967296) :
    (s.write_n_bytes_to_file (s.read_inode i) buffer count pos).2.2.UniqueNames := by
  have hs := h.basic.layout
  have hidx := h.index i hi
  have D := write_n_bytes_done buffer hbuf (InvX.of_inv h i hi) count pos hpos
  generalize s.write_n_bytes_to_file (s.read_inode i) buffer count pos = res at D ⊢
  apply hu.unique_of_names hs D.inv.basic.layout D.ibm
  intro j hj
  by_cases e : j = i
  · have := D.stored
    rw [hidx] at this
    rw [e, this, D.name_eq]
  · rw [D.others j (hs.live_lt hj) (by rw [hidx]; exact e)]

/-- In a state that a client reaches with names that fit the name field, no two inodes in
use carry the same name. -/
theorem ReachableNamed.unique_names {B : Nat} {s : FFSys} (h : ReachableNamed B s)
    (hB8 : 8 * B < 65536) : s.UniqueNames := by
  induction h with
  | after_format hB =>
    have hi := formatted_inv B hB hB8
    have hibm : (formatted B).inode_bitmap_ = Bitmap.init B := by
      rw [formatted_eq B hB hB8]
    intro i j hj
    rw [hi.basic.layout.live_iff, hibm, Bitmap.is_free_init] at hj
    have h2 := hj.2
    simp only [decide_eq_false_iff_not] at h2
    exact absurd hj.1 h2
  | after_open s name flags now hr hv ih =>
    exact UniqueNames.unique_open (hr.reachable.inv hB8) ih name hv flags now
  | after_read s fd buffer count hr ih =>
    have hs := (hr.reachable.inv hB8).basic.layout
    unfold FFSys.read
    cases s.lookup fd with
    | none => exact ih.unique_of_names hs (hs.of_sb rfl) rfl (fun _ _ => rfl)
    | some f => exact ih.unique_of_names hs (hs.of_sb rfl) rfl (fun _ _ => rfl)
  | after_write s fd buffer count hr hbuf ih =>
    have hs := (hr.reachable.inv hB8).basic.layout
    unfold FFSys.write
    cases hl : s.lookup fd with
    | none => exact ih.unique_of_names hs (hs.of_sb rfl) rfl (fun _ _ => rfl)
    | some f =>
      obtain ⟨hf, _⟩ := lookup_mem hl
      have hi := hr.reachable.inv hB8
      have hw := UniqueNames.unique_write_n_bytes hi ih f.inode (hi.handles f hf) buffer hbuf
        count f.pos (hi.pos_lt f hf)
      have D := write_n_bytes_done buffer hbuf (InvX.of_inv hi f.inode (hi.handles f hf)) count
        f.pos (hi.pos_lt f hf)
      exact hw.unique_of_names D.inv.basic.layout (D.inv.basic.layout.of_sb rfl) rfl
        (fun _ _ => rfl)
  | after_close s fd hr ih =>
    have hs := (hr.reachable.inv hB8).basic.layout
    unfold FFSys.close
    cases s.lookup fd with
    | none => exact ih.unique_of_names hs (hs.of_sb rfl) rfl (fun _ _ => rfl)
    | some f => exact ih.unique_of_names hs (hs.of_sb rfl) rfl (fun _ _ => rfl)
  | after_seek s fd pos hr ih =>
    have hs := (hr.reachable.inv hB8).basic.layout
    unfold FFSys.seek
    cases s.lookup fd with
    | none => exact ih.unique_of_names hs (hs.of_sb rfl) rfl (fun _ _ => rfl)
    | some f =>
      simp only
      split_ifs <;> exact ih.unique_of_names hs (hs.of_sb rfl) rfl (fun _ _ => rfl)

/-- When `open` puts a slot in use that was free, no inode in use carried the name, and
for a name that fits the name field the new inode carries it. -/
theorem open_new_inode {s : FFSys} {B : Nat} (h : s.Inv B) (name : List Nat)
    (hname : ∀ c, c ∈ name → c < 256) (flags now : Nat) (a : Nat)
    (hfree : s.inode_bitmap_.is_free a = true) (hl : (s.open name flags now).2.live a) :
    s.find_file name = none ∧ flags &&& CREATE ≠ 0
      ∧ (∀ j, s.live j → (s.read_inode j).cname ≠ name)
      ∧ ((s.open name flags now).2.read_inode a).name = stored_name name := by
  have hs := h.basic.layout
  have hno : ∀ t : FFSys, t.Layout B → t.inode_bitmap_ = s.inode_bitmap_ → ¬ t.live a := by
    intro t ht e hl
    rw [ht.live_iff, e, hfree] at hl
    exact absurd hl.2 (by simp)
  unfold FFSys.open at hl ⊢
  cases hf : s.find_file name with
  | some file =>
    exfalso
    obtain ⟨j, hj, e1, _, _⟩ := find_file_some h name file hf
    rw [hf] at hl
    simp only at hl
    rw [e1] at hl
    obtain ⟨h1, h2, _⟩ := open_file_names h j hj flags
    exact hno _ h1.basic.layout h2 hl
  | none =>
    rw [hf] at hl
    simp only at hl ⊢
    have hnm := find_file_none h.basic name hf
    by_cases hc : flags &&& CREATE = 0
    · exfalso
      rw [if_pos hc] at hl
      exact hno _ (hs.of_sb rfl) rfl hl
    · rw [if_neg hc] at hl ⊢
      refine ⟨trivial, hc, fun j hj => hnm j (hs.live_lt hj) ((hs.live_iff j).mp hj).2, ?_⟩
      have hd := h.create_file name hname now
      generalize s.create_file name now = r at hd hl ⊢
      obtain ⟨o, s1⟩ := r
      rcases hd.outcome with ⟨e, e2, _⟩ | ⟨a', file2, ha, _, _, e1, e2, e3, _, e4, e5, _⟩
      · exfalso
        simp only at e e2
        subst e
        exact hno _ hd.inv.basic.layout e2 hl
      · simp only at e1 e4 e5
        subst e1
        simp only at hl ⊢
        have hl1 : s1.live a' := by
          rw [hd.inv.basic.layout.live_iff]
          have := hs.hB
          refine ⟨by omega, ?_⟩
          rw [e5 a']; simp
        rw [← e4] at hl ⊢
        obtain ⟨g1, g2, g3⟩ := open_file_names hd.inv a' hl1 flags
        have haa : a = a' := by
          by_contra hne
          rw [g1.basic.layout.live_iff, g2, e5 a, hfree] at hl
          have := hl.2
          simp [hne] at this
        rw [haa, g3 a' hl1, e4, e3]

end FFSys
end ffsys


namespace ffsys

/-! ## Last claims: the count of a read, and unique file names -/

theorem scenario_pair_named : FFSys.ReachableNamed 24 scenario_pair :=
  FFSys.ReachableNamed.after_open _ name_a CREATE 0
    (FFSys.ReachableNamed.after_open _ name_b CREATE 0
      (FFSys.ReachableNamed.after_format (by decide)) ⟨by decide, by decide⟩)
    ⟨by decide, by decide⟩

set_option maxRecDepth 1000000 in
/-- C31 (evaluation at block size 24): handle 0 has written 30 bytes to "a" and stands at
position 30; `open("a", TRUNCATE)` through a second handle sets the size to 0 and leaves
logical block 0 (data block 0) as the only mapped block.  The state is reachable by public
calls.  A read of 1 byte through handle 0 returns 18, and so does a read of 0 bytes; it
stores 18 bytes into a buffer that held 7s, and these are the bytes at offsets 6..23 of
host block 962, the last block of the inode table, not bytes of data block 0 (which holds
the pattern 0..23). -/
theorem C31_stale_handle_read_exceeds_count :
    FFSys.Reachable 24 scenario_truncated
      ∧ (scenario_truncated.lookup 0).map (fun f => (f.inode, f.pos)) = some (0, 30)
      ∧ (scenario_truncated.read_inode 0).size = 0
      ∧ scenario_truncated.get_file_block_address (scenario_truncated.read_inode 0) 0 = 0
      ∧ (List.range 44).map (fun L =>
            scenario_truncated.get_file_block_address (scenario_truncated.read_inode 0) (L + 1))
          = List.replicate 44 (-1)
      ∧ (scenario_truncated.read 0 (fun _ => 7) 1).1 = 18
      ∧ (scenario_truncated.read 0 (fun _ => 7) 0).1 = 18
      ∧ (List.range 20).map (scenario_truncated.read 0 (fun _ => 7) 1).2.1
          = [0, 0, 0, 0, 0, 0, 0, 0, 0, 0, 0, 0, 0, 0, 0, 0, 0, 0, 7, 7]
      ∧ (List.range 18).map (scenario_truncated.read 0 (fun _ => 7) 1).2.1
          = (List.range 18).map (fun k => scenario_truncated.fs_ (962 * 24 + 6 + k))
      ∧ (List.range 24).map (fun o => scenario_truncated.data_block_byte 0 o)
          = List.range 24 :=
  ⟨FFSys.Reachable.after_open _ name_a TRUNCATE 0 scenario_written_reachable (by decide),
    by decide⟩

set_option maxRecDepth 1000000 in
/-- C32 (counterexample at block size 24): for the name of 17 characters `a`,
`open(name, CREATE)` returns handle 0 on inode 0, whose stored name is the first 16
characters; a second `open(name, CREATE)` finds no file, returns handle 1 and reserves
inode 1, free until then, with the same stored name.  The state is reachable by public
calls, inodes 0 and 1 are in use, and they store the same 17 bytes. -/
theorem C32_long_name_creates_two_inodes :
    FFSys.Reachable 24 scenario_long_twice
      ∧ ((FFSys.formatted 24).open name_long CREATE 0).1 = 0
      ∧ scenario_long.inode_bitmap_.is_free 0 = false
      ∧ scenario_long.inode_bitmap_.is_free 1 = true
      ∧ (scenario_long.read_inode 0).name = FFSys.stored_name name_long
      ∧ scenario_long.find_file name_long = none
      ∧ (scenario_long.open name_long CREATE 0).1 = 1
      ∧ scenario_long_twice.sb_.n_inodes = 192
      ∧ scenario_long_twice.inode_bitmap_.is_free 0 = false
      ∧ scenario_long_twice.inode_bitmap_.is_free 1 = false
      ∧ (scenario_long_twice.read_inode 0).name = List.replicate 16 97 ++ [0]
      ∧ (scenario_long_twice.read_inode 1).name = List.replicate 16 97 ++ [0]
      ∧ (scenario_long_twice.read_inode 0).cname = (scenario_long_twice.read_inode 1).cname :=
  ⟨FFSys.Reachable.after_open _ name_long CREATE 0
      (FFSys.Reachable.after_open _ name_long CREATE 0
        (FFSys.Reachable.after_format (by decide)) (by decide))
      (by decide),
    by decide⟩

/-- C32 (amended to `963 + 8 * B < 65536` and to clients whose file names have at most 16
characters, none of them NUL): in every state such a client reaches from a format by public
calls, no two inodes in use store the same name, neither as the C string that `find_file`
compares nor as the 17 stored bytes; and when `open(name, flags)` puts an inode slot in use
that was free, then `CREATE` is among the flags, no inode in use stored the name, and the
new inode stores it. -/
theorem C32_unique_names (B : Nat) (s : FFSys) (hbound : 963 + 8 * B < 65536)
    (hr : FFSys.ReachableNamed B s) :
    (∀ i j, s.live i → s.live j → (s.read_inode i).cname = (s.read_inode j).cname → i = j)
      ∧ (∀ i j, s.live i → s.live j → (s.read_inode i).name = (s.read_inode j).name → i = j)
      ∧ ∀ (name : List Nat) (flags now a : Nat), FFSys.valid_name name →
          s.inode_bitmap_.is_free a = true → (s.open name flags now).2.live a →
          flags &&& CREATE ≠ 0
            ∧ (∀ j, s.live j → (s.read_inode j).cname ≠ name)
            ∧ ((s.open name flags now).2.read_inode a).cname = name := by
  have hu := hr.unique_names (by omega)
  have h := hr.reachable.inv (by omega)
  refine ⟨hu, fun i j hi hj e => hu i j hi hj (by unfold INode.cname; rw [e]), ?_⟩
  intro name flags now a hv hfree hl
  obtain ⟨_, g2, g3, g4⟩ :=
    FFSys.open_new_inode h name (fun c hc => (hv.2 c hc).2) flags now a hfree hl
  exact ⟨g2, g3, FFSys.cname_stored_name _ name hv g4⟩

set_option maxRecDepth 1000000 in
/-- C32 at a concrete input, block size 24: after `open("b", CREATE)` and
`open("a", CREATE)` the inodes 0 and 1 are in use with the names "b" and "a", and inode
slot 2 is free; `open("c", CREATE)` puts slot 2 in use, so no inode in use stored "c", and
the new inode stores it. -/
theorem C32_unique_names_witness :
    FFSys.ReachableNamed 24 scenario_pair
      ∧ scenario_pair.inode_bitmap_.is_free 0 = false
      ∧ scenario_pair.inode_bitmap_.is_free 1 = false
      ∧ (scenario_pair.read_inode 0).cname = [98]
      ∧ (scenario_pair.read_inode 1).cname = [97]
      ∧ scenario_pair.inode_bitmap_.is_free 2 = true
      ∧ (CREATE &&& CREATE ≠ 0
          ∧ (∀ j, scenario_pair.live j → (scenario_pair.read_inode j).cname ≠ [99])
          ∧ ((scenario_pair.open [99] CREATE 0).2.read_inode 2).cname = [99]) :=
  ⟨scenario_pair_named, by decide, by decide, by decide, by decide, by decide,
    (C32_unique_names 24 scenario_pair (by decide) scenario_pair_named).2.2 [99] CREATE 0 2
      ⟨by decide, by decide⟩ (by decide) (by unfold FFSys.live; decide)⟩

end ffsys
